import Mathlib

/-!
# ecslog: key ordering and hierarchical resolution

A shallow embedding of the attribute ordering (`fields.go`), the hierarchical
resolver and value encoder (`json.go`) and the string escaper
(`internal/sjson/string.go`).  Go strings and byte slices are lists of bytes,
each byte a natural number below 256.
-/

namespace Ecslog

/-- Bytes of an ASCII string literal. -/
def ascii (s : String) : List Nat := s.toList.map Char.toNat

/-! ## fields.go -/

/-- The constant `groupSeparator`, the byte of `.`. -/
def groupSeparator : Nat := 46

/-- The `for` loop of `isEarlierKey` at index `i` with `n` iterations left before
`minLen`, followed by the final `return len(b) - len(a)`. -/
def isEarlierKeyLoop (a b : List Nat) : Nat → Nat → Int
  | 0, _ => (b.length : Int) - (a.length : Int)
  | n + 1, i =>
    if a.getD i 0 = b.getD i 0 then isEarlierKeyLoop a b n (i + 1)
    else if a.getD i 0 = groupSeparator then 1
    else if b.getD i 0 = groupSeparator then -1
    else if a.getD i 0 < b.getD i 0 then 1
    else -1

/-- The function `isEarlierKey` of `fields.go`. -/
def isEarlierKey (a b : List Nat) : Int :=
  isEarlierKeyLoop a b (if b.length < a.length then b.length else a.length) 0

/-- The function `isIgnoredKey` of `fields.go`. -/
def isIgnoredKey (key : List Nat) : Bool :=
  key == ascii "@timestamp" || key == ascii "message"

/-- Inner loop of the insertion sort: `x` travels left over the already sorted
elements (given last-first) while `cmp x y < 0`. -/
def insertBack {α : Type} (cmp : α → α → Int) (x : α) : List α → List α
  | [] => [x]
  | y :: ys => if cmp x y < 0 then y :: insertBack cmp x ys else x :: y :: ys

/-- The call `slices.SortStableFunc(l, cmp)`.  The library sorts blocks of up to 20
elements by this insertion sort and merges the blocks stably; for a comparison
that is a total preorder the result of a stable sort does not depend on the
algorithm, so the insertion sort stands for the whole call. -/
def sortStableFunc {α : Type} (cmp : α → α → Int) (l : List α) : List α :=
  (l.foldl (fun acc x => insertBack cmp x acc) []).reverse

/-- Structural form of the comparison, used to reason about `isEarlierKey`. -/
def keyCmp : List Nat → List Nat → Int
  | [], b => (b.length : Int)
  | a :: as, [] => -((a :: as).length : Int)
  | x :: as, y :: bs =>
    if x = y then keyCmp as bs
    else if x = groupSeparator then 1
    else if y = groupSeparator then -1
    else if x < y then 1
    else -1

/-! ## internal/sjson/string.go -/

/-- The table `safeSet`: every byte from 0x20 to 0x7F except the double quote and
the backslash is copied verbatim. -/
def safeSet (b : Nat) : Bool :=
  decide (32 ≤ b) && decide (b < 128) && !(b == 34) && !(b == 92)

/-- The constant `hex`, indexed by a nibble. -/
def hex (n : Nat) : Nat := (ascii "0123456789abcdef").getD n 0

/-- The constant `utf8.RuneError`, U+FFFD. -/
def runeError : Nat := 65533

/-- The table `first` of package `unicode/utf8`, restricted to the lead bytes of
multi-byte sequences: the sequence length and the accepted range of the second
byte; `none` is the entry `xx` of an invalid lead byte. -/
def utf8First (b : Nat) : Option (Nat × Nat × Nat) :=
  if 194 ≤ b ∧ b ≤ 223 then some (2, 128, 191)
  else if b = 224 then some (3, 160, 191)
  else if 225 ≤ b ∧ b ≤ 236 then some (3, 128, 191)
  else if b = 237 then some (3, 128, 159)
  else if 238 ≤ b ∧ b ≤ 239 then some (3, 128, 191)
  else if b = 240 then some (4, 144, 191)
  else if 241 ≤ b ∧ b ≤ 243 then some (4, 128, 191)
  else if b = 244 then some (4, 128, 143)
  else none

/-- The library function `utf8.DecodeRuneInString`: the first rune of `s` and its
width in bytes; `(runeError, 1)` for an invalid or truncated sequence and
`(runeError, 0)` for the empty string. -/
def decodeRuneInString (s : List Nat) : Nat × Nat :=
  match s with
  | [] => (runeError, 0)
  | s0 :: rest =>
    if s0 < 128 then (s0, 1)
    else
      match utf8First s0 with
      | none => (runeError, 1)
      | some (sz, lo, hi) =>
        if s.length < sz then (runeError, 1)
        else
          let s1 := rest.getD 0 0
          if s1 < lo ∨ hi < s1 then (runeError, 1)
          else if sz ≤ 2 then ((s0 % 32) * 64 + s1 % 64, 2)
          else
            let s2 := rest.getD 1 0
            if s2 < 128 ∨ 191 < s2 then (runeError, 1)
            else if sz ≤ 3 then ((s0 % 16) * 4096 + (s1 % 64) * 64 + s2 % 64, 3)
            else
              let s3 := rest.getD 2 0
              if s3 < 128 ∨ 191 < s3 then (runeError, 1)
              else ((s0 % 8) * 262144 + (s1 % 64) * 4096 + (s2 % 64) * 64 + s3 % 64, 4)

/-- The slice expression `src[lo:hi]` for `lo ≤ hi ≤ len(src)`. -/
def slice (src : List Nat) (lo hi : Nat) : List Nat := (src.take hi).drop lo

/-- The escape emitted for a byte below `utf8.RuneSelf` that is not in `safeSet`
(the `switch b` of `AppendStringContent`). -/
def escapeByte (b : Nat) : List Nat :=
  if b = 92 ∨ b = 34 then [92, b]
  else if b = 8 then [92, 98]
  else if b = 12 then [92, 102]
  else if b = 10 then [92, 110]
  else if b = 13 then [92, 114]
  else if b = 9 then [92, 116]
  else [92, 117, 48, 48, hex (b / 16), hex (b % 16)]

/-- The loop of `AppendStringContent` from the state `(dst, start, i)`, followed by
the final `append(dst, src[start:]...)`.  The first argument bounds the number
of iterations; `len(src)` always suffices since every iteration advances `i`. -/
def appendStringContentLoop : Nat → List Nat → List Nat → Nat → Nat → List Nat
  | 0, dst, src, start, _ => dst ++ src.drop start
  | n + 1, dst, src, start, i =>
    if i < src.length then
      let b := src.getD i 0
      if b < 128 then
        if safeSet b then appendStringContentLoop n dst src start (i + 1)
        else
          appendStringContentLoop n (dst ++ slice src start i ++ escapeByte b) src (i + 1) (i + 1)
      else
        let m := min (src.length - i) 4
        let (c, size) := decodeRuneInString (slice src i (i + m))
        if c = runeError ∧ size = 1 then
          appendStringContentLoop n (dst ++ slice src start i ++ ascii "\\ufffd") src
            (i + size) (i + size)
        else if c = 8232 ∨ c = 8233 then
          appendStringContentLoop n
            (dst ++ slice src start i ++ [92, 117, 50, 48, 50, hex (c % 16)]) src
            (i + size) (i + size)
        else appendStringContentLoop n dst src start (i + size)
    else dst ++ src.drop start

/-- The function `AppendStringContent` of package `sjson`. -/
def AppendStringContent (dst src : List Nat) : List Nat :=
  appendStringContentLoop src.length dst src 0 0

/-! ## json.go: values -/

/-- A `time.Time`, as far as the encoder looks at it: whether it is the zero time and
its `RFC3339Nano` rendering. -/
structure Time where
  isZero : Bool
  rfc3339Nano : List Nat

/-- What `(*json.Encoder).Encode` does with a value: it writes the JSON text
followed by a newline, or writes nothing and returns an error with a message. -/
inductive EncodeResult where
  | ok (text : List Nat)
  | err (msg : List Nat)

mutual
/-- A `slog.Value`.  A float and a value of kind `Any` are represented by what
generic JSON serialization does with them; `preformatted` is a value of kind
`Any` that holds a `preformattedValue`; `logValuer v` is a `LogValuer` whose
`LogValue` method returns `v`; `zero` is the zero `slog.Value`, of kind `Any`
and holding nil. -/
inductive Value where
  | zero
  | bool (b : Bool)
  | time (t : Time)
  | uint64 (n : Nat)
  | int64 (n : Int)
  | string (s : List Nat)
  | duration (nanoseconds : Int)
  | float64 (f : EncodeResult)
  | any (v : EncodeResult)
  | preformatted (value : List Nat)
  | group (attrs : List Attr)
  | logValuer (v : Value)
/-- A `slog.Attr`. -/
inductive Attr where
  | mk (key : List Nat) (value : Value)
end

/-- The field `Key` of an attribute. -/
def Attr.Key : Attr → List Nat
  | .mk k _ => k

/-- The field `Value` of an attribute. -/
def Attr.Value : Attr → Value
  | .mk _ v => v

/-- The function `isEarlierAttr` of `fields.go`. -/
def isEarlierAttr (a b : Attr) : Int := isEarlierKey a.Key b.Key

/-- The loop of `slog.Value.Resolve` with `n` iterations left: an iteration returns a
value that is not a `LogValuer` and otherwise calls `LogValue`; after the last
iteration the result is an error value, whatever the last call returned, which
generic serialization renders as an empty object. -/
def resolveValue : Nat → Value → Value
  | 0, _ => .any (.ok (ascii "{}"))
  | n + 1, .logValuer v => resolveValue n v
  | _ + 1, v => v

/-- The constant `maxLogValues` of package `slog`. -/
def maxLogValues : Nat := 100

/-- How a run of the encoder can fail: a run-time panic of the Go code (an index or
slice out of range), or the recursion bound of the model being too small. -/
inductive Fault where
  | panic
  | fuel
  deriving DecidableEq, Repr

instance : DecidableEq (Except Fault (List Nat))
  | .ok a, .ok b => if h : a = b then isTrue (by rw [h]) else isFalse (fun e => h (by cases e; rfl))
  | .error a, .error b =>
    if h : a = b then isTrue (by rw [h]) else isFalse (fun e => h (by cases e; rfl))
  | .ok _, .error _ => isFalse (fun e => by cases e)
  | .error _, .ok _ => isFalse (fun e => by cases e)

/-- The function `appendJsonString` of `json.go`. -/
def appendJsonString (output value : List Nat) : List Nat :=
  AppendStringContent (output ++ [34]) value ++ [34]

/-- The function `appendKey` of `json.go`. -/
def appendKey (output : List Nat) (hasValue : Bool) (key : List Nat) : List Nat :=
  appendJsonString (if hasValue then output ++ [44] else output) key ++ [58]

/-- The function `appendTime` of `json.go`. -/
def appendTime (output : List Nat) (t0 : Time) : List Nat :=
  output ++ [34] ++ t0.rfc3339Nano ++ [34]

/-- The library function `strconv.AppendUint` in base 10. -/
def appendUint (output : List Nat) (n : Nat) : List Nat :=
  output ++ (Nat.toDigits 10 n).map Char.toNat

/-- The library function `strconv.AppendInt` in base 10. -/
def appendInt (output : List Nat) (n : Int) : List Nat :=
  if n < 0 then appendUint (output ++ [45]) n.natAbs else appendUint output n.natAbs

/-- The function `appendMarshal` of `json.go`.  `buffer` is `writer.buffer` after
`enc.Encode(v)`; on an error the diagnostic string is appended to the local
`output`, and the function returns `writer.buffer` without its last byte. -/
def appendMarshal (output : List Nat) (v : EncodeResult) : Except Fault (List Nat) :=
  let buffer : List Nat :=
    match v with
    | .ok text => output ++ text ++ [10]
    | .err _ => output
  let _output : List Nat :=
    match v with
    | .ok _ => output
    | .err msg => appendJsonString output (ascii "ERR!" ++ msg)
  if 1 ≤ buffer.length then .ok (buffer.take (buffer.length - 1)) else .error .panic

/-! ## json.go: the resolver -/

/-- The call `strings.IndexRune(key, groupSeparator)`: the index of the first
separator byte, `none` for `-1`. -/
def indexSeparator : List Nat → Option Nat
  | [] => none
  | c :: cs => if c = groupSeparator then some 0 else (indexSeparator cs).map (· + 1)

/-- The type of (the model of) `resolveGroupContent`. -/
abbrev ContentFn := List Nat → Bool → Nat → List Attr → Except Fault (List Nat)

/-- The body shared by `resolveGroup` and `resolveGroupPtr`, over the given model of
`resolveGroupContent`. -/
def resolveGroupWith (content : ContentFn) (output : List Nat) (prefixLen : Nat)
    (attributes : List Attr) : Except Fault (List Nat) := do
  let output ← content (output ++ [123]) false prefixLen attributes
  .ok (output ++ [125])

/-- The body of `appendJsonValue`, over the given model of `resolveGroupContent`.
The `default` branch of the source is not reachable from a `Value`. -/
def appendJsonValueWith (content : ContentFn) (output : List Nat) (value : Value) :
    Except Fault (List Nat) :=
  let value := match value with
    | .logValuer v => resolveValue maxLogValues (.logValuer v)
    | v => v
  match value with
  | .group attrs => resolveGroupWith content output 0 attrs
  | .bool b => .ok (output ++ (if b then ascii "true" else ascii "false"))
  | .time t => .ok (appendTime output t)
  | .uint64 n => .ok (appendUint output n)
  | .int64 n => .ok (appendInt output n)
  | .string s => .ok (appendJsonString output s)
  | .duration ns => .ok (appendInt output ns)
  | .float64 f => appendMarshal output f
  | .preformatted bytes => .ok (output ++ bytes)
  | .any v => appendMarshal output v
  | .zero => appendMarshal output (.ok (ascii "null"))
  | .logValuer _ => .ok (appendJsonString output (ascii "ERR! invalid value"))

/-- The body of `appendJsonKV`. -/
def appendJsonKVWith (content : ContentFn) (output : List Nat) (hasValue : Bool)
    (key : List Nat) (value : Value) : Except Fault (List Nat) :=
  appendJsonValueWith content (appendKey output hasValue key) value

/-- The local variables of `resolveGroupContent` that live across iterations. -/
structure LoopState where
  output : List Nat
  hasValue : Bool
  currentGroup : List Nat
  currentGroupFields : List Attr

/-- One iteration, at index `i`, of the loop of `resolveGroupContent`. -/
def resolveIter (content : ContentFn) (prefixLen : Nat) (attributes : List Attr)
    (st : LoopState) (i : Nat) : Except Fault LoopState :=
  match attributes.get? i with
  | none => .error .panic
  | some attr =>
    if attr.Key.length < prefixLen then .error .panic
    else
      let key := attr.Key.drop prefixLen
      match indexSeparator key with
      | some groupSeparatorIndex =>
        if st.currentGroup = [] ∨ st.currentGroup = key.take groupSeparatorIndex then
          if st.currentGroupFields.length ≤ i then
            .ok { st with
              currentGroup := key.take groupSeparatorIndex
              currentGroupFields :=
                (attributes.take (i + 1)).drop (i - st.currentGroupFields.length) }
          else .error .panic
        else do
          let output := appendKey st.output st.hasValue st.currentGroup
          let output ← resolveGroupWith content output
            (prefixLen + st.currentGroup.length + 1) st.currentGroupFields
          .ok { output := output, hasValue := true
                currentGroup := key.take groupSeparatorIndex
                currentGroupFields := (attributes.take (i + 1)).drop i }
      | none =>
        if st.currentGroup = key then do
          let output ← appendJsonKVWith content st.output st.hasValue key attr.Value
          .ok { output := output, hasValue := true, currentGroup := [], currentGroupFields := [] }
        else if i + 1 < attributes.length ∧
            (attributes.get? (i + 1)).map Attr.Key = some attr.Key then
          .ok st
        else do
          let output ← appendJsonKVWith content st.output st.hasValue key attr.Value
          .ok { st with output := output, hasValue := true }

/-- The loop `for i := range attributes` of `resolveGroupContent`, with `n`
iterations left before index `len(attributes)`. -/
def resolveLoop (content : ContentFn) (prefixLen : Nat) (attributes : List Attr) :
    Nat → Nat → LoopState → Except Fault LoopState
  | 0, _, st => .ok st
  | n + 1, i, st => do
    let st ← resolveIter content prefixLen attributes st i
    resolveLoop content prefixLen attributes n (i + 1) st

/-- The end of `resolveGroupContent`, after the loop: an unfinished group is
flushed. -/
def resolveFinish (content : ContentFn) (prefixLen : Nat) (st : LoopState) :
    Except Fault (List Nat) :=
  if st.currentGroup ≠ [] then
    resolveGroupWith content (appendKey st.output st.hasValue st.currentGroup)
      (prefixLen + st.currentGroup.length + 1) st.currentGroupFields
  else .ok st.output

/-- The function `resolveGroupContent` of `json.go`.  The first argument bounds the
depth of nested calls. -/
def resolveGroupContent : Nat → ContentFn
  | 0, _, _, _, _ => .error .fuel
  | fuel + 1, output, hasValue, prefixLen, attributes => do
    let st ← resolveLoop (resolveGroupContent fuel) prefixLen attributes attributes.length 0
      { output := output, hasValue := hasValue, currentGroup := [], currentGroupFields := [] }
    resolveFinish (resolveGroupContent fuel) prefixLen st

/-- The function `resolveGroup` of `json.go`. -/
def resolveGroup (fuel : Nat) (output : List Nat) (prefixLen : Nat) (attributes : List Attr) :
    Except Fault (List Nat) :=
  resolveGroupWith (resolveGroupContent fuel) output prefixLen attributes

/-- The function `resolveGroupPtr` of `json.go`. -/
def resolveGroupPtr (fuel : Nat) (output : List Nat) (prefixLen : Nat) (attributes : List Attr) :
    Except Fault (List Nat) :=
  resolveGroupWith (resolveGroupContent fuel) output prefixLen attributes

/-- The function `appendJsonValue` of `json.go`. -/
def appendJsonValue (fuel : Nat) (output : List Nat) (value : Value) : Except Fault (List Nat) :=
  appendJsonValueWith (resolveGroupContent fuel) output value

/-- The function `appendJsonKV` of `json.go`. -/
def appendJsonKV (fuel : Nat) (output : List Nat) (hasValue : Bool) (key : List Nat)
    (value : Value) : Except Fault (List Nat) :=
  appendJsonKVWith (resolveGroupContent fuel) output hasValue key value

/-- The function `resolveRecord` of `json.go`. -/
def resolveRecord (fuel : Nat) (output : List Nat) (t0 : Time) (msg : List Nat)
    (sortedAttrs : List Attr) : Except Fault (List Nat) := do
  let output := output ++ [123]
  let (output, hasValue) :=
    if !t0.isZero then (appendTime (appendKey output false (ascii "@timestamp")) t0, true)
    else (output, false)
  let (output, hasValue) :=
    if msg ≠ [] then (appendJsonString (appendKey output hasValue (ascii "message")) msg, true)
    else (output, hasValue)
  let output ← resolveGroupContent fuel output hasValue 0 sortedAttrs
  .ok (output ++ [125])

/-! ## Dot paths -/

/-- The dot path of a key: its components between separators, so that the key is
the components joined by `.`. -/
def components : List Nat → List (List Nat)
  | [] => [[]]
  | c :: cs =>
    if c = groupSeparator then [] :: components cs
    else
      match components cs with
      | [] => [[c]]
      | h :: t => (c :: h) :: t

/-! ## The decoded output -/

mutual
/-- A JSON value of the output: a leaf holding the text of an encoded attribute
value, or an object. -/
inductive JTree where
  | leaf (text : List Nat)
  | obj (members : JMembers)
/-- The members of a JSON object, in the order they are written. -/
inductive JMembers where
  | nil
  | cons (name : List Nat) (value : JTree) (rest : JMembers)
end

/-- The text of a member name with its colon, as `appendKey` writes it. -/
def keyText (name : List Nat) : List Nat :=
  [34] ++ AppendStringContent [] name ++ [34, 58]

mutual
/-- The JSON text of a value. -/
def JTree.encode : JTree → List Nat
  | .leaf text => text
  | .obj members => [123] ++ JMembers.encode false members ++ [125]
/-- The JSON text of the members of an object, separated by commas, with a
leading comma when `hasValue` says a member precedes them. -/
def JMembers.encode : Bool → JMembers → List Nat
  | _, .nil => []
  | hasValue, .cons name value rest =>
    (if hasValue then [44] else []) ++ keyText name ++ JTree.encode value ++
      JMembers.encode true rest
end

/-- Whether an object has a member of the given name. -/
def JMembers.has : JMembers → List Nat → Bool
  | .nil, _ => false
  | .cons name _ rest, k => name == k || JMembers.has rest k

mutual
/-- The leaf found by following a path of member names from a value, as a JSON
decoder that keeps the last of several members of one name resolves it. -/
def JTree.lookup : JTree → List (List Nat) → Option (List Nat)
  | .leaf text, [] => some text
  | .leaf _, _ :: _ => none
  | .obj _, [] => none
  | .obj members, k :: path => JMembers.lookup members k path
/-- The leaf found under the last member named `k` of an object. -/
def JMembers.lookup : JMembers → List Nat → List (List Nat) → Option (List Nat)
  | .nil, _, _ => none
  | .cons name value rest, k, path =>
    if JMembers.has rest k then JMembers.lookup rest k path
    else if name = k then JTree.lookup value path
    else none
end

/-! ## The tree of a sorted run -/

/-- The first path component of a key: its bytes before the first separator. -/
def headComp (s : List Nat) : List Nat := s.takeWhile (fun c => c != groupSeparator)

/-- Whether a key contains a separator. -/
def hasSep (s : List Nat) : Bool := s.any (fun c => c == groupSeparator)

/-- A key, already stripped of the prefix of the enclosing groups, with the text of
its encoded value. -/
abbrev Entry := List Nat × List Nat

/-- The entries of the attributes of a run at prefix length `prefixLen`, the values
encoded by `txt`. -/
def entriesAt (txt : Value → List Nat) (prefixLen : Nat) (attributes : List Attr) : List Entry :=
  attributes.map (fun a => (a.Key.drop prefixLen, txt a.Value))

/-- The entries below group `g`, their keys stripped of `g` and the separator. -/
def stripGroup (g : List Nat) (fields : List Entry) : List Entry :=
  fields.map (fun e => (e.1.drop (g.length + 1), e.2))

/-- The members that the loop of `resolveGroupContent` writes from the state
`(currentGroup, currentGroupFields)` over the remaining entries, the final flush
included; `sub` gives the members of a nested group from its stripped entries. -/
def scan (sub : List Entry → JMembers) : List Nat → List Entry → List Entry → JMembers
  | currentGroup, fields, [] =>
    if currentGroup ≠ [] then
      .cons currentGroup (.obj (sub (stripGroup currentGroup fields))) .nil
    else .nil
  | currentGroup, fields, e :: rest =>
    if hasSep e.1 then
      if currentGroup = [] ∨ currentGroup = headComp e.1 then
        scan sub (headComp e.1) (fields ++ [e]) rest
      else
        .cons currentGroup (.obj (sub (stripGroup currentGroup fields)))
          (scan sub (headComp e.1) [e] rest)
    else if currentGroup = e.1 then .cons e.1 (.leaf e.2) (scan sub [] [] rest)
    else if rest.head?.map Prod.fst = some e.1 then scan sub currentGroup fields rest
    else .cons e.1 (.leaf e.2) (scan sub currentGroup fields rest)

/-- The members written for a sorted run whose keys are shorter than `n`. -/
def tree : Nat → List Entry → JMembers
  | 0, _ => .nil
  | n + 1, entries => scan (tree n) [] [] entries

/-- The text of the last entry keyed exactly `k`. -/
def flatLast (entries : List Entry) (k : List Nat) : Option (List Nat) :=
  ((entries.filter (fun e => e.1 == k)).getLast?).map Prod.snd

/-- The entries keyed `k.…`, stripped of `k` and the separator. -/
def subEntries (entries : List Entry) (k : List Nat) : List Entry :=
  stripGroup k (entries.filter (fun e => hasSep e.1 && headComp e.1 == k))

/-- The leaf that the dot-path hierarchy of a list of entries has at a path: the last
entry keyed by the path survives unless an entry is keyed by a proper prefix of
the path. -/
def specLookup : List Entry → List (List Nat) → Option (List Nat)
  | _, [] => none
  | entries, [k] => if hasSep k then none else flatLast entries k
  | entries, k :: k2 :: path =>
    if hasSep k || entries.any (fun e => e.1 == k) then none
    else specLookup (subEntries entries k) (k2 :: path)

/-- A key none of whose components before the last is empty. -/
def validKey (s : List Nat) : Prop := [] ∉ (components s).dropLast

instance (s : List Nat) : Decidable (validKey s) := by
  unfold validKey
  infer_instance

/-- The attribute keyed `key` survives in `attrs` with encoded value `t`: it is the
last attribute with this key, and no attribute is keyed by a proper dot-prefix
of `key`.  `path` is the dot path of `key`. -/
def Survives (txt : Value → List Nat) (attrs : List Attr) (path : List (List Nat))
    (t : List Nat) : Prop :=
  ∃ key : List Nat, components key = path ∧
    ((attrs.filter (fun a => a.Key == key)).getLast?).map (fun a => txt a.Value) = some t ∧
    ∀ a ∈ attrs, ∀ u : List Nat, key ≠ a.Key ++ groupSeparator :: u

/-! ## Hypotheses on a run -/

/-- A run of attributes that the resolver handles at the prefix `pre`: every key
starts with `pre`, the run is sorted, no key has an empty group name below
`pre`, and from recursion bound `f0` on every value is encoded by appending the
text `txt` gives for it. -/
structure RunOK (txt : Value → List Nat) (f0 : Nat) (pre : List Nat) (run : List Attr) :
    Prop where
  prefixed : ∀ a ∈ run, ∃ s, a.Key = pre ++ s
  sorted : run.Pairwise (fun a b => keyCmp a.Key b.Key ≤ 0)
  valid : ∀ a ∈ run, validKey (a.Key.drop pre.length)
  enc : ∀ a ∈ run, ∀ f, f0 ≤ f → ∀ out,
    appendJsonValue f out a.Value = .ok (out ++ txt a.Value)

/-- The invariant of the loop of `resolveGroupContent` on a run `done ++ rest` at
the prefix `pre`, between iterations. -/
structure LoopInv (txt : Value → List Nat) (f0 : Nat) (pre : List Nat)
    (done rest : List Attr) (st : LoopState) : Prop where
  emptyIff : st.currentGroup = [] ↔ st.currentGroupFields = []
  noSep : hasSep st.currentGroup = false
  dotted : ∀ a ∈ st.currentGroupFields,
    ∃ u, a.Key = pre ++ (st.currentGroup ++ groupSeparator :: u)
  suffix : st.currentGroupFields <:+ done ∨
    ∀ a ∈ rest, ¬ (hasSep (a.Key.drop pre.length) = true ∧
      headComp (a.Key.drop pre.length) = st.currentGroup)
  ok : RunOK txt f0 pre (st.currentGroupFields ++ rest)

/-- A list of entries that is sorted by key and has no empty group name. -/
structure EntriesOK (entries : List Entry) : Prop where
  sorted : entries.Pairwise (fun a b => keyCmp a.1 b.1 ≤ 0)
  valid : ∀ e ∈ entries, validKey e.1

/-- The invariant of `scan`: the entries of the open group followed by the remaining
entries are sorted, and the open group is the first component of its entries. -/
structure ScanInv (g : List Nat) (fields rest : List Entry) : Prop where
  ok : EntriesOK (fields ++ rest)
  emptyIff : g = [] ↔ fields = []
  noSep : hasSep g = false
  dotted : ∀ e ∈ fields, ∃ u, e.1 = g ++ groupSeparator :: u

/-- The entry keyed `key` survives in `entries` with text `t`: it is the last entry
with this key and no entry is keyed by a proper dot-prefix of `key`; `path` is
the dot path of `key`. -/
def SurvivesIn (entries : List Entry) (path : List (List Nat)) (t : List Nat) : Prop :=
  ∃ key : List Nat, components key = path ∧ flatLast entries key = some t ∧
    ∀ e ∈ entries, ∀ u : List Nat, key ≠ e.1 ++ groupSeparator :: u

/-- A bound above the length of every key of a list of attributes. -/
def keyBound (attrs : List Attr) : Nat := (attrs.map (fun a => a.Key.length + 1)).sum

/-- A scalar value: a boolean, a time, an integer, a string, a duration, or a float
that generic serialization accepts. -/
def isScalar : Value → Bool
  | .bool _ => true
  | .time _ => true
  | .uint64 _ => true
  | .int64 _ => true
  | .string _ => true
  | .duration _ => true
  | .float64 (.ok _) => true
  | _ => false

/-- The JSON text of a scalar value. -/
def scalarText : Value → List Nat
  | .bool b => if b then ascii "true" else ascii "false"
  | .time t => [34] ++ t.rfc3339Nano ++ [34]
  | .uint64 n => appendUint [] n
  | .int64 n => appendInt [] n
  | .string s => [34] ++ AppendStringContent [] s ++ [34]
  | .duration ns => appendInt [] ns
  | .float64 (.ok text) => text
  | _ => []

/-- The JSON text of a value that is a scalar, a pre-encoded value, a serializable
structured value, or a group of scalar members given in sorted order. -/
def valueText : Value → List Nat
  | .group members =>
    [123] ++ JMembers.encode false (tree (keyBound members) (entriesAt scalarText 0 members)) ++
      [125]
  | .preformatted value => value
  | .any (.ok text) => text
  | v => scalarText v

/-! ## Escapes, as the format describes them -/

/-- The lowercase hexadecimal digit of a nibble. -/
def hexDigit (n : Nat) : Nat := if n < 10 then 48 + n else 87 + n

/-- The escape of a quote, a backslash or a control byte: one of the two-character
escapes, and otherwise `\u00XX` with the byte in two lowercase hex digits. -/
def controlEscape (b : Nat) : List Nat :=
  if b = 34 then ascii "\\\""
  else if b = 92 then ascii "\\\\"
  else if b = 8 then ascii "\\b"
  else if b = 12 then ascii "\\f"
  else if b = 10 then ascii "\\n"
  else if b = 13 then ascii "\\r"
  else if b = 9 then ascii "\\t"
  else ascii "\\u00" ++ [hexDigit (b / 16), hexDigit (b % 16)]

/-! ## json.go: pre-formatting -/

/-- The method `Kind` of a `slog.Value`, as the number of the `slog.Kind` constant. -/
def Value.kind : Value → Nat
  | .zero => 0
  | .any _ => 0
  | .preformatted _ => 0
  | .bool _ => 1
  | .duration _ => 2
  | .float64 _ => 3
  | .int64 _ => 4
  | .string _ => 5
  | .time _ => 6
  | .uint64 _ => 7
  | .group _ => 8
  | .logValuer _ => 9

/-- The table `preformattedKinds`: `KindAny`, `KindGroup` and `KindLogValuer`. -/
def preformattedKinds (kind : Nat) : Bool := kind == 0 || kind == 8 || kind == 9

/-- The function `shouldPreformat` of `json.go`: the table has 16 entries and the test
lets the number 16 through, where the index is out of range. -/
def shouldPreformat (kind : Nat) : Except Fault Bool :=
  if kind > 16 then .ok false
  else if kind = 16 then .error .panic
  else .ok (preformattedKinds kind)

/-- The function `preformatValue` of `json.go`: the value is encoded into a new, empty
buffer and the bytes are kept in a `preformattedValue`. -/
def preformatValue (fuel : Nat) (value : Value) : Except Fault Value := do
  let formatted ← appendJsonValue fuel [] value
  .ok (.preformatted formatted)

/-! ## handler.go, handle.go and options.go -/

/-- A `context.Context`, which the handler only passes on. -/
abbrev Context := Nat

/-- The struct `handlerOptions`; a level is the number of a `slog.Level`. -/
structure handlerOptions where
  hideTimestamp : Bool
  addSource : Bool
  levelF : Context → Int → Bool

/-- A slice of attribute groups: its backing array, length and capacity. -/
structure Slice where
  array : Nat
  len : Nat
  cap : Nat
  deriving DecidableEq, Repr

/-- The backing arrays of the slices of attribute groups, by allocation number. -/
abbrev Heap := List (List (List Attr))

/-- The elements of a slice. -/
def Heap.read (heap : Heap) (s : Slice) : List (List Attr) :=
  (heap.getD s.array []).take s.len

/-- The capacity that `append` asks for when one element is appended to a full slice of
capacity `oldCap`: one for an empty slice, twice the capacity below 256
elements, and a quarter more plus 192 above.  The runtime rounds the size of
the new array up to an allocation size class; for the 24-byte elements of
these slices that leaves the capacity as asked for a full slice of up to 10
elements, and the rounding of larger arrays is not modelled. -/
def growCap (oldCap : Nat) : Nat :=
  if oldCap = 0 then 1
  else if oldCap < 256 then 2 * oldCap
  else oldCap + (oldCap + 768) / 4

/-- The builtin `append(s, x)` for one element: within the capacity the element is
written into the backing array that `s` shares with every slice cut from it;
otherwise the elements are copied to a new array. -/
def sliceAppend (heap : Heap) (s : Slice) (x : List Attr) : Heap × Slice :=
  if s.len < s.cap then
    (heap.set s.array ((heap.getD s.array []).set s.len x), { s with len := s.len + 1 })
  else
    (heap ++ [Heap.read heap s ++ [x] ++ List.replicate (growCap s.cap - (s.len + 1)) []],
      { array := heap.length, len := s.len + 1, cap := growCap s.cap })

/-- The struct `Handler`, without its writer and buffer pool. -/
structure Handler where
  options : handlerOptions
  attrPrefix : List Nat
  attributes : Slice

/-- The call `attr.Equal(slog.Attr{})`: the key is empty and the value is the zero
value. -/
def Attr.isZero : Attr → Bool
  | .mk [] .zero => true
  | _ => false

/-- The test `attr.Value.Kind() == slog.KindGroup && len(attr.Value.Group()) == 0`. -/
def Attr.isEmptyGroup : Attr → Bool
  | .mk _ (.group []) => true
  | _ => false

/-- The loop of `Handler.WithAttrs` over `attrs` at index `i`, with `n` iterations
left; `slices.Delete(attrs, i, i+1)` followed by `i--` and the `i++` of the
loop leaves the index on the element that moved up. -/
def withAttrsLoop (fuel : Nat) (attrPrefix : List Nat) :
    Nat → List Attr → Nat → Except Fault (List Attr)
  | 0, attrs, _ => .ok attrs
  | n + 1, attrs, i =>
    match attrs.get? i with
    | none => .ok attrs
    | some a =>
      if a.isZero then withAttrsLoop fuel attrPrefix n (attrs.eraseIdx i) i
      else if a.isEmptyGroup then withAttrsLoop fuel attrPrefix n (attrs.eraseIdx i) i
      else if attrPrefix = [] ∧ isIgnoredKey a.Key = true then
        withAttrsLoop fuel attrPrefix n (attrs.eraseIdx i) i
      else do
        let preformat ← shouldPreformat a.Value.kind
        let value ← if preformat then preformatValue fuel a.Value else .ok a.Value
        withAttrsLoop fuel attrPrefix n (attrs.set i (Attr.mk (attrPrefix ++ a.Key) value))
          (i + 1)

/-- The method `Handler.WithAttrs`: the new handler and the heap after the `append`.
The attributes are a list, the elements of the slice of the caller at the call:
the source deletes and rewrites them in the array of that slice and stores the
slice itself, so what the caller does with the array after the call is not
modelled. -/
def Handler.WithAttrs (fuel : Nat) (heap : Heap) (h : Handler) (attrs : List Attr) :
    Except Fault (Heap × Handler) := do
  let attrs ← withAttrsLoop fuel h.attrPrefix attrs.length attrs 0
  let (heap, attributes) := sliceAppend heap h.attributes attrs
  .ok (heap, { h with attributes := attributes })

/-- The method `Handler.WithGroup`. -/
def Handler.WithGroup (h : Handler) (name : List Nat) : Handler :=
  { h with attrPrefix := h.attrPrefix ++ name ++ [groupSeparator] }

/-- The function `NewHandler` for given options: no prefix and a nil slice. -/
def NewHandler (options : handlerOptions) : Handler :=
  { options := options, attrPrefix := [], attributes := { array := 0, len := 0, cap := 0 } }

/-- The result of `record.Source()`. -/
structure Source where
  function : List Nat
  file : List Nat
  line : Int

/-- A `slog.Record`: time, message, level, source location if any, attributes. -/
structure Record where
  time : Time
  message : List Nat
  level : Int
  source : Option Source
  attrs : List Attr

/-- The verb `%+d`. -/
def signedDecimal (n : Int) : List Nat :=
  if n < 0 then appendUint [45] n.natAbs else appendUint [43] n.natAbs

/-- The method `slog.Level.String`. -/
def levelString (l : Int) : List Nat :=
  let str := fun (base : List Nat) (val : Int) =>
    if val = 0 then base else base ++ signedDecimal val
  if l < 0 then str (ascii "DEBUG") (l + 4)
  else if l < 4 then str (ascii "INFO") l
  else if l < 8 then str (ascii "WARN") (l - 4)
  else str (ascii "ERROR") (l - 8)

/-- The function `addSource` of `handle.go`. -/
def addSource (attrs : List Attr) (record : Record) : List Attr :=
  match record.source with
  | none => attrs
  | some src =>
    attrs ++ [Attr.mk (ascii "log.origin.function") (.string src.function),
      Attr.mk (ascii "log.origin.file") (.string src.file),
      Attr.mk (ascii "log.origin.line") (.int64 src.line)]

/-- The callback that `Handler.Handle` passes to `record.Attrs`. -/
def handleAttr (attrPrefix : List Nat) (attrs : List Attr) (attr : Attr) : List Attr :=
  if attr.isZero then attrs
  else if attr.isEmptyGroup then attrs
  else if attrPrefix ≠ [] then attrs ++ [Attr.mk (attrPrefix ++ attr.Key) attr.Value]
  else if isIgnoredKey attr.Key then attrs
  else attrs ++ [attr]

/-- The attribute list that `Handler.Handle` builds, before it is sorted. -/
def workingAttrs (heap : Heap) (h : Handler) (record : Record) : List Attr :=
  let attrs := [Attr.mk (ascii "log.level") (.string (levelString record.level))]
  let attrs := if h.options.addSource then addSource attrs record else attrs
  let attrs := (Heap.read heap h.attributes).foldl (fun attrs attr => attrs ++ attr) attrs
  record.attrs.foldl (handleAttr h.attrPrefix) attrs

/-- The method `Handler.Handle`: the bytes handed to the writer. -/
def Handler.Handle (fuel : Nat) (heap : Heap) (h : Handler) (record : Record) :
    Except Fault (List Nat) := do
  let attrs := sortStableFunc isEarlierAttr (workingAttrs heap h record)
  let t0 : Time :=
    if !h.options.hideTimestamp then record.time
    else { isZero := true, rfc3339Nano := ascii "0001-01-01T00:00:00Z" }
  let output ← resolveRecord fuel [] t0 record.message attrs
  .ok (output ++ [10])

/-- Applying a fallible function to every element in order, stopping at the first
failure. -/
def mapExcept {α β : Type} (f : α → Except Fault β) : List α → Except Fault (List β)
  | [] => .ok []
  | a :: rest => do
    let b ← f a
    let bs ← mapExcept f rest
    .ok (b :: bs)

/-- What `Handler.WithAttrs` stores for an attribute that it keeps: the key has the
prefix of the handler, and a value of a pre-formatted kind is pre-encoded. -/
def boundAttr (fuel : Nat) (attrPrefix : List Nat) (a : Attr) : Except Fault Attr := do
  let value ← if preformattedKinds a.Value.kind then preformatValue fuel a.Value else .ok a.Value
  .ok (Attr.mk (attrPrefix ++ a.Key) value)

/-- The attributes that `Handler.WithAttrs` and `Handler.Handle` keep: not the zero
attribute, not an empty group and, on a handler without prefix, not keyed by a
reserved key. -/
def keepAttr (attrPrefix : List Nat) (a : Attr) : Bool :=
  !a.isZero && !a.isEmptyGroup && !(attrPrefix == [] && isIgnoredKey a.Key)

/-- The attribute that `Handler.Handle` appends for a record attribute that it
keeps. -/
def callAttr (attrPrefix : List Nat) (a : Attr) : Attr :=
  if attrPrefix ≠ [] then Attr.mk (attrPrefix ++ a.Key) a.Value else a

/-- A slice that fits its backing array. -/
def Slice.WF (heap : Heap) (s : Slice) : Prop :=
  s.len ≤ s.cap ∧ s.cap ≤ (heap.getD s.array []).length

/-! ## The scan of `AppendStringContent`, and the decoding of a JSON string -/

/-- What the loop of `AppendStringContent` appends for the rest `s` of the source when
nothing is pending: a safe byte itself, the escape of another byte below
`utf8.RuneSelf`, the escape of U+FFFD for a byte that does not start a valid
sequence, the escape of a line or paragraph separator, and the bytes of any
other valid sequence.  The first argument bounds the number of pieces. -/
def escapeFrom : Nat → List Nat → List Nat
  | 0, _ => []
  | _ + 1, [] => []
  | n + 1, b :: rest =>
    if b < 128 then
      (if safeSet b then [b] else escapeByte b) ++ escapeFrom n rest
    else
      let (c, size) := decodeRuneInString ((b :: rest).take 4)
      if c = runeError ∧ size = 1 then
        ascii "\\ufffd" ++ escapeFrom n ((b :: rest).drop size)
      else if c = 8232 ∨ c = 8233 then
        [92, 117, 50, 48, 50, hex (c % 16)] ++ escapeFrom n ((b :: rest).drop size)
      else (b :: rest).take size ++ escapeFrom n ((b :: rest).drop size)

/-- The text `s` with each byte that does not start a valid UTF-8 sequence replaced by
the encoding EF BF BD of U+FFFD, as the conversion of a string to runes reads
it.  The first argument bounds the number of characters. -/
def replaceInvalidFrom : Nat → List Nat → List Nat
  | 0, _ => []
  | _ + 1, [] => []
  | n + 1, b :: rest =>
    let (c, size) := decodeRuneInString (b :: rest)
    if c = runeError ∧ size = 1 then [239, 191, 189] ++ replaceInvalidFrom n rest
    else (b :: rest).take size ++ replaceInvalidFrom n ((b :: rest).drop size)

/-- The text `s` with each invalid byte replaced by U+FFFD. -/
def replaceInvalid (s : List Nat) : List Nat := replaceInvalidFrom s.length s

/-- Whether every byte of `s` belongs to a valid UTF-8 sequence, as `utf8.ValidString`
decides it.  The first argument bounds the number of characters. -/
def validFrom : Nat → List Nat → Bool
  | 0, _ => true
  | _ + 1, [] => true
  | n + 1, b :: rest =>
    let (c, size) := decodeRuneInString (b :: rest)
    if c = runeError ∧ size = 1 then false else validFrom n ((b :: rest).drop size)

/-- Whether `s` is valid UTF-8. -/
def validUTF8 (s : List Nat) : Bool := validFrom s.length s

/-- The value of a hexadecimal digit. -/
def hexVal (c : Nat) : Option Nat :=
  if 48 ≤ c ∧ c ≤ 57 then some (c - 48)
  else if 97 ≤ c ∧ c ≤ 102 then some (c - 87)
  else if 65 ≤ c ∧ c ≤ 70 then some (c - 55)
  else none

/-- The value of four hexadecimal digits. -/
def hex4 (a b c d : Nat) : Option Nat :=
  match hexVal a, hexVal b, hexVal c, hexVal d with
  | some a, some b, some c, some d => some (((a * 16 + b) * 16 + c) * 16 + d)
  | _, _, _, _ => none

/-- The UTF-8 encoding of a code point; U+FFFD for a surrogate or a number above
U+10FFFF. -/
def encodeRune (r : Nat) : List Nat :=
  if r < 128 then [r]
  else if r < 2048 then [192 + r / 64, 128 + r % 64]
  else if (55296 ≤ r ∧ r ≤ 57343) ∨ 1114111 < r then [239, 191, 189]
  else if r < 65536 then [224 + r / 4096, 128 + r / 64 % 64, 128 + r % 64]
  else [240 + r / 262144, 128 + r / 4096 % 64, 128 + r / 64 % 64, 128 + r % 64]

/-- The character that a two-character escape of a JSON string stands for. -/
def simpleEscape (e : Nat) : Option Nat :=
  if e = 34 then some 34
  else if e = 92 then some 92
  else if e = 47 then some 47
  else if e = 98 then some 8
  else if e = 102 then some 12
  else if e = 110 then some 10
  else if e = 114 then some 13
  else if e = 116 then some 9
  else none

/-- The first character of the text of a JSON string (RFC 8259, section 7), as its
UTF-8 encoding, and the input after it: a two-character escape and `\uXXXX`
stand for their character, two `\u` escapes of a surrogate pair for one
character, a surrogate without its partner for U+FFFD, any other byte from
0x20 except the quote for itself; a control byte, a quote and an unknown
escape are no character. -/
def unquoteStep : List Nat → Option (List Nat × List Nat)
  | [] => none
  | c :: rest =>
    if c = 92 then
      match rest with
      | [] => none
      | e :: rest2 =>
        if e = 117 then
          match rest2 with
          | a :: b :: c :: d :: rest3 =>
            match hex4 a b c d with
            | none => none
            | some r =>
              if 55296 ≤ r ∧ r < 56320 then
                match rest3 with
                | 92 :: 117 :: a2 :: b2 :: c2 :: d2 :: rest4 =>
                  match hex4 a2 b2 c2 d2 with
                  | none => none
                  | some r2 =>
                    if 56320 ≤ r2 ∧ r2 < 57344 then
                      some (encodeRune (65536 + (r - 55296) * 1024 + (r2 - 56320)), rest4)
                    else some (encodeRune r, rest3)
                | _ => some (encodeRune r, rest3)
              else some (encodeRune r, rest3)
          | _ => none
        else
          match simpleEscape e with
          | none => none
          | some x => some ([x], rest2)
    else if c < 32 ∨ c = 34 then none
    else some ([c], rest)

/-- The text of a JSON string after its opening quote, up to the closing quote that
ends the input; a missing closing quote and text after the closing quote make
the input invalid.  The first argument bounds the number of characters. -/
def unquoteBody : Nat → List Nat → Option (List Nat)
  | 0, _ => none
  | n + 1, s =>
    if s = [34] then some []
    else
      match unquoteStep s with
      | none => none
      | some (out, rest) => (unquoteBody n rest).map (fun t => out ++ t)

/-- The text that a JSON string, with its two quotes, stands for. -/
def jsonUnquote (s : List Nat) : Option (List Nat) :=
  match s with
  | 34 :: body => unquoteBody body.length body
  | _ => none

/-! ## Decimal literals -/

/-- The number that a text of ASCII decimal digits denotes. -/
def decimalValue (text : List Nat) : Nat := text.foldl (fun acc c => 10 * acc + (c - 48)) 0

/-- The text is the base-10 literal of `n`: decimal digits only, denoting `n`, without a
leading zero unless the text is `0`. -/
def IsDecimal (text : List Nat) (n : Nat) : Prop :=
  text ≠ [] ∧ (∀ c ∈ text, 48 ≤ c ∧ c ≤ 57) ∧ decimalValue text = n ∧
    (text.head? = some 48 → text = [48])

/-! ## options.go and `Handler.Enabled` -/

/-- The type `Option` of `options.go`: a function that updates the options. -/
abbrev HandlerOption := handlerOptions → handlerOptions

/-- The constant `slog.LevelInfo`. -/
def LevelInfo : Int := 0

/-- The function `getOptions`: the options are applied in order to the default, which
hides nothing and enables the levels from `slog.LevelInfo`. -/
def getOptions (options : List HandlerOption) : handlerOptions :=
  options.foldl (fun hOptions option => option hOptions)
    { hideTimestamp := false, addSource := false,
      levelF := fun _ level => decide (level ≥ LevelInfo) }

/-- The option `WithTimestamp`. -/
def WithTimestamp (showTimestamp : Bool) : HandlerOption :=
  fun h => { h with hideTimestamp := !showTimestamp }

/-- The option `WithSource`. -/
def WithSource (addSource : Bool) : HandlerOption :=
  fun h => { h with addSource := addSource }

/-- The option `WithLogLevel`. -/
def WithLogLevel (minLevel : Int) : HandlerOption :=
  fun h => { h with levelF := fun _ level => decide (level ≥ minLevel) }

/-- The option `WithLogLevelFunc`. -/
def WithLogLevelFunc (logLevelF : Context → Int → Bool) : HandlerOption :=
  fun h => { h with levelF := logLevelF }

/-- The method `Handler.Enabled`. -/
def Handler.Enabled (h : Handler) (ctx : Context) (level : Int) : Bool :=
  h.options.levelF ctx level

/-- A call of one of the four option constructors of the package. -/
inductive OptionCall where
  | withTimestamp (showTimestamp : Bool)
  | withSource (addSource : Bool)
  | withLogLevel (minLevel : Int)
  | withLogLevelFunc (logLevelF : Context → Int → Bool)

/-- The option that a call returns. -/
def OptionCall.option : OptionCall → HandlerOption
  | .withTimestamp b => WithTimestamp b
  | .withSource b => WithSource b
  | .withLogLevel m => WithLogLevel m
  | .withLogLevelFunc f => WithLogLevelFunc f

/-- Whether a call gives a level option. -/
def OptionCall.isLevel : OptionCall → Bool
  | .withLogLevel _ => true
  | .withLogLevelFunc _ => true
  | _ => false

/-! ## handle.go: the pool of buffers -/

/-- A slice as far as the pool of buffers looks at it: its elements and its capacity. -/
structure Buffer (α : Type) where
  elems : List α
  cap : Nat

/-- The struct `handleContext`. -/
structure handleContext where
  outputBuffer : Buffer Nat
  attributesBuffer : Buffer Attr

/-- The constant `handleCtxMaxAttrsSize`. -/
def handleCtxMaxAttrsSize : Nat := 128

/-- The constant `handleCtxMaxBufferSize`. -/
def handleCtxMaxBufferSize : Nat := 4096

/-- The function `newHandleContext`: buffers of 64 bytes and 16 attributes. -/
def newHandleContext : handleContext :=
  { outputBuffer := { elems := List.replicate 64 0, cap := 64 },
    attributesBuffer := { elems := List.replicate 16 (Attr.mk [] .zero), cap := 16 } }

/-- The method `Handler.putHandleCtx`, on the contexts that the pool holds: the
capacities that are tested are those of the buffers that `handleCtx` holds when
the method is called; then the buffers are replaced and the context is put
into the pool. -/
def putHandleCtx (pool : List handleContext) (handleCtx : handleContext)
    (outputBuff : Buffer Nat) (attrsBuff : Buffer Attr) : List handleContext :=
  if handleCtx.outputBuffer.cap > handleCtxMaxBufferSize ∨
      handleCtx.attributesBuffer.cap > handleCtxMaxAttrsSize then pool
  else { outputBuffer := outputBuff, attributesBuffer := attrsBuff } :: pool

/-! ## The content of a JSON string -/

/-- The input after one piece of string content that does not end the string: a byte
from 0x20 other than the quote and the backslash, or a backslash with one of
`"`, `\`, `b`, `f`, `n`, `r`, `t`, or with `u` and four hexadecimal digits;
`none` when the input starts with nothing of the kind. -/
def contentStep : List Nat → Option (List Nat)
  | [] => none
  | c :: rest =>
    if c = 92 then
      match rest with
      | [] => none
      | e :: rest2 =>
        if e = 117 then
          match rest2 with
          | a :: b :: c :: d :: rest3 =>
            if (hex4 a b c d).isSome then some rest3 else none
          | _ => none
        else if e = 34 ∨ e = 92 ∨ e = 98 ∨ e = 102 ∨ e = 110 ∨ e = 114 ∨ e = 116 then
          some rest2
        else none
    else if c < 32 ∨ c = 34 then none
    else some rest

/-- Whether the text is made of such pieces only: no control byte, no quote but after a
backslash that escapes it, no backslash but at the start of an escape.  The
first argument bounds the number of pieces. -/
def contentOK : Nat → List Nat → Bool
  | _, [] => true
  | 0, _ :: _ => false
  | n + 1, c :: rest =>
    match contentStep (c :: rest) with
    | none => false
    | some rest2 => contentOK n rest2

/-! ## Safety of the resolver -/

/-- Whether the key of an attribute, after its first `prefixLen` bytes, starts with `g`
followed by a separator. -/
def inGroup (prefixLen : Nat) (g : List Nat) (a : Attr) : Bool :=
  (g ++ [groupSeparator]).isPrefixOf (a.Key.drop prefixLen)

/-- The invariant of the loop of `resolveGroupContent` on a sorted run `done ++ rest`
at the prefix `pre`, for any values: the fields of an open group fit before the
index; the fields of a group with a name are the attributes of `done` whose
stripped key starts with the name and a separator, and they end `done` unless
no later attribute belongs to the group; the fields collected under the empty
name end `done` and are followed only by keys that begin with a separator or
are empty; and after an attribute of a named group this group is open. -/
structure SafeInv (pre : List Nat) (done rest : List Attr) (st : LoopState) : Prop where
  len : st.currentGroupFields.length ≤ done.length
  block : st.currentGroup ≠ [] →
    hasSep st.currentGroup = false ∧ st.currentGroupFields ≠ [] ∧
    st.currentGroupFields = done.filter (inGroup pre.length st.currentGroup) ∧
    (st.currentGroupFields <:+ done ∨
      ∀ a ∈ rest, inGroup pre.length st.currentGroup a = false)
  emptyName : st.currentGroup = [] →
    st.currentGroupFields = [] ∨
    (st.currentGroupFields <:+ done ∧
      ∀ a ∈ rest, a.Key.drop pre.length = [] ∨
        ∃ u, a.Key.drop pre.length = groupSeparator :: u)
  last : ∀ z, done.getLast? = some z → hasSep (z.Key.drop pre.length) = true →
    headComp (z.Key.drop pre.length) ≠ [] →
    st.currentGroup = headComp (z.Key.drop pre.length)

/-! ## Decoding the output -/

/-- The body of a JSON string, given the input after its opening quote: the bytes up
to the closing quote, a backslash taking the byte after it along, and the input
after the closing quote. -/
def splitString : List Nat → Option (List Nat × List Nat)
  | [] => none
  | c :: rest =>
    if c = 34 then some ([], rest)
    else if c = 92 then
      match rest with
      | [] => none
      | e :: rest2 => (splitString rest2).map (fun p => (c :: e :: p.1, p.2))
    else (splitString rest).map (fun p => (c :: p.1, p.2))

/-- A byte of a number or of one of the literals `true`, `false` and `null`: a digit, a
letter, a sign or a point. -/
def isTokenByte (c : Nat) : Bool :=
  (48 ≤ c && c ≤ 57) || (97 ≤ c && c ≤ 122) || (65 ≤ c && c ≤ 90) ||
    c == 43 || c == 45 || c == 46

/-- A member name with its colon at the start of the input: the text that the JSON
string stands for, and the input after the colon. -/
def decodeName : List Nat → Option (List Nat × List Nat)
  | [] => none
  | q :: rest =>
    if q = 34 then
      match splitString rest with
      | some (body, c :: rest2) =>
        if c = 58 then (jsonUnquote ([34] ++ body ++ [34])).map (fun name => (name, rest2))
        else none
      | _ => none
    else none

/-- The members of a JSON object, given the input after its opening brace when a
member follows: names with their values, separated by commas, up to the closing
brace, and the input after that brace.  `value` decodes a value; the first
argument bounds the number of members. -/
def decodeMembersWith (value : List Nat → Option (JTree × List Nat)) :
    Nat → List Nat → Option (JMembers × List Nat)
  | 0, _ => none
  | n + 1, input =>
    match decodeName input with
    | none => none
    | some (name, rest) =>
      match value rest with
      | some (v, c :: rest2) =>
        if c = 44 then
          (decodeMembersWith value n rest2).map (fun p => (.cons name v p.1, p.2))
        else if c = 125 then some (.cons name v .nil, rest2)
        else none
      | _ => none

/-- A JSON decoder for text without white space: the value at the start of the input
and the input after it.  An object is decoded into its members, in the order of
the text and with the names a decoder reads; a string, a number and a literal
are kept as their text.  The first argument bounds the depth of nesting. -/
def decodeValue : Nat → List Nat → Option (JTree × List Nat)
  | 0, _ => none
  | _ + 1, [] => none
  | fuel + 1, c :: rest =>
    if c = 123 then
      match rest with
      | [] => none
      | d :: rest2 =>
        if d = 125 then some (.obj .nil, rest2)
        else
          (decodeMembersWith (decodeValue fuel) rest.length rest).map
            (fun p => (.obj p.1, p.2))
    else if c = 34 then
      (splitString rest).map (fun p => (.leaf ([34] ++ p.1 ++ [34]), p.2))
    else if isTokenByte c then
      some (.leaf ((c :: rest).takeWhile isTokenByte), (c :: rest).dropWhile isTokenByte)
    else none

/-- The JSON value that a text stands for; a text that does not decode stands for
itself. -/
def decodeText (text : List Nat) : JTree :=
  match decodeValue text.length text with
  | some (j, _) => j
  | none => .leaf text

/-- The text is one JSON value for the decoder: followed by nothing, by a comma or by a
closing brace, it decodes to `decodeText text` and leaves what follows, for
every bound on the depth from its length on. -/
def Decodable (text : List Nat) : Prop :=
  ∀ fuel rest, text.length ≤ fuel → (∀ c ∈ rest.head?, c = 44 ∨ c = 125) →
    decodeValue fuel (text ++ rest) = some (decodeText text, rest)

mutual
/-- What a decoder reads from the text of a value of the output: the text of an
encoded attribute value is decoded, and a member name with invalid UTF-8 is read
with U+FFFD in place of each invalid byte. -/
def JTree.decoded : JTree → JTree
  | .leaf text => decodeText text
  | .obj members => .obj (JMembers.decoded members)
/-- What a decoder reads from the text of the members of an object. -/
def JMembers.decoded : JMembers → JMembers
  | .nil => .nil
  | .cons name value rest =>
    .cons (replaceInvalid name) (JTree.decoded value) (JMembers.decoded rest)
end

mutual
/-- Every value found by following a path of member names from a value, in the order
of the text: each of several members of one name is followed. -/
def JTree.valuesAt : JTree → List (List Nat) → List JTree
  | t, [] => [t]
  | .leaf _, _ :: _ => []
  | .obj members, k :: path => JMembers.valuesAt members k path
/-- The values found at a path under every member named `k` of an object. -/
def JMembers.valuesAt : JMembers → List Nat → List (List Nat) → List JTree
  | .nil, _, _ => []
  | .cons name value rest, k, path =>
    (if name = k then JTree.valuesAt value path else []) ++ JMembers.valuesAt rest k path
end

mutual
/-- The member names of a value, at every depth. -/
def JTree.names : JTree → List (List Nat)
  | .leaf _ => []
  | .obj members => JMembers.names members
/-- The member names of the members of an object, at every depth. -/
def JMembers.names : JMembers → List (List Nat)
  | .nil => []
  | .cons name value rest => name :: (JTree.names value ++ JMembers.names rest)
end

mutual
/-- The texts of the leaves of a value. -/
def JTree.leaves : JTree → List (List Nat)
  | .leaf text => [text]
  | .obj members => JMembers.leaves members
/-- The texts of the leaves of the members of an object. -/
def JMembers.leaves : JMembers → List (List Nat)
  | .nil => []
  | .cons _ value rest => JTree.leaves value ++ JMembers.leaves rest
end

/-- The number of members of an object. -/
def JMembers.length : JMembers → Nat
  | .nil => 0
  | .cons _ _ rest => rest.length + 1

/-- The values that a decoder finds at `path` below the members named `k` that are
written for a sorted list of entries.  Without an entry keyed `k` they are those
of the object of the group `k`, if it has entries.  With entries keyed `k` they
are those of the last one, preceded by those of the first one when the group
`k` has entries as well and several entries are keyed `k`.  `sub` gives the
members of a group from its stripped entries. -/
def memberValues (sub : List Entry → JMembers) (entries : List Entry) (k : List Nat)
    (path : List (List Nat)) : List JTree :=
  match entries.filter (fun e => e.1 == k) with
  | [] =>
    if subEntries entries k = [] then []
    else JTree.valuesAt (JTree.decoded (.obj (sub (subEntries entries k)))) path
  | f :: fs =>
    (if subEntries entries k ≠ [] ∧ fs ≠ [] then JTree.valuesAt (decodeText f.2) path
      else []) ++
      JTree.valuesAt (decodeText ((fs.getLast?).getD f).2) path

/-- A scalar value whose text is a JSON scalar: a boolean, an integer, a duration, a
string; a time whose rendering is string content, with no quote, backslash or
control byte unescaped; a float whose text is made of the bytes of a number. -/
def scalarOK : Value → Bool
  | .bool _ => true
  | .time t => contentOK t.rfc3339Nano.length t.rfc3339Nano
  | .uint64 _ => true
  | .int64 _ => true
  | .string _ => true
  | .duration _ => true
  | .float64 (.ok text) => !text.isEmpty && text.all isTokenByte
  | _ => false

/-! ## The comparator -/


theorem isEarlierKeyLoop_eq (a b : List Nat) (n : Nat) :
    ∀ i, n = min a.length b.length - i → i ≤ min a.length b.length →
      isEarlierKeyLoop a b n i = keyCmp (a.drop i) (b.drop i) := by
  induction n with
  | zero =>
    intro i hn hi
    have hi2 : i = min a.length b.length := by omega
    simp only [isEarlierKeyLoop]
    rcases Nat.le_total a.length b.length with h | h
    · have : a.drop i = [] := List.drop_eq_nil_of_le (by omega)
      rw [this]
      simp [keyCmp]; omega
    · have hb : b.drop i = [] := List.drop_eq_nil_of_le (by omega)
      rw [hb]
      cases ha : a.drop i with
      | nil =>
        have := congrArg List.length ha
        simp at this
        simp [keyCmp]; omega
      | cons x xs =>
        have := congrArg List.length ha
        simp at this
        simp [keyCmp]; omega
  | succ n ih =>
    intro i hn hi
    have hia : i < a.length := by omega
    have hib : i < b.length := by omega
    simp only [isEarlierKeyLoop]
    rw [List.drop_eq_getElem_cons hia, List.drop_eq_getElem_cons hib]
    simp only [keyCmp]
    have ha : a.getD i 0 = a[i] := by simp [List.getD_eq_getElem?_getD, List.getElem?_eq_getElem hia]
    have hb : b.getD i 0 = b[i] := by simp [List.getD_eq_getElem?_getD, List.getElem?_eq_getElem hib]
    rw [ha, hb]
    by_cases h : a[i] = b[i]
    · rw [if_pos h, if_pos h]
      exact ih (i + 1) (by omega) (by omega)
    · rw [if_neg h, if_neg h]

theorem isEarlierKey_eq_keyCmp (a b : List Nat) : isEarlierKey a b = keyCmp a b := by
  unfold isEarlierKey
  have h : (if b.length < a.length then b.length else a.length) = min a.length b.length := by
    split <;> omega
  rw [h]
  simpa using isEarlierKeyLoop_eq a b _ 0 rfl (Nat.zero_le _)

theorem keyCmp_self (a : List Nat) : keyCmp a a = 0 := by
  induction a with
  | nil => simp [keyCmp]
  | cons x xs ih => simp [keyCmp, ih]

theorem keyCmp_eq_zero (a b : List Nat) : keyCmp a b = 0 ↔ a = b := by
  constructor
  · intro h
    induction a generalizing b with
    | nil =>
      cases b with
      | nil => rfl
      | cons y ys => simp [keyCmp] at h; omega
    | cons x xs ih =>
      cases b with
      | nil => simp [keyCmp] at h; omega
      | cons y ys =>
        simp only [keyCmp] at h
        split_ifs at h with h1 h2 h3 h4
        · rw [h1, ih ys h]
        all_goals omega
  · rintro rfl
    exact keyCmp_self a

theorem keyCmp_sign (a b : List Nat) : Int.sign (keyCmp a b) = - Int.sign (keyCmp b a) := by
  induction a generalizing b with
  | nil =>
    cases b with
    | nil => simp [keyCmp]
    | cons y ys =>
      simp only [keyCmp, List.length_cons, Nat.cast_add, Nat.cast_one]
      rw [Int.sign_eq_one_of_pos (by omega), Int.sign_eq_neg_one_of_neg (by omega)]
      rfl
  | cons x xs ih =>
    cases b with
    | nil =>
      simp only [keyCmp, List.length_cons, Nat.cast_add, Nat.cast_one]
      rw [Int.sign_eq_neg_one_of_neg (by omega), Int.sign_eq_one_of_pos (by omega)]
    | cons y ys =>
      simp only [keyCmp]
      by_cases h : x = y
      · rw [if_pos h, if_pos h.symm]
        exact ih ys
      · have h2 : ¬ y = x := fun e => h e.symm
        rw [if_neg h, if_neg h2]
        split_ifs <;> first | rfl | omega

theorem keyCmp_neg_iff (a b : List Nat) : keyCmp a b < 0 ↔ 0 < keyCmp b a := by
  have h := keyCmp_sign a b
  constructor
  · intro h1
    rw [Int.sign_eq_neg_one_of_neg h1] at h
    have : Int.sign (keyCmp b a) = 1 := by omega
    exact Int.sign_eq_one_iff_pos.mp this
  · intro h1
    rw [Int.sign_eq_one_of_pos h1] at h
    exact Int.sign_eq_neg_one_iff_neg.mp h

theorem keyCmp_trans (a b c : List Nat) (hab : keyCmp a b ≤ 0) (hbc : keyCmp b c ≤ 0) :
    keyCmp a c ≤ 0 := by
  induction a generalizing b c with
  | nil =>
    cases b with
    | nil => exact hbc
    | cons y ys => simp [keyCmp] at hab; omega
  | cons x xs ih =>
    cases c with
    | nil => simp [keyCmp]; omega
    | cons z zs =>
      cases b with
      | nil => simp [keyCmp] at hbc; omega
      | cons y ys =>
        simp only [keyCmp] at hab hbc ⊢
        by_cases hxy : x = y
        · subst hxy
          rw [if_pos rfl] at hab
          by_cases hxz : x = z
          · subst hxz
            rw [if_pos rfl] at hbc ⊢
            exact ih ys zs hab hbc
          · rw [if_neg hxz] at hbc ⊢
            exact hbc
        · rw [if_neg hxy] at hab
          by_cases hyz : y = z
          · subst hyz
            rw [if_neg hxy]
            exact hab
          · rw [if_neg hyz] at hbc
            split_ifs at hab hbc ⊢ <;> omega

theorem isEarlierKeyLoop_agree (a b : List Nat) (n : Nat) :
    ∀ i, (∀ j, i ≤ j → j < i + n → a.getD j 0 = b.getD j 0) →
      isEarlierKeyLoop a b n i = (b.length : Int) - (a.length : Int) := by
  induction n with
  | zero =>
    intro i _
    simp only [isEarlierKeyLoop]
  | succ n ih =>
    intro i h
    simp only [isEarlierKeyLoop]
    rw [if_pos (h i (Nat.le_refl i) (by omega))]
    exact ih (i + 1) (fun j h1 h2 => h j (by omega) (by omega))

theorem isEarlierKeyLoop_mismatch (a b : List Nat) (k n : Nat)
    (hne : a.getD k 0 ≠ b.getD k 0) :
    ∀ i, i ≤ k → k < i + n → (∀ j, i ≤ j → j < k → a.getD j 0 = b.getD j 0) →
      isEarlierKeyLoop a b n i =
        if a.getD k 0 = groupSeparator then 1
        else if b.getD k 0 = groupSeparator then -1
        else if a.getD k 0 < b.getD k 0 then 1 else -1 := by
  induction n with
  | zero =>
    intro i hik hk _
    omega
  | succ n ih =>
    intro i hik hk h
    simp only [isEarlierKeyLoop]
    by_cases hi : i = k
    · subst hi
      rw [if_neg hne]
    · rw [if_pos (h i (Nat.le_refl i) (by omega))]
      exact ih (i + 1) (by omega) (by omega) (fun j h1 h2 => h j (by omega) h2)

theorem isEarlierKey_minLen (a b : List Nat) :
    (if b.length < a.length then b.length else a.length) = min a.length b.length := by
  split <;> omega

theorem isEarlierKey_fun : isEarlierKey = keyCmp := by
  funext a b
  exact isEarlierKey_eq_keyCmp a b

/-- C8: `isEarlierKey` is a total order on keys: the sign of `isEarlierKey a b` is the
negation of the sign of `isEarlierKey b a`, and `isEarlierKey a b ≤ 0` with
`isEarlierKey b c ≤ 0` gives `isEarlierKey a c ≤ 0`. -/
theorem isEarlierKey_total_order (a b c : List Nat) :
    Int.sign (isEarlierKey a b) = - Int.sign (isEarlierKey b a) ∧
    (isEarlierKey a b ≤ 0 → isEarlierKey b c ≤ 0 → isEarlierKey a c ≤ 0) := by
  simp only [isEarlierKey_eq_keyCmp]
  exact ⟨keyCmp_sign a b, keyCmp_trans a b c⟩

/-- C10: `isEarlierKey` follows the stated rule.  When the keys agree on the shared
length the longer key sorts first; at the first mismatch the separator sorts
after every other byte and other bytes sort in descending order.  The example
list of `TestSortAttrs` sorts as stated. -/
theorem isEarlierKey_rule (a b : List Nat) :
    ((∀ i, i < min a.length b.length → a.getD i 0 = b.getD i 0) →
      (isEarlierKey a b < 0 ↔ b.length < a.length) ∧
      (isEarlierKey a b = 0 ↔ a.length = b.length)) ∧
    (∀ i, i < min a.length b.length → (∀ j, j < i → a.getD j 0 = b.getD j 0) →
      a.getD i 0 ≠ b.getD i 0 →
      (a.getD i 0 = 46 → 0 < isEarlierKey a b) ∧
      (a.getD i 0 ≠ 46 → b.getD i 0 = 46 → isEarlierKey a b < 0) ∧
      (a.getD i 0 ≠ 46 → b.getD i 0 ≠ 46 →
        (0 < isEarlierKey a b ↔ a.getD i 0 < b.getD i 0) ∧
        (isEarlierKey a b < 0 ↔ b.getD i 0 < a.getD i 0))) ∧
    sortStableFunc isEarlierKey [ascii "log.data", ascii "source.func", ascii "log"] =
      [ascii "source.func", ascii "log.data", ascii "log"] := by
  refine ⟨?_, ?_, ?_⟩
  · intro h
    have e : isEarlierKey a b = (b.length : Int) - (a.length : Int) := by
      unfold isEarlierKey
      rw [isEarlierKey_minLen]
      exact isEarlierKeyLoop_agree a b _ 0 (fun j _ hj => h j (by omega))
    rw [e]
    constructor <;> constructor <;> intro h1 <;> omega
  · intro i hi hag hne
    have e := isEarlierKeyLoop_mismatch a b i (min a.length b.length) hne 0 (Nat.zero_le i)
      (by omega) (fun j _ hj => hag j hj)
    have e2 : isEarlierKey a b = isEarlierKeyLoop a b (min a.length b.length) 0 := by
      unfold isEarlierKey
      rw [isEarlierKey_minLen]
    rw [e2, e]
    simp only [groupSeparator]
    refine ⟨?_, ?_, ?_⟩
    · intro h1; rw [if_pos h1]; decide
    · intro h1 h2; rw [if_neg h1, if_pos h2]; decide
    · intro h1 h2
      rw [if_neg h1, if_neg h2]
      split_ifs with h3
      · constructor <;> constructor <;> intro h4 <;> omega
      · constructor <;> constructor <;> intro h4 <;> omega
  · decide

/-! ## The stable sort -/

theorem insertBack_perm {α : Type} (cmp : α → α → Int) (x : α) (l : List α) :
    (insertBack cmp x l).Perm (x :: l) := by
  induction l with
  | nil => exact List.Perm.refl _
  | cons y ys ih =>
    simp only [insertBack]
    split
    · exact (List.Perm.cons y ih).trans (List.Perm.swap x y ys)
    · exact List.Perm.refl _

theorem insertBack_pairwise {α : Type} (cmp : α → α → Int)
    (htot : ∀ a b, ¬ cmp a b < 0 → cmp b a ≤ 0)
    (htrans : ∀ a b c, cmp a b ≤ 0 → cmp b c ≤ 0 → cmp a c ≤ 0) (x : α) (l : List α)
    (hl : l.Pairwise (fun u v => cmp v u ≤ 0)) :
    (insertBack cmp x l).Pairwise (fun u v => cmp v u ≤ 0) := by
  induction l with
  | nil => simp [insertBack]
  | cons y ys ih =>
    rw [List.pairwise_cons] at hl
    simp only [insertBack]
    split
    · rename_i h
      rw [List.pairwise_cons]
      refine ⟨?_, ih hl.2⟩
      intro z hz
      rcases (List.mem_cons.mp ((insertBack_perm cmp x ys).mem_iff.mp hz)) with rfl | hz
      · omega
      · exact hl.1 z hz
    · rename_i h
      rw [List.pairwise_cons]
      refine ⟨?_, List.pairwise_cons.mpr hl⟩
      intro z hz
      rcases List.mem_cons.mp hz with rfl | hz
      · exact htot _ _ h
      · exact htrans _ _ _ (hl.1 z hz) (htot _ _ h)

theorem insertBack_filter {α : Type} (cmp : α → α → Int) (p : α → Bool) (x : α)
    (hp : ∀ y, p x = true → p y = true → ¬ cmp x y < 0) (l : List α) :
    (insertBack cmp x l).filter p = (x :: l).filter p := by
  induction l with
  | nil => rfl
  | cons y ys ih =>
    simp only [insertBack]
    split
    · rename_i h
      rw [List.filter_cons, ih]
      by_cases hx : p x = true
      · have hy : ¬ p y = true := fun hy => hp y hx hy h
        simp [List.filter_cons, hx, hy]
      · simp [List.filter_cons, hx]
    · rfl

theorem foldl_insertBack_perm {α : Type} (cmp : α → α → Int) (l acc : List α) :
    (l.foldl (fun acc x => insertBack cmp x acc) acc).Perm (l.reverse ++ acc) := by
  induction l generalizing acc with
  | nil => exact List.Perm.refl _
  | cons x xs ih =>
    simp only [List.foldl_cons, List.reverse_cons, List.append_assoc, List.singleton_append]
    exact (ih _).trans (List.Perm.append_left _ (insertBack_perm cmp x acc))

theorem foldl_insertBack_pairwise {α : Type} (cmp : α → α → Int)
    (htot : ∀ a b, ¬ cmp a b < 0 → cmp b a ≤ 0)
    (htrans : ∀ a b c, cmp a b ≤ 0 → cmp b c ≤ 0 → cmp a c ≤ 0) (l acc : List α)
    (hacc : acc.Pairwise (fun u v => cmp v u ≤ 0)) :
    (l.foldl (fun acc x => insertBack cmp x acc) acc).Pairwise (fun u v => cmp v u ≤ 0) := by
  induction l generalizing acc with
  | nil => exact hacc
  | cons x xs ih => exact ih _ (insertBack_pairwise cmp htot htrans x acc hacc)

theorem foldl_insertBack_filter {α : Type} (cmp : α → α → Int) (p : α → Bool)
    (hp : ∀ x y, p x = true → p y = true → ¬ cmp x y < 0) (l acc : List α) :
    (l.foldl (fun acc x => insertBack cmp x acc) acc).filter p =
      (l.filter p).reverse ++ acc.filter p := by
  induction l generalizing acc with
  | nil => simp
  | cons x xs ih =>
    rw [List.foldl_cons, ih, insertBack_filter cmp p x (hp x)]
    by_cases hx : p x = true <;> simp [List.filter_cons, hx]

theorem sortStableFunc_perm {α : Type} (cmp : α → α → Int) (l : List α) :
    (sortStableFunc cmp l).Perm l := by
  unfold sortStableFunc
  refine (List.reverse_perm _).trans ?_
  have h := foldl_insertBack_perm cmp l []
  rw [List.append_nil] at h
  exact h.trans (List.reverse_perm l)

theorem sortStableFunc_pairwise {α : Type} (cmp : α → α → Int)
    (htot : ∀ a b, ¬ cmp a b < 0 → cmp b a ≤ 0)
    (htrans : ∀ a b c, cmp a b ≤ 0 → cmp b c ≤ 0 → cmp a c ≤ 0) (l : List α) :
    (sortStableFunc cmp l).Pairwise (fun u v => cmp u v ≤ 0) := by
  unfold sortStableFunc
  rw [List.pairwise_reverse]
  exact foldl_insertBack_pairwise cmp htot htrans l [] List.Pairwise.nil

theorem sortStableFunc_filter {α : Type} (cmp : α → α → Int) (p : α → Bool)
    (hp : ∀ x y, p x = true → p y = true → ¬ cmp x y < 0) (l : List α) :
    (sortStableFunc cmp l).filter p = l.filter p := by
  unfold sortStableFunc
  rw [List.filter_reverse, foldl_insertBack_filter cmp p hp]
  simp

theorem keyCmp_total (a b : List Nat) (h : ¬ keyCmp a b < 0) : keyCmp b a ≤ 0 := by
  rcases Int.lt_or_le 0 (keyCmp a b) with h1 | h1
  · exact Int.le_of_lt ((keyCmp_neg_iff b a).mpr h1)
  · have h0 : keyCmp a b = 0 := by omega
    rw [(keyCmp_eq_zero a b).mp h0, keyCmp_self]

theorem sorted_keys (l : List (List Nat)) :
    (sortStableFunc isEarlierKey l).Pairwise (fun u v => keyCmp u v ≤ 0) := by
  rw [isEarlierKey_fun]
  exact sortStableFunc_pairwise keyCmp keyCmp_total keyCmp_trans l

theorem isEarlierAttr_fun : isEarlierAttr = fun a b => keyCmp a.Key b.Key := by
  funext a b
  exact isEarlierKey_eq_keyCmp _ _

theorem sorted_attrs (l : List Attr) :
    (sortStableFunc isEarlierAttr l).Pairwise (fun u v => keyCmp u.Key v.Key ≤ 0) := by
  rw [isEarlierAttr_fun]
  exact sortStableFunc_pairwise _ (fun a b => keyCmp_total a.Key b.Key)
    (fun a b c => keyCmp_trans a.Key b.Key c.Key) l

theorem sorted_attrs_filter (l : List Attr) (k : List Nat) :
    (sortStableFunc isEarlierAttr l).filter (fun a => a.Key == k) =
      l.filter (fun a => a.Key == k) := by
  rw [isEarlierAttr_fun]
  apply sortStableFunc_filter
  intro x y hx hy
  simp only [beq_iff_eq] at hx hy
  rw [hx, hy, keyCmp_self]
  omega

/-! ## Contiguity of groups -/

theorem components_ne_nil (s : List Nat) : components s ≠ [] := by
  cases s with
  | nil => simp [components]
  | cons c cs =>
    simp only [components]
    split
    · simp
    · split <;> simp

theorem components_cons_sep (cs : List Nat) :
    components (groupSeparator :: cs) = [] :: components cs := by
  simp [components]

theorem components_cons_ne (c : Nat) (cs : List Nat) (hc : c ≠ groupSeparator) :
    ∃ h t, components cs = h :: t ∧ components (c :: cs) = (c :: h) :: t := by
  cases hcs : components cs with
  | nil => exact absurd hcs (components_ne_nil cs)
  | cons h t =>
    refine ⟨h, t, rfl, ?_⟩
    simp [components, hc, hcs]

theorem take_components_between (a : List Nat) :
    ∀ (b c : List Nat) (n : Nat), keyCmp a b ≤ 0 → keyCmp b c ≤ 0 →
      (components a).take n = (components c).take n →
      (components b).take n = (components a).take n := by
  induction a with
  | nil =>
    intro b c n hab _ _
    cases b with
    | nil => rfl
    | cons y ys => simp [keyCmp] at hab; omega
  | cons x xs ih =>
    intro b c n hab hbc hac
    cases n with
    | zero => simp
    | succ n =>
    cases b with
    | nil =>
      cases c with
      | nil => exact hac.symm
      | cons z zs => simp [keyCmp] at hbc; omega
    | cons y ys =>
      simp only [keyCmp] at hab
      by_cases hxy : x = y
      · subst hxy
        rw [if_pos rfl] at hab
        cases c with
        | nil =>
          -- the first component of `a` is empty, so `x` is the separator
          by_cases hx : x = groupSeparator
          · subst hx
            rw [components_cons_sep, components_cons_sep] at *
            simp only [components, List.take_succ_cons, List.cons.injEq, true_and] at hac ⊢
            cases n with
            | zero => simp
            | succ n =>
              exfalso
              have h1 := components_ne_nil xs
              cases hxs : components xs with
              | nil => exact h1 hxs
              | cons h t => rw [hxs] at hac; simp at hac
          · obtain ⟨h, t, _, e⟩ := components_cons_ne x xs hx
            rw [e] at hac
            simp [components] at hac
        | cons z zs =>
          simp only [keyCmp] at hbc
          by_cases hxz : x = z
          · subst hxz
            rw [if_pos rfl] at hbc
            by_cases hx : x = groupSeparator
            · subst hx
              rw [components_cons_sep, components_cons_sep] at *
              simp only [List.take_succ_cons, List.cons.injEq, true_and] at hac ⊢
              exact ih ys zs n hab hbc hac
            · obtain ⟨h1, t1, e1, e1c⟩ := components_cons_ne x xs hx
              obtain ⟨h2, t2, e2, e2c⟩ := components_cons_ne x ys hx
              obtain ⟨h3, t3, e3, e3c⟩ := components_cons_ne x zs hx
              rw [e1c, e3c] at hac
              rw [e1c, e2c]
              simp only [List.take_succ_cons, List.cons.injEq, true_and] at hac ⊢
              have hrec := ih ys zs (n + 1) hab hbc (by
                rw [e1, e3]
                simp only [List.take_succ_cons, List.cons.injEq]
                exact hac)
              rw [e1, e2] at hrec
              simp only [List.take_succ_cons, List.cons.injEq] at hrec
              exact hrec
          · -- `b` and `c` differ at the head while `a` and `c` share the first component
            rw [if_neg hxz] at hbc
            by_cases hx : x = groupSeparator
            · subst hx
              rw [if_pos rfl] at hbc
              omega
            · rw [if_neg hx] at hbc
              obtain ⟨h1, t1, _, e1c⟩ := components_cons_ne x xs hx
              by_cases hz : z = groupSeparator
              · subst hz
                rw [e1c, components_cons_sep] at hac
                simp at hac
              · obtain ⟨h3, t3, _, e3c⟩ := components_cons_ne z zs hz
                rw [e1c, e3c] at hac
                simp only [List.take_succ_cons, List.cons.injEq] at hac
                exact absurd hac.1.1 hxz
      · rw [if_neg hxy] at hab
        exfalso
        by_cases hx : x = groupSeparator
        · rw [if_pos hx] at hab
          omega
        · rw [if_neg hx] at hab
          cases c with
          | nil =>
            obtain ⟨h1, t1, _, e1c⟩ := components_cons_ne x xs hx
            rw [e1c] at hac
            simp [components] at hac
          | cons z zs =>
            simp only [keyCmp] at hbc
            by_cases hy : y = groupSeparator
            · rw [if_pos hy] at hbc
              by_cases hyz : y = z
              · rw [if_pos hyz] at hbc
                obtain ⟨h1, t1, _, e1c⟩ := components_cons_ne x xs hx
                rw [← hyz, hy, e1c, components_cons_sep] at hac
                simp at hac
              · rw [if_neg hyz] at hbc
                omega
            · rw [if_neg hy] at hab
              by_cases hyz : y = z
              · subst hyz
                obtain ⟨h1, t1, _, e1c⟩ := components_cons_ne x xs hx
                obtain ⟨h3, t3, _, e3c⟩ := components_cons_ne y zs hy
                rw [e1c, e3c] at hac
                simp only [List.take_succ_cons, List.cons.injEq] at hac
                exact hxy hac.1.1
              · rw [if_neg hyz, if_neg hy] at hbc
                by_cases hz : z = groupSeparator
                · rw [if_pos hz] at hbc
                  obtain ⟨h1, t1, _, e1c⟩ := components_cons_ne x xs hx
                  rw [hz, e1c, components_cons_sep] at hac
                  simp at hac
                · rw [if_neg hz] at hbc
                  obtain ⟨h1, t1, _, e1c⟩ := components_cons_ne x xs hx
                  obtain ⟨h3, t3, _, e3c⟩ := components_cons_ne z zs hz
                  rw [e1c, e3c] at hac
                  simp only [List.take_succ_cons, List.cons.injEq] at hac
                  have hxz : x = z := hac.1.1
                  subst hxz
                  split_ifs at hab hbc <;> omega

theorem pairwise_getD {α : Type} (R : α → α → Prop) (l : List α) (d : α)
    (h : l.Pairwise R) (i j : Nat) (hij : i < j) (hj : j < l.length) :
    R (l.getD i d) (l.getD j d) := by
  have hi : i < l.length := by omega
  rw [List.getD_eq_getElem l d hi, List.getD_eq_getElem l d hj]
  exact (List.pairwise_iff_getElem.mp h) i j hi hj hij

theorem components_append_sep (g t : List Nat) :
    (components (g ++ groupSeparator :: t)).take (components g).length = components g := by
  induction g with
  | nil => simp [components]
  | cons c cs ih =>
    by_cases hc : c = groupSeparator
    · subst hc
      rw [List.cons_append, components_cons_sep, components_cons_sep]
      simp only [List.length_cons, List.take_succ_cons, List.cons.injEq, true_and]
      exact ih
    · obtain ⟨h1, t1, e1, e1c⟩ := components_cons_ne c cs hc
      obtain ⟨h2, t2, e2, e2c⟩ := components_cons_ne c (cs ++ groupSeparator :: t) hc
      rw [List.cons_append, e1c, e2c]
      rw [e1, e2] at ih
      simp only [List.length_cons, List.take_succ_cons, List.cons.injEq] at ih ⊢
      exact ⟨by simp [ih.1], ih.2⟩

theorem keyCmp_append_sep (g t : List Nat) : keyCmp (g ++ groupSeparator :: t) g < 0 := by
  induction g with
  | nil => simp [keyCmp]; omega
  | cons c cs ih => simpa [keyCmp] using ih

/-- C9: `isEarlierKey` is zero exactly on identical keys, so the stable sort keeps the
attributes of any one key in their original relative order. -/
theorem isEarlierKey_eq_zero_iff (a b : List Nat) (l : List Attr) :
    (isEarlierKey a b = 0 ↔ a = b) ∧
    (sortStableFunc isEarlierAttr l).filter (fun x => x.Key == a) =
      l.filter (fun x => x.Key == a) := by
  rw [isEarlierKey_eq_keyCmp]
  exact ⟨keyCmp_eq_zero a b, sorted_attrs_filter l a⟩

/-- C7: in a list of keys sorted with `isEarlierKey`, the keys that share their first
`n` path components are contiguous; a bare key `g` has the path of the first
components of every `g.…` and is placed after all of them. -/
theorem sorted_keys_contiguous (keys : List (List Nat)) (n i j k : Nat)
    (hij : i < j) (hjk : j < k) (hk : k < (sortStableFunc isEarlierKey keys).length)
    (h : (components ((sortStableFunc isEarlierKey keys).getD i [])).take n =
      (components ((sortStableFunc isEarlierKey keys).getD k [])).take n) :
    (components ((sortStableFunc isEarlierKey keys).getD j [])).take n =
      (components ((sortStableFunc isEarlierKey keys).getD i [])).take n ∧
    (∀ g t : List Nat,
      (components (g ++ groupSeparator :: t)).take (components g).length = components g ∧
      ∀ p q, p < (sortStableFunc isEarlierKey keys).length →
        q < (sortStableFunc isEarlierKey keys).length →
        (sortStableFunc isEarlierKey keys).getD p [] = g ++ groupSeparator :: t →
        (sortStableFunc isEarlierKey keys).getD q [] = g → p < q) := by
  have hs := sorted_keys keys
  refine ⟨?_, ?_⟩
  · exact take_components_between _ _ _ n
      (pairwise_getD _ _ [] hs i j hij (by omega))
      (pairwise_getD _ _ [] hs j k hjk hk) h
  · intro g t
    refine ⟨components_append_sep g t, ?_⟩
    intro p q hp hq hpe hqe
    rcases Nat.lt_trichotomy p q with h1 | h1 | h1
    · exact h1
    · exfalso
      subst h1
      rw [hpe] at hqe
      have := congrArg List.length hqe
      simp at this
    · exfalso
      have h2 := pairwise_getD _ _ [] hs q p h1 hp
      rw [hpe, hqe] at h2
      have h3 := (keyCmp_neg_iff _ _).mp (keyCmp_append_sep g t)
      omega

/-- Witness of C7 on the keys of `TestSortAttrs` with a fourth key. -/
theorem sorted_keys_contiguous_witness :
    (components ((sortStableFunc isEarlierKey
        [ascii "log.data", ascii "source.func", ascii "log", ascii "log.input"]).getD 2 [])).take 1 =
      (components ((sortStableFunc isEarlierKey
        [ascii "log.data", ascii "source.func", ascii "log", ascii "log.input"]).getD 1 [])).take 1 ∧
    (∀ g t : List Nat,
      (components (g ++ groupSeparator :: t)).take (components g).length = components g ∧
      ∀ p q, p < (sortStableFunc isEarlierKey
          [ascii "log.data", ascii "source.func", ascii "log", ascii "log.input"]).length →
        q < (sortStableFunc isEarlierKey
          [ascii "log.data", ascii "source.func", ascii "log", ascii "log.input"]).length →
        (sortStableFunc isEarlierKey
          [ascii "log.data", ascii "source.func", ascii "log", ascii "log.input"]).getD p [] =
          g ++ groupSeparator :: t →
        (sortStableFunc isEarlierKey
          [ascii "log.data", ascii "source.func", ascii "log", ascii "log.input"]).getD q [] = g →
        p < q) :=
  sorted_keys_contiguous [ascii "log.data", ascii "source.func", ascii "log", ascii "log.input"]
    1 1 2 3 (by decide) (by decide) (by decide) (by decide)

/-! ## Serialization failures -/

/-- C6 (evaluation at the failing input): when serialization fails, `appendMarshal`
returns the buffer it was given without its last byte and without any
diagnostic string, and panics on an empty buffer; on a buffer that ends in the
key and colon of a member the colon is lost. -/
theorem appendMarshal_error_drops_last_byte :
    (∀ output msg : List Nat, appendMarshal output (.err msg) =
      if 1 ≤ output.length then .ok (output.take (output.length - 1)) else .error .panic) ∧
    appendMarshal (ascii "\x7b\"k\":") (.err (ascii "json: unsupported value: NaN")) =
      .ok (ascii "\x7b\"k\"") ∧
    appendMarshal [] (.err (ascii "json: unsupported value: NaN")) = .error .panic ∧
    appendMarshal (ascii "\x7b\"k\":") (.err (ascii "json: unsupported value: NaN")) ≠
      .ok (appendJsonString (ascii "\x7b\"k\":")
        (ascii "ERR!" ++ ascii "json: unsupported value: NaN")) :=
  ⟨fun _ _ => rfl, by decide⟩

/-- C5 (evaluation at the failing input): a record whose only attribute is a float
that cannot be serialized is rendered as a brace, the key and a brace, with no
colon and no value. -/
theorem resolveRecord_unserializable_float :
    resolveRecord 1 [] { isZero := true, rfc3339Nano := [] } []
        [Attr.mk (ascii "k") (.float64 (.err (ascii "json: unsupported value: NaN")))] =
      .ok (ascii "\x7b\"k\"\x7d") := by
  decide

/-! ## The encoders only append -/

theorem appendStringContentLoop_append (src : List Nat) (n : Nat) :
    ∀ (dst : List Nat) (start i : Nat),
      appendStringContentLoop n dst src start i =
        dst ++ appendStringContentLoop n [] src start i := by
  induction n with
  | zero =>
    intro dst start i
    simp [appendStringContentLoop]
  | succ n ih =>
    intro dst start i
    simp only [appendStringContentLoop]
    split
    · split
      · split
        · exact ih dst start (i + 1)
        · rw [ih (dst ++ _ ++ _), ih ([] ++ _ ++ _)]
          simp [List.append_assoc]
      · split
        · rw [ih (dst ++ _ ++ _), ih ([] ++ _ ++ _)]
          simp [List.append_assoc]
        · split
          · rw [ih (dst ++ _ ++ _), ih ([] ++ _ ++ _)]
            simp [List.append_assoc]
          · exact ih dst start _
    · simp

theorem AppendStringContent_append (dst src : List Nat) :
    AppendStringContent dst src = dst ++ AppendStringContent [] src := by
  unfold AppendStringContent
  exact appendStringContentLoop_append src src.length dst 0 0

theorem appendKey_eq (output : List Nat) (hasValue : Bool) (key : List Nat) :
    appendKey output hasValue key =
      output ++ ((if hasValue then [44] else []) ++ keyText key) := by
  unfold appendKey appendJsonString keyText
  rw [AppendStringContent_append]
  cases hasValue <;> simp [List.append_assoc]

/-! ## Separators and first components -/

theorem hasSep_nil : hasSep [] = false := rfl

theorem hasSep_cons (c : Nat) (s : List Nat) :
    hasSep (c :: s) = (c == groupSeparator || hasSep s) := by
  simp [hasSep, List.any_cons]

theorem headComp_nil : headComp [] = [] := rfl

theorem headComp_cons (c : Nat) (s : List Nat) :
    headComp (c :: s) = if c = groupSeparator then [] else c :: headComp s := by
  by_cases h : c = groupSeparator <;> simp [headComp, List.takeWhile_cons, h]

theorem indexSeparator_eq_none (s : List Nat) : indexSeparator s = none ↔ hasSep s = false := by
  induction s with
  | nil => simp [indexSeparator, hasSep_nil]
  | cons c s ih =>
    rw [hasSep_cons]
    by_cases h : c = groupSeparator
    · simp [indexSeparator, h]
    · simp [indexSeparator, h, ih]

theorem indexSeparator_eq_some (s : List Nat) (idx : Nat) (h : indexSeparator s = some idx) :
    s.take idx = headComp s ∧ hasSep s = true := by
  induction s generalizing idx with
  | nil => simp [indexSeparator] at h
  | cons c s ih =>
    rw [hasSep_cons, headComp_cons]
    by_cases hc : c = groupSeparator
    · simp [indexSeparator, hc] at h
      subst h
      simp [hc]
    · simp only [indexSeparator, hc, if_false, Option.map_eq_some'] at h
      obtain ⟨j, hj, rfl⟩ := h
      obtain ⟨h1, h2⟩ := ih j hj
      simp [hc, h1, h2]

theorem headComp_of_noSep (s : List Nat) (h : hasSep s = false) : headComp s = s := by
  induction s with
  | nil => rfl
  | cons c s ih =>
    rw [hasSep_cons] at h
    simp only [Bool.or_eq_false_iff, beq_eq_false_iff_ne, ne_eq] at h
    rw [headComp_cons, if_neg h.1, ih h.2]

theorem hasSep_headComp (s : List Nat) : hasSep (headComp s) = false := by
  induction s with
  | nil => rfl
  | cons c s ih =>
    rw [headComp_cons]
    by_cases hc : c = groupSeparator
    · simp [hc, hasSep_nil]
    · rw [if_neg hc, hasSep_cons, ih]
      simp [hc]

theorem headComp_append_sep (g u : List Nat) (hg : hasSep g = false) :
    headComp (g ++ groupSeparator :: u) = g := by
  induction g with
  | nil => simp [headComp_cons]
  | cons c g ih =>
    rw [hasSep_cons] at hg
    simp only [Bool.or_eq_false_iff, beq_eq_false_iff_ne, ne_eq] at hg
    rw [List.cons_append, headComp_cons, if_neg hg.1, ih hg.2]

theorem hasSep_append_sep (g u : List Nat) : hasSep (g ++ groupSeparator :: u) = true := by
  induction g with
  | nil => simp [hasSep_cons]
  | cons c g ih => rw [List.cons_append, hasSep_cons, ih]; simp

theorem eq_headComp_append (s : List Nat) (h : hasSep s = true) :
    s = headComp s ++ groupSeparator :: s.drop ((headComp s).length + 1) := by
  induction s with
  | nil => simp [hasSep_nil] at h
  | cons c s ih =>
    rw [headComp_cons]
    by_cases hc : c = groupSeparator
    · simp [hc]
    · rw [hasSep_cons] at h
      have hs : hasSep s = true := by simpa [hc] using h
      rw [if_neg hc]
      simp only [List.cons_append, List.length_cons, List.drop_succ_cons, List.cons.injEq,
        true_and]
      exact ih hs

theorem components_of_noSep (s : List Nat) (h : hasSep s = false) : components s = [s] := by
  induction s with
  | nil => rfl
  | cons c s ih =>
    rw [hasSep_cons] at h
    simp only [Bool.or_eq_false_iff, beq_eq_false_iff_ne, ne_eq] at h
    simp [components, h.1, ih h.2]

theorem components_append_sep_cons (g u : List Nat) (hg : hasSep g = false) :
    components (g ++ groupSeparator :: u) = g :: components u := by
  induction g with
  | nil => simp [components]
  | cons c g ih =>
    rw [hasSep_cons] at hg
    simp only [Bool.or_eq_false_iff, beq_eq_false_iff_ne, ne_eq] at hg
    simp [components, hg.1, ih hg.2]

theorem keyCmp_append_left (q a b : List Nat) : keyCmp (q ++ a) (q ++ b) = keyCmp a b := by
  induction q with
  | nil => rfl
  | cons c q ih => simp [keyCmp, ih]

theorem between_common (q : List Nat) :
    ∀ (a b c : List Nat), keyCmp (q ++ a) b ≤ 0 → keyCmp b (q ++ c) ≤ 0 →
      ∃ b', b = q ++ b' := by
  induction q with
  | nil => intro a b c _ _; exact ⟨b, rfl⟩
  | cons x q ih =>
    intro a b c hab hbc
    cases b with
    | nil => simp [keyCmp] at hbc; omega
    | cons y b =>
      simp only [List.cons_append, keyCmp] at hab hbc
      by_cases hxy : x = y
      · subst hxy
        rw [if_pos rfl] at hab hbc
        obtain ⟨b', hb'⟩ := ih a b c hab hbc
        exact ⟨b', by rw [hb']; rfl⟩
      · exfalso
        have hyx : ¬ y = x := fun e => hxy e.symm
        rw [if_neg hxy] at hab
        rw [if_neg hyx] at hbc
        split_ifs at hab hbc <;> omega

/-! ## The loop of the resolver on a sorted run -/

theorem validKey_append_sep (g u : List Nat) (hg : hasSep g = false) :
    validKey (g ++ groupSeparator :: u) ↔ g ≠ [] ∧ validKey u := by
  unfold validKey
  rw [components_append_sep_cons g u hg,
    List.dropLast_cons_of_ne_nil (components_ne_nil u), List.mem_cons]
  constructor
  · intro h
    exact ⟨fun e => h (Or.inl e.symm), fun e => h (Or.inr e)⟩
  · rintro ⟨h1, h2⟩ (e | e)
    · exact h1 e.symm
    · exact h2 e

theorem headComp_ne_nil_of_valid (s : List Nat) (hs : hasSep s = true) (hv : validKey s) :
    headComp s ≠ [] := by
  have e := eq_headComp_append s hs
  rw [e] at hv
  exact ((validKey_append_sep _ _ (hasSep_headComp s)).mp hv).1

theorem entriesAt_nested (txt : Value → List Nat) (pre g : List Nat) (fields : List Attr) :
    entriesAt txt (pre ++ (g ++ [groupSeparator])).length fields =
      stripGroup g (entriesAt txt pre.length fields) := by
  simp [entriesAt, stripGroup, List.drop_drop, Nat.add_assoc, Nat.add_comm]

theorem RunOK.nested {txt : Value → List Nat} {f0 : Nat} {pre g : List Nat}
    {fields rest : List Attr} (h : RunOK txt f0 pre (fields ++ rest))
    (hg : hasSep g = false)
    (hd : ∀ a ∈ fields, ∃ u, a.Key = pre ++ (g ++ groupSeparator :: u)) :
    RunOK txt f0 (pre ++ (g ++ [groupSeparator])) fields := by
  refine ⟨?_, ?_, ?_, ?_⟩
  · intro a ha
    obtain ⟨u, hu⟩ := hd a ha
    exact ⟨u, by rw [hu]; simp⟩
  · exact (List.pairwise_append.mp h.sorted).1
  · intro a ha
    obtain ⟨u, hu⟩ := hd a ha
    have hv := h.valid a (List.mem_append_left _ ha)
    rw [hu, List.drop_left] at hv
    have e : (pre ++ (g ++ groupSeparator :: u)).drop (pre ++ (g ++ [groupSeparator])).length
        = u := by
      have : pre ++ (g ++ groupSeparator :: u) = (pre ++ (g ++ [groupSeparator])) ++ u := by simp
      rw [this, List.drop_left]
    rw [hu, e]
    exact ((validKey_append_sep g u hg).mp hv).2
  · intro a ha
    exact h.enc a (List.mem_append_left _ ha)

theorem RunOK.tail {txt : Value → List Nat} {f0 : Nat} {pre : List Nat}
    {fields rest : List Attr} (a : Attr) (h : RunOK txt f0 pre (fields ++ a :: rest)) :
    RunOK txt f0 pre (fields ++ rest) := by
  have hsub : (fields ++ rest).Sublist (fields ++ a :: rest) :=
    List.Sublist.append_left (List.sublist_cons_self a rest) fields
  refine ⟨?_, ?_, ?_, ?_⟩
  · intro b hb; exact h.prefixed b (hsub.subset hb)
  · exact h.sorted.sublist hsub
  · intro b hb; exact h.valid b (hsub.subset hb)
  · intro b hb; exact h.enc b (hsub.subset hb)

theorem RunOK.drop_fields {txt : Value → List Nat} {f0 : Nat} {pre : List Nat}
    {fields rest : List Attr} (h : RunOK txt f0 pre (fields ++ rest)) :
    RunOK txt f0 pre rest := by
  have hsub : rest.Sublist (fields ++ rest) := List.sublist_append_right fields rest
  refine ⟨?_, ?_, ?_, ?_⟩
  · intro b hb; exact h.prefixed b (hsub.subset hb)
  · exact h.sorted.sublist hsub
  · intro b hb; exact h.valid b (hsub.subset hb)
  · intro b hb; exact h.enc b (hsub.subset hb)

theorem resolveGroupWith_flush (txt : Value → List Nat) (f0 n : Nat) (content : ContentFn)
    (hsub : ∀ out hv pre run, RunOK txt f0 pre run →
      (∀ a ∈ run, a.Key.length < pre.length + n) →
      content out hv pre.length run =
        .ok (out ++ JMembers.encode hv (tree n (entriesAt txt pre.length run))))
    (pre g : List Nat) (fields : List Attr) (out : List Nat) (hv : Bool)
    (hrun : RunOK txt f0 (pre ++ (g ++ [groupSeparator])) fields)
    (hlen : ∀ a ∈ fields, a.Key.length < pre.length + (n + 1)) :
    resolveGroupWith content (appendKey out hv g) (pre.length + g.length + 1) fields =
      .ok (out ++ ((if hv then [44] else []) ++ keyText g ++
        JTree.encode (.obj (tree n (stripGroup g (entriesAt txt pre.length fields)))))) := by
  have hl : (pre ++ (g ++ [groupSeparator])).length = pre.length + g.length + 1 := by
    simp [Nat.add_assoc]
  have h := hsub (appendKey out hv g ++ [123]) false _ fields hrun
    (by intro a ha; have := hlen a ha; rw [hl]; omega)
  rw [entriesAt_nested, hl] at h
  unfold resolveGroupWith
  rw [h]
  simp [JTree.encode, appendKey_eq, List.append_assoc, bind, Except.bind]

theorem get?_append_length {α : Type} (done : List α) (a : α) (rest : List α) :
    (done ++ a :: rest).get? done.length = some a := by
  induction done with
  | nil => rfl
  | cons d ds ih => simpa using ih

theorem get?_append_length_succ {α : Type} (done : List α) (a : α) (rest : List α) :
    (done ++ a :: rest).get? (done.length + 1) = rest.head? := by
  induction done with
  | nil => cases rest <;> rfl
  | cons d ds ih => simpa using ih

theorem take_drop_suffix {α : Type} (done fields : List α) (a : α) (rest : List α)
    (h : fields <:+ done) :
    ((done ++ a :: rest).take (done.length + 1)).drop (done.length - fields.length) =
      fields ++ [a] := by
  obtain ⟨d0, rfl⟩ := h
  have e : (d0 ++ fields ++ a :: rest).take ((d0 ++ fields).length + 1) = d0 ++ (fields ++ [a]) := by
    have : d0 ++ fields ++ a :: rest = (d0 ++ (fields ++ [a])) ++ rest := by simp
    rw [this, List.take_left']
    simp only [List.length_append, List.length_cons, List.length_nil]
    omega
  rw [e]
  have e2 : (d0 ++ fields).length - fields.length = d0.length := by simp
  rw [e2, List.drop_left]

theorem take_drop_single {α : Type} (done : List α) (a : α) (rest : List α) :
    ((done ++ a :: rest).take (done.length + 1)).drop done.length = [a] := by
  have h := take_drop_suffix done [] a rest List.nil_suffix
  simpa using h

theorem resolveIter_continue (content : ContentFn) (pre s : List Nat) (done rest : List Attr)
    (a : Attr) (st : LoopState) (hkey : a.Key = pre ++ s) (hs : hasSep s = true)
    (hg : st.currentGroup = [] ∨ st.currentGroup = headComp s)
    (hsuf : st.currentGroupFields <:+ done) :
    resolveIter content pre.length (done ++ a :: rest) st done.length =
      .ok { st with currentGroup := headComp s
                    currentGroupFields := st.currentGroupFields ++ [a] } := by
  unfold resolveIter
  rw [get?_append_length]
  have hlen : ¬ a.Key.length < pre.length := by rw [hkey]; simp
  have hdrop : a.Key.drop pre.length = s := by rw [hkey, List.drop_left]
  simp only [hlen, if_false, hdrop]
  cases hidx : indexSeparator s with
  | none => rw [(indexSeparator_eq_none s).mp hidx] at hs; exact absurd hs (by simp)
  | some idx =>
    have h1 := (indexSeparator_eq_some s idx hidx).1
    have hle : st.currentGroupFields.length ≤ done.length := hsuf.length_le
    simp only [h1, hg, if_true, hle, take_drop_suffix done _ a rest hsuf]

theorem resolveIter_flush (content : ContentFn) (pre s : List Nat) (done rest : List Attr)
    (a : Attr) (st : LoopState) (out : List Nat) (hkey : a.Key = pre ++ s)
    (hs : hasSep s = true)
    (hg : ¬ (st.currentGroup = [] ∨ st.currentGroup = headComp s))
    (hflush : resolveGroupWith content (appendKey st.output st.hasValue st.currentGroup)
      (pre.length + st.currentGroup.length + 1) st.currentGroupFields = .ok out) :
    resolveIter content pre.length (done ++ a :: rest) st done.length =
      .ok { output := out, hasValue := true, currentGroup := headComp s
            currentGroupFields := [a] } := by
  unfold resolveIter
  rw [get?_append_length]
  have hlen : ¬ a.Key.length < pre.length := by rw [hkey]; simp
  have hdrop : a.Key.drop pre.length = s := by rw [hkey, List.drop_left]
  simp only [hlen, if_false, hdrop]
  cases hidx : indexSeparator s with
  | none => rw [(indexSeparator_eq_none s).mp hidx] at hs; exact absurd hs (by simp)
  | some idx =>
    have h1 := (indexSeparator_eq_some s idx hidx).1
    simp only [h1, hg, if_false, hflush, take_drop_single, bind, Except.bind]

theorem resolveIter_override (content : ContentFn) (pre s : List Nat) (done rest : List Attr)
    (a : Attr) (st : LoopState) (out : List Nat) (hkey : a.Key = pre ++ s)
    (hs : hasSep s = false) (hg : st.currentGroup = s)
    (henc : appendJsonKVWith content st.output st.hasValue s a.Value = .ok out) :
    resolveIter content pre.length (done ++ a :: rest) st done.length =
      .ok { output := out, hasValue := true, currentGroup := [], currentGroupFields := [] } := by
  unfold resolveIter
  rw [get?_append_length]
  have hlen : ¬ a.Key.length < pre.length := by rw [hkey]; simp
  have hdrop : a.Key.drop pre.length = s := by rw [hkey, List.drop_left]
  simp only [hlen, if_false, hdrop, (indexSeparator_eq_none s).mpr hs, hg, if_true, henc,
    bind, Except.bind]

theorem resolveIter_skip (content : ContentFn) (pre s : List Nat) (done rest : List Attr)
    (a : Attr) (st : LoopState) (hkey : a.Key = pre ++ s)
    (hs : hasSep s = false) (hg : ¬ st.currentGroup = s)
    (hnext : rest.head?.map Attr.Key = some a.Key) :
    resolveIter content pre.length (done ++ a :: rest) st done.length = .ok st := by
  unfold resolveIter
  rw [get?_append_length, get?_append_length_succ]
  have hlen : ¬ a.Key.length < pre.length := by rw [hkey]; simp
  have hdrop : a.Key.drop pre.length = s := by rw [hkey, List.drop_left]
  have hl : done.length + 1 < (done ++ a :: rest).length := by
    cases rest with
    | nil => simp at hnext
    | cons b bs => simp
  simp only [hlen, if_false, hdrop, (indexSeparator_eq_none s).mpr hs, hg, hl, hnext,
    and_self, if_true]

theorem resolveIter_emit (content : ContentFn) (pre s : List Nat) (done rest : List Attr)
    (a : Attr) (st : LoopState) (out : List Nat) (hkey : a.Key = pre ++ s)
    (hs : hasSep s = false) (hg : ¬ st.currentGroup = s)
    (hnext : ¬ rest.head?.map Attr.Key = some a.Key)
    (henc : appendJsonKVWith content st.output st.hasValue s a.Value = .ok out) :
    resolveIter content pre.length (done ++ a :: rest) st done.length =
      .ok { st with output := out, hasValue := true } := by
  unfold resolveIter
  rw [get?_append_length, get?_append_length_succ]
  have hlen : ¬ a.Key.length < pre.length := by rw [hkey]; simp
  have hdrop : a.Key.drop pre.length = s := by rw [hkey, List.drop_left]
  simp only [hlen, if_false, hdrop, (indexSeparator_eq_none s).mpr hs, hg, hnext,
    and_false, henc, bind, Except.bind]

theorem noMore_after_flat (txt : Value → List Nat) (f0 : Nat) (pre g s : List Nat)
    (fields rest : List Attr) (a : Attr) (h : RunOK txt f0 pre (fields ++ a :: rest))
    (hne : fields ≠ [])
    (hd : ∀ b ∈ fields, ∃ u, b.Key = pre ++ (g ++ groupSeparator :: u))
    (hkey : a.Key = pre ++ s) (hs : hasSep s = false) :
    ∀ b ∈ rest, ¬ (hasSep (b.Key.drop pre.length) = true ∧
      headComp (b.Key.drop pre.length) = g) := by
  intro b hb ⟨hb1, hb2⟩
  obtain ⟨l, fs, rfl⟩ := List.exists_cons_of_ne_nil hne
  obtain ⟨u, hu⟩ := hd l (List.mem_cons_self l fs)
  obtain ⟨sb, hsb⟩ := h.prefixed b (by simp [hb])
  rw [hsb, List.drop_left] at hb1 hb2
  have hsb2 := eq_headComp_append sb hb1
  rw [hb2] at hsb2
  have hsort := h.sorted
  rw [List.cons_append, List.pairwise_cons] at hsort
  have h1 : keyCmp l.Key a.Key ≤ 0 := hsort.1 a (by simp)
  have h2 : keyCmp a.Key b.Key ≤ 0 := by
    have h3 := (List.pairwise_append.mp hsort.2).2.1
    rw [List.pairwise_cons] at h3
    exact h3.1 b hb
  have e1 : l.Key = (pre ++ (g ++ [groupSeparator])) ++ u := by rw [hu]; simp
  have e2 : b.Key = (pre ++ (g ++ [groupSeparator])) ++ sb.drop (g.length + 1) := by
    rw [hsb]
    conv_lhs => rw [hsb2]
    simp
  rw [e1] at h1
  rw [e2] at h2
  obtain ⟨b', hb'⟩ := between_common _ _ _ _ h1 h2
  rw [hkey, List.append_assoc] at hb'
  have e3 := List.append_cancel_left hb'
  have e4 : s = g ++ groupSeparator :: b' := by rw [e3]; simp
  rw [e4, hasSep_append_sep] at hs
  exact absurd hs (by simp)

theorem scan_continue (sub : List Entry → JMembers) (g : List Nat) (fields rest : List Entry)
    (e : Entry) (hs : hasSep e.1 = true) (hg : g = [] ∨ g = headComp e.1) :
    scan sub g fields (e :: rest) = scan sub (headComp e.1) (fields ++ [e]) rest := by
  simp [scan, hs, hg]

theorem scan_flush (sub : List Entry → JMembers) (g : List Nat) (fields rest : List Entry)
    (e : Entry) (hs : hasSep e.1 = true) (hg : ¬ (g = [] ∨ g = headComp e.1)) :
    scan sub g fields (e :: rest) =
      .cons g (.obj (sub (stripGroup g fields))) (scan sub (headComp e.1) [e] rest) := by
  simp [scan, hs, hg]

theorem scan_override (sub : List Entry → JMembers) (g : List Nat) (fields rest : List Entry)
    (e : Entry) (hs : hasSep e.1 = false) (hg : g = e.1) :
    scan sub g fields (e :: rest) = .cons e.1 (.leaf e.2) (scan sub [] [] rest) := by
  simp [scan, hs, hg]

theorem scan_skip (sub : List Entry → JMembers) (g : List Nat) (fields rest : List Entry)
    (e : Entry) (hs : hasSep e.1 = false) (hg : ¬ g = e.1)
    (hnext : rest.head?.map Prod.fst = some e.1) :
    scan sub g fields (e :: rest) = scan sub g fields rest := by
  simp only [scan, hs, hg, hnext, if_true, if_false, Bool.false_eq_true]

theorem scan_emit (sub : List Entry → JMembers) (g : List Nat) (fields rest : List Entry)
    (e : Entry) (hs : hasSep e.1 = false) (hg : ¬ g = e.1)
    (hnext : ¬ rest.head?.map Prod.fst = some e.1) :
    scan sub g fields (e :: rest) = .cons e.1 (.leaf e.2) (scan sub g fields rest) := by
  simp only [scan, hs, hg, hnext, if_true, if_false, Bool.false_eq_true]

theorem entriesAt_head (txt : Value → List Nat) (pre s : List Nat) (a : Attr)
    (rest : List Attr) (hkey : a.Key = pre ++ s)
    (hpre : ∀ b ∈ rest, ∃ sb, b.Key = pre ++ sb) :
    ((entriesAt txt pre.length rest).head?.map Prod.fst = some s) ↔
      (rest.head?.map Attr.Key = some a.Key) := by
  cases rest with
  | nil => simp [entriesAt]
  | cons b bs =>
    obtain ⟨sb, hsb⟩ := hpre b (List.mem_cons_self b bs)
    simp [entriesAt, hsb, hkey]

theorem resolveLoop_eq_scan (txt : Value → List Nat) (f0 n f : Nat) (hf : f0 ≤ f)
    (hsub : ∀ out hv pre run, RunOK txt f0 pre run →
      (∀ a ∈ run, a.Key.length < pre.length + n) →
      resolveGroupContent f out hv pre.length run =
        .ok (out ++ JMembers.encode hv (tree n (entriesAt txt pre.length run))))
    (pre : List Nat) :
    ∀ (rest done : List Attr) (st : LoopState), LoopInv txt f0 pre done rest st →
      (∀ a ∈ st.currentGroupFields ++ rest, a.Key.length < pre.length + (n + 1)) →
      (resolveLoop (resolveGroupContent f) pre.length (done ++ rest) rest.length done.length st
          >>= resolveFinish (resolveGroupContent f) pre.length) =
        .ok (st.output ++ JMembers.encode st.hasValue
          (scan (tree n) st.currentGroup (entriesAt txt pre.length st.currentGroupFields)
            (entriesAt txt pre.length rest))) := by
  intro rest
  induction rest with
  | nil =>
    intro done st inv hlen
    simp only [resolveLoop, bind, Except.bind, List.length_nil]
    unfold resolveFinish
    by_cases hg : st.currentGroup = []
    · simp [hg, scan, entriesAt, JMembers.encode]
    · rw [if_pos hg]
      have hrun := inv.ok.nested inv.noSep inv.dotted
      rw [resolveGroupWith_flush txt f0 n _ hsub pre st.currentGroup st.currentGroupFields
        st.output st.hasValue hrun (fun a ha => hlen a (by simp [ha]))]
      simp [hg, scan, entriesAt, JMembers.encode, List.append_assoc]
  | cons a rest ih =>
    intro done st inv hlen
    obtain ⟨s, hkey⟩ := inv.ok.prefixed a (by simp)
    have hdrop : a.Key.drop pre.length = s := by rw [hkey, List.drop_left]
    have hE : entriesAt txt pre.length (a :: rest) =
        (s, txt a.Value) :: entriesAt txt pre.length rest := by
      simp [entriesAt, hdrop]
    have hL : done ++ a :: rest = (done ++ [a]) ++ rest := by simp
    have hlen2 : done.length + 1 = (done ++ [a]).length := by simp
    have hencA : ∀ out, appendJsonValueWith (resolveGroupContent f) out a.Value =
        .ok (out ++ txt a.Value) := fun out => inv.ok.enc a (by simp) f hf out
    have hvalid : validKey s := by
      have := inv.ok.valid a (by simp)
      rwa [hdrop] at this
    simp only [resolveLoop, List.length_cons]
    rw [hE]
    by_cases hs : hasSep s = true
    · by_cases hg : st.currentGroup = [] ∨ st.currentGroup = headComp s
      · -- the attribute opens or continues the group
        have hsuf : st.currentGroupFields <:+ done := by
          rcases inv.suffix with h | h
          · exact h
          · rcases hg with hg | hg
            · rw [inv.emptyIff.mp hg]; exact List.nil_suffix
            · exact absurd ⟨by rw [hdrop]; exact hs, by rw [hdrop]; exact hg.symm⟩
                (h a (by simp))
        rw [resolveIter_continue _ pre s done rest a st hkey hs hg hsuf]
        simp only [bind, Except.bind]
        have hd : ∀ b ∈ st.currentGroupFields ++ [a],
            ∃ u, b.Key = pre ++ (headComp s ++ groupSeparator :: u) := by
          intro b hb
          rcases List.mem_append.mp hb with hb | hb
          · have hne : st.currentGroupFields ≠ [] := List.ne_nil_of_mem hb
            have hg2 : st.currentGroup = headComp s := by
              rcases hg with hg | hg
              · exact absurd (inv.emptyIff.mp hg) hne
              · exact hg
            rw [← hg2]; exact inv.dotted b hb
          · rw [List.mem_singleton] at hb
            subst hb
            exact ⟨s.drop ((headComp s).length + 1), by
              rw [hkey]; congr 1; exact eq_headComp_append s hs⟩
        have inv2 : LoopInv txt f0 pre (done ++ [a]) rest
            { st with currentGroup := headComp s
                      currentGroupFields := st.currentGroupFields ++ [a] } := by
          refine ⟨?_, hasSep_headComp s, hd, Or.inl ?_, ?_⟩
          · constructor
            · intro h; exact absurd h (headComp_ne_nil_of_valid s hs hvalid)
            · intro h; simp at h
          · obtain ⟨d0, hd0⟩ := hsuf
            exact ⟨d0, by rw [← hd0]; simp⟩
          · have := inv.ok
            simpa [List.append_assoc] using this
        have h := ih (done ++ [a]) _ inv2 (by
          intro b hb; exact hlen b (by simpa [List.append_assoc] using hb))
        rw [← hL, ← hlen2] at h
        simp only [bind, Except.bind] at h
        rw [h, scan_continue _ _ _ _ _ hs hg]
        simp [entriesAt, hdrop]
      · -- the attribute starts another group: the current one is flushed
        have hgne : st.currentGroup ≠ [] := fun e => hg (Or.inl e)
        have hrun := inv.ok.nested inv.noSep inv.dotted
        have hfl := resolveGroupWith_flush txt f0 n _ hsub pre st.currentGroup
          st.currentGroupFields st.output st.hasValue hrun
          (fun b hb => hlen b (by simp [hb]))
        rw [resolveIter_flush _ pre s done rest a st _ hkey hs hg hfl]
        simp only [bind, Except.bind]
        have inv2 : LoopInv txt f0 pre (done ++ [a]) rest
            { output := st.output ++ ((if st.hasValue then [44] else []) ++
                keyText st.currentGroup ++ JTree.encode (.obj (tree n
                  (stripGroup st.currentGroup
                    (entriesAt txt pre.length st.currentGroupFields))))),
              hasValue := true, currentGroup := headComp s, currentGroupFields := [a] } := by
          refine ⟨?_, hasSep_headComp s, ?_, Or.inl ?_, ?_⟩
          · constructor
            · intro h; exact absurd h (headComp_ne_nil_of_valid s hs hvalid)
            · intro h; simp at h
          · intro b hb
            rw [List.mem_singleton] at hb
            subst hb
            exact ⟨s.drop ((headComp s).length + 1), by
              rw [hkey]; congr 1; exact eq_headComp_append s hs⟩
          · exact List.suffix_append done [a]
          · exact inv.ok.drop_fields
        have h := ih (done ++ [a]) _ inv2 (by
          intro b hb; exact hlen b (by simp at hb ⊢; tauto))
        rw [← hL, ← hlen2] at h
        simp only [bind, Except.bind] at h
        rw [h, scan_flush _ _ _ _ _ hs hg]
        simp [entriesAt, hdrop, JMembers.encode, List.append_assoc]
    · have hs : hasSep s = false := by simpa using hs
      have hrest : RunOK txt f0 pre (st.currentGroupFields ++ rest) := inv.ok.tail a
      have hnoMore : st.currentGroupFields <:+ done ++ [a] ∨
          ∀ b ∈ rest, ¬ (hasSep (b.Key.drop pre.length) = true ∧
            headComp (b.Key.drop pre.length) = st.currentGroup) := by
        by_cases hF : st.currentGroupFields = []
        · rw [hF]; exact Or.inl List.nil_suffix
        · exact Or.inr (noMore_after_flat txt f0 pre st.currentGroup s _ rest a inv.ok hF
            inv.dotted hkey hs)
      by_cases hg : st.currentGroup = s
      · -- a flat attribute named as the current group overrides it
        have henc : appendJsonKVWith (resolveGroupContent f) st.output st.hasValue s a.Value =
            .ok (st.output ++ ((if st.hasValue then [44] else []) ++ keyText s ++
              txt a.Value)) := by
          unfold appendJsonKVWith
          rw [hencA, appendKey_eq]
          simp [List.append_assoc]
        rw [resolveIter_override _ pre s done rest a st _ hkey hs hg henc]
        simp only [bind, Except.bind]
        have inv2 : LoopInv txt f0 pre (done ++ [a]) rest
            { output := st.output ++ ((if st.hasValue then [44] else []) ++ keyText s ++
                txt a.Value),
              hasValue := true, currentGroup := [], currentGroupFields := [] } := by
          refine ⟨by simp, rfl, by simp, Or.inl List.nil_suffix, ?_⟩
          exact hrest.drop_fields
        have h := ih (done ++ [a]) _ inv2 (by
          intro b hb; exact hlen b (by simp at hb ⊢; tauto))
        rw [← hL, ← hlen2] at h
        simp only [bind, Except.bind] at h
        rw [h, scan_override _ _ _ _ _ hs hg]
        simp [entriesAt, JMembers.encode, JTree.encode, List.append_assoc]
      · have hpre : ∀ b ∈ rest, ∃ sb, b.Key = pre ++ sb :=
          fun b hb => inv.ok.prefixed b (by simp [hb])
        have inv2 : ∀ out hv, LoopInv txt f0 pre (done ++ [a]) rest
            { st with output := out, hasValue := hv } :=
          fun out hv => ⟨inv.emptyIff, inv.noSep, inv.dotted, hnoMore, hrest⟩
        have hlen3 : ∀ b ∈ st.currentGroupFields ++ rest,
            b.Key.length < pre.length + (n + 1) := by
          intro b hb; exact hlen b (by simp at hb ⊢; tauto)
        by_cases hnext : rest.head?.map Attr.Key = some a.Key
        · -- superseded by the next attribute
          rw [resolveIter_skip _ pre s done rest a st hkey hs hg hnext]
          simp only [bind, Except.bind]
          have h := ih (done ++ [a]) _ (inv2 st.output st.hasValue) hlen3
          rw [← hL, ← hlen2] at h
          simp only [bind, Except.bind] at h
          rw [h, scan_skip _ _ _ _ _ hs hg
            ((entriesAt_head txt pre s a rest hkey hpre).mpr hnext)]
        · -- written as a member of this level
          have henc : appendJsonKVWith (resolveGroupContent f) st.output st.hasValue s
              a.Value = .ok (st.output ++ ((if st.hasValue then [44] else []) ++ keyText s ++
                txt a.Value)) := by
            unfold appendJsonKVWith
            rw [hencA, appendKey_eq]
            simp [List.append_assoc]
          rw [resolveIter_emit _ pre s done rest a st _ hkey hs hg hnext henc]
          simp only [bind, Except.bind]
          have h := ih (done ++ [a]) _ (inv2 (st.output ++ ((if st.hasValue then [44] else []) ++
            keyText s ++ txt a.Value)) true) hlen3
          rw [← hL, ← hlen2] at h
          simp only [bind, Except.bind] at h
          rw [h, scan_emit _ _ _ _ _ hs hg
            (fun e => hnext ((entriesAt_head txt pre s a rest hkey hpre).mp e))]
          simp [JMembers.encode, JTree.encode, List.append_assoc]

theorem resolveGroupContent_eq_tree (txt : Value → List Nat) (f0 : Nat) :
    ∀ (n f : Nat) (out : List Nat) (hv : Bool) (pre : List Nat) (run : List Attr),
      RunOK txt f0 pre run → (∀ a ∈ run, a.Key.length < pre.length + n) → f0 + n + 1 ≤ f →
      resolveGroupContent f out hv pre.length run =
        .ok (out ++ JMembers.encode hv (tree n (entriesAt txt pre.length run))) := by
  intro n
  induction n with
  | zero =>
    intro f out hv pre run hrun hlen hf
    have hnil : run = [] := by
      cases run with
      | nil => rfl
      | cons a rest =>
        exfalso
        obtain ⟨s, hs⟩ := hrun.prefixed a (by simp)
        have := hlen a (by simp)
        rw [hs] at this
        simp at this
    subst hnil
    obtain ⟨f', rfl⟩ : ∃ f', f = f' + 1 := ⟨f - 1, by omega⟩
    simp [resolveGroupContent, resolveLoop, resolveFinish, tree, JMembers.encode, bind,
      Except.bind]
  | succ n ih =>
    intro f out hv pre run hrun hlen hf
    obtain ⟨f', rfl⟩ : ∃ f', f = f' + 1 := ⟨f - 1, by omega⟩
    have hsub : ∀ out hv pre run, RunOK txt f0 pre run →
        (∀ a ∈ run, a.Key.length < pre.length + n) →
        resolveGroupContent f' out hv pre.length run =
          .ok (out ++ JMembers.encode hv (tree n (entriesAt txt pre.length run))) :=
      fun out hv pre run h1 h2 => ih f' out hv pre run h1 h2 (by omega)
    have inv : LoopInv txt f0 pre [] run
        { output := out, hasValue := hv, currentGroup := [], currentGroupFields := [] } :=
      ⟨by simp, rfl, by simp, Or.inl List.nil_suffix, by simpa using hrun⟩
    have h := resolveLoop_eq_scan txt f0 n f' (by omega) hsub pre run [] _ inv
      (by simpa using hlen)
    simp only [List.nil_append, List.length_nil] at h
    simp only [resolveGroupContent, tree]
    rw [h]
    simp [entriesAt]

/-! ## The tree of a sorted run and the dot-path hierarchy -/

theorem JMembers.lookup_of_not_has :
    ∀ (m : JMembers) (k : List Nat) (path : List (List Nat)),
      JMembers.has m k = false → JMembers.lookup m k path = none
  | .nil, _, _, _ => by simp [JMembers.lookup]
  | .cons name v rest, k, path, h => by
    simp only [JMembers.has, Bool.or_eq_false_iff, beq_eq_false_iff_ne, ne_eq] at h
    simp [JMembers.lookup, h.1, h.2]

theorem JMembers.lookup_cons (name : List Nat) (v : JTree) (rest : JMembers) (k : List Nat)
    (path : List (List Nat)) :
    JMembers.lookup (.cons name v rest) k path =
      if name = k ∧ JMembers.has rest k = false then JTree.lookup v path
      else JMembers.lookup rest k path := by
  simp only [JMembers.lookup]
  by_cases h : JMembers.has rest k = true
  · simp [h]
  · have h2 : JMembers.has rest k = false := by simpa using h
    by_cases h3 : name = k
    · simp [h2, h3]
    · simp [h2, h3, JMembers.lookup_of_not_has rest k path h2]

theorem headComp_eq_of_eq_noSep (s k : List Nat) (h : s = k) (hk : hasSep k = false) :
    headComp s = k := by
  rw [h]; exact headComp_of_noSep k hk

theorem filter_key_block (E : List Entry) (k : List Nat) (hk : hasSep k = false) :
    E.filter (fun e => e.1 == k) =
      (E.filter (fun e => headComp e.1 == k)).filter (fun e => e.1 == k) := by
  rw [List.filter_filter]
  apply List.filter_congr
  intro e _
  by_cases h : e.1 = k
  · simp [h, headComp_of_noSep k hk]
  · simp [h]

theorem filter_sub_block (E : List Entry) (k : List Nat) :
    E.filter (fun e => hasSep e.1 && headComp e.1 == k) =
      (E.filter (fun e => headComp e.1 == k)).filter
        (fun e => hasSep e.1 && headComp e.1 == k) := by
  rw [List.filter_filter]
  apply List.filter_congr
  intro e _
  by_cases h : headComp e.1 = k <;> simp [h]

theorem specLookup_congr (E E2 : List Entry) (k : List Nat) (path : List (List Nat))
    (h : E.filter (fun e => headComp e.1 == k) = E2.filter (fun e => headComp e.1 == k)) :
    specLookup E (k :: path) = specLookup E2 (k :: path) := by
  by_cases hk : hasSep k = true
  · cases path <;> simp [specLookup, hk]
  · have hk : hasSep k = false := by simpa using hk
    have h1 : E.filter (fun e => e.1 == k) = E2.filter (fun e => e.1 == k) := by
      rw [filter_key_block E k hk, filter_key_block E2 k hk, h]
    have h2 : subEntries E k = subEntries E2 k := by
      unfold subEntries
      rw [filter_sub_block E k, filter_sub_block E2 k, h]
    have h3 : E.any (fun e => e.1 == k) = E2.any (fun e => e.1 == k) := by
      have e1 : ∀ (l : List Entry), l.any (fun e => e.1 == k) =
          !(l.filter (fun e => e.1 == k)).isEmpty := by
        intro l
        induction l with
        | nil => rfl
        | cons x xs ih =>
          by_cases hx : x.1 = k <;> simp [List.filter_cons, hx, ih]
      rw [e1, e1, h1]
    cases path with
    | nil => simp [specLookup, hk, flatLast, h1]
    | cons k2 path => simp only [specLookup, hk, h2, h3]

theorem components_take_one (s : List Nat) : (components s).take 1 = [headComp s] := by
  induction s with
  | nil => rfl
  | cons c s ih =>
    rw [headComp_cons]
    by_cases hc : c = groupSeparator
    · subst hc
      rw [components_cons_sep]
      simp
    · obtain ⟨h, t, e1, e2⟩ := components_cons_ne c s hc
      rw [e2, if_neg hc]
      rw [e1] at ih
      simp only [List.take_succ_cons, List.take_zero, List.cons.injEq, and_true] at ih ⊢
      simp [ih]

theorem headComp_between (a b c : List Nat) (hab : keyCmp a b ≤ 0) (hbc : keyCmp b c ≤ 0)
    (h : headComp a = headComp c) : headComp b = headComp a := by
  have h1 := take_components_between a b c 1 hab hbc
    (by rw [components_take_one, components_take_one, h])
  rw [components_take_one, components_take_one] at h1
  simpa using h1

theorem keyCmp_antisymm (a b : List Nat) (hab : keyCmp a b ≤ 0) (hba : keyCmp b a ≤ 0) :
    a = b := by
  rcases Int.lt_or_le (keyCmp a b) 0 with h | h
  · have := (keyCmp_neg_iff a b).mp h
    omega
  · exact (keyCmp_eq_zero a b).mp (by omega)

theorem flat_after (s x : List Nat) (h : keyCmp s x ≤ 0) (hx : headComp x = s) : x = s := by
  by_cases hs : hasSep x = true
  · exfalso
    have e := eq_headComp_append x hs
    rw [hx] at e
    rw [e] at h
    have := (keyCmp_neg_iff _ _).mp (keyCmp_append_sep s (x.drop (s.length + 1)))
    omega
  · have hs : hasSep x = false := by simpa using hs
    rw [← hx, headComp_of_noSep x hs]

theorem block_end (F rest : List Entry) (e l : Entry)
    (hsort : (F ++ e :: rest).Pairwise (fun a b => keyCmp a.1 b.1 ≤ 0)) (hl : l ∈ F)
    (he : headComp e.1 ≠ headComp l.1) :
    ∀ x ∈ rest, headComp x.1 ≠ headComp l.1 := by
  intro x hx hxl
  have h1 : keyCmp l.1 e.1 ≤ 0 := (List.pairwise_append.mp hsort).2.2 l hl e (by simp)
  have h2 : keyCmp e.1 x.1 ≤ 0 := by
    have h3 := (List.pairwise_append.mp hsort).2.1
    rw [List.pairwise_cons] at h3
    exact h3.1 x hx
  exact he (headComp_between l.1 e.1 x.1 h1 h2 hxl.symm)

theorem adjacent_key (e : Entry) (rest : List Entry)
    (hsort : (e :: rest).Pairwise (fun a b => keyCmp a.1 b.1 ≤ 0)) (x : Entry) (hx : x ∈ rest)
    (hxe : x.1 = e.1) : rest.head?.map Prod.fst = some e.1 := by
  cases rest with
  | nil => simp at hx
  | cons y ys =>
    rw [List.pairwise_cons, List.pairwise_cons] at hsort
    have h1 : keyCmp e.1 y.1 ≤ 0 := hsort.1 y (by simp)
    have h2 : keyCmp y.1 e.1 ≤ 0 := by
      rcases List.mem_cons.mp hx with rfl | hx
      · rw [hxe, keyCmp_self]
      · rw [← hxe]; exact hsort.2.1 x hx
    simp [keyCmp_antisymm y.1 e.1 h2 h1]

theorem dotted_headComp (g u : List Nat) (e : Entry) (hg : hasSep g = false)
    (h : e.1 = g ++ groupSeparator :: u) : headComp e.1 = g ∧ hasSep e.1 = true ∧ e.1 ≠ g := by
  refine ⟨by rw [h, headComp_append_sep g u hg], by rw [h, hasSep_append_sep], ?_⟩
  intro e2
  rw [e2] at h
  have := congrArg List.length h
  simp at this

theorem filter_block_self (g : List Nat) (F : List Entry) (hg : hasSep g = false)
    (hd : ∀ e ∈ F, ∃ u, e.1 = g ++ groupSeparator :: u) :
    F.filter (fun e => headComp e.1 == g) = F := by
  rw [List.filter_eq_self]
  intro e he
  obtain ⟨u, hu⟩ := hd e he
  simp [(dotted_headComp g u e hg hu).1]

theorem filter_block_ne (g k : List Nat) (F : List Entry) (hg : hasSep g = false)
    (hd : ∀ e ∈ F, ∃ u, e.1 = g ++ groupSeparator :: u) (hk : ¬ g = k) :
    F.filter (fun e => headComp e.1 == k) = [] := by
  rw [List.filter_eq_nil_iff]
  intro e he
  obtain ⟨u, hu⟩ := hd e he
  simp [(dotted_headComp g u e hg hu).1, hk]

theorem filter_block_nil_of_forall (k : List Nat) (E : List Entry)
    (h : ∀ e ∈ E, headComp e.1 ≠ k) : E.filter (fun e => headComp e.1 == k) = [] := by
  rw [List.filter_eq_nil_iff]
  intro e he
  simp [h e he]

theorem specLookup_nil (path : List (List Nat)) : specLookup [] path = none := by
  match path with
  | [] => rfl
  | [k] => simp [specLookup, flatLast]
  | k :: k2 :: path =>
    simp only [specLookup, List.any_nil, Bool.or_false]
    split
    · rfl
    · simp only [subEntries, stripGroup, List.filter_nil, List.map_nil]
      exact specLookup_nil (k2 :: path)

theorem flatLast_append (A B : List Entry) (k : List Nat) :
    flatLast (A ++ B) k = (flatLast B k).or (flatLast A k) := by
  unfold flatLast
  rw [List.filter_append]
  cases hB : B.filter (fun e => e.1 == k) with
  | nil => simp
  | cons b bs =>
    rw [List.getLast?_append_of_ne_nil _ (by simp)]
    cases h : (b :: bs).getLast? with
    | none => simp at h
    | some x => simp

theorem flatLast_of_mem (B : List Entry) (k : List Nat) (x : Entry) (hx : x ∈ B)
    (hk : x.1 = k) : ∃ t, flatLast B k = some t := by
  unfold flatLast
  have hmem : x ∈ B.filter (fun e => e.1 == k) := by
    rw [List.mem_filter]; exact ⟨hx, by simp [hk]⟩
  cases h : (B.filter (fun e => e.1 == k)).getLast? with
  | none =>
    rw [List.getLast?_eq_none_iff] at h
    rw [h] at hmem
    simp at hmem
  | some y => exact ⟨y.2, rfl⟩

theorem any_key_of_mem (B : List Entry) (k : List Nat) (x : Entry) (hx : x ∈ B)
    (hk : x.1 = k) : B.any (fun e => e.1 == k) = true := by
  rw [List.any_eq_true]
  exact ⟨x, hx, by simp [hk]⟩

theorem specLookup_append_of_mem (A B : List Entry) (k : List Nat) (path : List (List Nat))
    (x : Entry) (hx : x ∈ B) (hk : x.1 = k) :
    specLookup (A ++ B) (k :: path) = specLookup B (k :: path) := by
  cases path with
  | nil =>
    obtain ⟨t, ht⟩ := flatLast_of_mem B k x hx hk
    simp [specLookup, flatLast_append, ht]
  | cons k2 path =>
    simp [specLookup, any_key_of_mem B k x hx hk]

theorem specLookup_flat_last (A : List Entry) (e : Entry) (path : List (List Nat))
    (hs : hasSep e.1 = false) :
    specLookup (A ++ [e]) (e.1 :: path) = JTree.lookup (.leaf e.2) path := by
  cases path with
  | nil => simp [specLookup, hs, flatLast_append, flatLast, JTree.lookup]
  | cons k2 path => simp [specLookup, JTree.lookup]

theorem specLookup_skip (A r : List Entry) (e y : Entry) (hy : y.1 = e.1)
    (hs : hasSep e.1 = false) (k : List Nat) (path : List (List Nat)) :
    specLookup (A ++ e :: y :: r) (k :: path) = specLookup (A ++ y :: r) (k :: path) := by
  have hfl : flatLast (A ++ e :: y :: r) k = flatLast (A ++ y :: r) k := by
    have e1 : A ++ e :: y :: r = (A ++ [e]) ++ (y :: r) := by simp
    rw [e1, flatLast_append, flatLast_append, flatLast_append]
    by_cases hk : e.1 = k
    · obtain ⟨t, ht⟩ := flatLast_of_mem (y :: r) k y (by simp) (by rw [hy, hk])
      simp [ht]
    · simp [flatLast, hk]
  have hany : (A ++ e :: y :: r).any (fun x => x.1 == k) =
      (A ++ y :: r).any (fun x => x.1 == k) := by
    by_cases hk : e.1 = k
    · simp [List.any_append, hk, hy]
    · have hk2 : (e.1 == k) = false := by simpa using hk
      simp [List.any_append, hk2]
  have hsub : subEntries (A ++ e :: y :: r) k = subEntries (A ++ y :: r) k := by
    simp [subEntries, List.filter_append, List.filter_cons, hs]
  cases path with
  | nil => simp [specLookup, hfl]
  | cons k2 path => simp only [specLookup, hany, hsub]

theorem drop_dotted (g u : List Nat) : (g ++ groupSeparator :: u).drop (g.length + 1) = u := by
  have : g ++ groupSeparator :: u = (g ++ [groupSeparator]) ++ u := by simp
  rw [this]
  exact List.drop_left' (by simp)

theorem EntriesOK.strip {g : List Nat} {F : List Entry} (h : EntriesOK F)
    (hg : hasSep g = false) (hd : ∀ e ∈ F, ∃ u, e.1 = g ++ groupSeparator :: u) :
    EntriesOK (stripGroup g F) := by
  refine ⟨?_, ?_⟩
  · unfold stripGroup
    rw [List.pairwise_map]
    refine List.Pairwise.imp_of_mem ?_ h.sorted
    intro a b ha hb hab
    obtain ⟨u, hu⟩ := hd a ha
    obtain ⟨w, hw⟩ := hd b hb
    rw [hu, hw] at hab
    simp only [hu, hw, drop_dotted]
    have e1 : g ++ groupSeparator :: u = (g ++ [groupSeparator]) ++ u := by simp
    have e2 : g ++ groupSeparator :: w = (g ++ [groupSeparator]) ++ w := by simp
    rw [e1, e2, keyCmp_append_left] at hab
    exact hab
  · intro e he
    unfold stripGroup at he
    rw [List.mem_map] at he
    obtain ⟨a, ha, rfl⟩ := he
    obtain ⟨u, hu⟩ := hd a ha
    have hv := h.valid a ha
    rw [hu] at hv
    simp only [hu, drop_dotted]
    exact ((validKey_append_sep g u hg).mp hv).2

theorem stripGroup_length (g : List Nat) (F : List Entry) (n : Nat)
    (hd : ∀ e ∈ F, ∃ u, e.1 = g ++ groupSeparator :: u)
    (hlen : ∀ e ∈ F, e.1.length < n + 1) : ∀ e ∈ stripGroup g F, e.1.length < n := by
  intro e he
  unfold stripGroup at he
  rw [List.mem_map] at he
  obtain ⟨a, ha, rfl⟩ := he
  obtain ⟨u, hu⟩ := hd a ha
  have := hlen a ha
  rw [hu] at this
  simp only [hu, drop_dotted]
  simp at this
  omega

theorem flush_lookup (sub : List Entry → JMembers) (n : Nat)
    (hsub : ∀ E, EntriesOK E → (∀ e ∈ E, e.1.length < n) →
      ∀ k path, JMembers.lookup (sub E) k path = specLookup E (k :: path))
    (g : List Nat) (F : List Entry) (hF : EntriesOK F) (hg : hasSep g = false)
    (hd : ∀ e ∈ F, ∃ u, e.1 = g ++ groupSeparator :: u)
    (hlen : ∀ e ∈ F, e.1.length < n + 1) (path : List (List Nat)) :
    JTree.lookup (.obj (sub (stripGroup g F))) path = specLookup F (g :: path) := by
  have hnone : ∀ e ∈ F, ¬ e.1 = g := by
    intro e he
    obtain ⟨u, hu⟩ := hd e he
    exact (dotted_headComp g u e hg hu).2.2
  cases path with
  | nil =>
    have : F.filter (fun e => e.1 == g) = [] := by
      rw [List.filter_eq_nil_iff]
      intro e he
      simp [hnone e he]
    simp [JTree.lookup, specLookup, hg, flatLast, this]
  | cons k2 path =>
    have hany : F.any (fun e => e.1 == g) = false := by
      rw [List.any_eq_false]
      intro e he
      simp [hnone e he]
    have hfil : F.filter (fun e => hasSep e.1 && headComp e.1 == g) = F := by
      rw [List.filter_eq_self]
      intro e he
      obtain ⟨u, hu⟩ := hd e he
      have := dotted_headComp g u e hg hu
      simp [this.1, this.2.1]
    simp only [JTree.lookup, specLookup, hg, hany, Bool.or_self, Bool.false_eq_true, if_false,
      subEntries, hfil]
    exact hsub _ (hF.strip hg hd) (stripGroup_length g F n hd hlen) k2 path

theorem EntriesOK.sublist {E E2 : List Entry} (h : EntriesOK E) (hs : E2.Sublist E) :
    EntriesOK E2 :=
  ⟨h.sorted.sublist hs, fun e he => h.valid e (hs.subset he)⟩

theorem exists_fields_headComp (g k : List Nat) (F : List Entry) (hg : hasSep g = false)
    (hd : ∀ e ∈ F, ∃ u, e.1 = g ++ groupSeparator :: u) (hne : F ≠ []) :
    (∃ e ∈ F, headComp e.1 = k) ↔ g = k := by
  constructor
  · rintro ⟨e, he, hk⟩
    obtain ⟨u, hu⟩ := hd e he
    rw [← hk, (dotted_headComp g u e hg hu).1]
  · intro hk
    obtain ⟨l, fs, rfl⟩ := List.exists_cons_of_ne_nil hne
    obtain ⟨u, hu⟩ := hd l (by simp)
    exact ⟨l, by simp, by rw [← hk, (dotted_headComp g u l hg hu).1]⟩

theorem scan_spec (sub : List Entry → JMembers) (n : Nat)
    (hsub : ∀ E, EntriesOK E → (∀ e ∈ E, e.1.length < n) →
      ∀ k path, JMembers.lookup (sub E) k path = specLookup E (k :: path)) :
    ∀ (rest : List Entry) (g : List Nat) (F : List Entry), ScanInv g F rest →
      (∀ e ∈ F ++ rest, e.1.length < n + 1) →
      (∀ k, JMembers.has (scan sub g F rest) k = true ↔ ∃ e ∈ F ++ rest, headComp e.1 = k) ∧
      (∀ k path, JMembers.lookup (scan sub g F rest) k path =
        specLookup (F ++ rest) (k :: path)) := by
  intro rest
  induction rest with
  | nil =>
    intro g F inv hlen
    have hF : EntriesOK F := by simpa using inv.ok
    by_cases hg : g = []
    · have hFnil := inv.emptyIff.mp hg
      subst hFnil
      simp [scan, hg, JMembers.has, JMembers.lookup, specLookup_nil]
    · have hne : F ≠ [] := fun e => hg (inv.emptyIff.mpr e)
      have hscan : scan sub g F [] = .cons g (.obj (sub (stripGroup g F))) .nil := by
        simp [scan, hg]
      rw [hscan, List.append_nil]
      refine ⟨?_, ?_⟩
      · intro k
        rw [exists_fields_headComp g k F inv.noSep inv.dotted hne]
        simp [JMembers.has]
      · intro k path
        rw [JMembers.lookup_cons]
        by_cases hk : g = k
        · subst hk
          simp only [JMembers.has, and_self, if_true]
          exact flush_lookup sub n hsub g F hF inv.noSep inv.dotted
            (fun e he => hlen e (by simp [he])) path
        · simp only [hk, false_and, if_false, JMembers.lookup]
          rw [specLookup_congr F [] k path (by
            rw [filter_block_ne g k F inv.noSep inv.dotted hk]; rfl), specLookup_nil]
  | cons e rest ih =>
    intro g F inv hlen
    have hsorted := inv.ok.sorted
    have hvalid : validKey e.1 := inv.ok.valid e (by simp)
    have hrestOK : EntriesOK (e :: rest) :=
      inv.ok.sublist (List.sublist_append_right F (e :: rest))
    have hFOK : EntriesOK F := inv.ok.sublist (List.sublist_append_left F (e :: rest))
    have hlenF : ∀ x ∈ F, x.1.length < n + 1 := fun x hx => hlen x (by simp [hx])
    by_cases hs : hasSep e.1 = true
    · by_cases hg : g = [] ∨ g = headComp e.1
      · -- the entry opens or continues the group
        rw [scan_continue sub g F rest e hs hg]
        have hd : ∀ x ∈ F ++ [e], ∃ u, x.1 = headComp e.1 ++ groupSeparator :: u := by
          intro x hx
          rcases List.mem_append.mp hx with hx | hx
          · have hne : F ≠ [] := List.ne_nil_of_mem hx
            have hg2 : g = headComp e.1 := by
              rcases hg with hg | hg
              · exact absurd (inv.emptyIff.mp hg) hne
              · exact hg
            rw [← hg2]; exact inv.dotted x hx
          · rw [List.mem_singleton] at hx
            subst hx
            exact ⟨_, eq_headComp_append x.1 hs⟩
        have inv2 : ScanInv (headComp e.1) (F ++ [e]) rest := by
          refine ⟨by simpa [List.append_assoc] using inv.ok, ?_, hasSep_headComp e.1, hd⟩
          constructor
          · intro h; exact absurd h (headComp_ne_nil_of_valid e.1 hs hvalid)
          · intro h; simp at h
        have h := ih (headComp e.1) (F ++ [e]) inv2 (by
          intro x hx; exact hlen x (by simpa [List.append_assoc] using hx))
        simpa [List.append_assoc] using h
      · -- the entry starts another group: the current one is written
        rw [scan_flush sub g F rest e hs hg]
        have hgne : g ≠ [] := fun h => hg (Or.inl h)
        have hne : F ≠ [] := fun h => hgne (inv.emptyIff.mpr h)
        have hge : ¬ g = headComp e.1 := fun h => hg (Or.inr h)
        have inv2 : ScanInv (headComp e.1) [e] rest := by
          refine ⟨hrestOK, ?_, hasSep_headComp e.1, ?_⟩
          · constructor
            · intro h; exact absurd h (headComp_ne_nil_of_valid e.1 hs hvalid)
            · intro h; simp at h
          · intro x hx
            rw [List.mem_singleton] at hx
            subst hx
            exact ⟨_, eq_headComp_append x.1 hs⟩
        obtain ⟨ihHas, ihLook⟩ := ih (headComp e.1) [e] inv2 (by
          intro x hx; exact hlen x (by simp at hx ⊢; tauto))
        have hnoG : ∀ x ∈ e :: rest, headComp x.1 ≠ g := by
          obtain ⟨l, fs, hl⟩ := List.exists_cons_of_ne_nil hne
          have hlmem : l ∈ F := by rw [hl]; simp
          obtain ⟨u, hu⟩ := inv.dotted l hlmem
          have hlg : headComp l.1 = g := (dotted_headComp g u l inv.noSep hu).1
          intro x hx
          rcases List.mem_cons.mp hx with rfl | hx
          · exact fun h => hge h.symm
          · have := block_end F rest e l hsorted hlmem (by rw [hlg]; exact fun h => hge h.symm)
              x hx
            rwa [hlg] at this
        refine ⟨?_, ?_⟩
        · intro k
          simp only [JMembers.has, Bool.or_eq_true, beq_iff_eq, ihHas k]
          constructor
          · rintro (h | ⟨x, hx, hk⟩)
            · obtain ⟨x, hx, hk⟩ :=
                (exists_fields_headComp g k F inv.noSep inv.dotted hne).mpr h
              exact ⟨x, by simp [hx], hk⟩
            · exact ⟨x, by simp at hx ⊢; tauto, hk⟩
          · rintro ⟨x, hx, hk⟩
            rcases List.mem_append.mp hx with hx | hx
            · exact Or.inl ((exists_fields_headComp g k F inv.noSep inv.dotted hne).mp
                ⟨x, hx, hk⟩)
            · exact Or.inr ⟨x, by simpa using hx, hk⟩
        · intro k path
          rw [JMembers.lookup_cons]
          by_cases hk : g = k
          · subst hk
            have hh : JMembers.has (scan sub (headComp e.1) [e] rest) g = false := by
              rw [Bool.eq_false_iff]
              intro h
              obtain ⟨x, hx, hxk⟩ := (ihHas g).mp h
              exact hnoG x (by simpa using hx) hxk
            simp only [hh, and_self, if_true]
            rw [flush_lookup sub n hsub g F hFOK inv.noSep inv.dotted hlenF path]
            apply specLookup_congr
            rw [List.filter_append, filter_block_nil_of_forall g (e :: rest) hnoG,
              List.append_nil]
          · simp only [hk, false_and, if_false]
            rw [ihLook k path]
            apply specLookup_congr
            rw [List.filter_append F, filter_block_ne g k F inv.noSep inv.dotted hk]
            simp
    · have hs : hasSep e.1 = false := by simpa using hs
      have hce : headComp e.1 = e.1 := headComp_of_noSep e.1 hs
      have hrestOK2 : EntriesOK rest := hrestOK.sublist (List.sublist_cons_self e rest)
      have hflat : ∀ x ∈ rest, headComp x.1 = e.1 → x.1 = e.1 := by
        intro x hx hxe
        have h1 := hrestOK.sorted
        rw [List.pairwise_cons] at h1
        exact flat_after e.1 x.1 (h1.1 x hx) hxe
      by_cases hg : g = e.1
      · -- a flat entry named as the open group overrides it
        rw [scan_override sub g F rest e hs hg]
        have inv2 : ScanInv [] [] rest := ⟨hrestOK2, by simp, rfl, by simp⟩
        obtain ⟨ihHas, ihLook⟩ := ih [] [] inv2 (by
          intro x hx; exact hlen x (by simp at hx ⊢; tauto))
        simp only [List.nil_append] at ihHas ihLook
        refine ⟨?_, ?_⟩
        · intro k
          simp only [JMembers.has, Bool.or_eq_true, beq_iff_eq, ihHas k]
          constructor
          · rintro (h | ⟨x, hx, hk⟩)
            · exact ⟨e, by simp, by rw [hce, h]⟩
            · exact ⟨x, by simp [hx], hk⟩
          · rintro ⟨x, hx, hk⟩
            rcases List.mem_append.mp hx with hx | hx
            · obtain ⟨u, hu⟩ := inv.dotted x hx
              left
              rw [← hk, (dotted_headComp g u x inv.noSep hu).1, hg]
            · rcases List.mem_cons.mp hx with rfl | hx
              · left; rw [← hk, hce]
              · exact Or.inr ⟨x, hx, hk⟩
        · intro k path
          rw [JMembers.lookup_cons]
          by_cases hk : e.1 = k
          · subst hk
            by_cases hM : JMembers.has (scan sub [] [] rest) e.1 = true
            · simp only [hM, Bool.true_eq_false, and_false, if_false]
              obtain ⟨x, hx, hxk⟩ := (ihHas e.1).mp hM
              have hxe := hflat x hx hxk
              rw [ihLook]
              have e1 : F ++ e :: rest = (F ++ [e]) ++ rest := by simp
              rw [e1, specLookup_append_of_mem _ rest e.1 path x hx hxe]
            · have hM : JMembers.has (scan sub [] [] rest) e.1 = false := by simpa using hM
              simp only [hM, and_self, if_true]
              have hnone : ∀ x ∈ rest, headComp x.1 ≠ e.1 := by
                intro x hx hxk
                have := (ihHas e.1).mpr ⟨x, hx, hxk⟩
                rw [hM] at this
                exact absurd this (by simp)
              rw [← specLookup_flat_last F e path hs]
              apply specLookup_congr
              simp only [List.filter_append, List.filter_cons,
                filter_block_nil_of_forall e.1 rest hnone, List.filter_nil]
          · simp only [hk, false_and, if_false]
            rw [ihLook k path]
            apply specLookup_congr
            rw [List.filter_append F, filter_block_ne g k F inv.noSep inv.dotted
              (by rw [hg]; exact hk)]
            simp [List.filter_cons, hce, hk]
      · have inv2 : ScanInv g F rest :=
          ⟨inv.ok.sublist (List.Sublist.append_left (List.sublist_cons_self e rest) F),
            inv.emptyIff, inv.noSep, inv.dotted⟩
        obtain ⟨ihHas, ihLook⟩ := ih g F inv2 (by
          intro x hx; exact hlen x (by simp at hx ⊢; tauto))
        by_cases hnext : rest.head?.map Prod.fst = some e.1
        · -- superseded by the next entry
          rw [scan_skip sub g F rest e hs hg hnext]
          cases rest with
          | nil => simp at hnext
          | cons y r =>
            have hy : y.1 = e.1 := by simpa using hnext
            refine ⟨?_, ?_⟩
            · intro k
              rw [ihHas k]
              constructor
              · rintro ⟨x, hx, hxk⟩
                exact ⟨x, by simp at hx ⊢; tauto, hxk⟩
              · rintro ⟨x, hx, hxk⟩
                rcases List.mem_append.mp hx with hx | hx
                · exact ⟨x, by simp [hx], hxk⟩
                · rcases List.mem_cons.mp hx with rfl | hx
                  · exact ⟨y, by simp, by rw [hy]; exact hxk⟩
                  · exact ⟨x, by simp at hx ⊢; tauto, hxk⟩
            · intro k path
              rw [ihLook k path, specLookup_skip F r e y hy hs k path]
        · -- written as a member of this level
          rw [scan_emit sub g F rest e hs hg hnext]
          have hnone : ∀ x ∈ F ++ rest, headComp x.1 ≠ e.1 := by
            intro x hx hxk
            rcases List.mem_append.mp hx with hx | hx
            · obtain ⟨u, hu⟩ := inv.dotted x hx
              rw [(dotted_headComp g u x inv.noSep hu).1] at hxk
              exact hg hxk
            · exact hnext (adjacent_key e rest hrestOK.sorted x hx (hflat x hx hxk))
          refine ⟨?_, ?_⟩
          · intro k
            simp only [JMembers.has, Bool.or_eq_true, beq_iff_eq, ihHas k]
            constructor
            · rintro (h | ⟨x, hx, hk⟩)
              · exact ⟨e, by simp, by rw [hce, h]⟩
              · exact ⟨x, by simp at hx ⊢; tauto, hk⟩
            · rintro ⟨x, hx, hk⟩
              rcases List.mem_append.mp hx with hx | hx
              · exact Or.inr ⟨x, by simp [hx], hk⟩
              · rcases List.mem_cons.mp hx with rfl | hx
                · left; rw [← hk, hce]
                · exact Or.inr ⟨x, by simp [hx], hk⟩
          · intro k path
            rw [JMembers.lookup_cons]
            by_cases hk : e.1 = k
            · subst hk
              have hM : JMembers.has (scan sub g F rest) e.1 = false := by
                rw [Bool.eq_false_iff]
                intro h
                obtain ⟨x, hx, hxk⟩ := (ihHas e.1).mp h
                exact hnone x hx hxk
              simp only [hM, and_self, if_true]
              rw [← specLookup_flat_last [] e path hs]
              apply specLookup_congr
              have h1 : F.filter (fun x => headComp x.1 == e.1) = [] :=
                filter_block_nil_of_forall e.1 F (fun x hx => hnone x (by simp [hx]))
              have h2 : rest.filter (fun x => headComp x.1 == e.1) = [] :=
                filter_block_nil_of_forall e.1 rest (fun x hx => hnone x (by simp [hx]))
              simp [List.filter_append, List.filter_cons, h1, h2, hce]
            · simp only [hk, false_and, if_false]
              rw [ihLook k path]
              apply specLookup_congr
              simp [List.filter_append, List.filter_cons, hce, hk]

theorem tree_spec : ∀ (n : Nat) (E : List Entry), EntriesOK E → (∀ e ∈ E, e.1.length < n) →
    ∀ k path, JMembers.lookup (tree n E) k path = specLookup E (k :: path) := by
  intro n
  induction n with
  | zero =>
    intro E _ hlen k path
    cases E with
    | nil => simp [tree, JMembers.lookup, specLookup_nil]
    | cons e es => exact absurd (hlen e (by simp)) (by omega)
  | succ n ih =>
    intro E hE hlen k path
    have inv : ScanInv [] [] E := ⟨by simpa using hE, by simp, rfl, by simp⟩
    have h := (scan_spec (tree n) n ih E [] [] inv (by simpa using hlen)).2 k path
    simpa [tree] using h

/-! ## The hierarchy and the surviving keys -/

theorem components_eq_singleton (key k : List Nat) :
    components key = [k] ↔ key = k ∧ hasSep k = false := by
  constructor
  · intro h
    by_cases hs : hasSep key = true
    · exfalso
      have e := eq_headComp_append key hs
      rw [e, components_append_sep_cons _ _ (hasSep_headComp key)] at h
      simp only [List.cons.injEq] at h
      exact components_ne_nil _ h.2
    · have hs : hasSep key = false := by simpa using hs
      rw [components_of_noSep key hs] at h
      simp only [List.cons.injEq, and_true] at h
      exact ⟨h, by rw [← h]; exact hs⟩
  · rintro ⟨rfl, hs⟩
    exact components_of_noSep key hs

theorem components_eq_cons_cons (key k k2 : List Nat) (path : List (List Nat)) :
    components key = k :: k2 :: path ↔
      hasSep k = false ∧ ∃ u, key = k ++ groupSeparator :: u ∧ components u = k2 :: path := by
  constructor
  · intro h
    by_cases hs : hasSep key = true
    · have e := eq_headComp_append key hs
      have h2 := h
      rw [e, components_append_sep_cons _ _ (hasSep_headComp key)] at h2
      simp only [List.cons.injEq] at h2
      refine ⟨by rw [← h2.1]; exact hasSep_headComp key, _, ?_, h2.2⟩
      rw [← h2.1]
      exact e
    · have hs : hasSep key = false := by simpa using hs
      rw [components_of_noSep key hs] at h
      simp at h
  · rintro ⟨hk, u, rfl, hu⟩
    rw [components_append_sep_cons k u hk, hu]

theorem headComp_append_of_hasSep (s x : List Nat) (hs : hasSep s = true) :
    headComp (s ++ x) = headComp s := by
  induction s with
  | nil => simp [hasSep_nil] at hs
  | cons c s ih =>
    rw [List.cons_append, headComp_cons, headComp_cons]
    by_cases hc : c = groupSeparator
    · simp [hc]
    · rw [hasSep_cons] at hs
      have hs2 : hasSep s = true := by simpa [hc] using hs
      rw [if_neg hc, if_neg hc, ih hs2]

theorem filter_sub_key (E : List Entry) (k u : List Nat) (hk : hasSep k = false) :
    (subEntries E k).filter (fun e => e.1 == u) =
      stripGroup k (E.filter (fun e => e.1 == k ++ groupSeparator :: u)) := by
  induction E with
  | nil => rfl
  | cons e es ih =>
    obtain ⟨s, t⟩ := e
    have hcons : subEntries ((s, t) :: es) k =
        (if (hasSep s && headComp s == k) = true then [(s.drop (k.length + 1), t)] else []) ++
          subEntries es k := by
      unfold subEntries stripGroup
      rw [List.filter_cons]
      split <;> simp
    rw [hcons, List.filter_append, ih]
    by_cases h1 : s = k ++ groupSeparator :: u
    · have h2 := dotted_headComp k u (s, t) hk h1
      have hc : (hasSep s && headComp s == k) = true := by
        simp [show hasSep s = true from h2.2.1, show headComp s = k from h2.1]
      rw [if_pos hc]
      subst h1
      simp [stripGroup, List.filter_cons, drop_dotted]
    · have h4 : (if (hasSep s && headComp s == k) = true then [(s.drop (k.length + 1), t)]
          else []).filter (fun e => e.1 == u) = [] := by
        split
        · rename_i h3
          simp only [Bool.and_eq_true, beq_iff_eq] at h3
          have e1 := eq_headComp_append s h3.1
          rw [h3.2] at e1
          have h5 : ¬ s.drop (k.length + 1) = u := by
            intro h5
            rw [h5] at e1
            exact h1 e1
          simp [List.filter_cons, h5]
        · rfl
      rw [h4]
      simp [stripGroup, List.filter_cons, h1]

theorem flatLast_sub (E : List Entry) (k u : List Nat) (hk : hasSep k = false) :
    flatLast (subEntries E k) u = flatLast E (k ++ groupSeparator :: u) := by
  unfold flatLast
  rw [filter_sub_key E k u hk]
  unfold stripGroup
  rw [List.getLast?_map]
  cases (E.filter (fun e => e.1 == k ++ groupSeparator :: u)).getLast? <;> rfl

theorem mem_subEntries (E : List Entry) (k : List Nat) (x : Entry) :
    x ∈ subEntries E k ↔
      ∃ e ∈ E, hasSep e.1 = true ∧ headComp e.1 = k ∧ x = (e.1.drop (k.length + 1), e.2) := by
  unfold subEntries stripGroup
  rw [List.mem_map]
  constructor
  · rintro ⟨e, he, rfl⟩
    rw [List.mem_filter] at he
    simp only [Bool.and_eq_true, beq_iff_eq] at he
    exact ⟨e, he.1, he.2.1, he.2.2, rfl⟩
  · rintro ⟨e, he, h1, h2, rfl⟩
    exact ⟨e, by rw [List.mem_filter]; simp [he, h1, h2], rfl⟩

theorem no_killer_sub (E : List Entry) (k u : List Nat) (hk : hasSep k = false) :
    (∀ e ∈ E, ∀ w : List Nat, k ++ groupSeparator :: u ≠ e.1 ++ groupSeparator :: w) ↔
      (E.any (fun e => e.1 == k) = false ∧
        ∀ x ∈ subEntries E k, ∀ w : List Nat, u ≠ x.1 ++ groupSeparator :: w) := by
  constructor
  · intro h
    refine ⟨?_, ?_⟩
    · rw [List.any_eq_false]
      intro e he hek
      simp only [beq_iff_eq] at hek
      exact h e he u (by rw [hek])
    · intro x hx w hu
      obtain ⟨e, he, h1, h2, rfl⟩ := (mem_subEntries E k x).mp hx
      have e1 := eq_headComp_append e.1 h1
      rw [h2] at e1
      apply h e he w
      rw [e1, hu]
      simp
  · rintro ⟨h1, h2⟩ e he w heq
    rw [List.any_eq_false] at h1
    have hne : ¬ e.1 = k := by simpa using h1 e he
    by_cases hs : hasSep e.1 = true
    · have hh := congrArg headComp heq
      rw [headComp_append_sep k u hk, headComp_append_of_hasSep e.1 _ hs] at hh
      have e1 := eq_headComp_append e.1 hs
      rw [← hh] at e1
      rw [e1] at heq
      have e2 : k ++ groupSeparator :: u =
          k ++ groupSeparator :: (e.1.drop (k.length + 1) ++ groupSeparator :: w) := by
        rw [heq]; simp
      have e3 := List.append_cancel_left e2
      simp only [List.cons.injEq, true_and] at e3
      exact h2 (e.1.drop (k.length + 1), e.2)
        ((mem_subEntries E k _).mpr ⟨e, he, hs, hh.symm, rfl⟩) w e3
    · have hs : hasSep e.1 = false := by simpa using hs
      have hh := congrArg headComp heq
      rw [headComp_append_sep k u hk, headComp_append_sep e.1 w hs] at hh
      exact hne hh.symm

theorem specLookup_iff : ∀ (path : List (List Nat)) (E : List Entry) (t : List Nat),
    specLookup E path = some t ↔ SurvivesIn E path t
  | [], E, t => by
    simp only [specLookup, SurvivesIn]
    constructor
    · intro h; simp at h
    · rintro ⟨key, h, _⟩
      exact absurd h (components_ne_nil key)
  | [k], E, t => by
    simp only [specLookup, SurvivesIn]
    constructor
    · intro h
      by_cases hk : hasSep k = true
      · simp [hk] at h
      · have hk : hasSep k = false := by simpa using hk
        simp only [hk, Bool.false_eq_true, if_false] at h
        refine ⟨k, components_of_noSep k hk, h, ?_⟩
        intro e _ u hu
        rw [hu, hasSep_append_sep] at hk
        exact absurd hk (by simp)
    · rintro ⟨key, h1, h2, _⟩
      obtain ⟨rfl, hk⟩ := (components_eq_singleton key k).mp h1
      simp [hk, h2]
  | k :: k2 :: path, E, t => by
    have ih := specLookup_iff (k2 :: path) (subEntries E k) t
    simp only [specLookup]
    constructor
    · intro h
      by_cases hc : (hasSep k || E.any (fun e => e.1 == k)) = true
      · simp [hc] at h
      · rw [if_neg hc] at h
        simp only [Bool.or_eq_true, not_or, Bool.not_eq_true] at hc
        obtain ⟨u, hu1, hu2, hu3⟩ := ih.mp h
        refine ⟨k ++ groupSeparator :: u, ?_, ?_, ?_⟩
        · rw [components_append_sep_cons k u hc.1, hu1]
        · rw [← flatLast_sub E k u hc.1]; exact hu2
        · exact (no_killer_sub E k u hc.1).mpr ⟨hc.2, hu3⟩
    · rintro ⟨key, h1, h2, h3⟩
      obtain ⟨hk, u, rfl, hu⟩ := (components_eq_cons_cons key k k2 path).mp h1
      obtain ⟨h4, h5⟩ := (no_killer_sub E k u hk).mp h3
      rw [if_neg (by simp [hk, h4])]
      exact ih.mpr ⟨u, hu, by rw [flatLast_sub E k u hk]; exact h2, h5⟩

/-! ## The resolver on a sorted attribute list -/

theorem appendUint_eq (out : List Nat) (n : Nat) : appendUint out n = out ++ appendUint [] n := by
  simp [appendUint]

theorem appendInt_eq (out : List Nat) (n : Int) : appendInt out n = out ++ appendInt [] n := by
  unfold appendInt
  split
  · rw [appendUint_eq (out ++ [45]), appendUint_eq ([] ++ [45])]
    simp
  · rw [appendUint_eq out]

theorem appendMarshal_ok (out text : List Nat) :
    appendMarshal out (.ok text) = .ok (out ++ text) := by
  have h : (out ++ text ++ [10]).take ((out ++ text ++ [10]).length - 1) = out ++ text :=
    List.take_left' (by simp)
  simp only [appendMarshal]
  rw [if_pos (by simp only [List.length_append, List.length_cons, List.length_nil]; omega), h]

theorem appendJsonValue_scalar (v : Value) (hv : isScalar v = true) (f : Nat)
    (out : List Nat) : appendJsonValue f out v = .ok (out ++ scalarText v) := by
  unfold appendJsonValue appendJsonValueWith
  cases v with
  | bool b => cases b <;> simp [scalarText]
  | time t => simp [scalarText, appendTime]
  | uint64 n => simp only [scalarText]; rw [appendUint_eq]
  | int64 n => simp only [scalarText]; rw [appendInt_eq]
  | string s =>
    simp only [scalarText, appendJsonString]
    rw [AppendStringContent_append]
    simp
  | duration ns => simp only [scalarText]; rw [appendInt_eq]
  | float64 r =>
    cases r with
    | ok text => simp only [scalarText]; exact appendMarshal_ok out text
    | err msg => simp [isScalar] at hv
  | any r => simp [isScalar] at hv
  | zero => simp [isScalar] at hv
  | preformatted b => simp [isScalar] at hv
  | group as => simp [isScalar] at hv
  | logValuer w => simp [isScalar] at hv

theorem lt_keyBound (attrs : List Attr) : ∀ a ∈ attrs, a.Key.length < keyBound attrs := by
  induction attrs with
  | nil => intro a ha; simp at ha
  | cons b bs ih =>
    intro a ha
    simp only [keyBound, List.map_cons, List.sum_cons]
    rcases List.mem_cons.mp ha with rfl | ha
    · omega
    · have := ih a ha
      simp only [keyBound] at this
      omega

theorem flatLast_entriesAt (txt : Value → List Nat) (attrs : List Attr) (key : List Nat) :
    flatLast (entriesAt txt 0 attrs) key =
      ((attrs.filter (fun a => a.Key == key)).getLast?).map (fun a => txt a.Value) := by
  unfold flatLast entriesAt
  rw [List.filter_map, List.getLast?_map]
  simp only [List.drop_zero, Option.map_map]
  have : (fun e : Entry => e.1 == key) ∘ (fun a : Attr => (a.Key, txt a.Value)) =
      fun a => a.Key == key := rfl
  rw [this]
  rfl

theorem survivesIn_entriesAt (txt : Value → List Nat) (attrs : List Attr)
    (path : List (List Nat)) (t : List Nat) :
    SurvivesIn (entriesAt txt 0 attrs) path t ↔ Survives txt attrs path t := by
  unfold SurvivesIn Survives
  constructor
  · rintro ⟨key, h1, h2, h3⟩
    refine ⟨key, h1, by rw [← flatLast_entriesAt]; exact h2, ?_⟩
    intro a ha u
    exact h3 (a.Key, txt a.Value) (by
      unfold entriesAt
      rw [List.mem_map]
      exact ⟨a, ha, by simp⟩) u
  · rintro ⟨key, h1, h2, h3⟩
    refine ⟨key, h1, by rw [flatLast_entriesAt]; exact h2, ?_⟩
    intro e he u
    unfold entriesAt at he
    rw [List.mem_map] at he
    obtain ⟨a, ha, rfl⟩ := he
    simpa using h3 a ha u

theorem survives_sorted (txt : Value → List Nat) (attrs : List Attr)
    (path : List (List Nat)) (t : List Nat) :
    Survives txt (sortStableFunc isEarlierAttr attrs) path t ↔ Survives txt attrs path t := by
  unfold Survives
  have hperm := sortStableFunc_perm isEarlierAttr attrs
  constructor
  · rintro ⟨key, h1, h2, h3⟩
    refine ⟨key, h1, by rw [← sorted_attrs_filter]; exact h2, ?_⟩
    intro a ha
    exact h3 a (hperm.mem_iff.mpr ha)
  · rintro ⟨key, h1, h2, h3⟩
    refine ⟨key, h1, by rw [sorted_attrs_filter]; exact h2, ?_⟩
    intro a ha
    exact h3 a (hperm.mem_iff.mp ha)

theorem resolve_sorted_spec (txt : Value → List Nat) (f0 : Nat) (attrs : List Attr)
    (hvalid : ∀ a ∈ attrs, validKey a.Key)
    (henc : ∀ a ∈ attrs, ∀ f, f0 ≤ f → ∀ out,
      appendJsonValue f out a.Value = .ok (out ++ txt a.Value)) :
    (∀ f out hv, f0 + keyBound attrs + 1 ≤ f →
      resolveGroupContent f out hv 0 (sortStableFunc isEarlierAttr attrs) =
        .ok (out ++ JMembers.encode hv
          (tree (keyBound attrs) (entriesAt txt 0 (sortStableFunc isEarlierAttr attrs))))) ∧
    (∀ path t,
      JTree.lookup
          (.obj (tree (keyBound attrs) (entriesAt txt 0 (sortStableFunc isEarlierAttr attrs))))
          path = some t ↔
        Survives txt attrs path t) := by
  have hperm := sortStableFunc_perm isEarlierAttr attrs
  have hmem : ∀ a, a ∈ sortStableFunc isEarlierAttr attrs → a ∈ attrs :=
    fun a ha => hperm.mem_iff.mp ha
  refine ⟨?_, ?_⟩
  · intro f out hv hf
    have hrun : RunOK txt f0 [] (sortStableFunc isEarlierAttr attrs) := by
      refine ⟨fun a _ => ⟨a.Key, rfl⟩, sorted_attrs attrs, ?_, ?_⟩
      · intro a ha
        simpa using hvalid a (hmem a ha)
      · intro a ha
        exact henc a (hmem a ha)
    have h := resolveGroupContent_eq_tree txt f0 (keyBound attrs) f out hv []
      (sortStableFunc isEarlierAttr attrs) hrun
      (by intro a ha; simpa using lt_keyBound attrs a (hmem a ha)) hf
    simpa using h
  · intro path t
    have hE : EntriesOK (entriesAt txt 0 (sortStableFunc isEarlierAttr attrs)) := by
      refine ⟨?_, ?_⟩
      · unfold entriesAt
        rw [List.pairwise_map]
        simpa using sorted_attrs attrs
      · intro e he
        unfold entriesAt at he
        rw [List.mem_map] at he
        obtain ⟨a, ha, rfl⟩ := he
        simpa using hvalid a (hmem a ha)
    have hlen : ∀ e ∈ entriesAt txt 0 (sortStableFunc isEarlierAttr attrs),
        e.1.length < keyBound attrs := by
      intro e he
      unfold entriesAt at he
      rw [List.mem_map] at he
      obtain ⟨a, ha, rfl⟩ := he
      simpa using lt_keyBound attrs a (hmem a ha)
    rw [← survives_sorted, ← survivesIn_entriesAt, ← specLookup_iff]
    cases path with
    | nil => simp [JTree.lookup, specLookup]
    | cons k path =>
      simp only [JTree.lookup]
      rw [tree_spec (keyBound attrs) _ hE hlen k path]

/-! ## Grouping, deduplication and override -/

theorem components_injective : ∀ (a b : List Nat), components a = components b → a = b := by
  intro a
  induction a with
  | nil =>
    intro b h
    cases b with
    | nil => rfl
    | cons y bs =>
      exfalso
      by_cases hy : y = groupSeparator
      · subst hy
        rw [components_cons_sep] at h
        simp only [components, List.cons.injEq, true_and] at h
        exact components_ne_nil bs h.symm
      · obtain ⟨h1, t1, _, e1⟩ := components_cons_ne y bs hy
        rw [e1] at h
        simp [components] at h
  | cons x as ih =>
    intro b h
    cases b with
    | nil =>
      exfalso
      by_cases hx : x = groupSeparator
      · subst hx
        rw [components_cons_sep] at h
        simp only [components, List.cons.injEq, true_and] at h
        exact components_ne_nil as h
      · obtain ⟨h1, t1, _, e1⟩ := components_cons_ne x as hx
        rw [e1] at h
        simp [components] at h
    | cons y bs =>
      by_cases hx : x = groupSeparator
      · subst hx
        rw [components_cons_sep] at h
        by_cases hy : y = groupSeparator
        · subst hy
          rw [components_cons_sep] at h
          simp only [List.cons.injEq, true_and] at h
          rw [ih bs h]
        · obtain ⟨h1, t1, _, e1⟩ := components_cons_ne y bs hy
          rw [e1] at h
          simp at h
      · obtain ⟨h1, t1, e0, e1⟩ := components_cons_ne x as hx
        rw [e1] at h
        by_cases hy : y = groupSeparator
        · subst hy
          rw [components_cons_sep] at h
          simp at h
        · obtain ⟨h2, t2, e2, e3⟩ := components_cons_ne y bs hy
          rw [e3] at h
          simp only [List.cons.injEq] at h
          obtain ⟨⟨hxy, hh⟩, ht⟩ := h
          rw [hxy, ih bs (by rw [e0, e2, hh, ht])]

theorem appendJsonValue_group (members : List Attr)
    (hsorted : sortStableFunc isEarlierAttr members = members)
    (hscalar : ∀ a ∈ members, isScalar a.Value = true)
    (hvalid : ∀ a ∈ members, validKey a.Key) (f : Nat) (hf : keyBound members + 1 ≤ f)
    (out : List Nat) :
    appendJsonValue f out (.group members) = .ok (out ++ valueText (.group members)) := by
  obtain ⟨h1, _⟩ := resolve_sorted_spec scalarText 0 members hvalid
    (fun a ha f _ out => appendJsonValue_scalar a.Value (hscalar a ha) f out)
  have h := h1 f (out ++ [123]) false (by omega)
  rw [hsorted] at h
  simp only [appendJsonValue, appendJsonValueWith, resolveGroupWith, h, valueText, bind,
    Except.bind]
  simp [List.append_assoc]

/-- C3 (evaluation at the failing input): for the sorted attributes `g.x`, `g=1`, `g=2`,
`g=3` the record has two members named `g`; without the dotted attribute `g.x`
it has one. -/
theorem resolveRecord_duplicate_member :
    (∀ f, resolveRecord (f + 1) [] { isZero := true, rfc3339Nano := [] } (ascii "m")
        (sortStableFunc isEarlierAttr
          [Attr.mk (ascii "g.x") (.int64 0), Attr.mk (ascii "g") (.int64 1),
           Attr.mk (ascii "g") (.int64 2), Attr.mk (ascii "g") (.int64 3)]) =
      .ok (ascii "\x7b\"message\":\"m\",\"g\":1,\"g\":3\x7d")) ∧
    (∀ f, resolveRecord (f + 1) [] { isZero := true, rfc3339Nano := [] } (ascii "m")
        (sortStableFunc isEarlierAttr
          [Attr.mk (ascii "g") (.int64 1), Attr.mk (ascii "g") (.int64 2),
           Attr.mk (ascii "g") (.int64 3)]) =
      .ok (ascii "\x7b\"message\":\"m\",\"g\":3\x7d")) :=
  ⟨fun _ => rfl, fun _ => rfl⟩

/-! ## Re-sorting -/

theorem foldl_insertBack_sorted {α : Type} (cmp : α → α → Int)
    (hanti : ∀ a b, cmp a b ≤ 0 → ¬ cmp b a < 0) (l : List α) :
    ∀ acc : List α, l.Pairwise (fun a b => cmp a b ≤ 0) →
      (∀ y ∈ acc, ∀ x ∈ l, cmp y x ≤ 0) →
      l.foldl (fun acc x => insertBack cmp x acc) acc = l.reverse ++ acc := by
  induction l with
  | nil => intro acc _ _; rfl
  | cons x xs ih =>
    intro acc hl hacc
    rw [List.pairwise_cons] at hl
    have hx : insertBack cmp x acc = x :: acc := by
      cases acc with
      | nil => rfl
      | cons y ys =>
        simp only [insertBack]
        rw [if_neg (hanti y x (hacc y (by simp) x (by simp)))]
    rw [List.foldl_cons, hx, ih (x :: acc) hl.2 (by
      intro y hy z hz
      rcases List.mem_cons.mp hy with rfl | hy
      · exact hl.1 z hz
      · exact hacc y hy z (by simp [hz]))]
    simp

theorem sortStableFunc_of_sorted {α : Type} (cmp : α → α → Int)
    (hanti : ∀ a b, cmp a b ≤ 0 → ¬ cmp b a < 0) (l : List α)
    (hl : l.Pairwise (fun a b => cmp a b ≤ 0)) : sortStableFunc cmp l = l := by
  unfold sortStableFunc
  rw [foldl_insertBack_sorted cmp hanti l [] hl (by simp)]
  simp

/-- C11: stable-sorting an attribute list that is the result of a stable sort with
`isEarlierAttr` returns it unchanged, every attribute at its position. -/
theorem sort_idempotent (L : List Attr) :
    sortStableFunc isEarlierAttr (sortStableFunc isEarlierAttr L) =
      sortStableFunc isEarlierAttr L := by
  apply sortStableFunc_of_sorted
  · intro a b hab hba
    unfold isEarlierAttr at hab hba
    rw [isEarlierKey_eq_keyCmp] at hab hba
    have := (keyCmp_neg_iff b.Key a.Key).mp hba
    omega
  · refine (sorted_attrs L).imp ?_
    intro a b h
    unfold isEarlierAttr
    rw [isEarlierKey_eq_keyCmp]
    exact h

/-! ## The string escaper on ASCII -/

theorem appendStringContentLoop_safe (src : List Nat)
    (hs : ∀ b ∈ src, safeSet b = true) (n : Nat) :
    ∀ (dst : List Nat) (i : Nat), appendStringContentLoop n dst src 0 i = dst ++ src := by
  induction n with
  | zero => intro dst i; simp [appendStringContentLoop]
  | succ n ih =>
    intro dst i
    simp only [appendStringContentLoop]
    split
    · rename_i hi
      have hmem : src.getD i 0 ∈ src := by
        rw [List.getD_eq_getElem src 0 hi]
        exact List.getElem_mem hi
      have hsafe := hs _ hmem
      have hlt : src.getD i 0 < 128 := by
        simp only [safeSet, Bool.and_eq_true, decide_eq_true_eq] at hsafe
        exact hsafe.1.1.2
      rw [if_pos hlt, if_pos hsafe]
      exact ih dst (i + 1)
    · simp

/-- C13: a string made only of bytes 0x20..0x7F other than the double quote and the
backslash, among them the angle brackets and the ampersand, is appended
verbatim. -/
theorem no_html_escaping (dst s : List Nat)
    (hs : ∀ b ∈ s, 32 ≤ b ∧ b ≤ 127 ∧ b ≠ 34 ∧ b ≠ 92) :
    AppendStringContent dst s = dst ++ s := by
  unfold AppendStringContent
  apply appendStringContentLoop_safe
  intro b hb
  obtain ⟨h1, h2, h3, h4⟩ := hs b hb
  simp only [safeSet, Bool.and_eq_true, decide_eq_true_eq, Bool.not_eq_true', beq_eq_false_iff_ne,
    ne_eq]
  exact ⟨⟨⟨h1, by omega⟩, h3⟩, h4⟩

/-- Witness of C13 on a string with angle brackets and an ampersand. -/
theorem no_html_escaping_witness :
    AppendStringContent (ascii "x=") (ascii "<b>&</b>") =
      ascii "x=" ++ ascii "<b>&</b>" :=
  no_html_escaping _ _ (by decide)

/-- C14: a single quote, backslash or control byte is appended as its two-character
escape when it has one, and otherwise as `\u00XX` in lowercase hex digits. -/
theorem control_escapes (dst : List Nat) (b : Nat) (hb : b = 34 ∨ b = 92 ∨ b < 32) :
    AppendStringContent dst [b] = dst ++ controlEscape b := by
  rw [AppendStringContent_append]
  congr 1
  rcases hb with rfl | rfl | hb
  · rfl
  · rfl
  · interval_cases b <;> rfl

/-- Witness of C14 on the escape byte 0x1b. -/
theorem control_escapes_witness :
    AppendStringContent (ascii "a") [27] = ascii "a" ++ controlEscape 27 :=
  control_escapes _ 27 (by decide)

/-! ## The resolver only appends to its buffer -/

theorem appendJsonKVWith_extends (content : ContentFn)
    (hc : ∀ out hv p attrs r, content out hv p attrs = .ok r → out <+: r)
    (out : List Nat) (hv : Bool) (key : List Nat) (v : Value) (r : List Nat)
    (h : appendJsonKVWith content out hv key v = .ok r) : out <+: r := by
  unfold appendJsonKVWith at h
  have hk : ∃ t, t ≠ [] ∧ appendKey out hv key = out ++ t := by
    refine ⟨_, ?_, appendKey_eq out hv key⟩
    cases hv <;> simp [keyText]
  obtain ⟨t, ht, hkey⟩ := hk
  rw [hkey] at h
  have hgroup : ∀ as, resolveGroupWith content (out ++ t) 0 as = .ok r → out <+: r := by
    intro as hg
    simp only [resolveGroupWith, bind, Except.bind] at hg
    split at hg
    · simp at hg
    · rename_i o hcr
      simp only [Except.ok.injEq] at hg
      obtain ⟨w, hw⟩ := hc _ _ _ _ _ hcr
      exact ⟨t ++ [123] ++ w ++ [125], by rw [← hg, ← hw]; simp⟩
  have hmarshal : ∀ e, appendMarshal (out ++ t) e = .ok r → out <+: r := by
    intro e he
    cases e with
    | ok text =>
      rw [appendMarshal_ok] at he
      simp only [Except.ok.injEq] at he
      exact ⟨t ++ text, by rw [← he]; simp⟩
    | err msg =>
      simp only [appendMarshal] at he
      split at he
      · simp only [Except.ok.injEq] at he
        obtain ⟨x, t', rfl⟩ := List.exists_cons_of_ne_nil ht
        refine ⟨(x :: t').take (t'.length), ?_⟩
        rw [← he, List.take_append_eq_append_take]
        simp
      · simp at he
  unfold appendJsonValueWith at h
  cases v with
  | bool b => simp only [Except.ok.injEq] at h; exact ⟨_, by rw [← h, List.append_assoc]⟩
  | time tm =>
    simp only [appendTime, Except.ok.injEq] at h
    exact ⟨t ++ [34] ++ tm.rfc3339Nano ++ [34], by rw [← h]; simp⟩
  | uint64 n =>
    simp only [Except.ok.injEq] at h
    rw [appendUint_eq] at h
    exact ⟨_, by rw [← h, List.append_assoc]⟩
  | int64 n =>
    simp only [Except.ok.injEq] at h
    rw [appendInt_eq] at h
    exact ⟨_, by rw [← h, List.append_assoc]⟩
  | string s =>
    simp only [Except.ok.injEq, appendJsonString] at h
    rw [AppendStringContent_append] at h
    exact ⟨t ++ [34] ++ AppendStringContent [] s ++ [34], by rw [← h]; simp⟩
  | duration ns =>
    simp only [Except.ok.injEq] at h
    rw [appendInt_eq] at h
    exact ⟨_, by rw [← h, List.append_assoc]⟩
  | float64 e => exact hmarshal e h
  | any e => exact hmarshal e h
  | zero => exact hmarshal _ h
  | preformatted b => simp only [Except.ok.injEq] at h; exact ⟨_, by rw [← h, List.append_assoc]⟩
  | group as => exact hgroup as h
  | logValuer w =>
    simp only at h
    generalize resolveValue maxLogValues (Value.logValuer w) = v2 at h
    cases v2 with
    | bool b => simp only [Except.ok.injEq] at h; exact ⟨_, by rw [← h, List.append_assoc]⟩
    | time tm =>
      simp only [appendTime, Except.ok.injEq] at h
      exact ⟨t ++ [34] ++ tm.rfc3339Nano ++ [34], by rw [← h]; simp⟩
    | uint64 n =>
      simp only [Except.ok.injEq] at h
      rw [appendUint_eq] at h
      exact ⟨_, by rw [← h, List.append_assoc]⟩
    | int64 n =>
      simp only [Except.ok.injEq] at h
      rw [appendInt_eq] at h
      exact ⟨_, by rw [← h, List.append_assoc]⟩
    | string s =>
      simp only [Except.ok.injEq, appendJsonString] at h
      rw [AppendStringContent_append] at h
      exact ⟨t ++ [34] ++ AppendStringContent [] s ++ [34], by rw [← h]; simp⟩
    | duration ns =>
      simp only [Except.ok.injEq] at h
      rw [appendInt_eq] at h
      exact ⟨_, by rw [← h, List.append_assoc]⟩
    | float64 e => exact hmarshal e h
    | any e => exact hmarshal e h
    | zero => exact hmarshal _ h
    | preformatted b =>
      simp only [Except.ok.injEq] at h; exact ⟨_, by rw [← h, List.append_assoc]⟩
    | group as => exact hgroup as h
    | logValuer w2 =>
      simp only [Except.ok.injEq, appendJsonString] at h
      rw [AppendStringContent_append] at h
      exact ⟨t ++ [34] ++ AppendStringContent [] (ascii "ERR! invalid value") ++ [34], by
        rw [← h]; simp⟩

theorem resolveGroupWith_extends (content : ContentFn)
    (hc : ∀ out hv p attrs r, content out hv p attrs = .ok r → out <+: r)
    (out : List Nat) (p : Nat) (attrs : List Attr) (r : List Nat)
    (h : resolveGroupWith content out p attrs = .ok r) : out <+: r := by
  simp only [resolveGroupWith, bind, Except.bind] at h
  split at h
  · simp at h
  · rename_i o hcr
    simp only [Except.ok.injEq] at h
    obtain ⟨w, hw⟩ := hc _ _ _ _ _ hcr
    exact ⟨[123] ++ w ++ [125], by rw [← h, ← hw]; simp⟩

theorem appendKey_extends (out : List Nat) (hv : Bool) (key : List Nat) :
    out <+: appendKey out hv key :=
  ⟨_, (appendKey_eq out hv key).symm⟩

theorem resolveIter_extends (content : ContentFn)
    (hc : ∀ out hv p attrs r, content out hv p attrs = .ok r → out <+: r)
    (p : Nat) (attrs : List Attr) (st st2 : LoopState) (i : Nat)
    (h : resolveIter content p attrs st i = .ok st2) : st.output <+: st2.output := by
  unfold resolveIter at h
  cases hget : attrs.get? i with
  | none => rw [hget] at h; simp at h
  | some attr =>
    rw [hget] at h
    simp only at h
    by_cases hlen : attr.Key.length < p
    · simp [hlen] at h
    · simp only [hlen, if_false] at h
      cases hidx : indexSeparator (attr.Key.drop p) with
      | some idx =>
        simp only [hidx] at h
        by_cases hg : st.currentGroup = [] ∨ st.currentGroup = (attr.Key.drop p).take idx
        · rw [if_pos hg] at h
          by_cases hl : st.currentGroupFields.length ≤ i
          · rw [if_pos hl] at h
            simp only [Except.ok.injEq] at h
            rw [← h]
          · rw [if_neg hl] at h
            simp at h
        · rw [if_neg hg] at h
          simp only [bind, Except.bind] at h
          split at h
          · simp at h
          · rename_i o ho
            simp only [Except.ok.injEq] at h
            rw [← h]
            exact (appendKey_extends _ _ _).trans (resolveGroupWith_extends content hc _ _ _ _ ho)
      | none =>
        simp only [hidx] at h
        by_cases hg : st.currentGroup = attr.Key.drop p
        · rw [if_pos hg] at h
          simp only [bind, Except.bind] at h
          split at h
          · simp at h
          · rename_i o ho
            simp only [Except.ok.injEq] at h
            rw [← h]
            exact appendJsonKVWith_extends content hc _ _ _ _ _ ho
        · rw [if_neg hg] at h
          by_cases hn : i + 1 < attrs.length ∧
              (attrs.get? (i + 1)).map Attr.Key = some attr.Key
          · rw [if_pos hn] at h
            simp only [Except.ok.injEq] at h
            rw [← h]
          · rw [if_neg hn] at h
            simp only [bind, Except.bind] at h
            split at h
            · simp at h
            · rename_i o ho
              simp only [Except.ok.injEq] at h
              rw [← h]
              exact appendJsonKVWith_extends content hc _ _ _ _ _ ho

theorem resolveLoop_extends (content : ContentFn)
    (hc : ∀ out hv p attrs r, content out hv p attrs = .ok r → out <+: r)
    (p : Nat) (attrs : List Attr) (n : Nat) :
    ∀ (i : Nat) (st st2 : LoopState), resolveLoop content p attrs n i st = .ok st2 →
      st.output <+: st2.output := by
  induction n with
  | zero =>
    intro i st st2 h
    simp only [resolveLoop, Except.ok.injEq] at h
    rw [h]
  | succ n ih =>
    intro i st st2 h
    simp only [resolveLoop, bind, Except.bind] at h
    split at h
    · simp at h
    · rename_i st1 h1
      exact (resolveIter_extends content hc p attrs st st1 i h1).trans (ih _ _ _ h)

theorem resolveGroupContent_extends : ∀ (fuel : Nat) (out : List Nat) (hv : Bool) (p : Nat)
    (attrs : List Attr) (r : List Nat),
    resolveGroupContent fuel out hv p attrs = .ok r → out <+: r := by
  intro fuel
  induction fuel with
  | zero => intro out hv p attrs r h; simp [resolveGroupContent] at h
  | succ fuel ih =>
    intro out hv p attrs r h
    simp only [resolveGroupContent, bind, Except.bind] at h
    split at h
    · simp at h
    · rename_i st hst
      have h1 := resolveLoop_extends _ ih p attrs _ _ _ _ hst
      simp only at h1
      refine h1.trans ?_
      unfold resolveFinish at h
      split at h
      · exact (appendKey_extends _ _ _).trans (resolveGroupWith_extends _ ih _ _ _ _ h)
      · simp only [Except.ok.injEq] at h
        rw [h]

/-- C16: `resolveRecord` writes an opening brace, the `@timestamp` member exactly when
the time is not zero, the `message` member exactly when the message is not
empty, hands this buffer to `resolveGroupContent` at prefix length 0, which
only appends to it, and closes the brace.  The two records of the package
example are written as stated. -/
theorem resolveRecord_field_order (fuel : Nat) (out : List Nat) (t0 : Time) (msg : List Nat)
    (attrs : List Attr) :
    resolveRecord fuel out t0 msg attrs =
      (resolveGroupContent fuel
        (out ++ [123] ++
          (if t0.isZero then [] else ascii "\"@timestamp\":" ++ [34] ++ t0.rfc3339Nano ++ [34]) ++
          (if msg = [] then []
            else (if t0.isZero then [] else [44]) ++ ascii "\"message\":" ++ [34] ++
              AppendStringContent [] msg ++ [34]))
        (!t0.isZero || decide (msg ≠ [])) 0 attrs).map (fun o => o ++ [125]) ∧
    (∀ buf hv r, resolveGroupContent fuel buf hv 0 attrs = .ok r →
      ∃ members, r = buf ++ members) ∧
    (∀ f, resolveRecord (f + 2) [] { isZero := true, rfc3339Nano := [] }
        (ascii "Hello World") [Attr.mk (ascii "log.level") (.string (ascii "INFO"))] =
      .ok (ascii "\x7b\"message\":\"Hello World\",\"log\":\x7b\"level\":\"INFO\"\x7d\x7d")) ∧
    (∀ f, resolveRecord (f + 2) [] { isZero := true, rfc3339Nano := [] } (ascii "Test!")
        (sortStableFunc isEarlierAttr
          [Attr.mk (ascii "log.level") (.string (ascii "INFO")),
           Attr.mk (ascii "event.dataset") (.string (ascii "testing")),
           Attr.mk (ascii "event.action") (.string (ascii "test"))]) =
      .ok (ascii ("\x7b\"message\":\"Test!\",\"log\":\x7b\"level\":\"INFO\"\x7d," ++
        "\"event\":\x7b\"dataset\":\"testing\",\"action\":\"test\"\x7d\x7d"))) := by
  refine ⟨?_, ?_, fun _ => rfl, fun _ => rfl⟩
  · have hts : appendKey (out ++ [123]) false (ascii "@timestamp") =
        out ++ [123] ++ ascii "\"@timestamp\":" := by
      rw [appendKey_eq]; rfl
    have hmsg : ∀ (b : List Nat) (hv : Bool),
        appendJsonString (appendKey b hv (ascii "message")) msg =
          b ++ ((if hv then [44] else []) ++ ascii "\"message\":" ++ [34] ++
            AppendStringContent [] msg ++ [34]) := by
      intro b hv
      rw [appendKey_eq]
      unfold appendJsonString
      rw [AppendStringContent_append]
      have : keyText (ascii "message") = ascii "\"message\":" := rfl
      rw [this]
      cases hv <;> simp
    unfold resolveRecord
    cases hz : t0.isZero <;> by_cases hm : msg = [] <;>
      simp [hz, hm, hts, hmsg, appendTime, bind, Except.bind, Except.map]
  · intro buf hv r h
    obtain ⟨w, hw⟩ := resolveGroupContent_extends fuel buf hv 0 attrs r h
    exact ⟨w, hw.symm⟩

/-! ## Pre-formatting -/

/-- C17 (evaluation at the failing input): pre-formatting a structured value that
cannot be serialized panics, and so does `WithAttrs` on an attribute with such
a value, while encoding it into a buffer that ends in a key returns the buffer
without its last byte.  For a value that is encoded by appending a text,
pre-formatting does not change what is appended. -/
theorem preformatValue_unserializable :
    (∀ f msg, preformatValue f (.any (.err msg)) = .error .panic) ∧
    (∀ f msg, appendJsonValue f (ascii "\"k\":") (.any (.err msg)) = .ok (ascii "\"k\"")) ∧
    (∀ f heap h msg,
      Handler.WithAttrs f heap h [Attr.mk (ascii "k") (.any (.err msg))] = .error .panic) ∧
    (∀ f out v t, (∀ o, appendJsonValue f o v = .ok (o ++ t)) →
      ((preformatValue f v).bind (appendJsonValue f out)) = appendJsonValue f out v) := by
  refine ⟨fun _ _ => rfl, fun _ _ => rfl, ?_, ?_⟩
  · intro f heap h msg
    have hk : isIgnoredKey (ascii "k") = false := by decide
    simp [Handler.WithAttrs, withAttrsLoop, Attr.isZero, Attr.isEmptyGroup, Attr.Key,
      Attr.Value, hk, shouldPreformat, preformattedKinds, Value.kind, preformatValue,
      appendJsonValue, appendJsonValueWith, appendMarshal, bind, Except.bind]
  · intro f out v t hv
    have h0 := hv []
    simp only [List.nil_append] at h0
    simp only [preformatValue, h0, bind, Except.bind, hv out]
    rfl

/-! ## The handler -/

theorem shouldPreformat_kind (v : Value) :
    shouldPreformat v.kind = .ok (preformattedKinds v.kind) := by
  cases v <;> rfl

theorem get?_append_done {α : Type} (done : List α) (a : α) (rest : List α) :
    (done ++ a :: rest).get? done.length = some a := get?_append_length done a rest

theorem eraseIdx_append_done {α : Type} (done : List α) (a : α) (rest : List α) :
    (done ++ a :: rest).eraseIdx done.length = done ++ rest := by
  induction done with
  | nil => rfl
  | cons d ds ih => simp [List.eraseIdx_cons_succ, ih]

theorem set_append_done {α : Type} (done : List α) (a b : α) (rest : List α) :
    (done ++ a :: rest).set done.length b = (done ++ [b]) ++ rest := by
  induction done with
  | nil => rfl
  | cons d ds ih => simp [ih]

theorem withAttrsLoop_eq (fuel : Nat) (pre : List Nat) :
    ∀ (rest done : List Attr) (n : Nat), rest.length ≤ n →
      withAttrsLoop fuel pre n (done ++ rest) done.length =
        (mapExcept (boundAttr fuel pre) (rest.filter (keepAttr pre))).map (fun r => done ++ r) := by
  intro rest
  induction rest with
  | nil =>
    intro done n _
    cases n with
    | zero => simp [withAttrsLoop, mapExcept, Except.map]
    | succ n =>
      have : (done ++ []).get? done.length = none := by simp
      simp [withAttrsLoop, this, mapExcept, Except.map]
  | cons a rest ih =>
    intro done n hn
    obtain ⟨m, rfl⟩ : ∃ m, n = m + 1 := ⟨n - 1, by simp at hn; omega⟩
    have hm : rest.length ≤ m := by simp at hn; omega
    simp only [withAttrsLoop, get?_append_done]
    by_cases hz : a.isZero = true
    · rw [if_pos hz, eraseIdx_append_done, ih done m hm]
      simp [List.filter_cons, keepAttr, hz]
    · rw [if_neg hz]
      have hz : a.isZero = false := by simpa using hz
      by_cases hg : a.isEmptyGroup = true
      · rw [if_pos hg, eraseIdx_append_done, ih done m hm]
        simp [List.filter_cons, keepAttr, hg]
      · rw [if_neg hg]
        have hg : a.isEmptyGroup = false := by simpa using hg
        by_cases hi : pre = [] ∧ isIgnoredKey a.Key = true
        · rw [if_pos hi, eraseIdx_append_done, ih done m hm]
          simp [List.filter_cons, keepAttr, hi.1, hi.2]
        · rw [if_neg hi]
          have hk : keepAttr pre a = true := by
            simp only [keepAttr, hz, hg, Bool.not_false, Bool.true_and, Bool.not_eq_true',
              Bool.and_eq_false_iff, beq_eq_false_iff_ne, ne_eq]
            by_cases hp : pre = []
            · right; simpa using fun h => hi ⟨hp, h⟩
            · left; exact hp
          have hstep : ∀ v, withAttrsLoop fuel pre m
              ((done ++ a :: rest).set done.length (Attr.mk (pre ++ a.Key) v))
              (done.length + 1) =
              (mapExcept (boundAttr fuel pre) (rest.filter (keepAttr pre))).map
                (fun r => done ++ Attr.mk (pre ++ a.Key) v :: r) := by
            intro v
            rw [set_append_done]
            have h := ih (done ++ [Attr.mk (pre ++ a.Key) v]) m hm
            simp only [List.length_append, List.length_singleton] at h
            rw [h]
            cases mapExcept (boundAttr fuel pre) (rest.filter (keepAttr pre)) with
            | error e => rfl
            | ok r => simp [Except.map]
          simp only [List.filter_cons, hk, if_true, mapExcept, boundAttr]
          rw [shouldPreformat_kind]
          by_cases hsp : preformattedKinds a.Value.kind = true
          · simp only [hsp, if_true]
            cases hv : preformatValue fuel a.Value with
            | error e => rfl
            | ok v =>
              simp only [bind, Except.bind]
              rw [hstep v]
              cases mapExcept (boundAttr fuel pre) (rest.filter (keepAttr pre)) with
              | error e => rfl
              | ok r => rfl
          · simp only [hsp, if_false, bind, Except.bind]
            rw [hstep a.Value]
            cases mapExcept (boundAttr fuel pre) (rest.filter (keepAttr pre)) with
            | error e => rfl
            | ok r => rfl

theorem foldl_append_join (groups : List (List Attr)) :
    ∀ acc : List Attr, groups.foldl (fun attrs attr => attrs ++ attr) acc = acc ++ groups.flatten := by
  induction groups with
  | nil => intro acc; simp
  | cons g gs ih => intro acc; simp [ih]

theorem foldl_handleAttr (pre : List Nat) (attrs : List Attr) :
    ∀ acc : List Attr, attrs.foldl (handleAttr pre) acc =
      acc ++ (attrs.filter (keepAttr pre)).map (callAttr pre) := by
  induction attrs with
  | nil => intro acc; simp
  | cons a rest ih =>
    intro acc
    rw [List.foldl_cons, ih]
    unfold handleAttr
    by_cases hz : a.isZero = true
    · simp [List.filter_cons, keepAttr, hz]
    · have hz : a.isZero = false := by simpa using hz
      by_cases hg : a.isEmptyGroup = true
      · simp [List.filter_cons, keepAttr, hz, hg]
      · have hg : a.isEmptyGroup = false := by simpa using hg
        by_cases hp : pre = []
        · by_cases hi : isIgnoredKey a.Key = true
          · simp [List.filter_cons, keepAttr, hz, hg, hp, hi]
          · have hi : isIgnoredKey a.Key = false := by simpa using hi
            simp [List.filter_cons, keepAttr, hz, hg, hp, hi, callAttr]
        · simp [List.filter_cons, keepAttr, hz, hg, hp, callAttr]

theorem workingAttrs_eq (heap : Heap) (h : Handler) (record : Record) :
    workingAttrs heap h record =
      (if h.options.addSource then
          addSource [Attr.mk (ascii "log.level") (.string (levelString record.level))] record
        else [Attr.mk (ascii "log.level") (.string (levelString record.level))]) ++
        (Heap.read heap h.attributes).flatten ++
        (record.attrs.filter (keepAttr h.attrPrefix)).map (callAttr h.attrPrefix) := by
  unfold workingAttrs
  simp only [foldl_handleAttr, foldl_append_join]

theorem take_set_succ {α : Type} (x : α) :
    ∀ (arr : List α) (n : Nat), n < arr.length → (arr.set n x).take (n + 1) = arr.take n ++ [x] := by
  intro arr
  induction arr with
  | nil => intro n h; simp at h
  | cons y ys ih =>
    intro n h
    cases n with
    | zero => simp
    | succ n =>
      simp only [List.set_cons_succ, List.take_succ_cons, List.cons_append, List.cons.injEq,
        true_and]
      exact ih n (by simpa using h)

theorem take_append_succ {α : Type} (A : List α) (x : α) (rest : List α) (n : Nat)
    (hn : A.length = n) : (A ++ x :: rest).take (n + 1) = A ++ [x] := by
  have : A ++ x :: rest = (A ++ [x]) ++ rest := by simp
  rw [this]
  exact List.take_left' (by simp [hn])

theorem sliceAppend_read (heap : Heap) (s : Slice) (x : List Attr) (hs : s.WF heap) :
    Heap.read (sliceAppend heap s x).1 (sliceAppend heap s x).2 = Heap.read heap s ++ [x] ∧
    (sliceAppend heap s x).2.WF (sliceAppend heap s x).1 := by
  obtain ⟨h1, h2⟩ := hs
  unfold sliceAppend
  by_cases hc : s.len < s.cap
  · rw [if_pos hc]
    have hlen : s.len < (heap.getD s.array []).length := by omega
    have harr : s.array < heap.length := by
      by_contra hcon
      rw [List.getD_eq_default heap [] (by omega)] at hlen
      simp at hlen
    have hget : (heap.set s.array ((heap.getD s.array []).set s.len x)).getD s.array [] =
        (heap.getD s.array []).set s.len x := by
      rw [List.getD_eq_getElem _ _ (by simpa using harr)]
      simp
    refine ⟨?_, ?_⟩
    · simp only [Heap.read, hget]
      exact take_set_succ x _ _ hlen
    · simp only [Slice.WF, hget, List.length_set]
      omega
  · rw [if_neg hc]
    have hl : (Heap.read heap s).length = s.len := by
      simp only [Heap.read, List.length_take]
      omega
    have hget : (heap ++ [Heap.read heap s ++ [x] ++
        List.replicate (growCap s.cap - (s.len + 1)) []]).getD heap.length [] =
        Heap.read heap s ++ [x] ++ List.replicate (growCap s.cap - (s.len + 1)) [] := by
      rw [List.getD_eq_getElem _ _ (by simp)]
      simp
    have hgrow : s.len + 1 ≤ growCap s.cap := by
      unfold growCap
      split
      · omega
      · split <;> omega
    refine ⟨?_, ?_⟩
    · show List.take (s.len + 1) (List.getD (heap ++ [Heap.read heap s ++ [x] ++
          List.replicate (growCap s.cap - (s.len + 1)) []]) heap.length []) =
          Heap.read heap s ++ [x]
      rw [hget, List.append_assoc]
      exact take_append_succ _ x _ _ hl
    · simp only [Slice.WF, hget, List.length_append, hl, List.length_replicate,
        List.length_singleton]
      omega

theorem isIgnoredKey_dotted (x y : List Nat) :
    isIgnoredKey (x ++ groupSeparator :: y) = false := by
  have hmem : groupSeparator ∈ x ++ groupSeparator :: y := by simp
  unfold isIgnoredKey
  rw [Bool.or_eq_false_iff]
  constructor
  · rw [beq_eq_false_iff_ne]
    intro h
    rw [h] at hmem
    exact absurd hmem (by decide)
  · rw [beq_eq_false_iff_ne]
    intro h
    rw [h] at hmem
    exact absurd hmem (by decide)

theorem isZero_mk_of_ne (k : List Nat) (v : Value) (hk : k ≠ []) :
    (Attr.mk k v).isZero = false := by
  cases k with
  | nil => exact absurd rfl hk
  | cons c cs => rfl

theorem isEmptyGroup_mk (k k2 : List Nat) (v : Value) :
    (Attr.mk k v).isEmptyGroup = (Attr.mk k2 v).isEmptyGroup := by
  cases v with
  | group as => cases as <;> rfl
  | _ => rfl

theorem Attr.mk_eta (a : Attr) : Attr.mk a.Key a.Value = a := by
  cases a; rfl

theorem attr_key_mk (k : List Nat) (v : Value) : (Attr.mk k v).Key = k := rfl

theorem attr_value_mk (k : List Nat) (v : Value) : (Attr.mk k v).Value = v := rfl

theorem working_prefixed (q p : List Nat) (attrs : List Attr)
    (hne : ∀ a ∈ attrs, a.isZero = false) :
    ((attrs.map (fun a => Attr.mk (p ++ groupSeparator :: a.Key) a.Value)).filter
        (keepAttr q)).map (callAttr q) =
      (attrs.filter (keepAttr (q ++ (p ++ [groupSeparator])))).map
        (callAttr (q ++ (p ++ [groupSeparator]))) := by
  induction attrs with
  | nil => rfl
  | cons a rest ih =>
    have hz := hne a (by simp)
    have ih2 := ih (fun b hb => hne b (by simp [hb]))
    have hpne : q ++ (p ++ [groupSeparator]) ≠ [] := by simp
    have hz2 : (Attr.mk (p ++ groupSeparator :: a.Key) a.Value).isZero = false :=
      isZero_mk_of_ne _ _ (by simp)
    have hg2 : (Attr.mk (p ++ groupSeparator :: a.Key) a.Value).isEmptyGroup =
        a.isEmptyGroup := by
      rw [isEmptyGroup_mk _ a.Key, Attr.mk_eta]
    have hk1 : keepAttr q (Attr.mk (p ++ groupSeparator :: a.Key) a.Value) =
        !a.isEmptyGroup := by
      simp only [keepAttr, hz2, hg2, attr_key_mk, isIgnoredKey_dotted]
      simp
    have hk2 : keepAttr (q ++ (p ++ [groupSeparator])) a = !a.isEmptyGroup := by
      simp [keepAttr, hz]
    rw [List.map_cons, List.filter_cons, List.filter_cons, hk1, hk2]
    by_cases hg : a.isEmptyGroup = true
    · simp only [hg, Bool.not_true, Bool.false_eq_true, if_false]
      exact ih2
    · have hg : a.isEmptyGroup = false := by simpa using hg
      simp only [hg, Bool.not_false, if_true, List.map_cons, ih2, List.cons.injEq, and_true]
      unfold callAttr
      rw [if_pos hpne]
      by_cases hq : q = []
      · subst hq
        simp [attr_key_mk, attr_value_mk]
      · rw [if_pos hq]
        simp [attr_key_mk, attr_value_mk]

/-- C18: a record handled through `h.WithGroup(n)` gives the working attribute list, and
so the output, of a handler with the bound attributes of `h` and no prefix
that handles the same attributes under the keys `h.attrPrefix + n + "." + k`,
and of `h` itself handling them under the keys `n + "." + k`; `WithGroup`
keeps the bound attribute groups, and `WithAttrs` on the derived handler
stores every attribute it keeps under its key with that prefix. -/
theorem group_prefixing (fuel : Nat) (heap : Heap) (h : Handler) (n : List Nat)
    (record : Record) (hne : ∀ a ∈ record.attrs, a.isZero = false) :
    workingAttrs heap (h.WithGroup n) record =
      workingAttrs heap { h with attrPrefix := [] }
        { record with attrs := record.attrs.map (fun a =>
            Attr.mk ((h.attrPrefix ++ n) ++ groupSeparator :: a.Key) a.Value) } ∧
    Handler.Handle fuel heap (h.WithGroup n) record =
      Handler.Handle fuel heap { h with attrPrefix := [] }
        { record with attrs := record.attrs.map (fun a =>
            Attr.mk ((h.attrPrefix ++ n) ++ groupSeparator :: a.Key) a.Value) } ∧
    Handler.Handle fuel heap (h.WithGroup n) record =
      Handler.Handle fuel heap h
        { record with attrs := record.attrs.map (fun a =>
            Attr.mk (n ++ groupSeparator :: a.Key) a.Value) } ∧
    (h.WithGroup n).attributes = h.attributes ∧
    (∀ attrs, withAttrsLoop fuel (h.WithGroup n).attrPrefix attrs.length attrs 0 =
      mapExcept (boundAttr fuel (h.attrPrefix ++ n ++ [groupSeparator]))
        (attrs.filter (fun a => !a.isZero && !a.isEmptyGroup))) := by
  have hw1 : workingAttrs heap (h.WithGroup n) record =
      workingAttrs heap { h with attrPrefix := [] }
        { record with attrs := record.attrs.map (fun a =>
            Attr.mk ((h.attrPrefix ++ n) ++ groupSeparator :: a.Key) a.Value) } := by
    rw [workingAttrs_eq, workingAttrs_eq]
    have := working_prefixed [] (h.attrPrefix ++ n) record.attrs hne
    simp only [List.nil_append] at this
    simp only [Handler.WithGroup, addSource]
    rw [this]
  have hw2 : workingAttrs heap (h.WithGroup n) record =
      workingAttrs heap h
        { record with attrs := record.attrs.map (fun a =>
            Attr.mk (n ++ groupSeparator :: a.Key) a.Value) } := by
    rw [workingAttrs_eq, workingAttrs_eq]
    have := working_prefixed h.attrPrefix n record.attrs hne
    simp only [Handler.WithGroup, addSource]
    rw [this]
    simp [List.append_assoc]
  refine ⟨hw1, ?_, ?_, rfl, ?_⟩
  · simp only [Handler.Handle, hw1]
    rfl
  · simp only [Handler.Handle, hw2]
    rfl
  · intro attrs
    have h1 := withAttrsLoop_eq fuel (h.WithGroup n).attrPrefix attrs [] attrs.length
      (Nat.le_refl _)
    simp only [List.nil_append, List.length_nil] at h1
    rw [h1]
    have hp : (h.WithGroup n).attrPrefix = h.attrPrefix ++ n ++ [groupSeparator] := rfl
    rw [hp]
    have hf : attrs.filter (keepAttr (h.attrPrefix ++ n ++ [groupSeparator])) =
        attrs.filter (fun a => !a.isZero && !a.isEmptyGroup) := by
      apply List.filter_congr
      intro a _
      simp [keepAttr]
    rw [hf]
    cases mapExcept (boundAttr fuel (h.attrPrefix ++ n ++ [groupSeparator]))
        (attrs.filter (fun a => !a.isZero && !a.isEmptyGroup)) with
    | error e => rfl
    | ok r => simp [Except.map]

/-- The example `FullExampleWithGroup` in small: a handler derived with the group `log`
handles the attribute `logger` as a handler without prefix handles
`log.logger`. -/
theorem group_prefixing_witness :
    (∀ a ∈ [Attr.mk (ascii "logger") (.string (ascii "x"))], a.isZero = false) ∧
    Handler.Handle 3 []
        ((NewHandler
            { hideTimestamp := true, addSource := false, levelF := fun _ _ => true }).WithGroup
          (ascii "log"))
        { time := { isZero := true, rfc3339Nano := [] }, message := [], level := 0,
          source := none, attrs := [Attr.mk (ascii "logger") (.string (ascii "x"))] } =
      Handler.Handle 3 []
        (NewHandler { hideTimestamp := true, addSource := false, levelF := fun _ _ => true })
        { time := { isZero := true, rfc3339Nano := [] }, message := [], level := 0,
          source := none,
          attrs := [Attr.mk (ascii "log.logger") (.string (ascii "x"))] } :=
  ⟨by decide,
    (group_prefixing 3 []
      (NewHandler { hideTimestamp := true, addSource := false, levelF := fun _ _ => true })
      (ascii "log")
      { time := { isZero := true, rfc3339Nano := [] }, message := [], level := 0,
        source := none, attrs := [Attr.mk (ascii "logger") (.string (ascii "x"))] }
      (by decide)).2.2.1⟩

/-- C19: a handler `p` reached by three derivations from a new handler holds a slice of
three attribute groups with capacity four; `h1 = p.WithAttrs([foo=test])`
writes its group into the free slot of the array of `p`, and
`h2 = p.WithAttrs([bar=test])` writes into the same slot, so that afterwards
the bound groups of `h1` end with `bar=test` and `h1` logs `bar`, not `foo`. -/
theorem withAttrs_sibling_overwrite :
    ∃ (heap3 : Heap) (p : Handler) (heap4 : Heap) (h1 : Handler) (heap5 : Heap)
        (h2 : Handler),
      (Handler.WithAttrs 3 []
          (NewHandler { hideTimestamp := true, addSource := false, levelF := fun _ _ => true })
          [Attr.mk (ascii "a") (.string (ascii "1"))] >>= fun x =>
        Handler.WithAttrs 3 x.1 x.2 [Attr.mk (ascii "b") (.string (ascii "2"))] >>= fun y =>
        Handler.WithAttrs 3 y.1 y.2 [Attr.mk (ascii "c") (.string (ascii "3"))]) =
          .ok (heap3, p) ∧
      p.attributes = { array := 2, len := 3, cap := 4 } ∧
      Handler.WithAttrs 3 heap3 p [Attr.mk (ascii "foo") (.string (ascii "test"))] =
        .ok (heap4, h1) ∧
      Heap.read heap4 h1.attributes =
        Heap.read heap3 p.attributes ++ [[Attr.mk (ascii "foo") (.string (ascii "test"))]] ∧
      Handler.Handle 3 heap4 h1
          { time := { isZero := true, rfc3339Nano := [] }, message := [], level := 4,
            source := none, attrs := [] } =
        .ok (ascii
          "\x7b\"foo\":\"test\",\"c\":\"3\",\"b\":\"2\",\"a\":\"1\",\"log\":\x7b\"level\":\"WARN\"\x7d\x7d\n") ∧
      Handler.WithAttrs 3 heap4 p [Attr.mk (ascii "bar") (.string (ascii "test"))] =
        .ok (heap5, h2) ∧
      Heap.read heap5 p.attributes = Heap.read heap3 p.attributes ∧
      Heap.read heap5 h2.attributes =
        Heap.read heap3 p.attributes ++ [[Attr.mk (ascii "bar") (.string (ascii "test"))]] ∧
      Heap.read heap5 h1.attributes =
        Heap.read heap3 p.attributes ++ [[Attr.mk (ascii "bar") (.string (ascii "test"))]] ∧
      Handler.Handle 3 heap5 h1
          { time := { isZero := true, rfc3339Nano := [] }, message := [], level := 4,
            source := none, attrs := [] } =
        .ok (ascii
          "\x7b\"c\":\"3\",\"bar\":\"test\",\"b\":\"2\",\"a\":\"1\",\"log\":\x7b\"level\":\"WARN\"\x7d\x7d\n") :=
  ⟨_, _, _, _, _, _, rfl, rfl, rfl, rfl, rfl, rfl, rfl, rfl, rfl, rfl⟩

theorem keepAttr_filter_idem (pre : List Nat) (attrs : List Attr) :
    (attrs.filter (keepAttr pre)).filter (keepAttr pre) = attrs.filter (keepAttr pre) := by
  rw [List.filter_filter]
  apply List.filter_congr
  intro a _
  simp

/-- C20: `WithAttrs` stores, in order, exactly the attributes that are not the zero
attribute, not a group without members and, on a handler without prefix, not
keyed by `@timestamp` or `message`; the group it appends is read back after
the groups already bound. `Handle` builds its working list from the level
(and source) attributes, the bound groups and the record attributes that pass
the same test, so the output is that of the record without the dropped
attributes; an attribute that passes the test is neither the zero attribute
nor an empty group, and with a prefix nothing else is dropped. -/
theorem empty_entries_dropped (fuel : Nat) (heap : Heap) (h : Handler) (attrs : List Attr)
    (record : Record) (hwf : h.attributes.WF heap) :
    Handler.WithAttrs fuel heap h attrs =
      (mapExcept (boundAttr fuel h.attrPrefix) (attrs.filter (keepAttr h.attrPrefix))).map
        (fun g => ((sliceAppend heap h.attributes g).1,
          { h with attributes := (sliceAppend heap h.attributes g).2 })) ∧
    (∀ g, Heap.read (sliceAppend heap h.attributes g).1 (sliceAppend heap h.attributes g).2 =
      Heap.read heap h.attributes ++ [g]) ∧
    workingAttrs heap h record =
      (if h.options.addSource then
          addSource [Attr.mk (ascii "log.level") (.string (levelString record.level))] record
        else [Attr.mk (ascii "log.level") (.string (levelString record.level))]) ++
        (Heap.read heap h.attributes).flatten ++
        (record.attrs.filter (keepAttr h.attrPrefix)).map (callAttr h.attrPrefix) ∧
    Handler.Handle fuel heap h record =
      Handler.Handle fuel heap h
        { record with attrs := record.attrs.filter (keepAttr h.attrPrefix) } ∧
    (∀ a, keepAttr h.attrPrefix a = true → a.isZero = false ∧ a.isEmptyGroup = false) ∧
    (∀ a, a.isZero = false → a.isEmptyGroup = false →
      (h.attrPrefix ≠ [] ∨ isIgnoredKey a.Key = false) → keepAttr h.attrPrefix a = true) := by
  refine ⟨?_, fun g => (sliceAppend_read heap h.attributes g hwf).1, workingAttrs_eq heap h record,
    ?_, ?_, ?_⟩
  · have h1 := withAttrsLoop_eq fuel h.attrPrefix attrs [] attrs.length (Nat.le_refl _)
    simp only [List.nil_append, List.length_nil] at h1
    unfold Handler.WithAttrs
    rw [h1]
    cases mapExcept (boundAttr fuel h.attrPrefix) (attrs.filter (keepAttr h.attrPrefix)) with
    | error e => rfl
    | ok r => rfl
  · have hw : workingAttrs heap h record =
        workingAttrs heap h
          { record with attrs := record.attrs.filter (keepAttr h.attrPrefix) } := by
      rw [workingAttrs_eq, workingAttrs_eq]
      simp only [keepAttr_filter_idem, addSource]
    simp only [Handler.Handle, hw]
  · intro a ha
    simp only [keepAttr, Bool.and_eq_true, Bool.not_eq_true'] at ha
    exact ⟨ha.1.1, ha.1.2⟩
  · intro a hz hg hk
    simp only [keepAttr, hz, hg, Bool.not_false, Bool.true_and, Bool.not_eq_true',
      Bool.and_eq_false_iff, beq_eq_false_iff_ne]
    exact hk

/-- The examples `EmptyAttr` and `EmptyGroup`: the zero attribute and a group without
members are dropped from the record of a new handler. -/
theorem empty_entries_dropped_witness :
    Slice.WF []
      (NewHandler
        { hideTimestamp := true, addSource := false, levelF := fun _ _ => true }).attributes ∧
    Handler.Handle 3 []
        (NewHandler { hideTimestamp := true, addSource := false, levelF := fun _ _ => true })
        { time := { isZero := true, rfc3339Nano := [] }, message := [], level := 0,
          source := none,
          attrs := [Attr.mk [] .zero, Attr.mk (ascii "dst") (.group [])] } =
      Handler.Handle 3 []
        (NewHandler { hideTimestamp := true, addSource := false, levelF := fun _ _ => true })
        { time := { isZero := true, rfc3339Nano := [] }, message := [], level := 0,
          source := none, attrs := [] } :=
  ⟨⟨Nat.le_refl 0, Nat.le_refl 0⟩,
    (empty_entries_dropped 3 []
      (NewHandler { hideTimestamp := true, addSource := false, levelF := fun _ _ => true })
      []
      { time := { isZero := true, rfc3339Nano := [] }, message := [], level := 0,
        source := none,
        attrs := [Attr.mk [] .zero, Attr.mk (ascii "dst") (.group [])] }
      ⟨Nat.le_refl 0, Nat.le_refl 0⟩).2.2.2.1⟩

/-- C20, counterexample: a new handler that is given the attribute `message = "test"`
binds nothing, although the attribute is neither the zero attribute nor an
empty group. -/
theorem empty_entries_counterexample :
    (Attr.mk (ascii "message") (.string (ascii "test"))).isZero = false ∧
    (Attr.mk (ascii "message") (.string (ascii "test"))).isEmptyGroup = false ∧
    (∀ fuel, withAttrsLoop fuel [] 1 [Attr.mk (ascii "message") (.string (ascii "test"))] 0 =
      .ok []) ∧
    (∀ fuel heap, Handler.WithAttrs fuel heap
        (NewHandler { hideTimestamp := true, addSource := false, levelF := fun _ _ => true })
        [Attr.mk (ascii "message") (.string (ascii "test"))] =
      .ok ((sliceAppend heap
          (NewHandler { hideTimestamp := true, addSource := false,
                        levelF := fun _ _ => true }).attributes []).1,
        { NewHandler { hideTimestamp := true, addSource := false, levelF := fun _ _ => true } with
          attributes := (sliceAppend heap
            (NewHandler { hideTimestamp := true, addSource := false,
                          levelF := fun _ _ => true }).attributes []).2 })) :=
  ⟨rfl, rfl, fun _ => rfl, fun _ _ => rfl⟩

theorem utf8First_some (a sz lo hi : Nat) (h : utf8First a = some (sz, lo, hi)) :
    (sz = 2 ∨ sz = 3 ∨ sz = 4) ∧ 128 ≤ lo ∧ hi ≤ 191 ∧ 194 ≤ a ∧ a ≤ 244 ∧
      (sz = 2 → a ≤ 223) ∧ (sz = 3 → 224 ≤ a ∧ a ≤ 239) ∧ (sz = 4 → 240 ≤ a) ∧
      (a = 224 → lo = 160) ∧ (a = 237 → hi = 159) ∧ (a = 240 → lo = 144) ∧
      (a = 244 → hi = 143) := by
  unfold utf8First at h
  split_ifs at h <;>
    (simp only [Option.some.injEq, Prod.mk.injEq, reduceCtorEq] at h
     try (obtain ⟨rfl, rfl, rfl⟩ := h; omega))

theorem decode_take4 (s : List Nat) :
    decodeRuneInString (s.take 4) = decodeRuneInString s := by
  rcases s with _ | ⟨a, _ | ⟨b, _ | ⟨c, _ | ⟨d, t⟩⟩⟩⟩
  · rfl
  · rfl
  · rfl
  · rfl
  · show decodeRuneInString [a, b, c, d] = decodeRuneInString (a :: b :: c :: d :: t)
    simp only [decodeRuneInString, List.getD_cons_zero, List.getD_cons_succ,
      List.length_cons, List.length_nil]
    by_cases ha : a < 128
    · simp [ha]
    · simp only [ha, if_false]
      cases h : utf8First a with
      | none => rfl
      | some p =>
        obtain ⟨sz, lo, hi⟩ := p
        obtain ⟨hsz, -⟩ := utf8First_some a sz lo hi h
        have h2 : ¬ (t.length + 1 + 1 + 1 + 1 < 2) := by omega
        have h3 : ¬ (t.length + 1 + 1 + 1 + 1 < 3) := by omega
        have h4 : ¬ (t.length + 1 + 1 + 1 + 1 < 4) := by omega
        rcases hsz with rfl | rfl | rfl <;> simp [h2, h3, h4]

theorem decode_ascii (b : Nat) (rest : List Nat) (hb : b < 128) :
    decodeRuneInString (b :: rest) = (b, 1) := by
  simp [decodeRuneInString, hb]

theorem decode_multibyte (s0 : Nat) (rest : List Nat) (h0 : ¬ s0 < 128) :
    decodeRuneInString (s0 :: rest) = (runeError, 1) ∨
    (∃ s1 t, rest = s1 :: t ∧ 194 ≤ s0 ∧ s0 ≤ 223 ∧ 128 ≤ s1 ∧ s1 ≤ 191 ∧
      decodeRuneInString (s0 :: rest) = (s0 % 32 * 64 + s1 % 64, 2)) ∨
    (∃ s1 s2 t, rest = s1 :: s2 :: t ∧ 224 ≤ s0 ∧ s0 ≤ 239 ∧ 128 ≤ s1 ∧ s1 ≤ 191 ∧
      128 ≤ s2 ∧ s2 ≤ 191 ∧ (s0 = 224 → 160 ≤ s1) ∧ (s0 = 237 → s1 ≤ 159) ∧
      decodeRuneInString (s0 :: rest) = (s0 % 16 * 4096 + s1 % 64 * 64 + s2 % 64, 3)) ∨
    (∃ s1 s2 s3 t, rest = s1 :: s2 :: s3 :: t ∧ 240 ≤ s0 ∧ s0 ≤ 244 ∧ 128 ≤ s1 ∧ s1 ≤ 191 ∧
      128 ≤ s2 ∧ s2 ≤ 191 ∧ 128 ≤ s3 ∧ s3 ≤ 191 ∧ (s0 = 240 → 144 ≤ s1) ∧
      (s0 = 244 → s1 ≤ 143) ∧
      decodeRuneInString (s0 :: rest) =
        (s0 % 8 * 262144 + s1 % 64 * 4096 + s2 % 64 * 64 + s3 % 64, 4)) := by
  cases h : utf8First s0 with
  | none => left; simp [decodeRuneInString, h0, h]
  | some p =>
    obtain ⟨sz, lo, hi⟩ := p
    obtain ⟨hsz, hlo, hhi, ha1, ha2, hz2, hz3, hz4, hl224, hh237, hl240, hh244⟩ :=
      utf8First_some s0 sz lo hi h
    rcases hsz with rfl | rfl | rfl
    · rcases rest with _ | ⟨s1, t⟩
      · left; simp [decodeRuneInString, h0, h]
      · by_cases h1 : s1 < lo ∨ hi < s1
        · left; simp [decodeRuneInString, h0, h, h1]
        · right; left
          refine ⟨s1, t, rfl, ha1, hz2 rfl, by omega, by omega, ?_⟩
          simp [decodeRuneInString, h0, h, h1]
    · rcases rest with _ | ⟨s1, _ | ⟨s2, t⟩⟩
      · left; simp [decodeRuneInString, h0, h]
      · left; simp [decodeRuneInString, h0, h]
      · by_cases h1 : s1 < lo ∨ hi < s1
        · left; simp [decodeRuneInString, h0, h, h1]
        · by_cases h2 : s2 < 128 ∨ 191 < s2
          · left; simp [decodeRuneInString, h0, h, h1, h2]
          · right; right; left
            refine ⟨s1, s2, t, rfl, (hz3 rfl).1, (hz3 rfl).2, by omega, by omega, by omega,
              by omega, fun e => by have := hl224 e; omega, fun e => by have := hh237 e; omega,
              ?_⟩
            simp [decodeRuneInString, h0, h, h1, h2]
    · rcases rest with _ | ⟨s1, _ | ⟨s2, _ | ⟨s3, t⟩⟩⟩
      · left; simp [decodeRuneInString, h0, h]
      · left; simp [decodeRuneInString, h0, h]
      · left; simp [decodeRuneInString, h0, h]
      · by_cases h1 : s1 < lo ∨ hi < s1
        · left; simp [decodeRuneInString, h0, h, h1]
        · by_cases h2 : s2 < 128 ∨ 191 < s2
          · left; simp [decodeRuneInString, h0, h, h1, h2]
          · by_cases h3 : s3 < 128 ∨ 191 < s3
            · left; simp [decodeRuneInString, h0, h, h1, h2, h3]
            · right; right; right
              refine ⟨s1, s2, s3, t, rfl, hz4 rfl, ha2, by omega, by omega, by omega,
                by omega, by omega, by omega, fun e => by have := hl240 e; omega,
                fun e => by have := hh244 e; omega, ?_⟩
              simp [decodeRuneInString, h0, h, h1, h2, h3]

theorem slice_self (src : List Nat) (i : Nat) : slice src i i = [] := by
  unfold slice
  rw [List.drop_eq_nil_iff]
  exact List.length_take_le i src

theorem slice_extend (src : List Nat) (start i k : Nat) (hs : start ≤ i)
    (hi : i ≤ src.length) :
    slice src start (i + k) = slice src start i ++ (src.drop i).take k := by
  unfold slice
  rw [List.take_add, List.drop_append_of_le_length]
  rw [List.length_take]
  omega

theorem slice_window (src : List Nat) (i : Nat) :
    slice src i (i + min (src.length - i) 4) = (src.drop i).take 4 := by
  unfold slice
  rw [List.drop_take]
  simp only [Nat.add_sub_cancel_left]
  rw [← List.length_drop]
  generalize src.drop i = l
  by_cases h : 4 ≤ l.length
  · rw [Nat.min_eq_right h]
  · rw [Nat.min_eq_left (by omega), List.take_length, List.take_of_length_le (by omega)]

theorem drop_eq_getD_cons (src : List Nat) (i : Nat) (hi : i < src.length) :
    src.drop i = src.getD i 0 :: src.drop (i + 1) := by
  rw [List.drop_eq_getElem_cons hi]
  congr 1
  simp [List.getD_eq_getElem?_getD, List.getElem?_eq_getElem hi]

theorem loop_eq_escapeFrom (src : List Nat) :
    ∀ (n : Nat) (dst : List Nat) (start i : Nat), start ≤ i → i ≤ src.length →
      src.length - i ≤ n →
      appendStringContentLoop n dst src start i =
        dst ++ slice src start i ++ escapeFrom n (src.drop i) := by
  intro n
  induction n with
  | zero =>
    intro dst start i _ hi hn
    have hil : i = src.length := by omega
    subst hil
    simp [appendStringContentLoop, escapeFrom, slice]
  | succ n ih =>
    intro dst start i hs hi hn
    by_cases hlt : i < src.length
    · have hdrop := drop_eq_getD_cons src i hlt
      rw [appendStringContentLoop, if_pos hlt, hdrop, escapeFrom]
      have hone : slice src start (i + 1) = slice src start i ++ [src.getD i 0] := by
        rw [slice_extend src start i 1 hs hi, hdrop]; rfl
      by_cases hb : src.getD i 0 < 128
      · simp only [hb, if_true]
        by_cases hsafe : safeSet (src.getD i 0) = true
        · simp only [hsafe, if_true]
          rw [ih dst start (i + 1) (by omega) hlt (by omega), hone]
          simp
        · simp only [hsafe, if_false, Bool.false_eq_true]
          rw [ih _ (i + 1) (i + 1) (Nat.le_refl _) hlt (by omega), slice_self]
          simp
      · simp only [hb, if_false]
        rw [slice_window, hdrop, decode_take4]
        rcases decode_multibyte (src.getD i 0) (src.drop (i + 1)) hb with
          h | ⟨s1, t, hr, -, -, -, -, h⟩ | ⟨s1, s2, t, hr, -, -, -, -, -, -, -, -, h⟩ |
          ⟨s1, s2, s3, t, hr, -, -, -, -, -, -, -, -, -, -, h⟩
        · rw [h]
          dsimp only
          simp only [and_self, if_true]
          rw [ih _ (i + 1) (i + 1) (Nat.le_refl _) hlt (by omega), slice_self]
          simp
        · have hlen : i + 2 ≤ src.length := by
            have := congrArg List.length hr
            simp at this; omega
          have hd2 : List.drop 2 (src.getD i 0 :: src.drop (i + 1)) = src.drop (i + 2) := by
            rw [← hdrop, List.drop_drop]
          have ht2 : slice src start (i + 2) =
              slice src start i ++ List.take 2 (src.getD i 0 :: src.drop (i + 1)) := by
            rw [slice_extend src start i 2 hs hi, hdrop]
          rw [h]
          dsimp only
          simp only [hd2]
          have hne : ¬ ((src.getD i 0 % 32 * 64 + s1 % 64 = runeError) ∧ (2 = 1)) := by omega
          rw [if_neg hne, if_neg hne]
          by_cases hsep : src.getD i 0 % 32 * 64 + s1 % 64 = 8232 ∨
              src.getD i 0 % 32 * 64 + s1 % 64 = 8233
          · rw [if_pos hsep, if_pos hsep]
            rw [ih _ (i + 2) (i + 2) (Nat.le_refl _) hlen (by omega), slice_self]
            simp
          · rw [if_neg hsep, if_neg hsep]
            rw [ih dst start (i + 2) (by omega) hlen (by omega), ht2]
            simp
        · have hlen : i + 3 ≤ src.length := by
            have := congrArg List.length hr
            simp at this; omega
          have hd2 : List.drop 3 (src.getD i 0 :: src.drop (i + 1)) = src.drop (i + 3) := by
            rw [← hdrop, List.drop_drop]
          have ht2 : slice src start (i + 3) =
              slice src start i ++ List.take 3 (src.getD i 0 :: src.drop (i + 1)) := by
            rw [slice_extend src start i 3 hs hi, hdrop]
          rw [h]
          dsimp only
          simp only [hd2]
          have hne : ¬ ((src.getD i 0 % 16 * 4096 + s1 % 64 * 64 + s2 % 64 = runeError) ∧
              (3 = 1)) := by omega
          rw [if_neg hne, if_neg hne]
          by_cases hsep : src.getD i 0 % 16 * 4096 + s1 % 64 * 64 + s2 % 64 = 8232 ∨
              src.getD i 0 % 16 * 4096 + s1 % 64 * 64 + s2 % 64 = 8233
          · rw [if_pos hsep, if_pos hsep]
            rw [ih _ (i + 3) (i + 3) (Nat.le_refl _) hlen (by omega), slice_self]
            simp
          · rw [if_neg hsep, if_neg hsep]
            rw [ih dst start (i + 3) (by omega) hlen (by omega), ht2]
            simp
        · have hlen : i + 4 ≤ src.length := by
            have := congrArg List.length hr
            simp at this; omega
          have hd2 : List.drop 4 (src.getD i 0 :: src.drop (i + 1)) = src.drop (i + 4) := by
            rw [← hdrop, List.drop_drop]
          have ht2 : slice src start (i + 4) =
              slice src start i ++ List.take 4 (src.getD i 0 :: src.drop (i + 1)) := by
            rw [slice_extend src start i 4 hs hi, hdrop]
          rw [h]
          dsimp only
          simp only [hd2]
          have hne : ¬ ((src.getD i 0 % 8 * 262144 + s1 % 64 * 4096 + s2 % 64 * 64 + s3 % 64 =
              runeError) ∧ (4 = 1)) := by omega
          rw [if_neg hne, if_neg hne]
          by_cases hsep : src.getD i 0 % 8 * 262144 + s1 % 64 * 4096 + s2 % 64 * 64 + s3 % 64 =
                8232 ∨
              src.getD i 0 % 8 * 262144 + s1 % 64 * 4096 + s2 % 64 * 64 + s3 % 64 = 8233
          · rw [if_pos hsep, if_pos hsep]
            rw [ih _ (i + 4) (i + 4) (Nat.le_refl _) hlen (by omega), slice_self]
            simp
          · rw [if_neg hsep, if_neg hsep]
            rw [ih dst start (i + 4) (by omega) hlen (by omega), ht2]
            simp
    · have hil : i = src.length := by omega
      subst hil
      rw [appendStringContentLoop, if_neg hlt]
      simp [escapeFrom, slice]

theorem AppendStringContent_eq (dst src : List Nat) :
    AppendStringContent dst src = dst ++ escapeFrom src.length src := by
  unfold AppendStringContent
  rw [loop_eq_escapeFrom src src.length dst 0 0 (Nat.le_refl _) (Nat.zero_le _) (by omega),
    slice_self]
  simp

theorem safeSet_false (b : Nat) (hb : b < 128) (hs : ¬ safeSet b = true) :
    b < 32 ∨ b = 34 ∨ b = 92 := by
  simp only [safeSet, Bool.and_eq_true, decide_eq_true_eq, Bool.not_eq_true',
    beq_eq_false_iff_ne, ne_eq] at hs
  by_contra hc
  apply hs
  refine ⟨⟨⟨by omega, hb⟩, by omega⟩, by omega⟩

theorem safeSet_true (b : Nat) (hs : safeSet b = true) : 32 ≤ b ∧ b ≠ 34 ∧ b ≠ 92 := by
  simp only [safeSet, Bool.and_eq_true, decide_eq_true_eq, Bool.not_eq_true',
    beq_eq_false_iff_ne, ne_eq] at hs
  exact ⟨hs.1.1.1, hs.1.2, hs.2⟩

theorem unquoteBody_step (N : Nat) (tok dec X : List Nat)
    (hstep : unquoteStep (tok ++ X) = some (dec, X)) :
    unquoteBody (N + 1) (tok ++ X) = (unquoteBody N X).map (fun t => dec ++ t) := by
  have hne : tok ++ X ≠ [34] := by
    intro h
    rw [h] at hstep
    exact absurd hstep (by simp [unquoteStep])
  rw [unquoteBody, if_neg hne, hstep]

theorem unquoteStep_raw (c : Nat) (X : List Nat) (h1 : 32 ≤ c) (h2 : c ≠ 34) (h3 : c ≠ 92) :
    unquoteStep ([c] ++ X) = some ([c], X) := by
  show unquoteStep (c :: X) = some ([c], X)
  rw [unquoteStep.eq_def]
  simp only
  rw [if_neg h3, if_neg (by omega)]

theorem unquoteStep_escapeByte (b : Nat) (X : List Nat) (hb : b < 32 ∨ b = 34 ∨ b = 92) :
    unquoteStep (escapeByte b ++ X) = some ([b], X) := by
  rcases hb with hb | rfl | rfl
  · interval_cases b <;> rfl
  · rfl
  · rfl

theorem unquoteStep_fffd (X : List Nat) :
    unquoteStep (ascii "\\ufffd" ++ X) = some ([239, 191, 189], X) :=
  rfl

theorem unquoteStep_2028 (X : List Nat) :
    unquoteStep ([92, 117, 50, 48, 50, hex (8232 % 16)] ++ X) = some ([226, 128, 168], X) :=
  rfl

theorem unquoteStep_2029 (X : List Nat) :
    unquoteStep ([92, 117, 50, 48, 50, hex (8233 % 16)] ++ X) = some ([226, 128, 169], X) :=
  rfl

theorem unquoteBody_raw (N c : Nat) (X : List Nat) (h1 : 128 ≤ c) :
    unquoteBody (N + 1) (c :: X) = (unquoteBody N X).map (fun t => c :: t) :=
  unquoteBody_step N [c] [c] X (unquoteStep_raw c X (by omega) (by omega) (by omega))

theorem escapeByte_length_pos (b : Nat) : 1 ≤ (escapeByte b).length := by
  unfold escapeByte
  split_ifs <;> simp

theorem unquote_escapeFrom :
    ∀ (n : Nat) (s : List Nat) (N : Nat), s.length ≤ n → (escapeFrom n s).length < N →
      unquoteBody N (escapeFrom n s ++ [34]) = some (replaceInvalidFrom n s) := by
  intro n
  induction n with
  | zero =>
    intro s N _ hN
    obtain ⟨M, rfl⟩ : ∃ M, N = M + 1 := ⟨N - 1, by omega⟩
    simp [escapeFrom, replaceInvalidFrom, unquoteBody]
  | succ n ih =>
    intro s N hs hN
    obtain ⟨M, rfl⟩ : ∃ M, N = M + 1 := ⟨N - 1, by omega⟩
    cases s with
    | nil => simp [escapeFrom, replaceInvalidFrom, unquoteBody]
    | cons b rest =>
      have hrest : rest.length ≤ n := by simpa using hs
      by_cases hb : b < 128
      · have hR : replaceInvalidFrom (n + 1) (b :: rest) = [b] ++ replaceInvalidFrom n rest := by
          rw [replaceInvalidFrom, decode_ascii b rest hb]
          have hne : ¬ (b = runeError ∧ 1 = 1) := by
            unfold runeError; omega
          dsimp only
          rw [if_neg hne]
          rfl
        have hE : escapeFrom (n + 1) (b :: rest) =
            (if safeSet b = true then [b] else escapeByte b) ++ escapeFrom n rest := by
          rw [escapeFrom, if_pos hb]
        rw [hE] at hN ⊢
        rw [hR, List.append_assoc]
        have hstep : unquoteStep ((if safeSet b = true then [b] else escapeByte b) ++
            (escapeFrom n rest ++ [34])) = some ([b], escapeFrom n rest ++ [34]) := by
          by_cases hsafe : safeSet b = true
          · rw [if_pos hsafe]
            obtain ⟨h1, h2, h3⟩ := safeSet_true b hsafe
            exact unquoteStep_raw b _ h1 h2 h3
          · rw [if_neg hsafe]
            exact unquoteStep_escapeByte b _ (safeSet_false b hb hsafe)
        have hpos : 1 ≤ (if safeSet b = true then [b] else escapeByte b).length := by
          split
          · simp
          · exact escapeByte_length_pos b
        rw [unquoteBody_step M _ _ _ hstep, ih rest M hrest (by
          rw [List.length_append] at hN; omega)]
        rfl
      · rw [escapeFrom, if_neg hb, decode_take4] at hN ⊢
        rw [replaceInvalidFrom]
        rcases decode_multibyte b rest hb with
          h | ⟨s1, t, hr, -, -, g1, -, h⟩ |
          ⟨s1, s2, t, hr, f1, f2, g1, g1', g2, g2', -, -, h⟩ |
          ⟨s1, s2, s3, t, hr, f1, f2, g1, g1', g2, g2', g3, g3', fl, -, h⟩
        · rw [h] at hN ⊢
          dsimp only at hN ⊢
          simp only [and_self, if_true, List.drop_succ_cons, List.drop_zero] at hN ⊢
          rw [List.append_assoc, unquoteBody_step M _ _ _ (unquoteStep_fffd _),
            ih rest M hrest (by
              have h6 : (ascii "\\ufffd").length = 6 := rfl
              rw [List.length_append] at hN; omega)]
          rfl
        · subst hr
          rw [h] at hN ⊢
          dsimp only at hN ⊢
          have hne : ¬ ((b % 32 * 64 + s1 % 64 = runeError) ∧ (2 = 1)) := by omega
          have hsep : ¬ (b % 32 * 64 + s1 % 64 = 8232 ∨ b % 32 * 64 + s1 % 64 = 8233) := by
            omega
          rw [if_neg hne, if_neg hsep] at hN
          rw [if_neg hne, if_neg hsep, if_neg hne]
          simp only [List.take_succ_cons, List.take_zero, List.drop_succ_cons, List.drop_zero,
            List.cons_append, List.nil_append, List.length_cons] at hN ⊢
          obtain ⟨K, rfl⟩ : ∃ K, M = K + 1 := ⟨M - 1, by omega⟩
          rw [unquoteBody_raw _ b _ (by omega), unquoteBody_raw _ s1 _ g1,
            ih t K (by simp at hrest; omega) (by omega)]
          rfl
        · subst hr
          rw [h] at hN ⊢
          dsimp only at hN ⊢
          have hne : ¬ ((b % 16 * 4096 + s1 % 64 * 64 + s2 % 64 = runeError) ∧ (3 = 1)) := by
            omega
          rw [if_neg hne] at hN
          rw [if_neg hne, if_neg hne]
          by_cases hsep : b % 16 * 4096 + s1 % 64 * 64 + s2 % 64 = 8232 ∨
              b % 16 * 4096 + s1 % 64 * 64 + s2 % 64 = 8233
          · rw [if_pos hsep] at hN
            rw [if_pos hsep]
            simp only [List.take_succ_cons, List.take_zero, List.drop_succ_cons, List.drop_zero,
              List.length_append, List.length_cons, List.length_nil] at hN ⊢
            rw [List.append_assoc]
            rcases hsep with hc | hc
            · have hb' : b = 226 := by omega
              have hs1 : s1 = 128 := by omega
              have hs2 : s2 = 168 := by omega
              rw [hc, unquoteBody_step M _ _ _ (unquoteStep_2028 _),
                ih t M (by simp at hrest; omega) (by omega), hb', hs1, hs2]
              rfl
            · have hb' : b = 226 := by omega
              have hs1 : s1 = 128 := by omega
              have hs2 : s2 = 169 := by omega
              rw [hc, unquoteBody_step M _ _ _ (unquoteStep_2029 _),
                ih t M (by simp at hrest; omega) (by omega), hb', hs1, hs2]
              rfl
          · rw [if_neg hsep] at hN
            rw [if_neg hsep]
            simp only [List.take_succ_cons, List.take_zero, List.drop_succ_cons, List.drop_zero,
              List.cons_append, List.nil_append, List.length_cons] at hN ⊢
            obtain ⟨K, rfl⟩ : ∃ K, M = K + 2 := ⟨M - 2, by omega⟩
            rw [unquoteBody_raw _ b _ (by omega), unquoteBody_raw _ s1 _ g1,
              unquoteBody_raw _ s2 _ g2, ih t K (by simp at hrest; omega) (by omega)]
            rfl
        · subst hr
          rw [h] at hN ⊢
          dsimp only at hN ⊢
          have hne : ¬ ((b % 8 * 262144 + s1 % 64 * 4096 + s2 % 64 * 64 + s3 % 64 = runeError) ∧
              (4 = 1)) := by omega
          have hsep : ¬ (b % 8 * 262144 + s1 % 64 * 4096 + s2 % 64 * 64 + s3 % 64 = 8232 ∨
              b % 8 * 262144 + s1 % 64 * 4096 + s2 % 64 * 64 + s3 % 64 = 8233) := by
            by_cases hb240 : b = 240
            · have := fl hb240; omega
            · omega
          rw [if_neg hne, if_neg hsep] at hN
          rw [if_neg hne, if_neg hsep, if_neg hne]
          simp only [List.take_succ_cons, List.take_zero, List.drop_succ_cons, List.drop_zero,
            List.cons_append, List.nil_append, List.length_cons] at hN ⊢
          obtain ⟨K, rfl⟩ : ∃ K, M = K + 3 := ⟨M - 3, by omega⟩
          rw [unquoteBody_raw _ b _ (by omega), unquoteBody_raw _ s1 _ g1,
            unquoteBody_raw _ s2 _ g2, unquoteBody_raw _ s3 _ g3,
            ih t K (by simp at hrest; omega) (by omega)]
          rfl

theorem replaceInvalidFrom_valid :
    ∀ (n : Nat) (s : List Nat), s.length ≤ n → validFrom n s = true →
      replaceInvalidFrom n s = s := by
  intro n
  induction n with
  | zero =>
    intro s hs _
    have : s = [] := List.eq_nil_of_length_eq_zero (by omega)
    subst this
    rfl
  | succ n ih =>
    intro s hs hv
    cases s with
    | nil => rfl
    | cons b rest =>
      have hrest : rest.length ≤ n := by simpa using hs
      rw [validFrom] at hv
      rw [replaceInvalidFrom]
      by_cases hb : b < 128
      · rw [decode_ascii b rest hb] at hv ⊢
        dsimp only at hv ⊢
        have hne : ¬ (b = runeError ∧ 1 = 1) := by
          unfold runeError; omega
        rw [if_neg hne] at hv ⊢
        rw [ih _ (by simpa using hrest) hv]
        rfl
      · rcases decode_multibyte b rest hb with
          h | ⟨s1, t, hr, -, -, -, -, h⟩ | ⟨s1, s2, t, hr, -, -, -, -, -, -, -, -, h⟩ |
          ⟨s1, s2, s3, t, hr, -, -, -, -, -, -, -, -, -, -, h⟩
        · rw [h] at hv
          simp at hv
        · rw [h] at hv ⊢
          dsimp only at hv ⊢
          have hne : ¬ ((b % 32 * 64 + s1 % 64 = runeError) ∧ (2 = 1)) := by omega
          rw [if_neg hne] at hv ⊢
          rw [ih _ (by rw [List.length_drop]; simp; omega) hv, List.take_append_drop]
        · rw [h] at hv ⊢
          dsimp only at hv ⊢
          have hne : ¬ ((b % 16 * 4096 + s1 % 64 * 64 + s2 % 64 = runeError) ∧ (3 = 1)) := by
            omega
          rw [if_neg hne] at hv ⊢
          rw [ih _ (by rw [List.length_drop]; simp; omega) hv, List.take_append_drop]
        · rw [h] at hv ⊢
          dsimp only at hv ⊢
          have hne : ¬ ((b % 8 * 262144 + s1 % 64 * 4096 + s2 % 64 * 64 + s3 % 64 = runeError) ∧
              (4 = 1)) := by omega
          rw [if_neg hne] at hv ⊢
          rw [ih _ (by rw [List.length_drop]; simp; omega) hv, List.take_append_drop]

theorem jsonUnquote_escaped (s : List Nat) :
    jsonUnquote ([34] ++ AppendStringContent [] s ++ [34]) = some (replaceInvalid s) := by
  rw [AppendStringContent_eq]
  simp only [List.nil_append, List.singleton_append, List.cons_append]
  simp only [jsonUnquote]
  exact unquote_escapeFrom s.length s _ (Nat.le_refl _) (by simp)

/-- C12: the text between the quotes that `AppendStringContent` produces for `s`
decodes, as a JSON string, to `s` with each invalid byte replaced by U+FFFD,
which is `s` itself when `s` is valid UTF-8; `appendJsonString` writes that
JSON string. -/
theorem escaping_round_trip (s : List Nat) :
    jsonUnquote ([34] ++ AppendStringContent [] s ++ [34]) = some (replaceInvalid s) ∧
    (validUTF8 s = true → replaceInvalid s = s) ∧
    (validUTF8 s = true →
      jsonUnquote ([34] ++ AppendStringContent [] s ++ [34]) = some s) ∧
    jsonUnquote (appendJsonString [] s) = some (replaceInvalid s) ∧
    replaceInvalid [97, 255, 226, 128, 98] = [97, 239, 191, 189, 239, 191, 189, 239, 191, 189, 98] := by
  have hv : validUTF8 s = true → replaceInvalid s = s :=
    replaceInvalidFrom_valid s.length s (Nat.le_refl _)
  refine ⟨jsonUnquote_escaped s, hv, ?_, ?_, rfl⟩
  · intro h
    rw [jsonUnquote_escaped, hv h]
  · have h1 : appendJsonString [] s = [34] ++ AppendStringContent [] s ++ [34] := by
      unfold appendJsonString
      rw [AppendStringContent_append]
      simp
    rw [h1]
    exact jsonUnquote_escaped s

theorem decode_extend (s0 : Nat) (rest : List Nat) (x : Nat) (t : List Nat) (hx : 191 < x) :
    decodeRuneInString (s0 :: rest ++ x :: t) = decodeRuneInString (s0 :: rest) := by
  by_cases h0 : s0 < 128
  · rw [List.cons_append, decode_ascii _ _ h0, decode_ascii _ _ h0]
  · cases h : utf8First s0 with
    | none => simp [decodeRuneInString, h0, h]
    | some p =>
      obtain ⟨sz, lo, hi⟩ := p
      obtain ⟨hsz, hlo, hhi, -⟩ := utf8First_some s0 sz lo hi h
      have hx1 : x < lo ∨ hi < x := Or.inr (by omega)
      have hx2 : x < 128 ∨ 191 < x := Or.inr hx
      rcases hsz with rfl | rfl | rfl
      · rcases rest with _ | ⟨s1, r⟩
        · simp [decodeRuneInString, h0, h, hx1]
        · simp [decodeRuneInString, h0, h]; split_ifs <;> first | rfl | omega
      · rcases rest with _ | ⟨s1, _ | ⟨s2, r⟩⟩
        · simp [decodeRuneInString, h0, h, hx1]
        · simp [decodeRuneInString, h0, h, hx2]
        · simp [decodeRuneInString, h0, h]; split_ifs <;> first | rfl | omega
      · rcases rest with _ | ⟨s1, _ | ⟨s2, _ | ⟨s3, r⟩⟩⟩
        · simp [decodeRuneInString, h0, h, hx1]
        · simp [decodeRuneInString, h0, h, hx2]
        · simp [decodeRuneInString, h0, h, hx2]
        · simp [decodeRuneInString, h0, h]; split_ifs <;> first | rfl | omega

theorem escapeFrom_fuel :
    ∀ (n m : Nat) (s : List Nat), s.length ≤ n → s.length ≤ m →
      escapeFrom n s = escapeFrom m s := by
  intro n
  induction n with
  | zero =>
    intro m s hs _
    have : s = [] := List.eq_nil_of_length_eq_zero (by omega)
    subst this
    cases m <;> rfl
  | succ n ih =>
    intro m s hn hm
    cases s with
    | nil => cases m <;> rfl
    | cons b rest =>
      obtain ⟨m, rfl⟩ : ∃ k, m = k + 1 := ⟨m - 1, by simp at hm; omega⟩
      have hrn : rest.length ≤ n := by simpa using hn
      have hrm : rest.length ≤ m := by simpa using hm
      rw [escapeFrom, escapeFrom]
      by_cases hb : b < 128
      · rw [if_pos hb, if_pos hb, ih m rest hrn hrm]
      · rw [if_neg hb, if_neg hb]
        have hd : ∀ k, 1 ≤ k →
            escapeFrom n (List.drop k (b :: rest)) = escapeFrom m (List.drop k (b :: rest)) := by
          intro k hk
          apply ih
          · rw [List.length_drop]; simp; omega
          · rw [List.length_drop]; simp; omega
        have hk : 1 ≤ (decodeRuneInString (List.take 4 (b :: rest))).2 := by
          rw [decode_take4]
          rcases decode_multibyte b rest hb with
            h | ⟨s1, t, hr, -, -, -, -, h⟩ | ⟨s1, s2, t, hr, -, -, -, -, -, -, -, -, h⟩ |
            ⟨s1, s2, s3, t, hr, -, -, -, -, -, -, -, -, -, -, h⟩ <;> rw [h] <;> simp
        dsimp only
        rw [hd _ hk]

theorem escapeFrom_nil (n : Nat) : escapeFrom n [] = [] := by
  cases n <;> rfl

theorem escapeFrom_separator_head (y : Nat) (hy : y = 168 ∨ y = 169) (n : Nat) (b : List Nat) :
    escapeFrom (n + 1) (226 :: 128 :: y :: b) = [92, 117, 50, 48, 50, y - 112] ++ escapeFrom n b := by
  rw [escapeFrom, if_neg (by omega), decode_take4]
  rcases hy with rfl | rfl
  · have h : decodeRuneInString (226 :: 128 :: 168 :: b) = (8232, 3) := by
      simp [decodeRuneInString, utf8First]
    rw [h]
    rfl
  · have h : decodeRuneInString (226 :: 128 :: 169 :: b) = (8233, 3) := by
      simp [decodeRuneInString, utf8First]
    rw [h]
    rfl

theorem escapeFrom_separator (y : Nat) (hy : y = 168 ∨ y = 169) (b : List Nat) :
    ∀ (n : Nat) (a : List Nat), a.length ≤ n →
      escapeFrom (n + 3 + b.length) (a ++ 226 :: 128 :: y :: b) =
        escapeFrom n a ++ [92, 117, 50, 48, 50, y - 112] ++ escapeFrom b.length b := by
  intro n
  induction n with
  | zero =>
    intro a ha
    have : a = [] := List.eq_nil_of_length_eq_zero (by omega)
    subst this
    rw [List.nil_append, show 0 + 3 + b.length = (2 + b.length) + 1 by omega,
      escapeFrom_separator_head y hy, escapeFrom_fuel (2 + b.length) b.length b (by omega)
        (Nat.le_refl _)]
    rfl
  | succ n ih =>
    intro a ha
    cases a with
    | nil =>
      rw [List.nil_append, show n + 1 + 3 + b.length = (n + 3 + b.length) + 1 by omega,
        escapeFrom_separator_head y hy, escapeFrom_fuel (n + 3 + b.length) b.length b (by omega)
          (Nat.le_refl _)]
      rfl
    | cons c rest =>
      have hrest : rest.length ≤ n := by simpa using ha
      rw [show n + 1 + 3 + b.length = (n + 3 + b.length) + 1 by omega, List.cons_append,
        escapeFrom, escapeFrom]
      by_cases hc : c < 128
      · rw [if_pos hc, if_pos hc, ih rest hrest]
        simp only [List.append_assoc]
      · rw [if_neg hc, if_neg hc, decode_take4, decode_take4,
          ← List.cons_append, decode_extend c rest 226 _ (by omega)]
        have hd : ∀ k, 1 ≤ k → k ≤ (c :: rest).length →
            escapeFrom (n + 3 + b.length) (List.drop k (c :: rest ++ 226 :: 128 :: y :: b)) =
              escapeFrom n (List.drop k (c :: rest)) ++ [92, 117, 50, 48, 50, y - 112] ++
                escapeFrom b.length b := by
          intro k hk1 hk2
          rw [List.drop_append_of_le_length hk2]
          apply ih
          rw [List.length_drop]
          simp at hk2 ⊢
          omega
        have ht : ∀ k, k ≤ (c :: rest).length →
            List.take k (c :: rest ++ 226 :: 128 :: y :: b) = List.take k (c :: rest) := by
          intro k hk
          rw [List.take_append_of_le_length hk]
        rcases decode_multibyte c rest hc with
          h | ⟨s1, t, hr, -, -, -, -, h⟩ | ⟨s1, s2, t, hr, -, -, -, -, -, -, -, -, h⟩ |
          ⟨s1, s2, s3, t, hr, -, -, -, -, -, -, -, -, -, -, h⟩
        · rw [h]
          dsimp only
          rw [hd 1 (Nat.le_refl _) (by simp), ht 1 (by simp)]
          split_ifs <;> simp only [List.append_assoc]
        · rw [h]
          dsimp only
          rw [hd 2 (by omega) (by rw [hr]; simp), ht 2 (by rw [hr]; simp)]
          split_ifs <;> simp only [List.append_assoc]
        · rw [h]
          dsimp only
          rw [hd 3 (by omega) (by rw [hr]; simp), ht 3 (by rw [hr]; simp)]
          split_ifs <;> simp only [List.append_assoc]
        · rw [h]
          dsimp only
          rw [hd 4 (by omega) (by rw [hr]; simp), ht 4 (by rw [hr]; simp)]
          split_ifs <;> simp only [List.append_assoc]

theorem sep_infix_cons (y c : Nat) (X : List Nat) (hc : c ≠ 226)
    (h : [226, 128, y] <:+: c :: X) : [226, 128, y] <:+: X := by
  rcases List.infix_cons_iff.mp h with hp | hi
  · rw [List.cons_prefix_cons] at hp
    exact absurd hp.1.symm hc
  · exact hi

theorem sep_infix_append (y : Nat) (X : List Nat) :
    ∀ (tok : List Nat), (∀ c ∈ tok, c ≠ 226) → [226, 128, y] <:+: tok ++ X →
      [226, 128, y] <:+: X := by
  intro tok
  induction tok with
  | nil => intro _ h; exact h
  | cons c rest ih =>
    intro hc h
    exact ih (fun d hd => hc d (List.mem_cons_of_mem _ hd))
      (sep_infix_cons y c _ (hc c (List.mem_cons_self _ _)) h)

theorem escapeByte_no_lead (b : Nat) (hb : b < 32 ∨ b = 34 ∨ b = 92) :
    ∀ c ∈ escapeByte b, c ≠ 226 := by
  rcases hb with hb | rfl | rfl
  · interval_cases b <;> decide
  · decide
  · decide

theorem escapeFrom_no_raw_separator (y : Nat) (hy : y = 168 ∨ y = 169) :
    ∀ (n : Nat) (s : List Nat), ¬ [226, 128, y] <:+: escapeFrom n s := by
  intro n
  induction n with
  | zero =>
    intro s h
    have := List.IsInfix.length_le h
    simp [escapeFrom] at this
  | succ n ih =>
    intro s h
    cases s with
    | nil =>
      have := List.IsInfix.length_le h
      simp [escapeFrom] at this
    | cons b rest =>
      rw [escapeFrom] at h
      by_cases hb : b < 128
      · rw [if_pos hb] at h
        refine ih rest (sep_infix_append y _ _ ?_ h)
        by_cases hsafe : safeSet b = true
        · rw [if_pos hsafe]
          intro c hc
          simp only [List.mem_singleton] at hc
          omega
        · rw [if_neg hsafe]
          exact escapeByte_no_lead b (safeSet_false b hb hsafe)
      · rw [if_neg hb, decode_take4] at h
        rcases decode_multibyte b rest hb with
          hd | ⟨s1, t, hr, -, f2, -, g1, hd⟩ |
          ⟨s1, s2, t, hr, f1, f2, g1, g1', g2, g2', -, -, hd⟩ |
          ⟨s1, s2, s3, t, hr, f1, -, -, g1, -, g2, -, g3, -, -, hd⟩
        · rw [hd] at h
          dsimp only at h
          rw [if_pos ⟨rfl, rfl⟩] at h
          exact ih _ (sep_infix_append y _ _ (by decide) h)
        · subst hr
          rw [hd] at h
          dsimp only at h
          rw [if_neg (by omega), if_neg (by omega)] at h
          refine ih _ (sep_infix_append y _ _ ?_ h)
          intro c hc
          simp only [List.take_succ_cons, List.take_zero, List.mem_cons, List.mem_singleton,
            List.not_mem_nil, or_false] at hc
          omega
        · subst hr
          rw [hd] at h
          dsimp only at h
          rw [if_neg (by omega)] at h
          by_cases hsep : b % 16 * 4096 + s1 % 64 * 64 + s2 % 64 = 8232 ∨
              b % 16 * 4096 + s1 % 64 * 64 + s2 % 64 = 8233
          · rw [if_pos hsep] at h
            refine ih _ (sep_infix_append y _ _ ?_ h)
            rcases hsep with hc | hc <;> rw [hc] <;> decide
          · rw [if_neg hsep] at h
            simp only [List.take_succ_cons, List.take_zero, List.drop_succ_cons, List.drop_zero,
              List.cons_append, List.nil_append] at h
            have hrest : [226, 128, y] <:+: s1 :: s2 :: escapeFrom n t := by
              rcases List.infix_cons_iff.mp h with hp | hi
              · exfalso
                rw [List.cons_prefix_cons, List.cons_prefix_cons, List.cons_prefix_cons] at hp
                obtain ⟨hb1, hs1, hs2, -⟩ := hp
                omega
              · exact hi
            exact ih _ (sep_infix_cons y s2 _ (by omega) (sep_infix_cons y s1 _ (by omega) hrest))
        · subst hr
          rw [hd] at h
          dsimp only at h
          rw [if_neg (by omega)] at h
          split at h
          · refine ih _ (sep_infix_append y _ _ ?_ h)
            intro c hc
            simp only [List.mem_cons, List.mem_singleton, List.not_mem_nil, or_false] at hc
            rcases hc with rfl | rfl | rfl | rfl | rfl | rfl
            · omega
            · omega
            · omega
            · omega
            · omega
            · rename_i hsep
              rcases hsep with hc | hc <;> rw [hc] <;> decide
          · refine ih _ (sep_infix_append y _ _ ?_ h)
            intro c hc
            simp only [List.take_succ_cons, List.take_zero, List.mem_cons, List.mem_singleton,
              List.not_mem_nil, or_false] at hc
            omega

/-- C15: an occurrence of the bytes E2 80 A8 of U+2028, or E2 80 A9 of U+2029, anywhere
in the source is appended as the six characters `\u2028`, or `\u2029`,
between what is appended for the text before it and for the text after it;
and what `AppendStringContent` appends never holds either of the two byte
sequences. -/
theorem separators_escaped (dst a b : List Nat) :
    AppendStringContent dst (a ++ [226, 128, 168] ++ b) =
      AppendStringContent dst a ++ ascii "\\u2028" ++ AppendStringContent [] b ∧
    AppendStringContent dst (a ++ [226, 128, 169] ++ b) =
      AppendStringContent dst a ++ ascii "\\u2029" ++ AppendStringContent [] b ∧
    ¬ [226, 128, 168] <:+: AppendStringContent [] a ∧
    ¬ [226, 128, 169] <:+: AppendStringContent [] a := by
  have hlen : ∀ y, (a ++ [226, 128, y] ++ b).length = a.length + 3 + b.length := by
    intro y; simp; omega
  refine ⟨?_, ?_, ?_, ?_⟩
  · rw [AppendStringContent_eq, AppendStringContent_eq, AppendStringContent_eq, hlen,
      List.append_assoc a, List.cons_append, List.cons_append, List.cons_append, List.nil_append,
      escapeFrom_separator 168 (Or.inl rfl) b a.length a (Nat.le_refl _)]
    simp only [List.append_assoc, List.nil_append]
    rfl
  · rw [AppendStringContent_eq, AppendStringContent_eq, AppendStringContent_eq, hlen,
      List.append_assoc a, List.cons_append, List.cons_append, List.cons_append, List.nil_append,
      escapeFrom_separator 169 (Or.inr rfl) b a.length a (Nat.le_refl _)]
    simp only [List.append_assoc, List.nil_append]
    rfl
  · rw [AppendStringContent_eq, List.nil_append]
    exact escapeFrom_no_raw_separator 168 (Or.inl rfl) _ _
  · rw [AppendStringContent_eq, List.nil_append]
    exact escapeFrom_no_raw_separator 169 (Or.inr rfl) _ _

theorem digitChar_toNat (k : Nat) (hk : k < 10) : (Nat.digitChar k).toNat = 48 + k := by
  interval_cases k <;> rfl

theorem decimalValue_append (d : List Nat) (c : Nat) :
    decimalValue (d ++ [c]) = 10 * decimalValue d + (c - 48) := by
  simp [decimalValue, List.foldl_append]

theorem toDigitsCore_decimal :
    ∀ (fuel n : Nat) (ds : List Char), n < fuel →
      ∃ d : List Char, Nat.toDigitsCore 10 fuel n ds = d ++ ds ∧
        IsDecimal (d.map Char.toNat) n ∧ (n ≠ 0 → (d.map Char.toNat).head? ≠ some 48) := by
  intro fuel
  induction fuel with
  | zero => intro n ds h; omega
  | succ fuel ih =>
    intro n ds hn
    have hmod : n % 10 < 10 := Nat.mod_lt _ (by omega)
    have hc := digitChar_toNat (n % 10) hmod
    rw [Nat.toDigitsCore]
    by_cases h0 : n / 10 = 0
    · simp only [h0, if_true]
      have hlt : n < 10 := by omega
      have hmodn : n % 10 = n := Nat.mod_eq_of_lt hlt
      refine ⟨[Nat.digitChar (n % 10)], rfl, ⟨by simp, ?_, ?_, ?_⟩, ?_⟩
      · intro c hcm
        simp only [List.map_cons, List.map_nil, List.mem_singleton] at hcm
        omega
      · simp only [decimalValue, List.map_cons, List.map_nil, List.foldl_cons, List.foldl_nil]
        omega
      · intro hh
        simp only [List.map_cons, List.map_nil, List.head?_cons, Option.some.injEq] at hh
        have : n = 0 := by omega
        subst this
        rfl
      · intro hne hh
        simp only [List.map_cons, List.map_nil, List.head?_cons, Option.some.injEq] at hh
        omega
    · simp only [h0, if_false]
      obtain ⟨d, hd, ⟨hne, hdig, hval, hlead⟩, hhead⟩ :=
        ih (n / 10) (Nat.digitChar (n % 10) :: ds) (by omega)
      refine ⟨d ++ [Nat.digitChar (n % 10)], by rw [hd]; simp, ⟨by simp, ?_, ?_, ?_⟩, ?_⟩
      · intro c hcm
        simp only [List.map_append, List.map_cons, List.map_nil, List.mem_append,
          List.mem_singleton] at hcm
        rcases hcm with hcm | hcm
        · exact hdig c hcm
        · omega
      · rw [List.map_append, List.map_cons, List.map_nil, decimalValue_append, hval]
        omega
      · intro hh
        exfalso
        apply hhead h0
        cases d with
        | nil => exact absurd rfl hne
        | cons x xs => simpa using hh
      · intro _ hh
        apply hhead h0
        cases d with
        | nil => exact absurd rfl hne
        | cons x xs => simpa using hh

theorem appendUint_decimal (n : Nat) : IsDecimal (appendUint [] n) n := by
  obtain ⟨d, hd, hdec, -⟩ := toDigitsCore_decimal (n + 1) n [] (by omega)
  unfold appendUint Nat.toDigits
  rw [hd]
  simpa using hdec

/-- C22: `appendJsonValue` appends `true` or `false` for a boolean, the base-10 literal
of `n` for an unsigned integer, the literal of the absolute value after a minus
sign exactly when `n < 0` for a signed integer and for the nanoseconds of a
duration, and the escaped content between two quotes for a text. -/
theorem scalar_encoding (f : Nat) (out : List Nat) :
    (∀ b : Bool, appendJsonValue f out (.bool b) =
      .ok (out ++ (if b then ascii "true" else ascii "false"))) ∧
    (∀ n : Nat, ∃ d, IsDecimal d n ∧ appendJsonValue f out (.uint64 n) = .ok (out ++ d)) ∧
    (∀ n : Int, ∃ d, IsDecimal d n.natAbs ∧
      appendJsonValue f out (.int64 n) = .ok (out ++ (if n < 0 then [45] else []) ++ d)) ∧
    (∀ ns : Int, ∃ d, IsDecimal d ns.natAbs ∧
      appendJsonValue f out (.duration ns) = .ok (out ++ (if ns < 0 then [45] else []) ++ d)) ∧
    (∀ s : List Nat, appendJsonValue f out (.string s) =
      .ok (out ++ [34] ++ AppendStringContent [] s ++ [34])) := by
  have hint : ∀ n : Int, appendInt out n = out ++ (if n < 0 then [45] else []) ++
      appendUint [] n.natAbs := by
    intro n
    unfold appendInt
    split
    · rw [appendUint_eq]
    · rw [appendUint_eq]; simp
  refine ⟨?_, ?_, ?_, ?_, ?_⟩
  · intro b
    exact appendJsonValue_scalar (.bool b) rfl f out
  · intro n
    exact ⟨appendUint [] n, appendUint_decimal n, appendJsonValue_scalar (.uint64 n) rfl f out⟩
  · intro n
    refine ⟨appendUint [] n.natAbs, appendUint_decimal _, ?_⟩
    rw [← hint]
    rfl
  · intro n
    refine ⟨appendUint [] n.natAbs, appendUint_decimal _, ?_⟩
    rw [← hint]
    rfl
  · intro s
    rw [appendJsonValue_scalar (.string s) rfl f out]
    simp [scalarText]

theorem fold_levelF :
    ∀ (calls : List OptionCall) (init : handlerOptions),
      (calls.foldl (fun h c => c.option h) init).levelF =
        match (calls.filter OptionCall.isLevel).getLast? with
        | none => init.levelF
        | some c => (c.option init).levelF := by
  intro calls
  induction calls with
  | nil => intro init; rfl
  | cons c rest ih =>
    intro init
    rw [List.foldl_cons, ih]
    cases hl : (rest.filter OptionCall.isLevel).getLast? with
    | none =>
      have hnil : rest.filter OptionCall.isLevel = [] := List.getLast?_eq_none_iff.mp hl
      cases c <;> simp [List.filter_cons, OptionCall.isLevel, hnil, OptionCall.option,
        WithTimestamp, WithSource]
    | some d =>
      have hd : d ∈ rest.filter OptionCall.isLevel := List.mem_of_getLast?_eq_some hl
      have hne : rest.filter OptionCall.isLevel ≠ [] := List.ne_nil_of_mem hd
      have hlev : d.isLevel = true := (List.mem_filter.mp hd).2
      have hlast : ((c :: rest).filter OptionCall.isLevel).getLast? = some d := by
        rw [List.filter_cons]
        split
        · obtain ⟨x, xs, hx⟩ := List.exists_cons_of_ne_nil hne
          rw [hx] at hl ⊢
          rw [List.getLast?_cons_cons]
          exact hl
        · exact hl
      rw [hlast]
      cases d with
      | withTimestamp b => simp [OptionCall.isLevel] at hlev
      | withSource b => simp [OptionCall.isLevel] at hlev
      | withLogLevel m => rfl
      | withLogLevelFunc f => rfl

/-- C23: for every list of option calls, `Enabled` of the new handler is `level ≥ Info`
when the list has no level option, `level ≥ m` when its last level option is
`WithLogLevel(m)`, and `f(ctx, level)` when its last level option is
`WithLogLevelFunc(f)`; with `WithLogLevel(slog.LevelError)` a warning is
disabled and an error is enabled. -/
theorem level_gate (calls : List OptionCall) (ctx : Context) (level : Int) :
    ((calls.filter OptionCall.isLevel).getLast? = none →
      (NewHandler (getOptions (calls.map OptionCall.option))).Enabled ctx level =
        decide (level ≥ LevelInfo)) ∧
    (∀ m, (calls.filter OptionCall.isLevel).getLast? = some (.withLogLevel m) →
      (NewHandler (getOptions (calls.map OptionCall.option))).Enabled ctx level =
        decide (level ≥ m)) ∧
    (∀ f, (calls.filter OptionCall.isLevel).getLast? = some (.withLogLevelFunc f) →
      (NewHandler (getOptions (calls.map OptionCall.option))).Enabled ctx level =
        f ctx level) ∧
    (NewHandler (getOptions [WithLogLevel 8])).Enabled ctx 4 = false ∧
    (NewHandler (getOptions [WithLogLevel 8])).Enabled ctx 8 = true := by
  have h := fold_levelF calls
    { hideTimestamp := false, addSource := false,
      levelF := fun _ level => decide (level ≥ LevelInfo) }
  have hE : (NewHandler (getOptions (calls.map OptionCall.option))).Enabled ctx level =
      (calls.foldl (fun (h : handlerOptions) (c : OptionCall) => c.option h)
        { hideTimestamp := false, addSource := false,
          levelF := fun _ level => decide (level ≥ LevelInfo) }).levelF ctx level := by
    unfold Handler.Enabled NewHandler getOptions
    rw [List.foldl_map]
  refine ⟨?_, ?_, ?_, rfl, rfl⟩
  · intro hl
    rw [hE, h, hl]
  · intro m hl
    rw [hE, h, hl]
    rfl
  · intro f hl
    rw [hE, h, hl]
    rfl

/-- C24: `WithGroup` with the empty name appends a separator to the prefix, so the
derived handler is not the receiver: an attribute `k` logged or bound through
it gets the key `.k`, in a group with the empty name, and is not written,
while the receiver writes it. -/
theorem withGroup_empty_name :
    (∀ h : Handler, (h.WithGroup []).attrPrefix = h.attrPrefix ++ [groupSeparator] ∧
      (h.WithGroup []).attrPrefix ≠ h.attrPrefix) ∧
    Handler.Handle 3 []
        ((NewHandler { hideTimestamp := true, addSource := false,
                       levelF := fun _ _ => true }).WithGroup [])
        { time := { isZero := true, rfc3339Nano := [] }, message := [], level := 0,
          source := none, attrs := [Attr.mk (ascii "k") (.string (ascii "v"))] } =
      .ok (ascii "\x7b\"log\":\x7b\"level\":\"INFO\"\x7d\x7d\n") ∧
    Handler.Handle 3 []
        (NewHandler { hideTimestamp := true, addSource := false, levelF := fun _ _ => true })
        { time := { isZero := true, rfc3339Nano := [] }, message := [], level := 0,
          source := none, attrs := [Attr.mk (ascii "k") (.string (ascii "v"))] } =
      .ok (ascii "\x7b\"k\":\"v\",\"log\":\x7b\"level\":\"INFO\"\x7d\x7d\n") ∧
    (Handler.WithAttrs 3 []
        ((NewHandler { hideTimestamp := true, addSource := false,
                       levelF := fun _ _ => true }).WithGroup [])
        [Attr.mk (ascii "k") (.string (ascii "v"))] >>= fun x =>
      Handler.Handle 3 x.1 x.2
        { time := { isZero := true, rfc3339Nano := [] }, message := [], level := 0,
          source := none, attrs := [] }) =
      .ok (ascii "\x7b\"log\":\x7b\"level\":\"INFO\"\x7d\x7d\n") := by
  refine ⟨fun h => ⟨by simp [Handler.WithGroup], ?_⟩, rfl, rfl, rfl⟩
  intro e
  have := congrArg List.length e
  simp [Handler.WithGroup] at this

/-- C26: the group value with the members `a.b`, `c`, `a.d` in this order cannot be
encoded: the attribute `c` is sliced into the run of group `a`, and the nested
call cuts its key `c` at index 2.  `Handle` and `WithAttrs` fail in the same
way on an attribute with this value; with the members in the order `a.b`,
`a.d`, `c` the value is encoded. -/
theorem appendJsonValue_unsorted_group :
    (∀ f out, appendJsonValue (f + 2) out
        (.group [Attr.mk (ascii "a.b") (.int64 1), Attr.mk (ascii "c") (.int64 2),
          Attr.mk (ascii "a.d") (.int64 3)]) = .error .panic) ∧
    (∀ f out hv, ∃ st,
      resolveLoop (resolveGroupContent f) 0
          [Attr.mk (ascii "a.b") (.int64 1), Attr.mk (ascii "c") (.int64 2),
            Attr.mk (ascii "a.d") (.int64 3)] 3 0
          { output := out, hasValue := hv, currentGroup := [], currentGroupFields := [] } =
        .ok st ∧ st.currentGroup = ascii "a" ∧
      st.currentGroupFields =
        [Attr.mk (ascii "c") (.int64 2), Attr.mk (ascii "a.d") (.int64 3)]) ∧
    (∀ f, Handler.Handle (f + 3) []
        (NewHandler { hideTimestamp := true, addSource := false, levelF := fun _ _ => true })
        { time := { isZero := true, rfc3339Nano := [] }, message := [], level := 0,
          source := none,
          attrs := [Attr.mk (ascii "g") (.group [Attr.mk (ascii "a.b") (.int64 1),
            Attr.mk (ascii "c") (.int64 2), Attr.mk (ascii "a.d") (.int64 3)])] } =
      .error .panic) ∧
    (∀ f, appendJsonValue (f + 2) []
        (.group [Attr.mk (ascii "a.b") (.int64 1), Attr.mk (ascii "a.d") (.int64 3),
          Attr.mk (ascii "c") (.int64 2)]) =
      .ok (ascii "\x7b\"c\":2,\"a\":\x7b\"b\":1,\"d\":3\x7d\x7d")) := by
  refine ⟨fun _ _ => rfl, fun f out hv => ?_, fun _ => rfl, fun _ => rfl⟩
  exact ⟨_, rfl, rfl, rfl⟩

/-- C29: `putHandleCtx` tests the capacities of the buffers that the context held
before the call, not those of the buffers it is given: a new context, whose
buffers have capacity 64 and 16, is put into the pool with an output buffer of
capacity 8192 and an attribute buffer of capacity 1024, and this for whatever
buffers when the old ones are small; the context is dropped only when it comes
back with a large buffer. -/
theorem putHandleCtx_pools_oversized :
    (∃ ctx, putHandleCtx [] newHandleContext { elems := [], cap := 8192 }
        { elems := [], cap := 1024 } = [ctx] ∧
      ctx.outputBuffer.cap = 8192 ∧ ctx.attributesBuffer.cap = 1024) ∧
    (∀ pool ctx outputBuff attrsBuff,
      ctx.outputBuffer.cap ≤ handleCtxMaxBufferSize →
      ctx.attributesBuffer.cap ≤ handleCtxMaxAttrsSize →
      putHandleCtx pool ctx outputBuff attrsBuff =
        { outputBuffer := outputBuff, attributesBuffer := attrsBuff } :: pool) ∧
    (∀ pool ctx outputBuff attrsBuff,
      (ctx.outputBuffer.cap > handleCtxMaxBufferSize ∨
        ctx.attributesBuffer.cap > handleCtxMaxAttrsSize) →
      putHandleCtx pool ctx outputBuff attrsBuff = pool) := by
  refine ⟨⟨_, rfl, rfl, rfl⟩, ?_, ?_⟩
  · intro pool ctx ob ab h1 h2
    unfold putHandleCtx
    rw [if_neg (by omega)]
  · intro pool ctx ob ab h
    unfold putHandleCtx
    rw [if_pos h]

theorem mapExcept_ok {α β : Type} (f : α → Except Fault β) :
    ∀ (l : List α) (g : List β), mapExcept f l = .ok g →
      (∀ b ∈ g, ∃ a ∈ l, f a = .ok b) ∧ (∀ a ∈ l, ∃ b ∈ g, f a = .ok b) := by
  intro l
  induction l with
  | nil =>
    intro g h
    simp only [mapExcept, Except.ok.injEq] at h
    subst h
    simp
  | cons a rest ih =>
    intro g h
    simp only [mapExcept, bind, Except.bind] at h
    cases hfa : f a with
    | error e => rw [hfa] at h; cases h
    | ok b =>
      rw [hfa] at h
      cases hr : mapExcept f rest with
      | error e => rw [hr] at h; cases h
      | ok bs =>
        rw [hr] at h
        simp only [Except.ok.injEq] at h
        subst h
        obtain ⟨h1, h2⟩ := ih bs hr
        constructor
        · intro x hx
          rcases List.mem_cons.mp hx with rfl | hx
          · exact ⟨a, List.mem_cons_self _ _, hfa⟩
          · obtain ⟨y, hy, hfy⟩ := h1 x hx
            exact ⟨y, List.mem_cons_of_mem _ hy, hfy⟩
        · intro y hy
          rcases List.mem_cons.mp hy with rfl | hy
          · exact ⟨b, List.mem_cons_self _ _, hfa⟩
          · obtain ⟨x, hx, hfx⟩ := h2 y hy
            exact ⟨x, List.mem_cons_of_mem _ hx, hfx⟩

theorem boundAttr_ok (fuel : Nat) (pre : List Nat) (a b : Attr)
    (h : boundAttr fuel pre a = .ok b) : ∃ v, b = Attr.mk (pre ++ a.Key) v := by
  unfold boundAttr at h
  simp only [bind, Except.bind] at h
  by_cases hs : preformattedKinds a.Value.kind = true
  · rw [if_pos hs] at h
    cases hp : preformatValue fuel a.Value with
    | error e => rw [hp] at h; cases h
    | ok v =>
      rw [hp] at h
      simp only [Except.ok.injEq] at h
      exact ⟨v, h.symm⟩
  · rw [if_neg hs] at h
    simp only [Except.ok.injEq] at h
    exact ⟨a.Value, h.symm⟩

theorem withAttrsLoop_ok (fuel : Nat) (pre : List Nat) (attrs g : List Attr)
    (h : withAttrsLoop fuel pre attrs.length attrs 0 = .ok g) :
    mapExcept (boundAttr fuel pre) (attrs.filter (keepAttr pre)) = .ok g := by
  have h1 := withAttrsLoop_eq fuel pre attrs [] attrs.length (Nat.le_refl _)
  simp only [List.nil_append, List.length_nil] at h1
  rw [h1] at h
  cases hm : mapExcept (boundAttr fuel pre) (attrs.filter (keepAttr pre)) with
  | error e => rw [hm] at h; cases h
  | ok r =>
    rw [hm] at h
    simp only [Except.map, Except.ok.injEq, List.nil_append] at h
    rw [h]

/-- Exclusion of the reserved keys: on a handler without prefix `WithAttrs` stores no
attribute keyed `@timestamp` or `message`, and when the bound groups hold none, the working attribute list
of `Handle` holds none; on a handler with a prefix every attribute that is not
empty is kept under the prefixed key, by `Handle` and by `WithAttrs`.  The
record of the test `IgnoredMsg` is written with its own message. -/
theorem reserved_keys (fuel : Nat) (heap : Heap) (h : Handler) (attrs : List Attr)
    (record : Record) :
    (h.attrPrefix = [] → ∀ g, withAttrsLoop fuel h.attrPrefix attrs.length attrs 0 = .ok g →
      ∀ a ∈ g, isIgnoredKey a.Key = false) ∧
    (h.attrPrefix = [] →
      (∀ g ∈ Heap.read heap h.attributes, ∀ a ∈ g, isIgnoredKey a.Key = false) →
      ∀ a ∈ workingAttrs heap h record, isIgnoredKey a.Key = false) ∧
    (h.attrPrefix ≠ [] → ∀ a ∈ record.attrs, a.isZero = false → a.isEmptyGroup = false →
      Attr.mk (h.attrPrefix ++ a.Key) a.Value ∈ workingAttrs heap h record) ∧
    (h.attrPrefix ≠ [] → ∀ g, withAttrsLoop fuel h.attrPrefix attrs.length attrs 0 = .ok g →
      ∀ a ∈ attrs, a.isZero = false → a.isEmptyGroup = false →
        ∃ v, Attr.mk (h.attrPrefix ++ a.Key) v ∈ g) ∧
    (Handler.WithAttrs 3 []
        (NewHandler { hideTimestamp := true, addSource := false, levelF := fun _ _ => true })
        [Attr.mk (ascii "message") (.string (ascii "test"))] >>= fun x =>
      Handler.Handle 3 x.1 x.2
        { time := { isZero := true, rfc3339Nano := [] }, message := ascii "Hello World",
          level := 0, source := none,
          attrs := [Attr.mk (ascii "event.bool") (.bool true)] }) =
      .ok (ascii ("\x7b\"message\":\"Hello World\",\"log\":\x7b\"level\":\"INFO\"\x7d," ++
        "\"event\":\x7b\"bool\":true\x7d\x7d\n")) := by
  refine ⟨?_, ?_, ?_, ?_, rfl⟩
  · intro hp g hg a ha
    obtain ⟨h1, -⟩ := mapExcept_ok _ _ _ (withAttrsLoop_ok fuel _ attrs g hg)
    obtain ⟨x, hx, hfx⟩ := h1 a ha
    obtain ⟨v, hv⟩ := boundAttr_ok fuel _ x a hfx
    have hk := (List.mem_filter.mp hx).2
    rw [hp] at hk hv
    simp only [keepAttr, Bool.and_eq_true, Bool.not_eq_true', beq_self_eq_true,
      Bool.true_and] at hk
    rw [hv]
    simpa [attr_key_mk] using hk.2
  · intro hp hgroups a ha
    rw [workingAttrs_eq] at ha
    simp only [List.mem_append, List.mem_flatten, List.mem_map, List.mem_filter] at ha
    rcases ha with (ha | ⟨g, hg, hag⟩) | ⟨x, ⟨hx, hk⟩, rfl⟩
    · have hlev : ∀ b ∈ [Attr.mk (ascii "log.level") (.string (levelString record.level))],
          isIgnoredKey b.Key = false := by
        intro b hb
        simp only [List.mem_singleton] at hb
        rw [hb]
        rfl
      split at ha
      · unfold addSource at ha
        split at ha
        · exact hlev a ha
        · simp only [List.mem_append, List.mem_cons, List.mem_singleton, List.not_mem_nil,
            or_false] at ha
          rcases ha with ha | rfl | rfl | rfl
          · exact hlev a (by simpa using ha)
          · rfl
          · rfl
          · rfl
      · exact hlev a ha
    · exact hgroups g hg a hag
    · rw [hp] at hk ⊢
      simp only [keepAttr, Bool.and_eq_true, Bool.not_eq_true', beq_self_eq_true,
        Bool.true_and] at hk
      simpa [callAttr] using hk.2
  · intro hp a ha hz hg
    rw [workingAttrs_eq]
    apply List.mem_append_right
    rw [List.mem_map]
    refine ⟨a, List.mem_filter.mpr ⟨ha, ?_⟩, ?_⟩
    · simp [keepAttr, hz, hg, hp]
    · simp [callAttr, hp]
  · intro hp g hg a ha hz hgr
    obtain ⟨-, h2⟩ := mapExcept_ok _ _ _ (withAttrsLoop_ok fuel _ attrs g hg)
    have hmem : a ∈ attrs.filter (keepAttr h.attrPrefix) :=
      List.mem_filter.mpr ⟨ha, by simp [keepAttr, hz, hgr, hp]⟩
    obtain ⟨b, hb, hfb⟩ := h2 a hmem
    obtain ⟨v, hv⟩ := boundAttr_ok fuel _ a b hfb
    exact ⟨v, hv ▸ hb⟩

/-- C21 (evaluation at the failing input): the key `message.x` is not a reserved key,
so the attribute is kept, and the record with the message `hi` is written with
two members named `message`: the message of the record and, after it, the
object of the group `message`. -/
theorem handle_message_member_twice :
    isIgnoredKey (ascii "message.x") = false ∧
    keepAttr [] (Attr.mk (ascii "message.x") (.int64 1)) = true ∧
    Handler.Handle 3 []
        (NewHandler { hideTimestamp := true, addSource := false, levelF := fun _ _ => true })
        { time := { isZero := true, rfc3339Nano := [] }, message := ascii "hi", level := 0,
          source := none, attrs := [Attr.mk (ascii "message.x") (.int64 1)] } =
      .ok (ascii ("\x7b\"message\":\"hi\",\"message\":\x7b\"x\":1\x7d," ++
        "\"log\":\x7b\"level\":\"INFO\"\x7d\x7d\n")) :=
  ⟨rfl, rfl, rfl⟩

theorem escapeFrom_pieces (P : List Nat → Prop) (hnil : P [])
    (hsafe : ∀ b X, b < 128 → safeSet b = true → P X → P (b :: X))
    (hesc : ∀ b X, b < 32 ∨ b = 34 ∨ b = 92 → P X → P (escapeByte b ++ X))
    (hfffd : ∀ X, P X → P (ascii "\\ufffd" ++ X))
    (h2028 : ∀ X, P X → P (ascii "\\u2028" ++ X))
    (h2029 : ∀ X, P X → P (ascii "\\u2029" ++ X))
    (hraw2 : ∀ b s1 X, 194 ≤ b → b ≤ 223 → 128 ≤ s1 → s1 ≤ 191 → P X → P (b :: s1 :: X))
    (hraw3 : ∀ b s1 s2 X, 224 ≤ b → b ≤ 239 → 128 ≤ s1 → s1 ≤ 191 → 128 ≤ s2 → s2 ≤ 191 →
      (b = 224 → 160 ≤ s1) → (b = 237 → s1 ≤ 159) →
      ¬ (b = 226 ∧ s1 = 128 ∧ (s2 = 168 ∨ s2 = 169)) → P X → P (b :: s1 :: s2 :: X))
    (hraw4 : ∀ b s1 s2 s3 X, 240 ≤ b → b ≤ 244 → 128 ≤ s1 → s1 ≤ 191 → 128 ≤ s2 → s2 ≤ 191 →
      128 ≤ s3 → s3 ≤ 191 → (b = 240 → 144 ≤ s1) → (b = 244 → s1 ≤ 143) → P X →
      P (b :: s1 :: s2 :: s3 :: X)) :
    ∀ (n : Nat) (s : List Nat), P (escapeFrom n s) := by
  intro n
  induction n with
  | zero => intro s; exact hnil
  | succ n ih =>
    intro s
    cases s with
    | nil => exact hnil
    | cons b rest =>
      rw [escapeFrom]
      by_cases hb : b < 128
      · rw [if_pos hb]
        by_cases hs : safeSet b = true
        · rw [if_pos hs]
          exact hsafe b _ hb hs (ih rest)
        · rw [if_neg hs]
          exact hesc b _ (safeSet_false b hb hs) (ih rest)
      · rw [if_neg hb, decode_take4]
        rcases decode_multibyte b rest hb with
          hd | ⟨s1, t, hr, f1, f2, g1, g1', hd⟩ |
          ⟨s1, s2, t, hr, f1, f2, g1, g1', g2, g2', e1, e2, hd⟩ |
          ⟨s1, s2, s3, t, hr, f1, f2, g1, g1', g2, g2', g3, g3', e1, e2, hd⟩
        · rw [hd]
          dsimp only
          rw [if_pos ⟨rfl, rfl⟩]
          exact hfffd _ (ih _)
        · subst hr
          rw [hd]
          dsimp only
          rw [if_neg (by omega), if_neg (by omega)]
          exact hraw2 b s1 _ f1 f2 g1 g1' (ih _)
        · subst hr
          rw [hd]
          dsimp only
          rw [if_neg (by omega)]
          by_cases hsep : b % 16 * 4096 + s1 % 64 * 64 + s2 % 64 = 8232 ∨
              b % 16 * 4096 + s1 % 64 * 64 + s2 % 64 = 8233
          · rw [if_pos hsep]
            rcases hsep with hc | hc
            · rw [hc]
              exact h2028 _ (ih _)
            · rw [hc]
              exact h2029 _ (ih _)
          · rw [if_neg hsep]
            refine hraw3 b s1 s2 _ f1 f2 g1 g1' g2 g2' e1 e2 ?_ (ih _)
            rintro ⟨rfl, rfl, rfl | rfl⟩
            · exact hsep (Or.inl rfl)
            · exact hsep (Or.inr rfl)
        · subst hr
          rw [hd]
          dsimp only
          have hsep : ¬ (b % 8 * 262144 + s1 % 64 * 4096 + s2 % 64 * 64 + s3 % 64 = 8232 ∨
              b % 8 * 262144 + s1 % 64 * 4096 + s2 % 64 * 64 + s3 % 64 = 8233) := by
            by_cases hb240 : b = 240
            · have := e1 hb240; omega
            · omega
          rw [if_neg (by omega), if_neg hsep]
          exact hraw4 b s1 s2 s3 _ f1 f2 g1 g1' g2 g2' g3 g3' e1 e2 (ih _)

theorem decode_two (b s1 : Nat) (X : List Nat) (f1 : 194 ≤ b) (f2 : b ≤ 223)
    (g1 : 128 ≤ s1) (g1' : s1 ≤ 191) :
    decodeRuneInString (b :: s1 :: X) = (b % 32 * 64 + s1 % 64, 2) := by
  have hf : utf8First b = some (2, 128, 191) := by
    unfold utf8First
    rw [if_pos ⟨f1, f2⟩]
  have h0 : ¬ b < 128 := by omega
  have h1 : ¬ (s1 < 128 ∨ 191 < s1) := by omega
  simp [decodeRuneInString, h0, hf, h1]

theorem decode_three (b s1 s2 : Nat) (X : List Nat) (f1 : 224 ≤ b) (f2 : b ≤ 239)
    (g1 : 128 ≤ s1) (g1' : s1 ≤ 191) (g2 : 128 ≤ s2) (g2' : s2 ≤ 191)
    (e1 : b = 224 → 160 ≤ s1) (e2 : b = 237 → s1 ≤ 159) :
    decodeRuneInString (b :: s1 :: s2 :: X) =
      (b % 16 * 4096 + s1 % 64 * 64 + s2 % 64, 3) := by
  have h0 : ¬ b < 128 := by omega
  have h2 : ¬ (s2 < 128 ∨ 191 < s2) := by omega
  have hf : ∃ lo hi, utf8First b = some (3, lo, hi) ∧ lo ≤ s1 ∧ s1 ≤ hi := by
    unfold utf8First
    by_cases c1 : b = 224
    · exact ⟨160, 191, by rw [if_neg (by omega), if_pos c1], e1 c1, g1'⟩
    · by_cases c2 : b ≤ 236
      · exact ⟨128, 191, by rw [if_neg (by omega), if_neg c1, if_pos (by omega)], g1, g1'⟩
      · by_cases c3 : b = 237
        · exact ⟨128, 159, by
            rw [if_neg (by omega), if_neg c1, if_neg (by omega), if_pos c3], g1, e2 c3⟩
        · exact ⟨128, 191, by
            rw [if_neg (by omega), if_neg c1, if_neg (by omega), if_neg c3,
              if_pos (by omega)], g1, g1'⟩
  obtain ⟨lo, hi, hf, hl, hh⟩ := hf
  have h1 : ¬ (s1 < lo ∨ hi < s1) := by omega
  simp [decodeRuneInString, h0, hf, h1, h2]

theorem decode_four (b s1 s2 s3 : Nat) (X : List Nat) (f1 : 240 ≤ b) (f2 : b ≤ 244)
    (g1 : 128 ≤ s1) (g1' : s1 ≤ 191) (g2 : 128 ≤ s2) (g2' : s2 ≤ 191)
    (g3 : 128 ≤ s3) (g3' : s3 ≤ 191)
    (e1 : b = 240 → 144 ≤ s1) (e2 : b = 244 → s1 ≤ 143) :
    decodeRuneInString (b :: s1 :: s2 :: s3 :: X) =
      (b % 8 * 262144 + s1 % 64 * 4096 + s2 % 64 * 64 + s3 % 64, 4) := by
  have h0 : ¬ b < 128 := by omega
  have h2 : ¬ (s2 < 128 ∨ 191 < s2) := by omega
  have h3 : ¬ (s3 < 128 ∨ 191 < s3) := by omega
  have hf : ∃ lo hi, utf8First b = some (4, lo, hi) ∧ lo ≤ s1 ∧ s1 ≤ hi := by
    unfold utf8First
    by_cases c1 : b = 240
    · exact ⟨144, 191, by
        rw [if_neg (by omega), if_neg (by omega), if_neg (by omega), if_neg (by omega),
          if_neg (by omega), if_pos c1], e1 c1, g1'⟩
    · by_cases c2 : b ≤ 243
      · exact ⟨128, 191, by
          rw [if_neg (by omega), if_neg (by omega), if_neg (by omega), if_neg (by omega),
            if_neg (by omega), if_neg c1, if_pos (by omega)], g1, g1'⟩
      · exact ⟨128, 143, by
          rw [if_neg (by omega), if_neg (by omega), if_neg (by omega), if_neg (by omega),
            if_neg (by omega), if_neg c1, if_neg (by omega), if_pos (by omega)], g1,
          e2 (by omega)⟩
  obtain ⟨lo, hi, hf, hl, hh⟩ := hf
  have h1 : ¬ (s1 < lo ∨ hi < s1) := by omega
  simp [decodeRuneInString, h0, hf, h1, h2, h3]

theorem escapeByte_ge (b : Nat) (hb : b < 32 ∨ b = 34 ∨ b = 92) :
    ∀ c ∈ escapeByte b, 32 ≤ c ∧ c < 128 := by
  rcases hb with hb | rfl | rfl
  · interval_cases b <;> decide
  · decide
  · decide

theorem escaped_bytes (n : Nat) (s : List Nat) : ∀ c ∈ escapeFrom n s, 32 ≤ c := by
  refine escapeFrom_pieces (fun X => ∀ c ∈ X, 32 ≤ c) (by simp) ?_ ?_ ?_ ?_ ?_ ?_ ?_ ?_ n s
  · intro b X _ hs hX c hc
    rcases List.mem_cons.mp hc with rfl | hc
    · exact (safeSet_true _ hs).1
    · exact hX c hc
  · intro b X hb hX c hc
    rcases List.mem_append.mp hc with hc | hc
    · exact (escapeByte_ge b hb c hc).1
    · exact hX c hc
  · intro X hX c hc
    rcases List.mem_append.mp hc with hc | hc
    · exact (by decide : ∀ d ∈ ascii "\\ufffd", 32 ≤ d) c hc
    · exact hX c hc
  · intro X hX c hc
    rcases List.mem_append.mp hc with hc | hc
    · exact (by decide : ∀ d ∈ ascii "\\u2028", 32 ≤ d) c hc
    · exact hX c hc
  · intro X hX c hc
    rcases List.mem_append.mp hc with hc | hc
    · exact (by decide : ∀ d ∈ ascii "\\u2029", 32 ≤ d) c hc
    · exact hX c hc
  · intro b s1 X f1 _ g1 _ hX c hc
    simp only [List.mem_cons] at hc
    rcases hc with rfl | rfl | hc
    · omega
    · omega
    · exact hX c hc
  · intro b s1 s2 X f1 _ g1 _ g2 _ _ _ _ hX c hc
    simp only [List.mem_cons] at hc
    rcases hc with rfl | rfl | rfl | hc
    · omega
    · omega
    · omega
    · exact hX c hc
  · intro b s1 s2 s3 X f1 _ g1 _ g2 _ g3 _ _ _ hX c hc
    simp only [List.mem_cons] at hc
    rcases hc with rfl | rfl | rfl | rfl | hc
    · omega
    · omega
    · omega
    · omega
    · exact hX c hc

theorem contentOK_step (N : Nat) (tok X : List Nat) (hne : tok ≠ [])
    (hstep : contentStep (tok ++ X) = some X) (hX : ∀ M, X.length ≤ M → contentOK M X = true)
    (hN : (tok ++ X).length ≤ N) : contentOK N (tok ++ X) = true := by
  obtain ⟨c, t, rfl⟩ := List.exists_cons_of_ne_nil hne
  obtain ⟨M, rfl⟩ : ∃ M, N = M + 1 := ⟨N - 1, by simp at hN; omega⟩
  rw [List.cons_append] at hstep ⊢
  rw [contentOK, hstep]
  apply hX
  simp at hN
  omega

theorem contentStep_raw (c : Nat) (X : List Nat) (h1 : 32 ≤ c) (h2 : c ≠ 34) (h3 : c ≠ 92) :
    contentStep ([c] ++ X) = some X := by
  show contentStep (c :: X) = some X
  rw [contentStep.eq_def]
  simp only
  rw [if_neg h3, if_neg (by omega)]

theorem contentStep_escapeByte (b : Nat) (X : List Nat) (hb : b < 32 ∨ b = 34 ∨ b = 92) :
    contentStep (escapeByte b ++ X) = some X := by
  rcases hb with hb | rfl | rfl
  · interval_cases b <;> rfl
  · rfl
  · rfl

theorem escapeByte_ne_nil (b : Nat) : escapeByte b ≠ [] := by
  intro h
  have := escapeByte_length_pos b
  rw [h] at this
  simp at this

theorem escaped_content (n : Nat) (s : List Nat) :
    ∀ N, (escapeFrom n s).length ≤ N → contentOK N (escapeFrom n s) = true := by
  have hraw : ∀ (c : Nat) (X : List Nat), 128 ≤ c →
      (∀ M, X.length ≤ M → contentOK M X = true) →
      ∀ N, (c :: X).length ≤ N → contentOK N (c :: X) = true := by
    intro c X hc hX N hN
    exact contentOK_step N [c] X (by simp)
      (contentStep_raw c X (by omega) (by omega) (by omega)) hX hN
  refine escapeFrom_pieces (fun X => ∀ N, X.length ≤ N → contentOK N X = true) ?_ ?_ ?_ ?_ ?_
    ?_ ?_ ?_ ?_ n s
  · intro N _
    cases N <;> rfl
  · intro b X _ hs hX N hN
    obtain ⟨h1, h2, h3⟩ := safeSet_true b hs
    exact contentOK_step N [b] X (by simp) (contentStep_raw b X h1 h2 h3) hX hN
  · intro b X hb hX N hN
    exact contentOK_step N _ X (escapeByte_ne_nil b) (contentStep_escapeByte b X hb) hX hN
  · intro X hX N hN
    exact contentOK_step N _ X (by decide) rfl hX hN
  · intro X hX N hN
    exact contentOK_step N _ X (by decide) rfl hX hN
  · intro X hX N hN
    exact contentOK_step N _ X (by decide) rfl hX hN
  · intro b s1 X f1 _ g1 _ hX
    exact hraw b _ (by omega) (hraw s1 _ g1 hX)
  · intro b s1 s2 X f1 _ g1 _ g2 _ _ _ _ hX
    exact hraw b _ (by omega) (hraw s1 _ g1 (hraw s2 _ g2 hX))
  · intro b s1 s2 s3 X f1 _ g1 _ g2 _ g3 _ _ _ hX
    exact hraw b _ (by omega) (hraw s1 _ g1 (hraw s2 _ g2 (hraw s3 _ g3 hX)))

theorem validFrom_nil (N : Nat) : validFrom N [] = true := by
  cases N <;> rfl

theorem validFrom_ascii (c : Nat) (X : List Nat) (hc : c < 128)
    (hX : ∀ M, X.length ≤ M → validFrom M X = true) :
    ∀ N, (c :: X).length ≤ N → validFrom N (c :: X) = true := by
  intro N hN
  obtain ⟨M, rfl⟩ : ∃ M, N = M + 1 := ⟨N - 1, by simp at hN; omega⟩
  rw [validFrom, decode_ascii c X hc]
  dsimp only
  rw [if_neg (by unfold runeError; omega)]
  apply hX
  simp at hN ⊢
  omega

theorem validFrom_ascii_append (X : List Nat)
    (hX : ∀ M, X.length ≤ M → validFrom M X = true) :
    ∀ (tok : List Nat), (∀ c ∈ tok, c < 128) →
      ∀ N, (tok ++ X).length ≤ N → validFrom N (tok ++ X) = true := by
  intro tok
  induction tok with
  | nil => intro _ N hN; exact hX N hN
  | cons c rest ih =>
    intro hc
    exact validFrom_ascii c _ (hc c (List.mem_cons_self _ _))
      (ih (fun d hd => hc d (List.mem_cons_of_mem _ hd)))

theorem escaped_valid (n : Nat) (s : List Nat) :
    ∀ N, (escapeFrom n s).length ≤ N → validFrom N (escapeFrom n s) = true := by
  refine escapeFrom_pieces (fun X => ∀ N, X.length ≤ N → validFrom N X = true) ?_ ?_ ?_ ?_ ?_
    ?_ ?_ ?_ ?_ n s
  · intro N _
    exact validFrom_nil N
  · intro b X hb _ hX
    exact validFrom_ascii b X hb hX
  · intro b X hb hX
    exact validFrom_ascii_append X hX _ (fun c hc => (escapeByte_ge b hb c hc).2)
  · intro X hX
    exact validFrom_ascii_append X hX _ (by decide)
  · intro X hX
    exact validFrom_ascii_append X hX _ (by decide)
  · intro X hX
    exact validFrom_ascii_append X hX _ (by decide)
  · intro b s1 X f1 f2 g1 g1' hX N hN
    obtain ⟨M, rfl⟩ : ∃ M, N = M + 1 := ⟨N - 1, by simp at hN; omega⟩
    rw [validFrom, decode_two b s1 X f1 f2 g1 g1']
    dsimp only
    rw [if_neg (by omega)]
    apply hX
    simp at hN ⊢
    omega
  · intro b s1 s2 X f1 f2 g1 g1' g2 g2' e1 e2 _ hX N hN
    obtain ⟨M, rfl⟩ : ∃ M, N = M + 1 := ⟨N - 1, by simp at hN; omega⟩
    rw [validFrom, decode_three b s1 s2 X f1 f2 g1 g1' g2 g2' e1 e2]
    dsimp only
    rw [if_neg (by omega)]
    apply hX
    simp at hN ⊢
    omega
  · intro b s1 s2 s3 X f1 f2 g1 g1' g2 g2' g3 g3' e1 e2 hX N hN
    obtain ⟨M, rfl⟩ : ∃ M, N = M + 1 := ⟨N - 1, by simp at hN; omega⟩
    rw [validFrom, decode_four b s1 s2 s3 X f1 f2 g1 g1' g2 g2' g3 g3' e1 e2]
    dsimp only
    rw [if_neg (by omega)]
    apply hX
    simp at hN ⊢
    omega

/-- C28: what `AppendStringContent` appends does not depend on the buffer; it holds no
byte below 0x20, it is made only of bytes other than the quote and the
backslash and of the escapes `\"`, `\\`, `\b`, `\f`, `\n`, `\r`, `\t` and
`\uXXXX`, and it is valid UTF-8. -/
theorem escaped_cannot_break_out (dst s : List Nat) :
    AppendStringContent dst s = dst ++ AppendStringContent [] s ∧
    (∀ c ∈ AppendStringContent [] s, 32 ≤ c) ∧
    contentOK (AppendStringContent [] s).length (AppendStringContent [] s) = true ∧
    validUTF8 (AppendStringContent [] s) = true := by
  have h : AppendStringContent [] s = escapeFrom s.length s := by
    rw [AppendStringContent_eq, List.nil_append]
  refine ⟨AppendStringContent_append dst s, ?_, ?_, ?_⟩
  · rw [h]
    exact escaped_bytes _ _
  · rw [h]
    exact escaped_content _ _ _ (Nat.le_refl _)
  · rw [h]
    exact escaped_valid _ _ _ (Nat.le_refl _)

theorem resolveLoop_add (content : ContentFn) (p : Nat) (attrs : List Attr) (m : Nat) :
    ∀ (n i : Nat) (st : LoopState),
      resolveLoop content p attrs (n + m) i st =
        (resolveLoop content p attrs n i st >>= fun st1 =>
          resolveLoop content p attrs m (i + n) st1) := by
  intro n
  induction n with
  | zero =>
    intro i st
    simp only [Nat.zero_add, resolveLoop, Nat.add_zero]
    rfl
  | succ n ih =>
    intro i st
    rw [show n + 1 + m = (n + m) + 1 by omega, resolveLoop, resolveLoop]
    cases h : resolveIter content p attrs st i with
    | error e => rfl
    | ok st1 =>
      simp only [bind, Except.bind]
      have := ih (i + 1) st1
      simp only [bind, Except.bind] at this
      rw [this, show i + 1 + n = i + (n + 1) by omega]

theorem resolveIter_append_left (content : ContentFn) (p : Nat) (N S : List Attr)
    (hne : ∀ a ∈ N, ∀ b ∈ S, b.Key ≠ a.Key) (st : LoopState) (i : Nat) (hi : i < N.length) :
    resolveIter content p (N ++ S) st i = resolveIter content p N st i := by
  have hget : (N ++ S).get? i = N.get? i := by
    rw [List.get?_eq_getElem?, List.get?_eq_getElem?, List.getElem?_append_left hi]
  have htake : (N ++ S).take (i + 1) = N.take (i + 1) :=
    List.take_append_of_le_length (by omega)
  unfold resolveIter
  rw [hget, htake]
  cases hg : N.get? i with
  | none => rfl
  | some attr =>
    have hmem : attr ∈ N := List.get?_mem hg
    have hskip : (i + 1 < (N ++ S).length ∧
        ((N ++ S).get? (i + 1)).map Attr.Key = some attr.Key) ↔
        (i + 1 < N.length ∧ (N.get? (i + 1)).map Attr.Key = some attr.Key) := by
      by_cases hlt : i + 1 < N.length
      · have : (N ++ S).get? (i + 1) = N.get? (i + 1) := by
          rw [List.get?_eq_getElem?, List.get?_eq_getElem?, List.getElem?_append_left hlt]
        rw [this]
        simp [hlt]
        intro _
        omega
      · constructor
        · rintro ⟨-, h2⟩
          exfalso
          cases hb : (N ++ S).get? (i + 1) with
          | none => rw [hb] at h2; simp at h2
          | some b =>
            rw [hb] at h2
            simp only [Option.map_some', Option.some.injEq] at h2
            have hbm : b ∈ N ++ S := List.get?_mem hb
            rcases List.mem_append.mp hbm with hbN | hbS
            · have hidx : (N ++ S).get? (i + 1) = S.get? (i + 1 - N.length) := by
                rw [List.get?_eq_getElem?, List.get?_eq_getElem?,
                  List.getElem?_append_right (by omega)]
              rw [hidx] at hb
              exact hne attr hmem b (List.get?_mem hb) h2
            · exact hne attr hmem b hbS h2
        · rintro ⟨h1, -⟩
          exact absurd h1 hlt
    simp only [hskip]

theorem resolveLoop_append_left (content : ContentFn) (p : Nat) (N S : List Attr)
    (hne : ∀ a ∈ N, ∀ b ∈ S, b.Key ≠ a.Key) :
    ∀ (n i : Nat) (st : LoopState), i + n ≤ N.length →
      resolveLoop content p (N ++ S) n i st = resolveLoop content p N n i st := by
  intro n
  induction n with
  | zero => intro i st _; rfl
  | succ n ih =>
    intro i st h
    rw [resolveLoop, resolveLoop, resolveIter_append_left content p N S hne st i (by omega)]
    cases hr : resolveIter content p N st i with
    | error e => rfl
    | ok st1 =>
      simp only [bind, Except.bind]
      exact ih (i + 1) st1 (by omega)

theorem resolveIter_fields_le (content : ContentFn) (p : Nat) (attrs : List Attr)
    (st st1 : LoopState) (i : Nat) (h : resolveIter content p attrs st i = .ok st1)
    (hl : st.currentGroupFields.length ≤ i) : st1.currentGroupFields.length ≤ i + 1 := by
  unfold resolveIter at h
  cases hg : attrs.get? i with
  | none => rw [hg] at h; cases h
  | some attr =>
    rw [hg] at h
    dsimp only at h
    split at h
    · cases h
    · cases hidx : indexSeparator (attr.Key.drop p) with
      | some idx =>
        rw [hidx] at h
        dsimp only at h
        by_cases hc : st.currentGroup = [] ∨
            st.currentGroup = List.take idx (List.drop p attr.Key)
        · rw [if_pos hc] at h
          try rw [if_pos hl] at h
          simp only [Except.ok.injEq] at h
          rw [← h]
          simp only [List.length_drop, List.length_take]
          omega
        · rw [if_neg hc] at h
          simp only [bind, Except.bind] at h
          split at h
          · cases h
          · simp only [Except.ok.injEq] at h
            rw [← h]
            simp only [List.length_drop, List.length_take]
            omega
      | none =>
        rw [hidx] at h
        dsimp only at h
        split at h
        · simp only [bind, Except.bind] at h
          split at h
          · cases h
          · simp only [Except.ok.injEq] at h
            rw [← h]
            simp
        · split at h
          · simp only [Except.ok.injEq] at h
            rw [← h]
            omega
          · simp only [bind, Except.bind] at h
            split at h
            · cases h
            · simp only [Except.ok.injEq] at h
              rw [← h]
              simp only
              omega

theorem resolveLoop_fields_le (content : ContentFn) (p : Nat) (attrs : List Attr) :
    ∀ (n i : Nat) (st st1 : LoopState), resolveLoop content p attrs n i st = .ok st1 →
      st.currentGroupFields.length ≤ i → st1.currentGroupFields.length ≤ i + n := by
  intro n
  induction n with
  | zero =>
    intro i st st1 h hl
    simp only [resolveLoop, Except.ok.injEq] at h
    rw [← h]
    exact hl
  | succ n ih =>
    intro i st st1 h hl
    rw [resolveLoop] at h
    cases hr : resolveIter content p attrs st i with
    | error e => rw [hr] at h; cases h
    | ok st2 =>
      rw [hr] at h
      simp only [bind, Except.bind] at h
      have := ih (i + 1) st2 st1 h (resolveIter_fields_le content p attrs st st2 i hr hl)
      omega

theorem indexSeparator_sep_cons (u : List Nat) : indexSeparator (groupSeparator :: u) = some 0 := by
  simp [indexSeparator]

theorem resolveIter_empty_name (content : ContentFn) (pre u : List Nat) (done rest : List Attr)
    (a : Attr) (st : LoopState) (hkey : a.Key = pre ++ groupSeparator :: u)
    (hg : st.currentGroup = []) (hl : st.currentGroupFields.length ≤ done.length) :
    ∃ fields, fields.length ≤ done.length + 1 ∧
      resolveIter content pre.length (done ++ a :: rest) st done.length =
        .ok { st with currentGroup := [], currentGroupFields := fields } := by
  refine ⟨((done ++ a :: rest).take (done.length + 1)).drop
    (done.length - st.currentGroupFields.length), ?_, ?_⟩
  · simp only [List.length_drop, List.length_take]
    omega
  · unfold resolveIter
    rw [get?_append_length]
    dsimp only
    have hlen : ¬ a.Key.length < pre.length := by rw [hkey]; simp
    have hdrop : a.Key.drop pre.length = groupSeparator :: u := by
      rw [hkey, List.drop_left]
    rw [if_neg hlen, hdrop, indexSeparator_sep_cons]
    dsimp only
    rw [if_pos (Or.inl hg), if_pos hl]
    simp

theorem resolveLoop_empty_name (content : ContentFn) (pre : List Nat) :
    ∀ (S done : List Attr) (st : LoopState),
      (∀ a ∈ S, ∃ u, a.Key = pre ++ groupSeparator :: u) →
      st.currentGroup = [] → st.currentGroupFields.length ≤ done.length →
      ∃ st1, resolveLoop content pre.length (done ++ S) S.length done.length st = .ok st1 ∧
        st1.output = st.output ∧ st1.hasValue = st.hasValue ∧ st1.currentGroup = [] := by
  intro S
  induction S with
  | nil =>
    intro done st _ hg _
    exact ⟨st, rfl, rfl, rfl, hg⟩
  | cons a rest ih =>
    intro done st hS hg hl
    obtain ⟨u, hkey⟩ := hS a (List.mem_cons_self _ _)
    obtain ⟨fields, hfl, hiter⟩ :=
      resolveIter_empty_name content pre u done rest a st hkey hg hl
    obtain ⟨st1, h1, h2, h3, h4⟩ := ih (done ++ [a])
      { st with currentGroup := [], currentGroupFields := fields }
      (fun b hb => hS b (List.mem_cons_of_mem _ hb)) rfl (by simpa using hfl)
    refine ⟨st1, ?_, h2, h3, h4⟩
    rw [List.length_cons, resolveLoop, hiter]
    simp only [bind, Except.bind]
    rw [List.append_assoc, List.length_append, List.length_singleton] at h1
    exact h1

theorem resolveLoop_tail_empty_names (content : ContentFn) (pre : List Nat)
    (S done : List Attr) (st : LoopState)
    (hS : ∀ a ∈ S, ∃ u, a.Key = pre ++ groupSeparator :: u)
    (hl : st.currentGroupFields.length ≤ done.length) :
    (resolveLoop content pre.length (done ++ S) S.length done.length st >>=
        resolveFinish content pre.length) =
      resolveFinish content pre.length st := by
  by_cases hg : st.currentGroup = []
  · obtain ⟨st1, h1, h2, -, h4⟩ := resolveLoop_empty_name content pre S done st hS hg hl
    rw [h1]
    simp only [bind, Except.bind, resolveFinish, h4, hg, ne_eq, not_true_eq_false, if_false, h2]
  · cases S with
    | nil => rfl
    | cons a rest =>
      obtain ⟨u, hkey⟩ := hS a (List.mem_cons_self _ _)
      have hlen : ¬ a.Key.length < pre.length := by rw [hkey]; simp
      have hdrop : a.Key.drop pre.length = groupSeparator :: u := by
        rw [hkey, List.drop_left]
      have hiter : resolveIter content pre.length (done ++ a :: rest) st done.length =
          (resolveGroupWith content (appendKey st.output st.hasValue st.currentGroup)
            (pre.length + st.currentGroup.length + 1) st.currentGroupFields >>= fun output =>
            .ok { output := output, hasValue := true, currentGroup := [],
                  currentGroupFields := [a] }) := by
        unfold resolveIter
        rw [get?_append_length]
        dsimp only
        rw [if_neg hlen, hdrop, indexSeparator_sep_cons]
        dsimp only
        have hc : ¬ (st.currentGroup = [] ∨ st.currentGroup = []) := by
          rintro (h | h) <;> exact hg h
        rw [List.take_zero, if_neg hc, take_drop_single]
      rw [List.length_cons, resolveLoop, hiter]
      simp only [resolveFinish, ne_eq, hg, not_false_eq_true, if_true]
      cases hf : resolveGroupWith content (appendKey st.output st.hasValue st.currentGroup)
          (pre.length + st.currentGroup.length + 1) st.currentGroupFields with
      | error e => rfl
      | ok out1 =>
        simp only [bind, Except.bind]
        obtain ⟨st1, h1, h2, -, h4⟩ := resolveLoop_empty_name content pre rest (done ++ [a])
          { output := out1, hasValue := true, currentGroup := [], currentGroupFields := [a] }
          (fun b hb => hS b (List.mem_cons_of_mem _ hb)) rfl (by simp)
        rw [List.append_assoc, List.length_append, List.length_singleton] at h1
        simp only [List.singleton_append] at h1
        rw [h1]
        simp only [resolveFinish, h4, ne_eq, not_true_eq_false, if_false, h2]

theorem resolveGroupContent_drop_tail (f : Nat) (out : List Nat) (hv : Bool) (pre : List Nat)
    (N S : List Attr) (hne : ∀ a ∈ N, ∀ b ∈ S, b.Key ≠ a.Key)
    (hS : ∀ a ∈ S, ∃ u, a.Key = pre ++ groupSeparator :: u) :
    resolveGroupContent f out hv pre.length (N ++ S) =
      resolveGroupContent f out hv pre.length N := by
  cases f with
  | zero => rfl
  | succ f =>
    rw [resolveGroupContent, resolveGroupContent, List.length_append, resolveLoop_add,
      resolveLoop_append_left _ _ N S hne N.length 0 _ (by omega)]
    cases hN : resolveLoop (resolveGroupContent f) pre.length N N.length 0
        { output := out, hasValue := hv, currentGroup := [], currentGroupFields := [] } with
    | error e => rfl
    | ok st1 =>
      have hl := resolveLoop_fields_le _ _ _ _ _ _ _ hN (by simp)
      have := resolveLoop_tail_empty_names (resolveGroupContent f) pre S N st1 hS
        (by omega)
      simp only [bind, Except.bind, Nat.zero_add] at this ⊢
      exact this

theorem sep_leading_after (pre u s : List Nat) (hs : s ≠ [])
    (h : keyCmp (pre ++ groupSeparator :: u) (pre ++ s) ≤ 0) :
    ∃ v, s = groupSeparator :: v := by
  rw [keyCmp_append_left] at h
  cases s with
  | nil => exact absurd rfl hs
  | cons c v =>
    by_cases hc : c = groupSeparator
    · exact ⟨v, by rw [hc]⟩
    · exfalso
      have hne : ¬ groupSeparator = c := fun e => hc e.symm
      simp only [keyCmp, hne, if_false, if_true] at h
      omega

theorem sorted_empty_names_last (pre : List Nat) :
    ∀ (run : List Attr), (∀ a ∈ run, ∃ s, a.Key = pre ++ s) →
      run.Pairwise (fun a b => keyCmp a.Key b.Key ≤ 0) → (∀ a ∈ run, a.Key ≠ pre) →
      ∃ S, run = run.filter (fun a => (a.Key.drop pre.length).head? != some groupSeparator)
          ++ S ∧
        ∀ a ∈ S, ∃ u, a.Key = pre ++ groupSeparator :: u := by
  intro run
  induction run with
  | nil => intro _ _ _; exact ⟨[], rfl, by simp⟩
  | cons a rest ih =>
    intro hpre hsorted hne
    obtain ⟨hhead, htail⟩ := List.pairwise_cons.mp hsorted
    obtain ⟨S, hS1, hS2⟩ := ih (fun b hb => hpre b (List.mem_cons_of_mem _ hb)) htail
      (fun b hb => hne b (List.mem_cons_of_mem _ hb))
    obtain ⟨s, hs⟩ := hpre a (List.mem_cons_self _ _)
    have hdrop : a.Key.drop pre.length = s := by rw [hs, List.drop_left]
    by_cases hk : (s.head? != some groupSeparator) = true
    · refine ⟨S, ?_, hS2⟩
      rw [List.filter_cons, hdrop, if_pos hk, List.cons_append, ← hS1]
    · have hsep : ∃ u, s = groupSeparator :: u := by
        cases s with
        | nil => simp at hk
        | cons c v =>
          simp only [List.head?_cons, bne_iff_ne, ne_eq, Option.some.injEq, not_not] at hk
          exact ⟨v, by rw [hk]⟩
      obtain ⟨u, rfl⟩ := hsep
      have hall : ∀ b ∈ rest, ∃ v, b.Key = pre ++ groupSeparator :: v := by
        intro b hb
        obtain ⟨t, ht⟩ := hpre b (List.mem_cons_of_mem _ hb)
        have htne : t ≠ [] := by
          intro e
          apply hne b (List.mem_cons_of_mem _ hb)
          rw [ht, e, List.append_nil]
        have hcmp := hhead b hb
        rw [hs, ht] at hcmp
        obtain ⟨v, hv⟩ := sep_leading_after pre u t htne hcmp
        exact ⟨v, by rw [ht, hv]⟩
      have hfil : rest.filter
          (fun a => (a.Key.drop pre.length).head? != some groupSeparator) = [] := by
        rw [List.filter_eq_nil_iff]
        intro b hb
        obtain ⟨v, hv⟩ := hall b hb
        rw [hv, List.drop_left]
        simp
      refine ⟨a :: rest, ?_, ?_⟩
      · rw [List.filter_cons, hdrop, if_neg hk, hfil, List.nil_append]
      · intro b hb
        rcases List.mem_cons.mp hb with rfl | hb
        · exact ⟨u, hs⟩
        · exact hall b hb

/-- C27: for a sorted run at a prefix in which no key is the prefix itself, the
attributes whose stripped key begins with the separator are collected under
the empty group name and never written: `resolveGroupContent` returns what it
returns for the run without them, and for a run of such attributes only it
returns the buffer unchanged. -/
theorem empty_group_name_dropped (f : Nat) (out : List Nat) (hv : Bool) (pre : List Nat)
    (run : List Attr) (hpre : ∀ a ∈ run, ∃ s, a.Key = pre ++ s)
    (hsorted : run.Pairwise (fun a b => isEarlierAttr a b ≤ 0))
    (hne : ∀ a ∈ run, a.Key ≠ pre) :
    resolveGroupContent f out hv pre.length run =
      resolveGroupContent f out hv pre.length
        (run.filter (fun a => (a.Key.drop pre.length).head? != some groupSeparator)) ∧
    ((∀ a ∈ run, ∃ u, a.Key = pre ++ groupSeparator :: u) →
      resolveGroupContent (f + 1) out hv pre.length run = .ok out) := by
  have hs2 : run.Pairwise (fun a b => keyCmp a.Key b.Key ≤ 0) := by
    refine hsorted.imp ?_
    intro a b h
    unfold isEarlierAttr at h
    rw [isEarlierKey_eq_keyCmp] at h
    exact h
  constructor
  · obtain ⟨S, hS1, hS2⟩ := sorted_empty_names_last pre run hpre hs2 hne
    have hdiff : ∀ a ∈ run.filter
        (fun a => (a.Key.drop pre.length).head? != some groupSeparator),
        ∀ b ∈ S, b.Key ≠ a.Key := by
      intro a ha b hb e
      obtain ⟨u, hu⟩ := hS2 b hb
      have hk := (List.mem_filter.mp ha).2
      rw [← e, hu, List.drop_left] at hk
      simp at hk
    have := resolveGroupContent_drop_tail f out hv pre _ S hdiff hS2
    rw [← hS1] at this
    exact this
  · intro hall
    have := resolveGroupContent_drop_tail (f + 1) out hv pre [] run (by simp) hall
    rw [List.nil_append] at this
    rw [this]
    rfl

/-- The run `a.b`, `.x` at the top level is written as the run `a.b`. -/
theorem empty_group_name_dropped_witness :
    resolveGroupContent 3 [] false 0
        [Attr.mk (ascii "a.b") (.int64 1), Attr.mk (ascii ".x") (.int64 2)] =
      resolveGroupContent 3 [] false 0 [Attr.mk (ascii "a.b") (.int64 1)] :=
  (empty_group_name_dropped 3 [] false []
    [Attr.mk (ascii "a.b") (.int64 1), Attr.mk (ascii ".x") (.int64 2)]
    (fun a _ => ⟨a.Key, rfl⟩) (by decide) (by decide)).1

/-- C27, counterexample: the sorted run `a.b`, `.x`, and an attribute with the empty
key is written with the member of the empty key after the group `a`, and
without the attribute `.x` before it. -/
theorem empty_group_name_counterexample :
    sortStableFunc isEarlierAttr
        [Attr.mk (ascii "a.b") (.int64 1), Attr.mk (ascii ".x") (.int64 2),
          Attr.mk [] (.string (ascii "v"))] =
      [Attr.mk (ascii "a.b") (.int64 1), Attr.mk (ascii ".x") (.int64 2),
        Attr.mk [] (.string (ascii "v"))] ∧
    resolveGroupContent 3 [] false 0
        [Attr.mk (ascii "a.b") (.int64 1), Attr.mk (ascii ".x") (.int64 2),
          Attr.mk [] (.string (ascii "v"))] =
      .ok (ascii "\"a\":\x7b\"b\":1\x7d,\"\":\"v\"") ∧
    resolveGroupContent 3 [] false 0
        [Attr.mk (ascii "a.b") (.int64 1), Attr.mk [] (.string (ascii "v"))] =
      .ok (ascii "\"\":\"v\",\"a\":\x7b\"b\":1\x7d") :=
  ⟨rfl, rfl, rfl⟩

theorem inGroup_iff (p : Nat) (g : List Nat) (a : Attr) (hg : hasSep g = false) :
    inGroup p g a = true ↔
      hasSep (a.Key.drop p) = true ∧ headComp (a.Key.drop p) = g := by
  unfold inGroup
  rw [List.isPrefixOf_iff_prefix]
  constructor
  · rintro ⟨t, ht⟩
    rw [← ht, List.append_assoc, List.singleton_append]
    exact ⟨hasSep_append_sep g t, headComp_append_sep g t hg⟩
  · rintro ⟨h1, h2⟩
    have := eq_headComp_append _ h1
    rw [h2] at this
    refine ⟨(a.Key.drop p).drop (g.length + 1), ?_⟩
    rw [List.append_assoc, List.singleton_append]
    exact this.symm

theorem inGroup_false_of_flat (p : Nat) (g : List Nat) (a : Attr) (hg : hasSep g = false)
    (hs : hasSep (a.Key.drop p) = false) : inGroup p g a = false := by
  cases h : inGroup p g a with
  | false => rfl
  | true =>
    have := ((inGroup_iff p g a hg).mp h).1
    rw [hs] at this
    cases this

theorem block_between (pre sx sz sb g : List Nat)
    (hxz : keyCmp (pre ++ sx) (pre ++ sz) ≤ 0) (hzb : keyCmp (pre ++ sz) (pre ++ sb) ≤ 0)
    (hx : hasSep sx = true ∧ headComp sx = g) (hb : hasSep sb = true ∧ headComp sb = g) :
    hasSep sz = true ∧ headComp sz = g := by
  rw [keyCmp_append_left] at hxz hzb
  have hh : headComp sz = headComp sx := headComp_between sx sz sb hxz hzb (by rw [hx.2, hb.2])
  rw [hx.2] at hh
  refine ⟨?_, hh⟩
  cases hs : hasSep sz with
  | true => rfl
  | false =>
    exfalso
    have h1 : headComp sz = sz := headComp_of_noSep sz hs
    have h2 : sb = sz := flat_after sz sb hzb (by rw [hb.2, ← hh, h1])
    rw [h2, hs] at hb
    cases hb.1

theorem sorted_parts (done rest : List Attr) (a : Attr)
    (h : (done ++ a :: rest).Pairwise (fun x y => keyCmp x.Key y.Key ≤ 0)) :
    done.Pairwise (fun x y => keyCmp x.Key y.Key ≤ 0) ∧
    (∀ x ∈ done, keyCmp x.Key a.Key ≤ 0) ∧ (∀ b ∈ rest, keyCmp a.Key b.Key ≤ 0) ∧
    (∀ x ∈ done, ∀ b ∈ rest, keyCmp x.Key b.Key ≤ 0) := by
  rw [List.pairwise_append] at h
  obtain ⟨h1, h2, h3⟩ := h
  rw [List.pairwise_cons] at h2
  exact ⟨h1, fun x hx => h3 x hx a (List.mem_cons_self _ _), h2.1,
    fun x hx b hb => h3 x hx b (List.mem_cons_of_mem _ hb)⟩

theorem le_last_of_sorted (done : List Attr) (z x : Attr)
    (hs : done.Pairwise (fun x y => keyCmp x.Key y.Key ≤ 0))
    (hz : done.getLast? = some z) (hx : x ∈ done) : x = z ∨ keyCmp x.Key z.Key ≤ 0 := by
  obtain ⟨init, rfl⟩ : ∃ init, done = init ++ [z] := by
    have := List.getLast?_eq_some_iff.mp hz
    exact this
  rw [List.pairwise_append] at hs
  rcases List.mem_append.mp hx with h | h
  · exact Or.inr (hs.2.2 x h z (List.mem_singleton_self z))
  · exact Or.inl (List.mem_singleton.mp h)

theorem last_in_block (pre : List Nat) (done rest : List Attr) (a x : Attr) (g : List Nat)
    (hpre : ∀ b ∈ done ++ a :: rest, ∃ s, b.Key = pre ++ s)
    (hsorted : (done ++ a :: rest).Pairwise (fun x y => keyCmp x.Key y.Key ≤ 0))
    (hg : hasSep g = false) (hx : x ∈ done) (hxg : inGroup pre.length g x = true)
    (hag : inGroup pre.length g a = true) :
    ∃ z, done.getLast? = some z ∧ inGroup pre.length g z = true := by
  obtain ⟨hd, hda, -, -⟩ := sorted_parts done rest a hsorted
  have hne : done ≠ [] := List.ne_nil_of_mem hx
  obtain ⟨z, hz⟩ : ∃ z, done.getLast? = some z := by
    cases h : done.getLast? with
    | none => exact absurd (List.getLast?_eq_none_iff.mp h) hne
    | some z => exact ⟨z, rfl⟩
  refine ⟨z, hz, ?_⟩
  have hzmem : z ∈ done := List.mem_of_getLast?_eq_some hz
  rcases le_last_of_sorted done z x hd hz hx with rfl | hxz
  · exact hxg
  · obtain ⟨sx, hsx⟩ := hpre x (List.mem_append_left _ hx)
    obtain ⟨sz, hsz⟩ := hpre z (List.mem_append_left _ hzmem)
    obtain ⟨sa, hsa⟩ := hpre a (List.mem_append_right _ (List.mem_cons_self _ _))
    have hza := hda z hzmem
    rw [hsx, hsz] at hxz
    rw [hsz, hsa] at hza
    have hx2 := (inGroup_iff pre.length g x hg).mp hxg
    have ha2 := (inGroup_iff pre.length g a hg).mp hag
    rw [hsx, List.drop_left] at hx2
    rw [hsa, List.drop_left] at ha2
    rw [inGroup_iff pre.length g z hg, hsz, List.drop_left]
    exact block_between pre sx sz sa g hxz hza hx2 ha2

theorem sep_leading_of_head_nil (s : List Nat) (hs : hasSep s = true) (hh : headComp s = []) :
    ∃ u, s = groupSeparator :: u := by
  have := eq_headComp_append s hs
  rw [hh] at this
  exact ⟨_, this⟩

theorem rest_after_sep_leading (pre u : List Nat) (a : Attr) (rest : List Attr)
    (hkey : a.Key = pre ++ groupSeparator :: u)
    (hpre : ∀ b ∈ rest, ∃ s, b.Key = pre ++ s)
    (har : ∀ b ∈ rest, keyCmp a.Key b.Key ≤ 0) :
    ∀ b ∈ rest, b.Key.drop pre.length = [] ∨
      ∃ v, b.Key.drop pre.length = groupSeparator :: v := by
  intro b hb
  obtain ⟨t, ht⟩ := hpre b hb
  rw [ht, List.drop_left]
  by_cases htn : t = []
  · exact Or.inl htn
  · have h := har b hb
    rw [hkey, ht] at h
    exact Or.inr (sep_leading_after pre u t htn h)

theorem no_later_in_block (pre : List Nat) (done rest : List Attr) (a : Attr)
    (g : List Nat) (fields : List Attr)
    (hpre : ∀ b ∈ done ++ a :: rest, ∃ s, b.Key = pre ++ s)
    (hsorted : (done ++ a :: rest).Pairwise (fun x y => keyCmp x.Key y.Key ≤ 0))
    (hg : hasSep g = false) (hne : fields ≠ [])
    (hf : fields = done.filter (inGroup pre.length g))
    (hdisj : fields <:+ done ∨ ∀ b ∈ a :: rest, inGroup pre.length g b = false)
    (ha : inGroup pre.length g a = false) :
    ∀ b ∈ rest, inGroup pre.length g b = false := by
  intro b hb
  rcases hdisj with hsuf | hno
  · cases hbg : inGroup pre.length g b with
    | false => rfl
    | true =>
      exfalso
      obtain ⟨-, hda, har, -⟩ := sorted_parts done rest a hsorted
      obtain ⟨z, hz⟩ : ∃ z, fields.getLast? = some z := by
        cases h : fields.getLast? with
        | none => exact absurd (List.getLast?_eq_none_iff.mp h) hne
        | some z => exact ⟨z, rfl⟩
      have hzf : z ∈ fields := List.mem_of_getLast?_eq_some hz
      have hzd : z ∈ done := hsuf.subset hzf
      have hzg : inGroup pre.length g z = true := by
        rw [hf] at hzf
        exact (List.mem_filter.mp hzf).2
      obtain ⟨sz, hsz⟩ := hpre z (List.mem_append_left _ hzd)
      obtain ⟨sa, hsa⟩ := hpre a (List.mem_append_right _ (List.mem_cons_self _ _))
      obtain ⟨sb, hsb⟩ := hpre b (List.mem_append_right _ (List.mem_cons_of_mem _ hb))
      have h1 := hda z hzd
      have h2 := har b hb
      rw [hsz, hsa] at h1
      rw [hsa, hsb] at h2
      have hz2 := (inGroup_iff pre.length g z hg).mp hzg
      have hb2 := (inGroup_iff pre.length g b hg).mp hbg
      rw [hsz, List.drop_left] at hz2
      rw [hsb, List.drop_left] at hb2
      have := block_between pre sz sa sb g h1 h2 hz2 hb2
      have ha2 : inGroup pre.length g a = true := by
        rw [inGroup_iff pre.length g a hg, hsa, List.drop_left]
        exact this
      rw [ha] at ha2
      cases ha2
  · exact hno b (List.mem_cons_of_mem _ hb)

theorem filter_block_nil (pre : List Nat) (done rest : List Attr) (a : Attr) (st : LoopState)
    (h : List Nat)
    (hpre : ∀ b ∈ done ++ a :: rest, ∃ s, b.Key = pre ++ s)
    (hsorted : (done ++ a :: rest).Pairwise (fun x y => keyCmp x.Key y.Key ≤ 0))
    (hinv : SafeInv pre done (a :: rest) st) (hh : hasSep h = false) (hne : h ≠ [])
    (hah : inGroup pre.length h a = true) (hgh : st.currentGroup ≠ h) :
    done.filter (inGroup pre.length h) = [] := by
  rw [List.filter_eq_nil_iff]
  intro x hx hxg
  obtain ⟨z, hz, hzg⟩ := last_in_block pre done rest a x h hpre hsorted hh hx hxg hah
  have hz2 := (inGroup_iff pre.length h z hh).mp hzg
  have := hinv.last z hz hz2.1 (by rw [hz2.2]; exact hne)
  rw [hz2.2] at this
  exact hgh this

theorem safe_same_group (pre : List Nat) (done rest : List Attr) (a : Attr)
    (st st1 : LoopState) (s : List Nat)
    (hpre : ∀ b ∈ done ++ a :: rest, ∃ s, b.Key = pre ++ s)
    (hsorted : (done ++ a :: rest).Pairwise (fun x y => keyCmp x.Key y.Key ≤ 0))
    (hinv : SafeInv pre done (a :: rest) st) (hdrop : a.Key.drop pre.length = s)
    (hs : hasSep s = false) (hgs : ¬ st.currentGroup = s)
    (h1 : st1.currentGroup = st.currentGroup)
    (h2 : st1.currentGroupFields = st.currentGroupFields) :
    SafeInv pre (done ++ [a]) rest st1 := by
  constructor
  · rw [h2, List.length_append, List.length_singleton]
    have := hinv.len
    omega
  · rw [h1, h2]
    intro hg
    obtain ⟨hsep, hne, hf, hdisj⟩ := hinv.block hg
    have ha : inGroup pre.length st.currentGroup a = false :=
      inGroup_false_of_flat _ _ a hsep (by rw [hdrop]; exact hs)
    refine ⟨hsep, hne, ?_, Or.inr ?_⟩
    · rw [List.filter_append, ← hf]
      simp [List.filter_cons, ha]
    · exact no_later_in_block pre done rest a _ _ hpre hsorted hsep hne hf hdisj ha
  · rw [h1, h2]
    intro hg
    rcases hinv.emptyName hg with h | ⟨-, hr⟩
    · exact Or.inl h
    · exfalso
      rcases hr a (List.mem_cons_self _ _) with h | ⟨u, h⟩
      · rw [hdrop] at h
        exact hgs (by rw [hg, h])
      · rw [hdrop] at h
        rw [h] at hs
        simp [hasSep, groupSeparator] at hs
  · intro z hz hzs _
    rw [List.getLast?_append_of_ne_nil _ (by simp), List.getLast?_singleton,
      Option.some.injEq] at hz
    rw [← hz, hdrop, hs] at hzs
    cases hzs

theorem safe_new_group (pre : List Nat) (done rest : List Attr) (a : Attr)
    (st1 : LoopState) (s : List Nat)
    (hpre : ∀ b ∈ done ++ a :: rest, ∃ s, b.Key = pre ++ s)
    (hsorted : (done ++ a :: rest).Pairwise (fun x y => keyCmp x.Key y.Key ≤ 0))
    (hkey : a.Key = pre ++ s) (hs : hasSep s = true)
    (hg1 : st1.currentGroup = headComp s)
    (hfields : headComp s ≠ [] →
      st1.currentGroupFields = (done ++ [a]).filter (inGroup pre.length (headComp s)))
    (hsuf : st1.currentGroupFields <:+ done ++ [a]) (hne : st1.currentGroupFields ≠ []) :
    SafeInv pre (done ++ [a]) rest st1 := by
  have hdrop : a.Key.drop pre.length = s := by rw [hkey, List.drop_left]
  obtain ⟨-, -, har, -⟩ := sorted_parts done rest a hsorted
  constructor
  · exact hsuf.length_le
  · rw [hg1]
    intro hg
    exact ⟨hasSep_headComp s, hne, hfields hg, Or.inl hsuf⟩
  · rw [hg1]
    intro hg
    obtain ⟨u, hu⟩ := sep_leading_of_head_nil s hs hg
    refine Or.inr ⟨hsuf, ?_⟩
    exact rest_after_sep_leading pre u a rest (by rw [hkey, hu])
      (fun b hb => hpre b (List.mem_append_right _ (List.mem_cons_of_mem _ hb))) har
  · intro z hz _ _
    rw [List.getLast?_append_of_ne_nil _ (by simp), List.getLast?_singleton,
      Option.some.injEq] at hz
    rw [← hz, hdrop, hg1]

theorem safe_step (content : ContentFn) (pre : List Nat) (done rest : List Attr) (a : Attr)
    (st : LoopState)
    (hpre : ∀ b ∈ done ++ a :: rest, ∃ s, b.Key = pre ++ s)
    (hsorted : (done ++ a :: rest).Pairwise (fun x y => keyCmp x.Key y.Key ≤ 0))
    (hflush : ∀ out hv g, g ≠ [] → hasSep g = false →
      (done ++ a :: rest).filter (inGroup pre.length g) ≠ [] →
      ∃ r, content out hv (pre.length + g.length + 1)
        ((done ++ a :: rest).filter (inGroup pre.length g)) = .ok r)
    (hval : ∀ b ∈ done ++ a :: rest, ∀ out, ∃ r,
      appendJsonValueWith content out b.Value = .ok r)
    (hinv : SafeInv pre done (a :: rest) st) :
    ∃ st1, resolveIter content pre.length (done ++ a :: rest) st done.length = .ok st1 ∧
      SafeInv pre (done ++ [a]) rest st1 := by
  have hamem : a ∈ done ++ a :: rest := List.mem_append_right _ (List.mem_cons_self _ _)
  obtain ⟨s, hkey⟩ := hpre a hamem
  have hdrop : a.Key.drop pre.length = s := by rw [hkey, List.drop_left]
  cases hs : hasSep s with
  | true =>
    have hh : hasSep (headComp s) = false := hasSep_headComp s
    have hah : inGroup pre.length (headComp s) a = true := by
      rw [inGroup_iff _ _ _ hh, hdrop]
      exact ⟨hs, rfl⟩
    by_cases hg : st.currentGroup = [] ∨ st.currentGroup = headComp s
    · -- the group continues, or it opens while no group is open
      have hsufOr : st.currentGroupFields <:+ done ∧
          (headComp s ≠ [] →
            st.currentGroupFields = done.filter (inGroup pre.length (headComp s))) := by
        by_cases hg0 : st.currentGroup = []
        · rcases hinv.emptyName hg0 with hf | ⟨hsuf, hr⟩
          · refine ⟨by rw [hf]; exact List.nil_suffix, fun hne => ?_⟩
            rw [hf]
            exact (filter_block_nil pre done rest a st _ hpre hsorted hinv hh hne hah
              (by rw [hg0]; exact fun e => hne e.symm)).symm
          · refine ⟨hsuf, fun hne => ?_⟩
            exfalso
            rcases hr a (List.mem_cons_self _ _) with h | ⟨u, h⟩
            · rw [hdrop] at h
              rw [h] at hs
              simp [hasSep] at hs
            · rw [hdrop] at h
              apply hne
              rw [h]
              simp [headComp]
        · have hgh : st.currentGroup = headComp s := by
            rcases hg with h | h
            · exact absurd h hg0
            · exact h
          obtain ⟨-, -, hf, hdisj⟩ := hinv.block hg0
          refine ⟨?_, fun _ => by rw [← hgh]; exact hf⟩
          rcases hdisj with h | h
          · exact h
          · have := h a (List.mem_cons_self _ _)
            rw [hgh, hah] at this
            cases this
      obtain ⟨hsuf, hfil⟩ := hsufOr
      refine ⟨_, resolveIter_continue content pre s done rest a st hkey hs hg hsuf, ?_⟩
      apply safe_new_group pre done rest a _ s hpre hsorted hkey hs rfl
      · intro hne
        show st.currentGroupFields ++ [a] = _
        rw [List.filter_append, ← hfil hne]
        simp [List.filter_cons, hah]
      · show st.currentGroupFields ++ [a] <:+ done ++ [a]
        obtain ⟨t, ht⟩ := hsuf
        exact ⟨t, by rw [← List.append_assoc, ht]⟩
      · show st.currentGroupFields ++ [a] ≠ []
        simp
    · -- another group begins: the open group is flushed
      have hg0 : st.currentGroup ≠ [] := fun e => hg (Or.inl e)
      have hgh : st.currentGroup ≠ headComp s := fun e => hg (Or.inr e)
      obtain ⟨hsep, hne, hf, hdisj⟩ := hinv.block hg0
      have ha : inGroup pre.length st.currentGroup a = false := by
        cases h : inGroup pre.length st.currentGroup a with
        | false => rfl
        | true =>
          have := ((inGroup_iff _ _ _ hsep).mp h).2
          rw [hdrop] at this
          exact absurd this.symm hgh
      have hrest := no_later_in_block pre done rest a _ _ hpre hsorted hsep hne hf hdisj ha
      have hall : (done ++ a :: rest).filter (inGroup pre.length st.currentGroup) =
          st.currentGroupFields := by
        rw [List.filter_append, ← hf, List.filter_cons, ha]
        simp only [Bool.false_eq_true, if_false]
        rw [List.filter_eq_nil_iff.mpr (fun b hb => by rw [hrest b hb]; simp), List.append_nil]
      obtain ⟨r, hr⟩ := hflush (appendKey st.output st.hasValue st.currentGroup ++ [123]) false
        st.currentGroup hg0 hsep (by rw [hall]; exact hne)
      rw [hall] at hr
      have hfl : resolveGroupWith content (appendKey st.output st.hasValue st.currentGroup)
          (pre.length + st.currentGroup.length + 1) st.currentGroupFields =
          .ok (r ++ [125]) := by
        simp only [resolveGroupWith, hr, bind, Except.bind]
      refine ⟨_, resolveIter_flush content pre s done rest a st _ hkey hs hg hfl, ?_⟩
      apply safe_new_group pre done rest a _ s hpre hsorted hkey hs rfl
      · intro hne2
        show [a] = _
        rw [List.filter_append,
          filter_block_nil pre done rest a st _ hpre hsorted hinv hh hne2 hah hgh]
        simp [List.filter_cons, hah]
      · exact List.suffix_append _ _
      · simp
  | false =>
    by_cases hgs : st.currentGroup = s
    · obtain ⟨r, hr⟩ := hval a hamem (appendKey st.output st.hasValue s)
      refine ⟨_, resolveIter_override content pre s done rest a st r hkey hs hgs hr, ?_⟩
      constructor
      · simp
      · intro h
        exact absurd rfl h
      · intro _
        exact Or.inl rfl
      · intro z hz hzs _
        rw [List.getLast?_append_of_ne_nil _ (by simp), List.getLast?_singleton,
          Option.some.injEq] at hz
        rw [← hz, hdrop, hs] at hzs
        cases hzs
    · by_cases hnext : rest.head?.map Attr.Key = some a.Key
      · exact ⟨st, resolveIter_skip content pre s done rest a st hkey hs hgs hnext,
          safe_same_group pre done rest a st st s hpre hsorted hinv hdrop hs hgs rfl rfl⟩
      · obtain ⟨r, hr⟩ := hval a hamem (appendKey st.output st.hasValue s)
        exact ⟨_, resolveIter_emit content pre s done rest a st r hkey hs hgs hnext hr,
          safe_same_group pre done rest a st _ s hpre hsorted hinv hdrop hs hgs rfl rfl⟩

theorem safe_loop (content : ContentFn) (pre : List Nat) :
    ∀ (rest done : List Attr) (st : LoopState),
      (∀ b ∈ done ++ rest, ∃ s, b.Key = pre ++ s) →
      (done ++ rest).Pairwise (fun x y => keyCmp x.Key y.Key ≤ 0) →
      (∀ out hv g, g ≠ [] → hasSep g = false →
        (done ++ rest).filter (inGroup pre.length g) ≠ [] →
        ∃ r, content out hv (pre.length + g.length + 1)
          ((done ++ rest).filter (inGroup pre.length g)) = .ok r) →
      (∀ b ∈ done ++ rest, ∀ out, ∃ r, appendJsonValueWith content out b.Value = .ok r) →
      SafeInv pre done rest st →
      ∃ st1, resolveLoop content pre.length (done ++ rest) rest.length done.length st =
          .ok st1 ∧ SafeInv pre (done ++ rest) [] st1 := by
  intro rest
  induction rest with
  | nil =>
    intro done st _ _ _ _ hinv
    exact ⟨st, rfl, by rw [List.append_nil]; exact hinv⟩
  | cons a rest ih =>
    intro done st hpre hsorted hflush hval hinv
    obtain ⟨st1, h1, hinv1⟩ := safe_step content pre done rest a st hpre hsorted hflush hval hinv
    have he : done ++ a :: rest = (done ++ [a]) ++ rest := by simp
    obtain ⟨st2, h2, hinv2⟩ := ih (done ++ [a]) st1 (by rw [← he]; exact hpre)
      (by rw [← he]; exact hsorted) (by rw [← he]; exact hflush) (by rw [← he]; exact hval)
      hinv1
    rw [← he, List.length_append, List.length_singleton] at h2
    rw [← he] at hinv2
    refine ⟨st2, ?_, hinv2⟩
    rw [List.length_cons, resolveLoop, h1]
    exact h2

theorem safe_finish (content : ContentFn) (pre : List Nat) (run : List Attr) (st : LoopState)
    (hflush : ∀ out hv g, g ≠ [] → hasSep g = false →
      run.filter (inGroup pre.length g) ≠ [] →
      ∃ r, content out hv (pre.length + g.length + 1)
        (run.filter (inGroup pre.length g)) = .ok r)
    (hinv : SafeInv pre run [] st) :
    ∃ r, resolveFinish content pre.length st = .ok r := by
  unfold resolveFinish
  by_cases hg : st.currentGroup = []
  · exact ⟨st.output, by rw [if_neg (by simpa using hg)]⟩
  · rw [if_pos hg]
    obtain ⟨hsep, hne, hf, -⟩ := hinv.block hg
    obtain ⟨r, hr⟩ := hflush (appendKey st.output st.hasValue st.currentGroup ++ [123]) false
      st.currentGroup hg hsep (by rw [← hf]; exact hne)
    rw [← hf] at hr
    exact ⟨r ++ [125], by simp only [resolveGroupWith, hr, bind, Except.bind]⟩

theorem safe_run (content : ContentFn) (pre : List Nat) (run : List Attr)
    (hpre : ∀ b ∈ run, ∃ s, b.Key = pre ++ s)
    (hsorted : run.Pairwise (fun x y => keyCmp x.Key y.Key ≤ 0))
    (hflush : ∀ out hv g, g ≠ [] → hasSep g = false →
      run.filter (inGroup pre.length g) ≠ [] →
      ∃ r, content out hv (pre.length + g.length + 1)
        (run.filter (inGroup pre.length g)) = .ok r)
    (hval : ∀ b ∈ run, ∀ out, ∃ r, appendJsonValueWith content out b.Value = .ok r)
    (out : List Nat) (hv : Bool) :
    ∃ st r, resolveLoop content pre.length run run.length 0
        { output := out, hasValue := hv, currentGroup := [], currentGroupFields := [] } =
        .ok st ∧ resolveFinish content pre.length st = .ok r := by
  have hinit : SafeInv pre [] run
      { output := out, hasValue := hv, currentGroup := [], currentGroupFields := [] } := by
    constructor
    · simp
    · intro h; exact absurd rfl h
    · intro _; exact Or.inl rfl
    · intro z hz; simp at hz
  obtain ⟨st, h1, hinv⟩ := safe_loop content pre run [] _ (by simpa using hpre)
    (by simpa using hsorted) (by simpa using hflush) (by simpa using hval) hinit
  simp only [List.nil_append, List.length_nil] at h1 hinv
  obtain ⟨r, hr⟩ := safe_finish content pre run st hflush hinv
  exact ⟨st, r, h1, hr⟩

theorem inGroup_key (pre g : List Nat) (a : Attr) (s : List Nat) (hkey : a.Key = pre ++ s)
    (h : inGroup pre.length g a = true) :
    ∃ t, a.Key = (pre ++ g ++ [groupSeparator]) ++ t := by
  unfold inGroup at h
  rw [List.isPrefixOf_iff_prefix, hkey, List.drop_left] at h
  obtain ⟨t, ht⟩ := h
  exact ⟨t, by rw [hkey, ← ht]; simp⟩

theorem resolveGroupContent_safe (f0 : Nat) :
    ∀ (n f : Nat) (out : List Nat) (hv : Bool) (pre : List Nat) (run : List Attr),
      (∀ b ∈ run, ∃ s, b.Key = pre ++ s) →
      run.Pairwise (fun x y => keyCmp x.Key y.Key ≤ 0) →
      (∀ a ∈ run, ∀ f, f0 ≤ f → ∀ out, ∃ r, appendJsonValue f out a.Value = .ok r) →
      (∀ a ∈ run, a.Key.length < pre.length + n) → f0 + n + 1 ≤ f →
      ∃ r, resolveGroupContent f out hv pre.length run = .ok r := by
  intro n
  induction n with
  | zero =>
    intro f out hv pre run hpre _ _ hlen hf
    have hnil : run = [] := by
      cases run with
      | nil => rfl
      | cons a rest =>
        exfalso
        obtain ⟨s, hs⟩ := hpre a (List.mem_cons_self _ _)
        have := hlen a (List.mem_cons_self _ _)
        rw [hs, List.length_append] at this
        omega
    subst hnil
    obtain ⟨f1, rfl⟩ : ∃ f1, f = f1 + 1 := ⟨f - 1, by omega⟩
    exact ⟨out, rfl⟩
  | succ n ih =>
    intro f out hv pre run hpre hsorted henc hlen hf
    obtain ⟨f1, rfl⟩ : ∃ f1, f = f1 + 1 := ⟨f - 1, by omega⟩
    have hflush : ∀ out hv g, g ≠ [] → hasSep g = false →
        run.filter (inGroup pre.length g) ≠ [] →
        ∃ r, resolveGroupContent f1 out hv (pre.length + g.length + 1)
          (run.filter (inGroup pre.length g)) = .ok r := by
      intro out2 hv2 g _ _ _
      have hl : (pre ++ g ++ [groupSeparator]).length = pre.length + g.length + 1 := by
        simp only [List.length_append, List.length_singleton]
      rw [← hl]
      apply ih
      · intro b hb
        obtain ⟨hb1, hb2⟩ := List.mem_filter.mp hb
        obtain ⟨s, hs⟩ := hpre b hb1
        exact inGroup_key pre g b s hs hb2
      · exact hsorted.sublist (List.filter_sublist _)
      · intro a ha
        exact henc a (List.mem_filter.mp ha).1
      · intro a ha
        have := hlen a (List.mem_filter.mp ha).1
        rw [hl]
        omega
      · omega
    have hval : ∀ b ∈ run, ∀ out, ∃ r,
        appendJsonValueWith (resolveGroupContent f1) out b.Value = .ok r := by
      intro b hb out2
      exact henc b hb f1 (by omega) out2
    obtain ⟨st, r, h1, h2⟩ :=
      safe_run (resolveGroupContent f1) pre run hpre hsorted hflush hval out hv
    refine ⟨r, ?_⟩
    rw [resolveGroupContent, h1]
    exact h2

/-- Safety of the loop on a sorted run: on a run that is sorted by `isEarlierKey` and
whose keys all begin with the prefix, the loop of `resolveGroupContent` and its final flush fail nowhere by
themselves: they return whenever the nested call returns on the attributes
whose stripped key starts with a group name and a separator, all of them at
once, and the values are encoded; these attributes again form a sorted run at
the longer prefix, and so `resolveGroupContent` returns for every recursion
bound above the key lengths when the values are encoded. -/
theorem resolver_safe_on_sorted (f0 : Nat) (pre : List Nat) (run : List Attr)
    (hpre : ∀ a ∈ run, ∃ s, a.Key = pre ++ s)
    (hsorted : run.Pairwise (fun a b => isEarlierAttr a b ≤ 0)) :
    (∀ content : ContentFn,
      (∀ out hv g, g ≠ [] → hasSep g = false → run.filter (inGroup pre.length g) ≠ [] →
        ∃ r, content out hv (pre.length + g.length + 1)
          (run.filter (inGroup pre.length g)) = .ok r) →
      (∀ a ∈ run, ∀ out, ∃ r, appendJsonValueWith content out a.Value = .ok r) →
      ∀ out hv, ∃ st r,
        resolveLoop content pre.length run run.length 0
            { output := out, hasValue := hv, currentGroup := [], currentGroupFields := [] } =
          .ok st ∧
        resolveFinish content pre.length st = .ok r) ∧
    (∀ g, (∀ a ∈ run.filter (inGroup pre.length g),
        ∃ s, a.Key = (pre ++ g ++ [groupSeparator]) ++ s) ∧
      (run.filter (inGroup pre.length g)).Pairwise (fun a b => isEarlierAttr a b ≤ 0)) ∧
    ((∀ a ∈ run, ∀ f, f0 ≤ f → ∀ out, ∃ r, appendJsonValue f out a.Value = .ok r) →
      ∀ f out hv, f0 + keyBound run + 1 ≤ f →
        ∃ r, resolveGroupContent f out hv pre.length run = .ok r) := by
  have hs2 : run.Pairwise (fun a b => keyCmp a.Key b.Key ≤ 0) := by
    refine hsorted.imp ?_
    intro a b h
    unfold isEarlierAttr at h
    rw [isEarlierKey_eq_keyCmp] at h
    exact h
  refine ⟨?_, ?_, ?_⟩
  · intro content hflush hval out hv
    exact safe_run content pre run hpre hs2 hflush hval out hv
  · intro g
    constructor
    · intro a ha
      obtain ⟨h1, h2⟩ := List.mem_filter.mp ha
      obtain ⟨s, hs⟩ := hpre a h1
      exact inGroup_key pre g a s hs h2
    · exact hsorted.sublist (List.filter_sublist _)
  · intro henc f out hv hf
    apply resolveGroupContent_safe f0 (keyBound run) f out hv pre run hpre hs2 henc
    · intro a ha
      have := lt_keyBound run a ha
      omega
    · exact hf

/-- The run `a.c`, `a.b`, `a` of integers at the top level is resolved. -/
theorem resolver_safe_on_sorted_witness :
    ∃ r, resolveGroupContent 11 [] false 0
      [Attr.mk (ascii "a.c") (.int64 1), Attr.mk (ascii "a.b") (.int64 2),
        Attr.mk (ascii "a") (.int64 3)] = .ok r :=
  (resolver_safe_on_sorted 0 []
    [Attr.mk (ascii "a.c") (.int64 1), Attr.mk (ascii "a.b") (.int64 2),
      Attr.mk (ascii "a") (.int64 3)]
    (fun a _ => ⟨a.Key, rfl⟩) (by decide)).2.2
    (fun a ha f _ out => ⟨_, appendJsonValue_scalar a.Value
      ((by decide : ∀ b ∈ [Attr.mk (ascii "a.c") (.int64 1), Attr.mk (ascii "a.b") (.int64 2),
        Attr.mk (ascii "a") (.int64 3)], isScalar b.Value = true) a ha) f out⟩)
    11 [] false (by decide)

/-- C25 (evaluation at the failing input): the run of the single attribute `g` whose
value is the group with the members `a.b`, `c`, `a.d` is sorted and has the
empty prefix, but `resolveGroupContent` at prefix length 0 fails on it with a
slice out of range: the value is resolved by a nested call at prefix length 0
on the members as they are, which passes `c` and `a.d` as the run of group
`a`, and the call for that run cuts the key `c` at index 2.  With the members
in the order `a.b`, `a.d`, `c` the run is resolved. -/
theorem resolveGroupContent_sorted_run_panics :
    [Attr.mk (ascii "g") (.group [Attr.mk (ascii "a.b") (.int64 1),
        Attr.mk (ascii "c") (.int64 2), Attr.mk (ascii "a.d") (.int64 3)])].Pairwise
      (fun a b => isEarlierAttr a b ≤ 0) ∧
    (∀ a ∈ [Attr.mk (ascii "g") (.group [Attr.mk (ascii "a.b") (.int64 1),
        Attr.mk (ascii "c") (.int64 2), Attr.mk (ascii "a.d") (.int64 3)])],
      0 ≤ a.Key.length ∧ a.Key.take 0 = []) ∧
    (∀ f out hv, resolveGroupContent (f + 3) out hv 0
        [Attr.mk (ascii "g") (.group [Attr.mk (ascii "a.b") (.int64 1),
          Attr.mk (ascii "c") (.int64 2), Attr.mk (ascii "a.d") (.int64 3)])] =
      .error .panic) ∧
    (∀ f out hv, resolveGroupContent (f + 3) out hv 2
        [Attr.mk (ascii "c") (.int64 2), Attr.mk (ascii "a.d") (.int64 3)] = .error .panic) ∧
    (∀ f, resolveGroupContent (f + 3) [] false 0
        [Attr.mk (ascii "g") (.group [Attr.mk (ascii "a.b") (.int64 1),
          Attr.mk (ascii "a.d") (.int64 3), Attr.mk (ascii "c") (.int64 2)])] =
      .ok (ascii "\"g\":\x7b\"c\":2,\"a\":\x7b\"b\":1,\"d\":3\x7d\x7d")) := by
  refine ⟨by simp, by simp, fun _ _ _ => rfl, fun _ _ _ => rfl, fun _ => rfl⟩

/-! ## Decoding what the encoder writes -/

theorem hexVal_some_plain (x : Nat) (h : (hexVal x).isSome = true) : x ≠ 34 ∧ x ≠ 92 := by
  unfold hexVal at h
  constructor
  · rintro rfl
    simp at h
  · rintro rfl
    simp at h

theorem hex4_some_plain (a b c d : Nat) (h : (hex4 a b c d).isSome = true) :
    (a ≠ 34 ∧ a ≠ 92) ∧ (b ≠ 34 ∧ b ≠ 92) ∧ (c ≠ 34 ∧ c ≠ 92) ∧ (d ≠ 34 ∧ d ≠ 92) := by
  unfold hex4 at h
  cases ha : hexVal a with
  | none => simp [ha] at h
  | some va =>
    cases hb : hexVal b with
    | none => simp [ha, hb] at h
    | some vb =>
      cases hc : hexVal c with
      | none => simp [ha, hb, hc] at h
      | some vc =>
        cases hd : hexVal d with
        | none => simp [ha, hb, hc, hd] at h
        | some vd =>
          exact ⟨hexVal_some_plain a (by simp [ha]), hexVal_some_plain b (by simp [hb]),
            hexVal_some_plain c (by simp [hc]), hexVal_some_plain d (by simp [hd])⟩

theorem splitString_plain (c : Nat) (s : List Nat) (h1 : c ≠ 34) (h2 : c ≠ 92) :
    splitString (c :: s) = (splitString s).map (fun p => (c :: p.1, p.2)) := by
  conv_lhs => rw [splitString.eq_def]
  simp only [if_neg h1, if_neg h2]

theorem splitString_escape (e : Nat) (s : List Nat) :
    splitString (92 :: e :: s) = (splitString s).map (fun p => (92 :: e :: p.1, p.2)) := by
  conv_lhs => rw [splitString.eq_def]
  simp

theorem splitString_content :
    ∀ (N : Nat) (body : List Nat), contentOK N body = true →
      ∀ rest, splitString (body ++ 34 :: rest) = some (body, rest) := by
  intro N
  induction N using Nat.strong_induction_on with
  | _ N ih =>
    intro body h rest
    cases body with
    | nil =>
      rw [List.nil_append, splitString.eq_def]
      simp
    | cons c r =>
      cases N with
      | zero => simp [contentOK] at h
      | succ n =>
        rw [contentOK] at h
        cases hstep : contentStep (c :: r) with
        | none => rw [hstep] at h; cases h
        | some rest2 =>
          rw [hstep] at h
          dsimp only at h
          have hrec := ih n (Nat.lt_succ_self n) rest2 h rest
          unfold contentStep at hstep
          by_cases hc : c = 92
          · subst hc
            rw [if_pos rfl] at hstep
            cases r with
            | nil => cases hstep
            | cons e r2 =>
              dsimp only at hstep
              by_cases he : e = 117
              · subst he
                rw [if_pos rfl] at hstep
                rcases r2 with _ | ⟨a, _ | ⟨b, _ | ⟨c2, _ | ⟨d, r3⟩⟩⟩⟩
                · cases hstep
                · cases hstep
                · cases hstep
                · cases hstep
                · dsimp only at hstep
                  by_cases hx : (hex4 a b c2 d).isSome = true
                  · rw [if_pos hx] at hstep
                    simp only [Option.some.injEq] at hstep
                    subst hstep
                    obtain ⟨⟨a1, a2⟩, ⟨b1, b2⟩, ⟨c1, c3⟩, ⟨d1, d2⟩⟩ := hex4_some_plain a b c2 d hx
                    simp only [List.cons_append]
                    rw [splitString_escape, splitString_plain a _ a1 a2,
                      splitString_plain b _ b1 b2, splitString_plain c2 _ c1 c3,
                      splitString_plain d _ d1 d2, hrec]
                    rfl
                  · rw [if_neg hx] at hstep
                    cases hstep
              · rw [if_neg he] at hstep
                split at hstep
                · simp only [Option.some.injEq] at hstep
                  subst hstep
                  simp only [List.cons_append]
                  rw [splitString_escape, hrec]
                  rfl
                · cases hstep
          · rw [if_neg hc] at hstep
            split at hstep
            · cases hstep
            · rename_i hq
              simp only [Option.some.injEq] at hstep
              subst hstep
              simp only [List.cons_append]
              rw [splitString_plain c _ (by omega) hc, hrec]
              rfl

theorem splitString_escaped (name rest : List Nat) :
    splitString (AppendStringContent [] name ++ 34 :: rest) =
      some (AppendStringContent [] name, rest) := by
  have h : AppendStringContent [] name = escapeFrom name.length name := by
    rw [AppendStringContent_eq, List.nil_append]
  rw [h]
  exact splitString_content _ _ (escaped_content _ _ _ (Nat.le_refl _)) rest

theorem decodeName_keyText (name rest : List Nat) :
    decodeName (keyText name ++ rest) = some (replaceInvalid name, rest) := by
  unfold keyText
  simp only [List.singleton_append, List.cons_append, List.append_assoc, List.nil_append]
  rw [decodeName, if_pos rfl, splitString_escaped]
  dsimp only
  rw [if_pos rfl, jsonUnquote_escaped]
  rfl

theorem encode_true_cons (name : List Nat) (v : JTree) (rest : JMembers) :
    JMembers.encode true (.cons name v rest) = 44 :: JMembers.encode false (.cons name v rest) := by
  simp [JMembers.encode]

theorem keyText_eq_cons (name : List Nat) :
    keyText name = 34 :: (AppendStringContent [] name ++ [34, 58]) := by
  simp [keyText]

theorem JMembers.length_le_encode (hv : Bool) :
    ∀ ms : JMembers, ms.length ≤ (JMembers.encode hv ms).length
  | .nil => by simp [JMembers.length]
  | .cons name v rest => by
    have := JMembers.length_le_encode true rest
    simp only [JMembers.length, JMembers.encode, List.length_append, keyText_eq_cons,
      List.length_cons]
    omega

theorem decodeMembersWith_cons (value : List Nat → Option (JTree × List Nat)) (n : Nat)
    (name : List Nat) (input : List Nat) (v : JTree) (c : Nat) (rest2 : List Nat)
    (hv : value input = some (v, c :: rest2)) :
    decodeMembersWith value (n + 1) (keyText name ++ input) =
      if c = 44 then
        (decodeMembersWith value n rest2).map (fun p => (.cons (replaceInvalid name) v p.1, p.2))
      else if c = 125 then some (.cons (replaceInvalid name) v .nil, rest2)
      else none := by
  rw [decodeMembersWith, decodeName_keyText]
  simp only [hv]

theorem decodeValue_object (f d : Nat) (rest2 : List Nat) (hd : d ≠ 125) :
    decodeValue (f + 1) (123 :: d :: rest2) =
      (decodeMembersWith (decodeValue f) (d :: rest2).length (d :: rest2)).map
        (fun p => (.obj p.1, p.2)) := by
  simp [decodeValue, hd]

mutual
theorem decode_encode_tree : ∀ (t : JTree), (∀ x ∈ t.leaves, Decodable x) →
    ∀ fuel rest, t.encode.length ≤ fuel → (∀ c ∈ rest.head?, c = 44 ∨ c = 125) →
      decodeValue fuel (t.encode ++ rest) = some (t.decoded, rest)
  | .leaf text, hl => by
    intro fuel rest hf hr
    simp only [JTree.encode, JTree.decoded]
    exact hl text (by simp [JTree.leaves]) fuel rest (by simpa [JTree.encode] using hf) hr
  | .obj .nil, _ => by
    intro fuel rest hf hr
    obtain ⟨f, rfl⟩ : ∃ f, fuel = f + 1 := ⟨fuel - 1, by
      simp [JTree.encode, JMembers.encode] at hf; omega⟩
    simp [JTree.encode, JMembers.encode, JTree.decoded, JMembers.decoded, decodeValue]
  | .obj (.cons name v ms), hl => by
    intro fuel rest hf hr
    obtain ⟨f, rfl⟩ : ∃ f, fuel = f + 1 := ⟨fuel - 1, by
      simp [JTree.encode] at hf; omega⟩
    have hm := decode_encode_members (.cons name v ms) (by simp)
      (by simpa [JTree.leaves] using hl) f
      ((JMembers.encode false (.cons name v ms) ++ 125 :: rest).length) rest
      (by simp [JTree.encode] at hf; omega)
      (by
        have := JMembers.length_le_encode false (.cons name v ms)
        simp only [List.length_append, List.length_cons]
        omega)
    have hshape : JMembers.encode false (.cons name v ms) ++ 125 :: rest =
        34 :: (AppendStringContent [] name ++ [34, 58] ++ JTree.encode v ++
          JMembers.encode true ms ++ 125 :: rest) := by
      simp [JMembers.encode, keyText_eq_cons]
    have he : JTree.encode (.obj (.cons name v ms)) ++ rest =
        123 :: (JMembers.encode false (.cons name v ms) ++ 125 :: rest) := by
      simp [JTree.encode]
    rw [he]
    rw [hshape] at hm ⊢
    rw [decodeValue_object _ _ _ (by decide), hm]
    rfl
theorem decode_encode_members : ∀ (M : JMembers), M ≠ .nil →
    (∀ x ∈ JMembers.leaves M, Decodable x) →
    ∀ fuel n tail, (JMembers.encode false M).length ≤ fuel → M.length ≤ n →
      decodeMembersWith (decodeValue fuel) n (JMembers.encode false M ++ 125 :: tail) =
        some (JMembers.decoded M, tail)
  | .nil, hne, _ => absurd rfl hne
  | .cons name v .nil, _, hl => by
    intro fuel n tail hf hn
    obtain ⟨m, rfl⟩ : ∃ m, n = m + 1 := ⟨n - 1, by simp [JMembers.length] at hn; omega⟩
    have hv := decode_encode_tree v (fun x hx => hl x (by simp [JMembers.leaves, hx])) fuel
      (125 :: tail) (by simp [JMembers.encode] at hf; omega) (by simp)
    have he : JMembers.encode false (.cons name v .nil) ++ 125 :: tail =
        keyText name ++ (JTree.encode v ++ 125 :: tail) := by
      simp [JMembers.encode]
    rw [he, decodeMembersWith_cons _ _ _ _ _ _ _ hv]
    simp [JMembers.decoded]
  | .cons name v (.cons name2 v2 ms), _, hl => by
    intro fuel n tail hf hn
    obtain ⟨m, rfl⟩ : ∃ m, n = m + 1 := ⟨n - 1, by simp [JMembers.length] at hn; omega⟩
    have hv := decode_encode_tree v (fun x hx => hl x (by simp [JMembers.leaves, hx])) fuel
      (44 :: (JMembers.encode false (.cons name2 v2 ms) ++ 125 :: tail))
      (by simp [JMembers.encode] at hf; omega) (by simp)
    have hrec := decode_encode_members (.cons name2 v2 ms) (by simp)
      (fun x hx => hl x (by
        simp only [JMembers.leaves, List.mem_append] at hx ⊢
        exact Or.inr hx)) fuel m tail
      (by
        rw [JMembers.encode, encode_true_cons] at hf
        simp only [List.length_append, List.length_cons] at hf
        omega)
      (by simp only [JMembers.length] at hn ⊢; omega)
    have he : JMembers.encode false (.cons name v (.cons name2 v2 ms)) ++ 125 :: tail =
        keyText name ++ (JTree.encode v ++
          44 :: (JMembers.encode false (.cons name2 v2 ms) ++ 125 :: tail)) := by
      rw [JMembers.encode, encode_true_cons]
      simp
    rw [he, decodeMembersWith_cons _ _ _ _ _ _ _ hv, if_pos rfl, hrec]
    simp [JMembers.decoded]
end

/-! ## Valid UTF-8 and the separator -/

theorem validFrom_cons_ascii (n b : Nat) (rest : List Nat) (hb : b < 128) :
    validFrom (n + 1) (b :: rest) = validFrom n rest := by
  rw [validFrom, decode_ascii b rest hb]
  dsimp only
  rw [if_neg (by unfold runeError; omega)]
  rfl

theorem validFrom_cons_error (n b : Nat) (rest : List Nat)
    (h : decodeRuneInString (b :: rest) = (runeError, 1)) :
    validFrom (n + 1) (b :: rest) = false := by
  rw [validFrom, h]
  rfl

theorem validFrom_cons_size (n b : Nat) (rest : List Nat) (c size : Nat)
    (h : decodeRuneInString (b :: rest) = (c, size)) (hs : size ≠ 1) :
    validFrom (n + 1) (b :: rest) = validFrom n ((b :: rest).drop size) := by
  rw [validFrom, h]
  dsimp only
  rw [if_neg (by omega)]

theorem validFrom_fuel : ∀ (n m : Nat) (s : List Nat), s.length ≤ n → s.length ≤ m →
    validFrom n s = validFrom m s := by
  intro n
  induction n using Nat.strong_induction_on with
  | _ n ih =>
    intro m s hn hm
    cases s with
    | nil => rw [validFrom_nil, validFrom_nil]
    | cons b rest =>
      obtain ⟨n, rfl⟩ : ∃ k, n = k + 1 := ⟨n - 1, by simp at hn; omega⟩
      obtain ⟨m, rfl⟩ : ∃ k, m = k + 1 := ⟨m - 1, by simp at hm; omega⟩
      simp only [List.length_cons] at hn hm
      by_cases hb : b < 128
      · rw [validFrom_cons_ascii _ _ _ hb, validFrom_cons_ascii _ _ _ hb]
        exact ih n (Nat.lt_succ_self n) m rest (by omega) (by omega)
      · rcases decode_multibyte b rest hb with h | ⟨s1, t, rfl, -, -, -, -, h⟩ |
          ⟨s1, s2, t, rfl, -, -, -, -, -, -, -, -, h⟩ |
          ⟨s1, s2, s3, t, rfl, -, -, -, -, -, -, -, -, -, -, h⟩
        · rw [validFrom_cons_error _ _ _ h, validFrom_cons_error _ _ _ h]
        · rw [validFrom_cons_size _ _ _ _ _ h (by decide),
            validFrom_cons_size _ _ _ _ _ h (by decide)]
          simp only [List.length_cons] at hn hm
          exact ih n (Nat.lt_succ_self n) m _ (by simp; omega) (by simp; omega)
        · rw [validFrom_cons_size _ _ _ _ _ h (by decide),
            validFrom_cons_size _ _ _ _ _ h (by decide)]
          simp only [List.length_cons] at hn hm
          exact ih n (Nat.lt_succ_self n) m _ (by simp; omega) (by simp; omega)
        · rw [validFrom_cons_size _ _ _ _ _ h (by decide),
            validFrom_cons_size _ _ _ _ _ h (by decide)]
          simp only [List.length_cons] at hn hm
          exact ih n (Nat.lt_succ_self n) m _ (by simp; omega) (by simp; omega)

theorem validUTF8_of_validFrom (n : Nat) (s : List Nat) (hn : s.length ≤ n)
    (h : validFrom n s = true) : validUTF8 s = true := by
  unfold validUTF8
  rw [validFrom_fuel s.length n s (Nat.le_refl _) hn]
  exact h

theorem validUTF8_cons_ascii (b : Nat) (s : List Nat) (hb : b < 128)
    (h : validUTF8 s = true) : validUTF8 (b :: s) = true := by
  unfold validUTF8 at h ⊢
  rw [List.length_cons, validFrom_cons_ascii _ _ _ hb]
  exact h

theorem validUTF8_split_sep : ∀ (k : Nat) (a b : List Nat) (N : Nat), a.length ≤ k →
    (a ++ 46 :: b).length ≤ N → validFrom N (a ++ 46 :: b) = true →
    validUTF8 a = true ∧ validUTF8 b = true := by
  intro k
  induction k using Nat.strong_induction_on with
  | _ k ih =>
    intro a b N hk hN h
    obtain ⟨N, rfl⟩ : ∃ j, N = j + 1 := ⟨N - 1, by simp at hN; omega⟩
    cases a with
    | nil =>
      rw [List.nil_append, validFrom_cons_ascii _ _ _ (by decide)] at h
      exact ⟨rfl, validUTF8_of_validFrom N b (by simp at hN; omega) h⟩
    | cons x a1 =>
      simp only [List.length_cons] at hk
      rw [List.cons_append] at h hN
      simp only [List.length_cons] at hN
      by_cases hx : x < 128
      · rw [validFrom_cons_ascii _ _ _ hx] at h
        obtain ⟨h1, h2⟩ := ih a1.length (by omega) a1 b N (Nat.le_refl _) (by omega) h
        exact ⟨validUTF8_cons_ascii x a1 hx h1, h2⟩
      · rcases decode_multibyte x (a1 ++ 46 :: b) hx with hd | ⟨s1, t, he, f1, f2, g1, g1', hd⟩ |
          ⟨s1, s2, t, he, f1, f2, g1, g1', g2, g2', e1, e2, hd⟩ |
          ⟨s1, s2, s3, t, he, f1, f2, g1, g1', g2, g2', g3, g3', e1, e2, hd⟩
        · rw [validFrom_cons_error _ _ _ hd] at h
          cases h
        · rw [validFrom_cons_size _ _ _ _ _ hd (by decide), he] at h
          rcases a1 with _ | ⟨y1, a2⟩
          · simp only [List.nil_append, List.cons.injEq] at he
            omega
          · simp only [List.cons_append, List.cons.injEq] at he
            obtain ⟨rfl, rfl⟩ := he
            simp only [List.drop_succ_cons, List.drop_zero] at h
            simp only [List.length_cons, List.cons_append] at hk hN
            obtain ⟨h1, h2⟩ := ih a2.length (by omega) a2 b N (Nat.le_refl _) (by omega) h
            refine ⟨?_, h2⟩
            unfold validUTF8 at h1 ⊢
            simp only [List.length_cons]
            rw [validFrom_cons_size _ _ _ _ _ (decode_two x y1 a2 f1 f2 g1 g1') (by decide)]
            simp only [List.drop_succ_cons, List.drop_zero]
            rw [validFrom_fuel _ a2.length a2 (by omega) (Nat.le_refl _)]
            exact h1
        · rw [validFrom_cons_size _ _ _ _ _ hd (by decide), he] at h
          rcases a1 with _ | ⟨y1, _ | ⟨y2, a2⟩⟩
          · simp only [List.nil_append, List.cons.injEq] at he
            omega
          · simp only [List.cons_append, List.nil_append, List.cons.injEq] at he
            omega
          · simp only [List.cons_append, List.cons.injEq] at he
            obtain ⟨rfl, rfl, rfl⟩ := he
            simp only [List.drop_succ_cons, List.drop_zero] at h
            simp only [List.length_cons, List.cons_append] at hk hN
            obtain ⟨h1, h2⟩ := ih a2.length (by omega) a2 b N (Nat.le_refl _) (by omega) h
            refine ⟨?_, h2⟩
            unfold validUTF8 at h1 ⊢
            simp only [List.length_cons]
            rw [validFrom_cons_size _ _ _ _ _
              (decode_three x y1 y2 a2 f1 f2 g1 g1' g2 g2' e1 e2) (by decide)]
            simp only [List.drop_succ_cons, List.drop_zero]
            rw [validFrom_fuel _ a2.length a2 (by omega) (Nat.le_refl _)]
            exact h1
        · rw [validFrom_cons_size _ _ _ _ _ hd (by decide), he] at h
          rcases a1 with _ | ⟨y1, _ | ⟨y2, _ | ⟨y3, a2⟩⟩⟩
          · simp only [List.nil_append, List.cons.injEq] at he
            omega
          · simp only [List.cons_append, List.nil_append, List.cons.injEq] at he
            omega
          · simp only [List.cons_append, List.nil_append, List.cons.injEq] at he
            omega
          · simp only [List.cons_append, List.cons.injEq] at he
            obtain ⟨rfl, rfl, rfl, rfl⟩ := he
            simp only [List.drop_succ_cons, List.drop_zero] at h
            simp only [List.length_cons, List.cons_append] at hk hN
            obtain ⟨h1, h2⟩ := ih a2.length (by omega) a2 b N (Nat.le_refl _) (by omega) h
            refine ⟨?_, h2⟩
            unfold validUTF8 at h1 ⊢
            simp only [List.length_cons]
            rw [validFrom_cons_size _ _ _ _ _
              (decode_four x y1 y2 y3 a2 f1 f2 g1 g1' g2 g2' g3 g3' e1 e2) (by decide)]
            simp only [List.drop_succ_cons, List.drop_zero]
            rw [validFrom_fuel _ a2.length a2 (by omega) (Nat.le_refl _)]
            exact h1

theorem validUTF8_append_sep (a b : List Nat)
    (h : validUTF8 (a ++ groupSeparator :: b) = true) :
    validUTF8 a = true ∧ validUTF8 b = true :=
  validUTF8_split_sep a.length a b _ (Nat.le_refl _) (Nat.le_refl _) h

theorem replaceInvalid_of_valid (s : List Nat) (h : validUTF8 s = true) :
    replaceInvalid s = s :=
  replaceInvalidFrom_valid s.length s (Nat.le_refl _) h

/-! ## The leaves and the names of the tree of a run -/

theorem mem_stripGroup (g : List Nat) (F : List Entry) (x : Entry) (hx : x ∈ stripGroup g F) :
    ∃ a ∈ F, x = (a.1.drop (g.length + 1), a.2) := by
  unfold stripGroup at hx
  rw [List.mem_map] at hx
  obtain ⟨a, ha, rfl⟩ := hx
  exact ⟨a, ha, rfl⟩

theorem scan_leaves (sub : List Entry → JMembers)
    (hsub : ∀ X, ∀ x ∈ (sub X).leaves, ∃ e ∈ X, e.2 = x) :
    ∀ (rest : List Entry) (g : List Nat) (F : List Entry),
      ∀ x ∈ (scan sub g F rest).leaves, ∃ e ∈ F ++ rest, e.2 = x := by
  have hflush : ∀ (g : List Nat) (F : List Entry), ∀ x ∈ (sub (stripGroup g F)).leaves,
      ∃ e ∈ F, e.2 = x := by
    intro g F x hx
    obtain ⟨e, he, hex⟩ := hsub _ x hx
    obtain ⟨a, ha, rfl⟩ := mem_stripGroup g F e he
    exact ⟨a, ha, hex⟩
  intro rest
  induction rest with
  | nil =>
    intro g F x hx
    by_cases hg : g = []
    · simp [scan, hg, JMembers.leaves] at hx
    · have hscan : scan sub g F [] = .cons g (.obj (sub (stripGroup g F))) .nil := by
        simp [scan, hg]
      rw [hscan] at hx
      simp only [JMembers.leaves, JTree.leaves, List.append_nil] at hx
      obtain ⟨e, he, hex⟩ := hflush g F x hx
      exact ⟨e, by simp [he], hex⟩
  | cons e rest ih =>
    intro g F x hx
    by_cases hs : hasSep e.1 = true
    · by_cases hg : g = [] ∨ g = headComp e.1
      · rw [scan_continue sub g F rest e hs hg] at hx
        obtain ⟨a, ha, hax⟩ := ih _ _ x hx
        exact ⟨a, by simpa [List.append_assoc] using ha, hax⟩
      · rw [scan_flush sub g F rest e hs hg] at hx
        simp only [JMembers.leaves, JTree.leaves, List.mem_append] at hx
        rcases hx with hx | hx
        · obtain ⟨a, ha, hax⟩ := hflush g F x hx
          exact ⟨a, by simp [ha], hax⟩
        · obtain ⟨a, ha, hax⟩ := ih _ _ x hx
          exact ⟨a, by simp at ha ⊢; tauto, hax⟩
    · have hs : hasSep e.1 = false := by simpa using hs
      by_cases hg : g = e.1
      · rw [scan_override sub g F rest e hs hg] at hx
        simp only [JMembers.leaves, JTree.leaves, List.mem_append, List.mem_singleton] at hx
        rcases hx with hx | hx
        · exact ⟨e, by simp, hx.symm⟩
        · obtain ⟨a, ha, hax⟩ := ih _ _ x hx
          exact ⟨a, by simp at ha ⊢; tauto, hax⟩
      · by_cases hnext : rest.head?.map Prod.fst = some e.1
        · rw [scan_skip sub g F rest e hs hg hnext] at hx
          obtain ⟨a, ha, hax⟩ := ih _ _ x hx
          exact ⟨a, by simp at ha ⊢; tauto, hax⟩
        · rw [scan_emit sub g F rest e hs hg hnext] at hx
          simp only [JMembers.leaves, JTree.leaves, List.mem_append, List.mem_singleton] at hx
          rcases hx with hx | hx
          · exact ⟨e, by simp, hx.symm⟩
          · obtain ⟨a, ha, hax⟩ := ih _ _ x hx
            exact ⟨a, by simp at ha ⊢; tauto, hax⟩

theorem tree_leaves : ∀ (n : Nat) (E : List Entry), ∀ x ∈ (tree n E).leaves, ∃ e ∈ E, e.2 = x := by
  intro n
  induction n with
  | zero => intro E x hx; simp [tree, JMembers.leaves] at hx
  | succ n ih =>
    intro E x hx
    rw [tree] at hx
    simpa using scan_leaves (tree n) ih E [] [] x hx

theorem valid_of_dotted (g u : List Nat) (s : List Nat) (h : s = g ++ groupSeparator :: u)
    (hv : validUTF8 s = true) : validUTF8 g = true ∧ validUTF8 u = true := by
  rw [h] at hv
  exact validUTF8_append_sep g u hv

theorem valid_stripGroup (g : List Nat) (F : List Entry)
    (hd : ∀ e ∈ F, ∃ u, e.1 = g ++ groupSeparator :: u)
    (hv : ∀ e ∈ F, validUTF8 e.1 = true) : ∀ e ∈ stripGroup g F, validUTF8 e.1 = true := by
  intro e he
  obtain ⟨a, ha, rfl⟩ := mem_stripGroup g F e he
  obtain ⟨u, hu⟩ := hd a ha
  simp only [hu, drop_dotted]
  exact (valid_of_dotted g u a.1 hu (hv a ha)).2

theorem valid_group (g : List Nat) (F : List Entry) (hne : F ≠ [])
    (hd : ∀ e ∈ F, ∃ u, e.1 = g ++ groupSeparator :: u)
    (hv : ∀ e ∈ F, validUTF8 e.1 = true) : validUTF8 g = true := by
  obtain ⟨l, fs, rfl⟩ := List.exists_cons_of_ne_nil hne
  obtain ⟨u, hu⟩ := hd l (by simp)
  exact (valid_of_dotted g u l.1 hu (hv l (by simp))).1

theorem scan_names (sub : List Entry → JMembers)
    (hsub : ∀ X, EntriesOK X → (∀ e ∈ X, validUTF8 e.1 = true) →
      ∀ x ∈ (sub X).names, validUTF8 x = true) :
    ∀ (rest : List Entry) (g : List Nat) (F : List Entry), ScanInv g F rest →
      (∀ e ∈ F ++ rest, validUTF8 e.1 = true) →
      ∀ x ∈ (scan sub g F rest).names, validUTF8 x = true := by
  have hflush : ∀ (g : List Nat) (F : List Entry), EntriesOK F → hasSep g = false →
      (∀ e ∈ F, ∃ u, e.1 = g ++ groupSeparator :: u) → (∀ e ∈ F, validUTF8 e.1 = true) →
      ∀ x ∈ (sub (stripGroup g F)).names, validUTF8 x = true := by
    intro g F hF hg hd hv
    exact hsub _ (hF.strip hg hd) (valid_stripGroup g F hd hv)
  intro rest
  induction rest with
  | nil =>
    intro g F inv hv x hx
    have hF : EntriesOK F := by simpa using inv.ok
    by_cases hg : g = []
    · simp [scan, hg, JMembers.names] at hx
    · have hne : F ≠ [] := fun e => hg (inv.emptyIff.mpr e)
      have hscan : scan sub g F [] = .cons g (.obj (sub (stripGroup g F))) .nil := by
        simp [scan, hg]
      rw [hscan] at hx
      have hvF : ∀ e ∈ F, validUTF8 e.1 = true := fun e he => hv e (by simp [he])
      simp only [JMembers.names, JTree.names, List.append_nil, List.mem_cons] at hx
      rcases hx with rfl | hx
      · exact valid_group _ F hne inv.dotted hvF
      · exact hflush g F hF inv.noSep inv.dotted hvF x hx
  | cons e rest ih =>
    intro g F inv hv x hx
    have hvalid : validKey e.1 := inv.ok.valid e (by simp)
    have hrestOK : EntriesOK (e :: rest) :=
      inv.ok.sublist (List.sublist_append_right F (e :: rest))
    have hFOK : EntriesOK F := inv.ok.sublist (List.sublist_append_left F (e :: rest))
    have hvF : ∀ a ∈ F, validUTF8 a.1 = true := fun a ha => hv a (by simp [ha])
    have hve : validUTF8 e.1 = true := hv e (by simp)
    have hvrest : ∀ a ∈ rest, validUTF8 a.1 = true := fun a ha => hv a (by simp [ha])
    by_cases hs : hasSep e.1 = true
    · have inv2 : ∀ F2 : List Entry, EntriesOK (F2 ++ rest) →
          (∀ a ∈ F2, ∃ u, a.1 = headComp e.1 ++ groupSeparator :: u) → F2 ≠ [] →
          ScanInv (headComp e.1) F2 rest := by
        intro F2 hok hd hne
        refine ⟨hok, ?_, hasSep_headComp e.1, hd⟩
        constructor
        · intro h; exact absurd h (headComp_ne_nil_of_valid e.1 hs hvalid)
        · intro h; exact absurd h hne
      by_cases hg : g = [] ∨ g = headComp e.1
      · rw [scan_continue sub g F rest e hs hg] at hx
        have hd : ∀ a ∈ F ++ [e], ∃ u, a.1 = headComp e.1 ++ groupSeparator :: u := by
          intro a ha
          rcases List.mem_append.mp ha with ha | ha
          · have hne : F ≠ [] := List.ne_nil_of_mem ha
            have hg2 : g = headComp e.1 := by
              rcases hg with hg | hg
              · exact absurd (inv.emptyIff.mp hg) hne
              · exact hg
            rw [← hg2]; exact inv.dotted a ha
          · rw [List.mem_singleton] at ha
            subst ha
            exact ⟨_, eq_headComp_append a.1 hs⟩
        exact ih _ _ (inv2 (F ++ [e]) (by simpa [List.append_assoc] using inv.ok) hd (by simp))
          (by intro a ha; exact hv a (by simpa [List.append_assoc] using ha)) x hx
      · rw [scan_flush sub g F rest e hs hg] at hx
        have hgne : g ≠ [] := fun h => hg (Or.inl h)
        have hne : F ≠ [] := fun h => hgne (inv.emptyIff.mpr h)
        simp only [JMembers.names, JTree.names, List.mem_cons, List.mem_append] at hx
        rcases hx with rfl | hx | hx
        · exact valid_group _ F hne inv.dotted hvF
        · exact hflush g F hFOK inv.noSep inv.dotted hvF x hx
        · refine ih _ _ (inv2 [e] hrestOK ?_ (by simp)) ?_ x hx
          · intro a ha
            rw [List.mem_singleton] at ha
            subst ha
            exact ⟨_, eq_headComp_append a.1 hs⟩
          · intro a ha
            exact hv a (by simp at ha ⊢; tauto)
    · have hs : hasSep e.1 = false := by simpa using hs
      have hrestOK2 : EntriesOK rest := hrestOK.sublist (List.sublist_cons_self e rest)
      by_cases hg : g = e.1
      · rw [scan_override sub g F rest e hs hg] at hx
        simp only [JMembers.names, JTree.names, List.mem_cons, List.nil_append] at hx
        rcases hx with rfl | hx
        · exact hve
        · exact ih [] [] ⟨hrestOK2, by simp, rfl, by simp⟩ (by simpa using hvrest) x hx
      · have inv2 : ScanInv g F rest :=
          ⟨inv.ok.sublist (List.Sublist.append_left (List.sublist_cons_self e rest) F),
            inv.emptyIff, inv.noSep, inv.dotted⟩
        have hv2 : ∀ a ∈ F ++ rest, validUTF8 a.1 = true := by
          intro a ha
          exact hv a (by simp at ha ⊢; tauto)
        by_cases hnext : rest.head?.map Prod.fst = some e.1
        · rw [scan_skip sub g F rest e hs hg hnext] at hx
          exact ih g F inv2 hv2 x hx
        · rw [scan_emit sub g F rest e hs hg hnext] at hx
          simp only [JMembers.names, JTree.names, List.mem_cons, List.nil_append] at hx
          rcases hx with rfl | hx
          · exact hve
          · exact ih g F inv2 hv2 x hx

theorem tree_names : ∀ (n : Nat) (E : List Entry), EntriesOK E →
    (∀ e ∈ E, validUTF8 e.1 = true) → ∀ x ∈ (tree n E).names, validUTF8 x = true := by
  intro n
  induction n with
  | zero => intro E _ _ x hx; simp [tree, JMembers.names] at hx
  | succ n ih =>
    intro E hE hv x hx
    rw [tree] at hx
    exact scan_names (tree n) ih E [] [] ⟨by simpa using hE, by simp, rfl, by simp⟩
      (by simpa using hv) x hx

mutual
theorem decoded_tree_eq_self : ∀ (t : JTree), (∀ x ∈ t.names, validUTF8 x = true) →
    (∀ x ∈ t.leaves, decodeText x = .leaf x) → t.decoded = t
  | .leaf text, _, hl => by
    simpa [JTree.decoded] using hl text (by simp [JTree.leaves])
  | .obj ms, hn, hl => by
    simp only [JTree.decoded]
    rw [decoded_members_eq_self ms (by simpa [JTree.names] using hn)
      (by simpa [JTree.leaves] using hl)]
theorem decoded_members_eq_self : ∀ (ms : JMembers), (∀ x ∈ ms.names, validUTF8 x = true) →
    (∀ x ∈ ms.leaves, decodeText x = .leaf x) → ms.decoded = ms
  | .nil, _, _ => rfl
  | .cons name v rest, hn, hl => by
    simp only [JMembers.decoded]
    rw [replaceInvalid_of_valid name (hn name (by simp [JMembers.names])),
      decoded_tree_eq_self v (fun x hx => hn x (by simp [JMembers.names, hx]))
        (fun x hx => hl x (by simp [JMembers.leaves, hx])),
      decoded_members_eq_self rest (fun x hx => hn x (by simp [JMembers.names, hx]))
        (fun x hx => hl x (by simp [JMembers.leaves, hx]))]
end

/-! ## Every member at a path -/

theorem valuesAt_decoded_cons (name : List Nat) (v : JTree) (ms : JMembers) (c : List Nat)
    (path : List (List Nat)) (hn : validUTF8 name = true) :
    JMembers.valuesAt (JMembers.decoded (.cons name v ms)) c path =
      (if name = c then JTree.valuesAt (JTree.decoded v) path else []) ++
        JMembers.valuesAt (JMembers.decoded ms) c path := by
  simp only [JMembers.decoded, JMembers.valuesAt, replaceInvalid_of_valid name hn]

theorem valuesAt_decoded_nil (c : List Nat) (path : List (List Nat)) :
    JMembers.valuesAt (JMembers.decoded .nil) c path = [] := rfl

theorem subEntries_eq (E : List Entry) (c : List Nat) (dt : List Entry)
    (h : E.filter (fun e => hasSep e.1 && headComp e.1 == c) = dt) :
    subEntries E c = stripGroup c dt := by
  rw [subEntries, h]

theorem stripGroup_eq_nil (c : List Nat) (dt : List Entry) : stripGroup c dt = [] ↔ dt = [] := by
  simp [stripGroup]

theorem memberValues_none (sub : List Entry → JMembers) (E : List Entry) (c : List Nat)
    (path : List (List Nat)) (h1 : E.filter (fun e => e.1 == c) = [])
    (h2 : E.filter (fun e => hasSep e.1 && headComp e.1 == c) = []) :
    memberValues sub E c path = [] := by
  simp [memberValues, h1, subEntries_eq E c [] h2, stripGroup]

theorem memberValues_group (sub : List Entry → JMembers) (E : List Entry) (c : List Nat)
    (path : List (List Nat)) (dt : List Entry) (h1 : E.filter (fun e => e.1 == c) = [])
    (h2 : E.filter (fun e => hasSep e.1 && headComp e.1 == c) = dt) (hne : dt ≠ []) :
    memberValues sub E c path =
      JTree.valuesAt (JTree.decoded (.obj (sub (stripGroup c dt)))) path := by
  simp only [memberValues, h1, subEntries_eq E c dt h2]
  rw [if_neg (by rw [stripGroup_eq_nil]; exact hne)]

theorem memberValues_flat (sub : List Entry → JMembers) (E : List Entry) (c : List Nat)
    (path : List (List Nat)) (f : Entry) (fs dt : List Entry)
    (h1 : E.filter (fun e => e.1 == c) = f :: fs)
    (h2 : E.filter (fun e => hasSep e.1 && headComp e.1 == c) = dt) :
    memberValues sub E c path =
      (if dt ≠ [] ∧ fs ≠ [] then JTree.valuesAt (decodeText f.2) path else []) ++
        JTree.valuesAt (decodeText ((fs.getLast?).getD f).2) path := by
  simp only [memberValues, h1, subEntries_eq E c dt h2, ne_eq, stripGroup_eq_nil]

theorem memberValues_congr (sub : List Entry → JMembers) (E E2 : List Entry) (c : List Nat)
    (path : List (List Nat))
    (h1 : E.filter (fun e => e.1 == c) = E2.filter (fun e => e.1 == c))
    (h2 : E.filter (fun e => hasSep e.1 && headComp e.1 == c) =
      E2.filter (fun e => hasSep e.1 && headComp e.1 == c)) :
    memberValues sub E c path = memberValues sub E2 c path := by
  simp only [memberValues, h1, subEntries, h2]

theorem filter_flat_nil_of_head (c : List Nat) (hc : hasSep c = false) (E : List Entry)
    (h : ∀ x ∈ E, headComp x.1 ≠ c) : E.filter (fun e => e.1 == c) = [] := by
  rw [List.filter_eq_nil_iff]
  intro x hx hxc
  simp only [beq_iff_eq] at hxc
  exact h x hx (by rw [hxc, headComp_of_noSep c hc])

theorem filter_dot_nil_of_head (c : List Nat) (E : List Entry)
    (h : ∀ x ∈ E, headComp x.1 ≠ c) :
    E.filter (fun e => hasSep e.1 && headComp e.1 == c) = [] := by
  rw [List.filter_eq_nil_iff]
  intro x hx hxc
  simp only [Bool.and_eq_true, beq_iff_eq] at hxc
  exact h x hx hxc.2

theorem filter_flat_block (g c : List Nat) (hc : hasSep c = false) (F : List Entry)
    (hd : ∀ e ∈ F, ∃ u, e.1 = g ++ groupSeparator :: u) :
    F.filter (fun e => e.1 == c) = [] := by
  rw [List.filter_eq_nil_iff]
  intro x hx hxc
  simp only [beq_iff_eq] at hxc
  obtain ⟨u, hu⟩ := hd x hx
  rw [← hxc, hu, hasSep_append_sep] at hc
  cases hc

theorem filter_dot_block_self (g : List Nat) (hg : hasSep g = false) (F : List Entry)
    (hd : ∀ e ∈ F, ∃ u, e.1 = g ++ groupSeparator :: u) :
    F.filter (fun e => hasSep e.1 && headComp e.1 == g) = F := by
  rw [List.filter_eq_self]
  intro e he
  obtain ⟨u, hu⟩ := hd e he
  have := dotted_headComp g u e hg hu
  simp [this.1, this.2.1]

theorem filter_dot_block_ne (g c : List Nat) (hg : hasSep g = false) (F : List Entry)
    (hd : ∀ e ∈ F, ∃ u, e.1 = g ++ groupSeparator :: u) (hgc : ¬ g = c) :
    F.filter (fun e => hasSep e.1 && headComp e.1 == c) = [] := by
  apply filter_dot_nil_of_head
  intro x hx
  obtain ⟨u, hu⟩ := hd x hx
  rw [(dotted_headComp g u x hg hu).1]
  exact hgc

theorem getLast?_getD_cons (e f : Entry) (fs : List Entry) :
    ((f :: fs).getLast?).getD e = (fs.getLast?).getD f := by
  rw [List.getLast?_cons]
  rfl

theorem scan_values (sub : List Entry → JMembers) (c : List Nat) (hc : c ≠ [])
    (hcs : hasSep c = false) (path : List (List Nat)) :
    ∀ (rest : List Entry) (g : List Nat) (F : List Entry), ScanInv g F rest →
      (∀ e ∈ F ++ rest, validUTF8 e.1 = true) →
      JMembers.valuesAt (JMembers.decoded (scan sub g F rest)) c path =
        memberValues sub (F ++ rest) c path := by
  intro rest
  induction rest with
  | nil =>
    intro g F inv hv
    by_cases hg : g = []
    · have hFnil := inv.emptyIff.mp hg
      subst hFnil
      simp [scan, hg, JMembers.decoded, JMembers.valuesAt, memberValues, subEntries, stripGroup]
    · have hne : F ≠ [] := fun e => hg (inv.emptyIff.mpr e)
      have hscan : scan sub g F [] = .cons g (.obj (sub (stripGroup g F))) .nil := by
        simp [scan, hg]
      have hvF : ∀ e ∈ F, validUTF8 e.1 = true := fun e he => hv e (by simp [he])
      rw [hscan, List.append_nil,
        valuesAt_decoded_cons _ _ _ _ _ (valid_group g F hne inv.dotted hvF),
        valuesAt_decoded_nil, List.append_nil]
      by_cases hgc : g = c
      · subst hgc
        rw [if_pos rfl, memberValues_group sub F g path F
          (filter_flat_block g g hcs F inv.dotted)
          (filter_dot_block_self g hcs F inv.dotted) hne]
      · rw [if_neg hgc, memberValues_none sub F c path
          (filter_flat_block g c hcs F inv.dotted)
          (filter_dot_block_ne g c inv.noSep F inv.dotted hgc)]
  | cons e rest ih =>
    intro g F inv hv
    have hsorted := inv.ok.sorted
    have hvalid : validKey e.1 := inv.ok.valid e (by simp)
    have hrestOK : EntriesOK (e :: rest) :=
      inv.ok.sublist (List.sublist_append_right F (e :: rest))
    have hFOK : EntriesOK F := inv.ok.sublist (List.sublist_append_left F (e :: rest))
    have hvF : ∀ a ∈ F, validUTF8 a.1 = true := fun a ha => hv a (by simp [ha])
    have hve : validUTF8 e.1 = true := hv e (by simp)
    have hvrest : ∀ a ∈ rest, validUTF8 a.1 = true := fun a ha => hv a (by simp [ha])
    have hFflat : F.filter (fun x => x.1 == c) = [] := filter_flat_block g c hcs F inv.dotted
    by_cases hs : hasSep e.1 = true
    · have inv2 : ∀ F2 : List Entry, EntriesOK (F2 ++ rest) →
          (∀ a ∈ F2, ∃ u, a.1 = headComp e.1 ++ groupSeparator :: u) → F2 ≠ [] →
          ScanInv (headComp e.1) F2 rest := by
        intro F2 hok hd hne
        refine ⟨hok, ?_, hasSep_headComp e.1, hd⟩
        constructor
        · intro h; exact absurd h (headComp_ne_nil_of_valid e.1 hs hvalid)
        · intro h; exact absurd h hne
      by_cases hg : g = [] ∨ g = headComp e.1
      · rw [scan_continue sub g F rest e hs hg]
        have hd : ∀ a ∈ F ++ [e], ∃ u, a.1 = headComp e.1 ++ groupSeparator :: u := by
          intro a ha
          rcases List.mem_append.mp ha with ha | ha
          · have hne : F ≠ [] := List.ne_nil_of_mem ha
            have hg2 : g = headComp e.1 := by
              rcases hg with hg | hg
              · exact absurd (inv.emptyIff.mp hg) hne
              · exact hg
            rw [← hg2]; exact inv.dotted a ha
          · rw [List.mem_singleton] at ha
            subst ha
            exact ⟨_, eq_headComp_append a.1 hs⟩
        have h := ih _ _ (inv2 (F ++ [e]) (by simpa [List.append_assoc] using inv.ok) hd
          (by simp)) (by intro a ha; exact hv a (by simpa [List.append_assoc] using ha))
        simpa [List.append_assoc] using h
      · rw [scan_flush sub g F rest e hs hg]
        have hgne : g ≠ [] := fun h => hg (Or.inl h)
        have hne : F ≠ [] := fun h => hgne (inv.emptyIff.mpr h)
        have hge : ¬ g = headComp e.1 := fun h => hg (Or.inr h)
        have hih := ih _ _ (inv2 [e] hrestOK (by
            intro a ha
            rw [List.mem_singleton] at ha
            subst ha
            exact ⟨_, eq_headComp_append a.1 hs⟩) (by simp))
          (by intro a ha; exact hv a (by simp at ha ⊢; tauto))
        have hnoG : ∀ x ∈ e :: rest, headComp x.1 ≠ g := by
          obtain ⟨l, fs, hl⟩ := List.exists_cons_of_ne_nil hne
          have hlmem : l ∈ F := by rw [hl]; simp
          obtain ⟨u, hu⟩ := inv.dotted l hlmem
          have hlg : headComp l.1 = g := (dotted_headComp g u l inv.noSep hu).1
          intro x hx
          rcases List.mem_cons.mp hx with rfl | hx
          · exact fun h => hge h.symm
          · have := block_end F rest e l hsorted hlmem (by rw [hlg]; exact fun h => hge h.symm)
              x hx
            rwa [hlg] at this
        rw [valuesAt_decoded_cons _ _ _ _ _ (valid_group g F hne inv.dotted hvF), hih]
        by_cases hgc : g = c
        · subst hgc
          rw [if_pos rfl, memberValues_none sub ([e] ++ rest) g path
            (filter_flat_nil_of_head g hcs _ (by simpa using hnoG))
            (filter_dot_nil_of_head g _ (by simpa using hnoG)), List.append_nil]
          rw [memberValues_group sub (F ++ e :: rest) g path F
            (by rw [List.filter_append, hFflat, filter_flat_nil_of_head g hcs _ hnoG]; rfl)
            (by rw [List.filter_append, filter_dot_block_self g hcs F inv.dotted,
              filter_dot_nil_of_head g _ hnoG, List.append_nil]) hne]
        · rw [if_neg hgc, List.nil_append]
          apply memberValues_congr
          · rw [List.singleton_append, List.filter_append, hFflat, List.nil_append]
          · rw [List.singleton_append, List.filter_append,
              filter_dot_block_ne g c inv.noSep F inv.dotted hgc, List.nil_append]
    · have hs : hasSep e.1 = false := by simpa using hs
      have hce : headComp e.1 = e.1 := headComp_of_noSep e.1 hs
      have hrestOK2 : EntriesOK rest := hrestOK.sublist (List.sublist_cons_self e rest)
      have hflat : ∀ x ∈ rest, headComp x.1 = e.1 → x.1 = e.1 := by
        intro x hx hxe
        have h1 := hrestOK.sorted
        rw [List.pairwise_cons] at h1
        exact flat_after e.1 x.1 (h1.1 x hx) hxe
      have hedot : (hasSep e.1 && headComp e.1 == c) = false := by simp [hs]
      by_cases hg : g = e.1
      · rw [scan_override sub g F rest e hs hg]
        have hih := ih [] [] ⟨hrestOK2, by simp, rfl, by simp⟩ (by simpa using hvrest)
        rw [List.nil_append] at hih
        rw [valuesAt_decoded_cons _ _ _ _ _ hve, hih]
        by_cases hk : e.1 = c
        · have hgc : g = c := by rw [hg, hk]
          have hne : F ≠ [] := fun h => hc (by rw [← hgc]; exact inv.emptyIff.mpr h)
          have hdotrest : rest.filter (fun x => hasSep x.1 && headComp x.1 == c) = [] := by
            rw [List.filter_eq_nil_iff]
            intro x hx hxc
            simp only [Bool.and_eq_true, beq_iff_eq] at hxc
            have := hflat x hx (by rw [hxc.2, hk])
            rw [this, hs] at hxc
            exact absurd hxc.1 (by simp)
          have hdot : (F ++ e :: rest).filter (fun x => hasSep x.1 && headComp x.1 == c) = F := by
            rw [List.filter_append, List.filter_cons, hedot, hdotrest]
            subst hgc
            rw [filter_dot_block_self g hcs F inv.dotted]
            simp
          rw [if_pos hk]
          simp only [JTree.decoded]
          cases hR : rest.filter (fun x => x.1 == c) with
          | nil =>
            rw [memberValues_none sub rest c path hR hdotrest, List.append_nil]
            rw [memberValues_flat sub (F ++ e :: rest) c path e [] F
              (by rw [List.filter_append, hFflat, List.filter_cons, hR]; simp [hk]) hdot]
            simp
          | cons f fs =>
            rw [memberValues_flat sub rest c path f fs [] hR hdotrest]
            rw [memberValues_flat sub (F ++ e :: rest) c path e (f :: fs) F
              (by rw [List.filter_append, hFflat, List.filter_cons, hR]; simp [hk]) hdot]
            rw [getLast?_getD_cons]
            simp [hne]
        · rw [if_neg hk, List.nil_append]
          have hgc : ¬ g = c := by rw [hg]; exact hk
          apply memberValues_congr
          · rw [List.filter_append, hFflat, List.filter_cons]
            simp [hk]
          · rw [List.filter_append, filter_dot_block_ne g c inv.noSep F inv.dotted hgc,
              List.filter_cons, hedot]
            simp
      · have inv2 : ScanInv g F rest :=
          ⟨inv.ok.sublist (List.Sublist.append_left (List.sublist_cons_self e rest) F),
            inv.emptyIff, inv.noSep, inv.dotted⟩
        have hv2 : ∀ a ∈ F ++ rest, validUTF8 a.1 = true := by
          intro a ha
          exact hv a (by simp at ha ⊢; tauto)
        have hih := ih g F inv2 hv2
        have hFdot : e.1 = c → F.filter (fun x => hasSep x.1 && headComp x.1 == c) = [] := by
          intro hk
          exact filter_dot_block_ne g c inv.noSep F inv.dotted (by rw [← hk]; exact hg)
        have hrestdot : e.1 = c →
            rest.filter (fun x => hasSep x.1 && headComp x.1 == c) = [] := by
          intro hk
          rw [List.filter_eq_nil_iff]
          intro x hx hxc
          simp only [Bool.and_eq_true, beq_iff_eq] at hxc
          have := hflat x hx (by rw [hxc.2, hk])
          rw [this, hs] at hxc
          exact absurd hxc.1 (by simp)
        by_cases hnext : rest.head?.map Prod.fst = some e.1
        · rw [scan_skip sub g F rest e hs hg hnext, hih]
          cases rest with
          | nil => simp at hnext
          | cons y r =>
            have hy : y.1 = e.1 := by simpa using hnext
            by_cases hk : e.1 = c
            · have hyc : y.1 = c := by rw [hy, hk]
              have d1 : (F ++ e :: y :: r).filter
                  (fun x => hasSep x.1 && headComp x.1 == c) = [] := by
                rw [List.filter_append, hFdot hk, List.filter_cons, hedot, hrestdot hk]
                simp
              have d2 : (F ++ y :: r).filter
                  (fun x => hasSep x.1 && headComp x.1 == c) = [] := by
                rw [List.filter_append, hFdot hk, hrestdot hk]
                simp
              rw [memberValues_flat sub (F ++ y :: r) c path y (r.filter (fun x => x.1 == c)) []
                (by rw [List.filter_append, hFflat, List.filter_cons]; simp [hyc]) d2,
                memberValues_flat sub (F ++ e :: y :: r) c path e
                  (y :: r.filter (fun x => x.1 == c)) []
                  (by rw [List.filter_append, hFflat, List.filter_cons, List.filter_cons]
                      simp [hyc, hk]) d1]
              rw [getLast?_getD_cons]
              simp
            · apply memberValues_congr
              · simp [List.filter_append, List.filter_cons, hk]
              · simp [List.filter_append, List.filter_cons, hedot]
        · rw [scan_emit sub g F rest e hs hg hnext,
            valuesAt_decoded_cons _ _ _ _ _ hve, hih]
          by_cases hk : e.1 = c
          · have hnone : ∀ x ∈ F ++ rest, headComp x.1 ≠ c := by
              intro x hx hxk
              rcases List.mem_append.mp hx with hx | hx
              · obtain ⟨u, hu⟩ := inv.dotted x hx
                rw [(dotted_headComp g u x inv.noSep hu).1] at hxk
                exact hg (by rw [hxk, hk])
              · exact hnext (adjacent_key e rest hrestOK.sorted x hx
                  (hflat x hx (by rw [hxk, hk])))
            rw [if_pos hk, memberValues_none sub (F ++ rest) c path
              (filter_flat_nil_of_head c hcs _ hnone) (filter_dot_nil_of_head c _ hnone),
              List.append_nil]
            have hrf : rest.filter (fun x => x.1 == c) = [] :=
              filter_flat_nil_of_head c hcs rest (fun x hx => hnone x (by simp [hx]))
            rw [memberValues_flat sub (F ++ e :: rest) c path e [] []
              (by rw [List.filter_append, hFflat, List.filter_cons, hrf]; simp [hk])
              (by rw [List.filter_append, hFdot hk, List.filter_cons, hedot, hrestdot hk]
                  simp)]
            simp [JTree.decoded]
          · rw [if_neg hk, List.nil_append]
            apply memberValues_congr
            · simp [List.filter_append, List.filter_cons, hk]
            · simp [List.filter_append, List.filter_cons, hedot]

theorem JTree.valuesAt_nil (t : JTree) : JTree.valuesAt t [] = [t] := by
  cases t <;> simp [JTree.valuesAt]

theorem valuesAt_decoded_obj (M : JMembers) (c : List Nat) (path : List (List Nat)) :
    JTree.valuesAt (JTree.decoded (.obj M)) (c :: path) =
      JMembers.valuesAt (JMembers.decoded M) c path := by
  simp [JTree.decoded, JTree.valuesAt]

theorem memberValues_sub (sub : List Entry → JMembers) (E : List Entry) (c : List Nat)
    (path : List (List Nat)) (h1 : E.filter (fun e => e.1 == c) = [])
    (hne : subEntries E c ≠ []) :
    memberValues sub E c path =
      JTree.valuesAt (JTree.decoded (.obj (sub (subEntries E c)))) path := by
  simp only [memberValues, h1]
  rw [if_neg hne]

theorem dotted_of_filter (E : List Entry) (c : List Nat) :
    ∀ e ∈ E.filter (fun e => hasSep e.1 && headComp e.1 == c),
      ∃ u, e.1 = c ++ groupSeparator :: u := by
  intro e he
  rw [List.mem_filter] at he
  simp only [Bool.and_eq_true, beq_iff_eq] at he
  have := eq_headComp_append e.1 he.2.1
  rw [he.2.2] at this
  exact ⟨_, this⟩

theorem exists_dotted_iff (E : List Entry) (k : List Nat) (hk : hasSep k = false) :
    E.filter (fun e => hasSep e.1 && headComp e.1 == k) ≠ [] ↔
      ∃ e ∈ E, ∃ u, e.1 = k ++ groupSeparator :: u := by
  constructor
  · intro h
    obtain ⟨e, es, he⟩ := List.exists_cons_of_ne_nil h
    have hmem : e ∈ E.filter (fun e => hasSep e.1 && headComp e.1 == k) := by
      rw [he]; simp
    exact ⟨e, (List.mem_filter.mp hmem).1, dotted_of_filter E k e hmem⟩
  · rintro ⟨e, he, u, hu⟩ h
    have hd := dotted_headComp k u e hk hu
    have hmem : e ∈ E.filter (fun e => hasSep e.1 && headComp e.1 == k) := by
      rw [List.mem_filter]
      exact ⟨he, by simp [hd.1, hd.2.1]⟩
    rw [h] at hmem
    simp at hmem

theorem exists_dotted_sub (E : List Entry) (c u : List Nat) (hc : hasSep c = false) :
    (∃ x ∈ subEntries E c, ∃ w, x.1 = u ++ groupSeparator :: w) ↔
      ∃ e ∈ E, ∃ w, e.1 = (c ++ groupSeparator :: u) ++ groupSeparator :: w := by
  constructor
  · rintro ⟨x, hx, w, hw⟩
    obtain ⟨e, he, h1, h2, rfl⟩ := (mem_subEntries E c x).mp hx
    refine ⟨e, he, w, ?_⟩
    have e1 := eq_headComp_append e.1 h1
    rw [h2] at e1
    simp only at hw
    rw [e1, hw]
    simp
  · rintro ⟨e, he, w, hw⟩
    have hw2 : e.1 = c ++ groupSeparator :: (u ++ groupSeparator :: w) := by
      rw [hw]; simp
    have hd := dotted_headComp c _ e hc hw2
    refine ⟨(e.1.drop (c.length + 1), e.2),
      (mem_subEntries E c _).mpr ⟨e, he, hd.2.1, hd.1, rfl⟩, w, ?_⟩
    simp only [hw2, drop_dotted]

theorem tree_valuesAt : ∀ (n : Nat) (E : List Entry) (k : List Nat) (f : Entry)
    (fs : List Entry) (slip : Prop) [Decidable slip], EntriesOK E →
    (∀ e ∈ E, e.1.length < n) → (∀ e ∈ E, validUTF8 e.1 = true) → [] ∉ components k →
    (∀ e ∈ E, ∀ u : List Nat, k ≠ e.1 ++ groupSeparator :: u) →
    E.filter (fun e => e.1 == k) = f :: fs →
    (slip ↔ ((∃ e ∈ E, ∃ u, e.1 = k ++ groupSeparator :: u) ∧ fs ≠ [])) →
    JTree.valuesAt (JTree.decoded (.obj (tree n E))) (components k) =
      (if slip then [decodeText f.2] else []) ++ [decodeText ((fs.getLast?).getD f).2] := by
  intro n
  induction n with
  | zero =>
    intro E k f fs slip _ _ hlen _ _ _ hfl _
    have hmem : f ∈ E.filter (fun e => e.1 == k) := by rw [hfl]; simp
    have := hlen f (List.mem_filter.mp hmem).1
    omega
  | succ n ih =>
    intro E k f fs slip _ hE hlen hv hk hnot hfl hslip
    have hinv : ScanInv [] [] E := ⟨by simpa using hE, by simp, rfl, by simp⟩
    by_cases hs : hasSep k = true
    · -- the key lies below the group of its first component
      have ek := eq_headComp_append k hs
      have hcs : hasSep (headComp k) = false := hasSep_headComp k
      have hcomp : components k =
          headComp k :: components (k.drop ((headComp k).length + 1)) := by
        conv_lhs => rw [ek]
        exact components_append_sep_cons _ _ hcs
      have hc : headComp k ≠ [] := by
        intro h
        apply hk
        rw [hcomp, h]
        simp
      have hk2 : [] ∉ components (k.drop ((headComp k).length + 1)) := by
        intro h
        apply hk
        rw [hcomp]
        exact List.mem_cons_of_mem _ h
      have hnot2 : ∀ e ∈ E, ∀ w : List Nat,
          headComp k ++ groupSeparator :: k.drop ((headComp k).length + 1) ≠
            e.1 ++ groupSeparator :: w := by
        rw [← ek]; exact hnot
      obtain ⟨hany, hnotsub⟩ := (no_killer_sub E _ _ hcs).mp hnot2
      have hflc : E.filter (fun e => e.1 == headComp k) = [] := by
        rw [List.filter_eq_nil_iff]
        intro x hx
        rw [List.any_eq_false] at hany
        exact hany x hx
      have hfsub : (subEntries E (headComp k)).filter
          (fun e => e.1 == k.drop ((headComp k).length + 1)) =
          stripGroup (headComp k) (f :: fs) := by
        rw [filter_sub_key E _ _ hcs, ← ek, hfl]
      have hsubne : subEntries E (headComp k) ≠ [] := by
        intro h
        rw [h] at hfsub
        simp [stripGroup] at hfsub
      have hd := dotted_of_filter E (headComp k)
      have hsubOK : EntriesOK (subEntries E (headComp k)) :=
        (hE.sublist (List.filter_sublist _)).strip hcs hd
      have hsublen : ∀ e ∈ subEntries E (headComp k), e.1.length < n :=
        stripGroup_length (headComp k) _ n hd
          (fun e he => hlen e (List.mem_filter.mp he).1)
      have hsubv : ∀ e ∈ subEntries E (headComp k), validUTF8 e.1 = true :=
        valid_stripGroup (headComp k) _ hd (fun e he => hv e (List.mem_filter.mp he).1)
      rw [hcomp, valuesAt_decoded_obj, tree,
        scan_values (tree n) (headComp k) hc hcs _ E [] [] hinv (by simpa using hv),
        List.nil_append, memberValues_sub (tree n) E _ _ hflc hsubne]
      have hrec := ih (subEntries E (headComp k)) (k.drop ((headComp k).length + 1))
        (f.1.drop ((headComp k).length + 1), f.2) (stripGroup (headComp k) fs) slip
        hsubOK hsublen hsubv hk2 hnotsub (by rw [hfsub]; rfl)
        (by
          rw [hslip, exists_dotted_sub E _ _ hcs, ← ek]
          simp [stripGroup])
      rw [hrec]
      congr 2
      unfold stripGroup
      rw [List.getLast?_map]
      cases fs.getLast? <;> rfl
    · -- the key is a name of this level
      have hs : hasSep k = false := by simpa using hs
      have hcomp : components k = [k] := components_of_noSep k hs
      have hc : k ≠ [] := by
        intro h
        apply hk
        rw [hcomp, h]
        simp
      rw [hcomp, valuesAt_decoded_obj, tree,
        scan_values (tree n) k hc hs _ E [] [] hinv (by simpa using hv),
        List.nil_append, memberValues_flat (tree n) E k [] f fs _ hfl rfl]
      simp only [JTree.valuesAt_nil]
      have hiff : (E.filter (fun e => hasSep e.1 && headComp e.1 == k) ≠ [] ∧ fs ≠ []) ↔
          slip := by
        rw [hslip, exists_dotted_iff E k hs]
      by_cases hsl : slip
      · rw [if_pos hsl, if_pos (hiff.mpr hsl)]
      · rw [if_neg hsl, if_neg (fun h => hsl (hiff.mp h))]

/-! ## The text of a scalar is decoded as it is -/

theorem decodable_of (t : List Nat) (j : JTree)
    (h : ∀ fuel rest, t.length ≤ fuel → (∀ c ∈ rest.head?, c = 44 ∨ c = 125) →
      decodeValue fuel (t ++ rest) = some (j, rest)) :
    Decodable t ∧ decodeText t = j := by
  have h0 := h t.length [] (Nat.le_refl _) (by simp)
  rw [List.append_nil] at h0
  have hj : decodeText t = j := by
    unfold decodeText
    rw [h0]
  refine ⟨?_, hj⟩
  intro fuel rest hf hr
  rw [hj]
  exact h fuel rest hf hr

theorem isTokenByte_ne (c : Nat) (h : isTokenByte c = true) : c ≠ 123 ∧ c ≠ 34 := by
  constructor
  · rintro rfl
    exact absurd h (by decide)
  · rintro rfl
    exact absurd h (by decide)

theorem takeWhile_token (t rest : List Nat) (ht : ∀ c ∈ t, isTokenByte c = true)
    (hr : ∀ c ∈ rest.head?, c = 44 ∨ c = 125) :
    (t ++ rest).takeWhile isTokenByte = t ∧ (t ++ rest).dropWhile isTokenByte = rest := by
  induction t with
  | nil =>
    cases rest with
    | nil => simp
    | cons c r =>
      have hc : isTokenByte c = false := by
        rcases hr c (by simp) with rfl | rfl <;> decide
      simp [List.takeWhile_cons, List.dropWhile_cons, hc]
  | cons c t ih =>
    have hc := ht c (by simp)
    obtain ⟨h1, h2⟩ := ih (fun d hd => ht d (by simp [hd]))
    simp [List.takeWhile_cons, List.dropWhile_cons, hc, h1, h2]

theorem decodeValue_token (f c : Nat) (rest : List Nat) (h1 : c ≠ 123) (h2 : c ≠ 34)
    (h : isTokenByte c = true) :
    decodeValue (f + 1) (c :: rest) =
      some (.leaf ((c :: rest).takeWhile isTokenByte), (c :: rest).dropWhile isTokenByte) := by
  simp [decodeValue, h1, h2, h]

theorem decodeValue_string (f : Nat) (rest : List Nat) :
    decodeValue (f + 1) (34 :: rest) =
      (splitString rest).map (fun p => (.leaf ([34] ++ p.1 ++ [34]), p.2)) := by
  simp [decodeValue]

theorem decodable_token (t : List Nat) (hne : t ≠ []) (ht : ∀ c ∈ t, isTokenByte c = true) :
    Decodable t ∧ decodeText t = .leaf t := by
  apply decodable_of
  intro fuel rest hf hr
  obtain ⟨c, r, rfl⟩ := List.exists_cons_of_ne_nil hne
  obtain ⟨f, rfl⟩ : ∃ f, fuel = f + 1 := ⟨fuel - 1, by simp at hf; omega⟩
  obtain ⟨h1, h2⟩ := takeWhile_token (c :: r) rest ht hr
  obtain ⟨n1, n2⟩ := isTokenByte_ne c (ht c (by simp))
  rw [List.cons_append] at h1 h2 ⊢
  rw [decodeValue_token f c _ n1 n2 (ht c (by simp)), h1, h2]

theorem decodable_string (body : List Nat) (hb : contentOK body.length body = true) :
    Decodable ([34] ++ body ++ [34]) ∧
      decodeText ([34] ++ body ++ [34]) = .leaf ([34] ++ body ++ [34]) := by
  apply decodable_of
  intro fuel rest hf hr
  obtain ⟨f, rfl⟩ : ∃ f, fuel = f + 1 := ⟨fuel - 1, by simp at hf; omega⟩
  have he : [34] ++ body ++ [34] ++ rest = 34 :: (body ++ 34 :: rest) := by simp
  rw [he, decodeValue_string, splitString_content _ _ hb rest]
  simp

theorem appendUint_token (n : Nat) :
    appendUint [] n ≠ [] ∧ ∀ c ∈ appendUint [] n, isTokenByte c = true := by
  obtain ⟨hne, hdig, -⟩ := appendUint_decimal n
  refine ⟨hne, ?_⟩
  intro c hc
  obtain ⟨h1, h2⟩ := hdig c hc
  simp [isTokenByte, h1, h2]

theorem appendInt_token (n : Int) :
    appendInt [] n ≠ [] ∧ ∀ c ∈ appendInt [] n, isTokenByte c = true := by
  obtain ⟨hne, ht⟩ := appendUint_token n.natAbs
  unfold appendInt
  split
  · rw [appendUint_eq]
    refine ⟨by simp, ?_⟩
    intro c hc
    simp only [List.nil_append, List.singleton_append, List.mem_cons] at hc
    rcases hc with rfl | hc
    · decide
    · exact ht c hc
  · exact ⟨hne, ht⟩

theorem scalar_decodable (v : Value) (h : scalarOK v = true) :
    Decodable (scalarText v) ∧ decodeText (scalarText v) = .leaf (scalarText v) := by
  cases v with
  | bool b =>
    cases b
    · exact decodable_token _ (by decide) (by decide)
    · exact decodable_token _ (by decide) (by decide)
  | time t => exact decodable_string _ h
  | uint64 n => exact decodable_token _ (appendUint_token n).1 (appendUint_token n).2
  | int64 n => exact decodable_token _ (appendInt_token n).1 (appendInt_token n).2
  | string s =>
    have hs : AppendStringContent [] s = escapeFrom s.length s := by
      rw [AppendStringContent_eq, List.nil_append]
    simp only [scalarText]
    apply decodable_string
    rw [hs]
    exact escaped_content _ _ _ (Nat.le_refl _)
  | duration ns => exact decodable_token _ (appendInt_token ns).1 (appendInt_token ns).2
  | float64 r =>
    cases r with
    | ok text =>
      simp only [scalarOK, Bool.and_eq_true, Bool.not_eq_true', List.isEmpty_eq_false,
        List.all_eq_true] at h
      exact decodable_token _ h.1 h.2
    | err msg => simp [scalarOK] at h
  | any r => simp [scalarOK] at h
  | zero => simp [scalarOK] at h
  | preformatted b => simp [scalarOK] at h
  | group as => simp [scalarOK] at h
  | logValuer w => simp [scalarOK] at h

theorem scalarOK_isScalar (v : Value) (h : scalarOK v = true) : isScalar v = true := by
  cases v with
  | float64 r =>
    cases r with
    | ok text => rfl
    | err msg => simp [scalarOK] at h
  | _ => first | rfl | simp [scalarOK] at h

/-- The text of an object whose leaves are decodable is decodable, and it is decoded
into the members of the object. -/
theorem decodable_object (M : JMembers) (hl : ∀ x ∈ M.leaves, Decodable x) :
    Decodable (JTree.encode (.obj M)) ∧
      decodeText (JTree.encode (.obj M)) = .obj (JMembers.decoded M) := by
  apply decodable_of
  intro fuel rest hf hr
  exact decode_encode_tree (.obj M) (by simpa [JTree.leaves] using hl) fuel rest hf hr

/-! ## The decoded output of a sorted attribute list -/

theorem entries_filter_key (txt : Value → List Nat) (attrs : List Attr) (k : List Nat) :
    (entriesAt txt 0 (sortStableFunc isEarlierAttr attrs)).filter (fun e => e.1 == k) =
      (attrs.filter (fun a => a.Key == k)).map (fun a => (a.Key, txt a.Value)) := by
  rw [← sorted_attrs_filter attrs k]
  unfold entriesAt
  rw [List.filter_map]
  simp only [List.drop_zero]
  rfl

theorem mem_entriesAt (txt : Value → List Nat) (attrs : List Attr) (e : Entry)
    (he : e ∈ entriesAt txt 0 (sortStableFunc isEarlierAttr attrs)) :
    ∃ a ∈ attrs, e = (a.Key, txt a.Value) := by
  unfold entriesAt at he
  rw [List.mem_map] at he
  obtain ⟨a, ha, rfl⟩ := he
  exact ⟨a, (sortStableFunc_perm isEarlierAttr attrs).mem_iff.mp ha, by simp⟩

theorem entriesAt_mem (txt : Value → List Nat) (attrs : List Attr) (a : Attr) (ha : a ∈ attrs) :
    (a.Key, txt a.Value) ∈ entriesAt txt 0 (sortStableFunc isEarlierAttr attrs) := by
  unfold entriesAt
  rw [List.mem_map]
  exact ⟨a, (sortStableFunc_perm isEarlierAttr attrs).mem_iff.mpr ha, by simp⟩

theorem entriesOK_sorted (txt : Value → List Nat) (attrs : List Attr)
    (hvalid : ∀ a ∈ attrs, validKey a.Key) :
    EntriesOK (entriesAt txt 0 (sortStableFunc isEarlierAttr attrs)) := by
  refine ⟨?_, ?_⟩
  · unfold entriesAt
    rw [List.pairwise_map]
    simpa using sorted_attrs attrs
  · intro e he
    obtain ⟨a, ha, rfl⟩ := mem_entriesAt txt attrs e he
    exact hvalid a ha

theorem resolve_decoded (txt : Value → List Nat) (f0 : Nat) (attrs : List Attr)
    (hvalid : ∀ a ∈ attrs, validKey a.Key)
    (henc : ∀ a ∈ attrs, ∀ f, f0 ≤ f → ∀ out,
      appendJsonValue f out a.Value = .ok (out ++ txt a.Value))
    (hdec : ∀ a ∈ attrs, Decodable (txt a.Value)) :
    (∀ f, f0 + keyBound attrs < f →
      resolveGroupContent f [] false 0 (sortStableFunc isEarlierAttr attrs) =
        .ok (JMembers.encode false
          (tree (keyBound attrs) (entriesAt txt 0 (sortStableFunc isEarlierAttr attrs))))) ∧
    (∀ f, (JMembers.encode false
          (tree (keyBound attrs)
            (entriesAt txt 0 (sortStableFunc isEarlierAttr attrs)))).length + 2 ≤ f →
      decodeValue f ([123] ++ JMembers.encode false
          (tree (keyBound attrs) (entriesAt txt 0 (sortStableFunc isEarlierAttr attrs))) ++
          [125]) =
        some (.obj (JMembers.decoded
          (tree (keyBound attrs) (entriesAt txt 0 (sortStableFunc isEarlierAttr attrs)))),
          [])) := by
  refine ⟨?_, ?_⟩
  · intro f hf
    have := (resolve_sorted_spec txt f0 attrs hvalid henc).1 f [] false (by omega)
    simpa using this
  · intro f hf
    have hl : ∀ x ∈ (tree (keyBound attrs)
        (entriesAt txt 0 (sortStableFunc isEarlierAttr attrs))).leaves, Decodable x := by
      intro x hx
      obtain ⟨e, he, rfl⟩ := tree_leaves _ _ x hx
      obtain ⟨a, ha, rfl⟩ := mem_entriesAt txt attrs e he
      exact hdec a ha
    have := decode_encode_tree (.obj _) (by simpa [JTree.leaves] using hl) f []
      (by simp only [JTree.encode, List.length_append, List.length_cons, List.length_nil]
          omega) (by simp)
    simpa [JTree.encode, JTree.decoded] using this

theorem values_at_key (txt : Value → List Nat) (attrs : List Attr) (k : List Nat)
    (first : Attr) (others : List Attr) (slip : Prop) [Decidable slip]
    (hvalid : ∀ a ∈ attrs, validKey a.Key)
    (hutf : ∀ a ∈ attrs, validUTF8 a.Key = true)
    (hk : [] ∉ components k)
    (hnot : ∀ a ∈ attrs, ∀ u : List Nat, k ≠ a.Key ++ groupSeparator :: u)
    (hfl : attrs.filter (fun a => a.Key == k) = first :: others)
    (hslip : slip ↔ ((∃ a ∈ attrs, ∃ u, a.Key = k ++ groupSeparator :: u) ∧ others ≠ [])) :
    JTree.valuesAt
        (.obj (JMembers.decoded
          (tree (keyBound attrs) (entriesAt txt 0 (sortStableFunc isEarlierAttr attrs)))))
        (components k) =
      (if slip then [decodeText (txt first.Value)] else []) ++
        [decodeText (txt ((others.getLast?).getD first).Value)] := by
  have h := tree_valuesAt (keyBound attrs)
    (entriesAt txt 0 (sortStableFunc isEarlierAttr attrs)) k
    (first.Key, txt first.Value) (others.map (fun a => (a.Key, txt a.Value))) slip
    (entriesOK_sorted txt attrs hvalid)
    (by
      intro e he
      obtain ⟨a, ha, rfl⟩ := mem_entriesAt txt attrs e he
      exact lt_keyBound attrs a ha)
    (by
      intro e he
      obtain ⟨a, ha, rfl⟩ := mem_entriesAt txt attrs e he
      exact hutf a ha)
    hk
    (by
      intro e he u
      obtain ⟨a, ha, rfl⟩ := mem_entriesAt txt attrs e he
      exact hnot a ha u)
    (by rw [entries_filter_key, hfl]; rfl)
    (by
      rw [hslip]
      constructor
      · rintro ⟨⟨a, ha, u, hu⟩, ho⟩
        exact ⟨⟨_, entriesAt_mem txt attrs a ha, u, hu⟩, by simpa using ho⟩
      · rintro ⟨⟨e, he, u, hu⟩, ho⟩
        obtain ⟨a, ha, rfl⟩ := mem_entriesAt txt attrs e he
        exact ⟨⟨a, ha, u, hu⟩, by simpa using ho⟩)
  simp only [JTree.decoded] at h
  rw [h, List.getLast?_map]
  cases others.getLast? <;> rfl

mutual
theorem valuesAt_tree_append : ∀ (t : JTree) (p q : List (List Nat)),
    JTree.valuesAt t (p ++ q) = (JTree.valuesAt t p).flatMap (fun x => JTree.valuesAt x q)
  | t, [], q => by simp [JTree.valuesAt_nil]
  | .leaf _, _ :: _, q => by simp [JTree.valuesAt]
  | .obj ms, c :: p, q => by
    simp only [List.cons_append, JTree.valuesAt]
    exact valuesAt_members_append ms c p q
theorem valuesAt_members_append : ∀ (ms : JMembers) (c : List Nat) (p q : List (List Nat)),
    JMembers.valuesAt ms c (p ++ q) =
      (JMembers.valuesAt ms c p).flatMap (fun x => JTree.valuesAt x q)
  | .nil, _, _, _ => by simp [JMembers.valuesAt]
  | .cons name v rest, c, p, q => by
    simp only [JMembers.valuesAt, List.flatMap_append]
    rw [valuesAt_members_append rest c p q]
    by_cases h : name = c
    · simp only [if_pos h]
      rw [valuesAt_tree_append v p q]
    · simp [if_neg h]
end

theorem valuesAt_below (t x : JTree) (p q : List (List Nat)) (h : JTree.valuesAt t p = [x]) :
    JTree.valuesAt t (p ++ q) = JTree.valuesAt x q := by
  rw [valuesAt_tree_append, h]
  simp

/-! ## Grouping, deduplication and override in the decoded output -/

theorem ne_append_sep_of_length (k key : List Nat) (h : k.length ≤ key.length) :
    ∀ u : List Nat, k ≠ key ++ groupSeparator :: u := by
  intro u e
  have := congrArg List.length e
  simp at this
  omega

theorem valueText_of_scalar (v : Value) (h : isScalar v = true) :
    valueText v = scalarText v := by
  cases v with
  | group as => simp [isScalar] at h
  | preformatted b => simp [isScalar] at h
  | any r => simp [isScalar] at h
  | _ => rfl

theorem valueText_scalar_decodable (v : Value) (h : scalarOK v = true) :
    Decodable (valueText v) := by
  rw [valueText_of_scalar v (scalarOK_isScalar v h)]
  exact (scalar_decodable v h).1

theorem valueText_group_decodable (members : List Attr)
    (h : ∀ a ∈ members, scalarOK a.Value = true) :
    Decodable (valueText (.group members)) ∧
      decodeText (valueText (.group members)) =
        .obj (JMembers.decoded (tree (keyBound members) (entriesAt scalarText 0 members))) := by
  have hl : ∀ x ∈ (tree (keyBound members) (entriesAt scalarText 0 members)).leaves,
      Decodable x := by
    intro x hx
    obtain ⟨e, he, rfl⟩ := tree_leaves _ _ x hx
    unfold entriesAt at he
    rw [List.mem_map] at he
    obtain ⟨a, ha, rfl⟩ := he
    exact (scalar_decodable a.Value (h a ha)).1
  exact decodable_object _ hl

/-- C1 (amended): for attributes whose values are scalars with the text of a JSON
scalar and whose keys are valid UTF-8 and have no empty group name, the text
that `resolveGroupContent` writes at prefix length 0 for the stable-sorted
list, wrapped in braces, is decoded into an object in which, a repeated member
name being resolved to its last occurrence, the leaf at a path is exactly the
value of the surviving attribute with that dot path. -/
theorem grouping_correct (attrs : List Attr)
    (hscalar : ∀ a ∈ attrs, scalarOK a.Value = true)
    (hvalid : ∀ a ∈ attrs, validKey a.Key)
    (hutf : ∀ a ∈ attrs, validUTF8 a.Key = true) :
    ∃ (text : List Nat) (T : JTree),
      (∀ f, keyBound attrs < f →
        resolveGroupContent f [] false 0 (sortStableFunc isEarlierAttr attrs) = .ok text) ∧
      (∀ f, text.length + 2 ≤ f → decodeValue f ([123] ++ text ++ [125]) = some (T, [])) ∧
      (∀ path t, JTree.lookup T path = some t ↔ Survives scalarText attrs path t) := by
  have henc : ∀ a ∈ attrs, ∀ f, 0 ≤ f → ∀ out,
      appendJsonValue f out a.Value = .ok (out ++ scalarText a.Value) :=
    fun a ha f _ out => appendJsonValue_scalar a.Value (scalarOK_isScalar _ (hscalar a ha)) f out
  obtain ⟨h1, h2⟩ := resolve_decoded scalarText 0 attrs hvalid henc
    (fun a ha => (scalar_decodable a.Value (hscalar a ha)).1)
  have hself : JMembers.decoded
      (tree (keyBound attrs) (entriesAt scalarText 0 (sortStableFunc isEarlierAttr attrs))) =
      tree (keyBound attrs) (entriesAt scalarText 0 (sortStableFunc isEarlierAttr attrs)) := by
    apply decoded_members_eq_self
    · apply tree_names _ _ (entriesOK_sorted scalarText attrs hvalid)
      intro e he
      obtain ⟨a, ha, rfl⟩ := mem_entriesAt scalarText attrs e he
      exact hutf a ha
    · intro x hx
      obtain ⟨e, he, rfl⟩ := tree_leaves _ _ x hx
      obtain ⟨a, ha, rfl⟩ := mem_entriesAt scalarText attrs e he
      exact (scalar_decodable a.Value (hscalar a ha)).2
  rw [hself] at h2
  exact ⟨_, _, fun f hf => h1 f (by omega), h2,
    (resolve_sorted_spec scalarText 0 attrs hvalid henc).2⟩

/-- Witness of C1 on the attributes of the test `Overlap`. -/
theorem grouping_correct_witness :
    ∃ (text : List Nat) (T : JTree),
      (∀ f, keyBound [Attr.mk (ascii "event.action") (.string (ascii "test()")),
            Attr.mk (ascii "events.action") (.string (ascii "tests")),
            Attr.mk (ascii "event.dataset") (.string (ascii "test"))] < f →
        resolveGroupContent f [] false 0 (sortStableFunc isEarlierAttr
            [Attr.mk (ascii "event.action") (.string (ascii "test()")),
             Attr.mk (ascii "events.action") (.string (ascii "tests")),
             Attr.mk (ascii "event.dataset") (.string (ascii "test"))]) = .ok text) ∧
      (∀ f, text.length + 2 ≤ f → decodeValue f ([123] ++ text ++ [125]) = some (T, [])) ∧
      (∀ path t, JTree.lookup T path = some t ↔
        Survives scalarText
          [Attr.mk (ascii "event.action") (.string (ascii "test()")),
           Attr.mk (ascii "events.action") (.string (ascii "tests")),
           Attr.mk (ascii "event.dataset") (.string (ascii "test"))] path t) :=
  grouping_correct _ (by decide) (by decide) (by decide)

/-- C1 (counterexample): for the single attribute keyed `.x` the resolver writes
nothing, so the decoded output is the empty object and has no leaf at the dot
path `["", "x"]` of the key, which survives.  For the keys `0xFF` and `0xFE`,
which are not valid UTF-8, both members are read with the name U+FFFD, and the
decoded output has no leaf at the dot path of the surviving key `0xFF`. -/
theorem grouping_counterexample :
    (∀ f, resolveGroupContent (f + 1) [] false 0 (sortStableFunc isEarlierAttr
        [Attr.mk (ascii ".x") (.string (ascii "v"))]) = .ok []) ∧
    Survives scalarText [Attr.mk (ascii ".x") (.string (ascii "v"))] [[], ascii "x"]
      (ascii "\"v\"") ∧
    (∀ f, decodeValue (f + 1) ([123] ++ [] ++ [125]) = some (.obj .nil, [])) ∧
    JTree.lookup (.obj .nil) [[], ascii "x"] = none ∧
    (∀ f, resolveGroupContent (f + 1) [] false 0 (sortStableFunc isEarlierAttr
        [Attr.mk [255] (.int64 1), Attr.mk [254] (.int64 2)]) =
      .ok (ascii "\"\\ufffd\":1,\"\\ufffd\":2")) ∧
    Survives scalarText [Attr.mk [255] (.int64 1), Attr.mk [254] (.int64 2)] [[255]]
      (ascii "1") ∧
    (∀ f, decodeValue (f + 2) ([123] ++ ascii "\"\\ufffd\":1,\"\\ufffd\":2" ++ [125]) =
      some (.obj (.cons [239, 191, 189] (.leaf (ascii "1"))
        (.cons [239, 191, 189] (.leaf (ascii "2")) .nil)), [])) ∧
    JTree.lookup (.obj (.cons [239, 191, 189] (.leaf (ascii "1"))
        (.cons [239, 191, 189] (.leaf (ascii "2")) .nil))) [[255]] = none := by
  refine ⟨fun f => rfl, ⟨ascii ".x", by decide, by decide, ?_⟩, fun f => rfl, rfl,
    fun f => rfl, ⟨[255], by decide, by decide, ?_⟩, fun f => rfl, by decide⟩
  · intro a ha u h
    simp only [List.mem_singleton] at ha
    subst ha
    have := congrArg List.length h
    simp [Attr.Key] at this
  · intro a ha u h
    have := congrArg List.length h
    simp only [List.mem_cons, List.mem_singleton, List.not_mem_nil, or_false] at ha
    rcases ha with rfl | rfl <;> simp [Attr.Key] at this

/-- C2 (amended): when the keys are valid UTF-8 and have no empty group name, the values
are encoded as texts that are one JSON value each, no dot-component of the key
`k` is empty, no attribute is keyed by a proper dot-prefix of `k` and none is
keyed below `k`, the decoded output has exactly one value at the dot path of
`k`: the decoded value of the last attribute keyed `k`. -/
theorem last_wins (txt : Value → List Nat) (f0 : Nat) (attrs : List Attr) (k : List Nat)
    (last : Attr)
    (hvalid : ∀ a ∈ attrs, validKey a.Key)
    (hutf : ∀ a ∈ attrs, validUTF8 a.Key = true)
    (henc : ∀ a ∈ attrs, ∀ f, f0 ≤ f → ∀ out,
      appendJsonValue f out a.Value = .ok (out ++ txt a.Value))
    (hdec : ∀ a ∈ attrs, Decodable (txt a.Value))
    (hlast : (attrs.filter (fun a => a.Key == k)).getLast? = some last)
    (hk : [] ∉ components k)
    (hnot : ∀ a ∈ attrs, ∀ u : List Nat, k ≠ a.Key ++ groupSeparator :: u)
    (hnosub : ∀ a ∈ attrs, ∀ u : List Nat, a.Key ≠ k ++ groupSeparator :: u) :
    ∃ (text : List Nat) (T : JTree),
      (∀ f, f0 + keyBound attrs < f →
        resolveGroupContent f [] false 0 (sortStableFunc isEarlierAttr attrs) = .ok text) ∧
      (∀ f, text.length + 2 ≤ f → decodeValue f ([123] ++ text ++ [125]) = some (T, [])) ∧
      JTree.valuesAt T (components k) = [decodeText (txt last.Value)] := by
  obtain ⟨h1, h2⟩ := resolve_decoded txt f0 attrs hvalid henc hdec
  refine ⟨_, _, h1, h2, ?_⟩
  cases hfl : attrs.filter (fun a => a.Key == k) with
  | nil => rw [hfl] at hlast; cases hlast
  | cons first others =>
    rw [values_at_key txt attrs k first others False hvalid hutf hk hnot hfl
      (by
        constructor
        · intro h; exact absurd h (by simp)
        · rintro ⟨⟨a, ha, u, hu⟩, -⟩
          exact hnosub a ha u hu)]
    rw [hfl, List.getLast?_cons] at hlast
    simp only [Option.some.injEq] at hlast
    rw [hlast]
    simp

/-- Witness of C2 on the attributes of the test `Overwrite`. -/
theorem last_wins_witness :
    ∃ (text : List Nat) (T : JTree),
      (∀ f, 0 + keyBound [Attr.mk (ascii "log.syslog.hostname") (.string (ascii "slog")),
            Attr.mk (ascii "log.syslog.hostname") (.string (ascii "ecslog")),
            Attr.mk (ascii "log.syslog.priority") (.int64 1)] < f →
        resolveGroupContent f [] false 0 (sortStableFunc isEarlierAttr
            [Attr.mk (ascii "log.syslog.hostname") (.string (ascii "slog")),
             Attr.mk (ascii "log.syslog.hostname") (.string (ascii "ecslog")),
             Attr.mk (ascii "log.syslog.priority") (.int64 1)]) = .ok text) ∧
      (∀ f, text.length + 2 ≤ f → decodeValue f ([123] ++ text ++ [125]) = some (T, [])) ∧
      JTree.valuesAt T (components (ascii "log.syslog.hostname")) =
        [decodeText (scalarText
          (Attr.mk (ascii "log.syslog.hostname") (.string (ascii "ecslog"))).Value)] :=
  last_wins scalarText 0
    [Attr.mk (ascii "log.syslog.hostname") (.string (ascii "slog")),
     Attr.mk (ascii "log.syslog.hostname") (.string (ascii "ecslog")),
     Attr.mk (ascii "log.syslog.priority") (.int64 1)]
    (ascii "log.syslog.hostname")
    (Attr.mk (ascii "log.syslog.hostname") (.string (ascii "ecslog")))
    (by decide) (by decide)
    (fun a ha f _ out => appendJsonValue_scalar a.Value
      ((by decide : ∀ b ∈ [Attr.mk (ascii "log.syslog.hostname") (.string (ascii "slog")),
        Attr.mk (ascii "log.syslog.hostname") (.string (ascii "ecslog")),
        Attr.mk (ascii "log.syslog.priority") (.int64 1)], isScalar b.Value = true) a ha) f out)
    (fun a ha => (scalar_decodable a.Value
      ((by decide : ∀ b ∈ [Attr.mk (ascii "log.syslog.hostname") (.string (ascii "slog")),
        Attr.mk (ascii "log.syslog.hostname") (.string (ascii "ecslog")),
        Attr.mk (ascii "log.syslog.priority") (.int64 1)], scalarOK b.Value = true) a ha)).1)
    rfl (by decide)
    (fun a ha => ne_append_sep_of_length _ _
      ((by decide : ∀ b ∈ [Attr.mk (ascii "log.syslog.hostname") (.string (ascii "slog")),
        Attr.mk (ascii "log.syslog.hostname") (.string (ascii "ecslog")),
        Attr.mk (ascii "log.syslog.priority") (.int64 1)],
        (ascii "log.syslog.hostname").length ≤ b.Key.length) a ha))
    (fun a ha u h => ne_append_sep_of_length a.Key (ascii "log.syslog.hostname")
      ((by decide : ∀ b ∈ [Attr.mk (ascii "log.syslog.hostname") (.string (ascii "slog")),
        Attr.mk (ascii "log.syslog.hostname") (.string (ascii "ecslog")),
        Attr.mk (ascii "log.syslog.priority") (.int64 1)],
        b.Key.length ≤ (ascii "log.syslog.hostname").length) a ha) u h)

/-- C2 (counterexample): with attributes `log.x=1`, `log.x=2` and `log=3` the output is
the single member `"log":3`, and the decoded output has no value at the dot
path of `log.x`, not the value of the later attribute.  With the keys `0xFF`,
`0xFF` and `0xFE`, which are not valid UTF-8, the members are read with the
name U+FFFD, and the decoded output has no value at the dot path of `0xFF`. -/
theorem last_wins_counterexample :
    (∀ f, resolveGroupContent (f + 1) [] false 0 (sortStableFunc isEarlierAttr
        [Attr.mk (ascii "log.x") (.int64 1), Attr.mk (ascii "log.x") (.int64 2),
         Attr.mk (ascii "log") (.int64 3)]) = .ok (ascii "\"log\":3")) ∧
    (∀ f, decodeValue (f + 2) ([123] ++ ascii "\"log\":3" ++ [125]) =
      some (.obj (.cons (ascii "log") (.leaf (ascii "3")) .nil), [])) ∧
    JTree.valuesAt (.obj (.cons (ascii "log") (.leaf (ascii "3")) .nil))
      (components (ascii "log.x")) = [] ∧
    (∀ f, resolveGroupContent (f + 1) [] false 0 (sortStableFunc isEarlierAttr
        [Attr.mk [255] (.int64 1), Attr.mk [255] (.int64 2), Attr.mk [254] (.int64 3)]) =
      .ok (ascii "\"\\ufffd\":2,\"\\ufffd\":3")) ∧
    (∀ f, decodeValue (f + 2) ([123] ++ ascii "\"\\ufffd\":2,\"\\ufffd\":3" ++ [125]) =
      some (.obj (.cons [239, 191, 189] (.leaf (ascii "2"))
        (.cons [239, 191, 189] (.leaf (ascii "3")) .nil)), [])) ∧
    JTree.valuesAt (.obj (.cons [239, 191, 189] (.leaf (ascii "2"))
        (.cons [239, 191, 189] (.leaf (ascii "3")) .nil))) (components [255]) = [] :=
  ⟨fun _ => rfl, fun _ => rfl, rfl, fun _ => rfl, fun _ => rfl, rfl⟩

/-- C4 (amended): when the keys are valid UTF-8 and have no empty group name, the values
are encoded as texts that are one JSON value each, exactly one attribute is
keyed `g`, no dot-component of `g` is empty and no attribute is keyed by a
proper dot-prefix of `g`, the decoded output has exactly one value at the dot
path of `g`, the decoded value of that attribute, and what it has at a path
below `g` is what that value has there: nothing is written for the attributes
keyed below `g`. -/
theorem override_rule (txt : Value → List Nat) (f0 : Nat) (attrs : List Attr) (g : List Nat)
    (flat : Attr)
    (hvalid : ∀ a ∈ attrs, validKey a.Key)
    (hutf : ∀ a ∈ attrs, validUTF8 a.Key = true)
    (henc : ∀ a ∈ attrs, ∀ f, f0 ≤ f → ∀ out,
      appendJsonValue f out a.Value = .ok (out ++ txt a.Value))
    (hdec : ∀ a ∈ attrs, Decodable (txt a.Value))
    (hflat : attrs.filter (fun a => a.Key == g) = [flat])
    (hk : [] ∉ components g)
    (hnot : ∀ a ∈ attrs, ∀ u : List Nat, g ≠ a.Key ++ groupSeparator :: u) :
    ∃ (text : List Nat) (T : JTree),
      (∀ f, f0 + keyBound attrs < f →
        resolveGroupContent f [] false 0 (sortStableFunc isEarlierAttr attrs) = .ok text) ∧
      (∀ f, text.length + 2 ≤ f → decodeValue f ([123] ++ text ++ [125]) = some (T, [])) ∧
      JTree.valuesAt T (components g) = [decodeText (txt flat.Value)] ∧
      (∀ path, JTree.valuesAt T (components g ++ path) =
        JTree.valuesAt (decodeText (txt flat.Value)) path) := by
  obtain ⟨h1, h2⟩ := resolve_decoded txt f0 attrs hvalid henc hdec
  have h3 := values_at_key txt attrs g flat [] False hvalid hutf hk hnot hflat
    (by
      constructor
      · intro h; exact absurd h (by simp)
      · rintro ⟨-, h⟩
        exact absurd rfl h)
  simp only [if_false, List.nil_append, List.getLast?_nil, Option.getD_none] at h3
  exact ⟨_, _, h1, h2, h3, fun path => valuesAt_below _ _ _ path h3⟩

/-- Witness of C4 on the attributes of the test `MergingGroup`, the group passed as a
group value. -/
theorem override_rule_witness :
    ∃ (text : List Nat) (T : JTree),
      (∀ f, 9 + keyBound [Attr.mk (ascii "event")
              (.group [Attr.mk (ascii "dataset") (.string (ascii "tests"))]),
            Attr.mk (ascii "event.action") (.string (ascii "test()"))] < f →
        resolveGroupContent f [] false 0 (sortStableFunc isEarlierAttr
            [Attr.mk (ascii "event")
              (.group [Attr.mk (ascii "dataset") (.string (ascii "tests"))]),
             Attr.mk (ascii "event.action") (.string (ascii "test()"))]) = .ok text) ∧
      (∀ f, text.length + 2 ≤ f → decodeValue f ([123] ++ text ++ [125]) = some (T, [])) ∧
      JTree.valuesAt T (components (ascii "event")) =
        [decodeText (valueText (Attr.mk (ascii "event")
          (.group [Attr.mk (ascii "dataset") (.string (ascii "tests"))])).Value)] ∧
      (∀ path, JTree.valuesAt T (components (ascii "event") ++ path) =
        JTree.valuesAt (decodeText (valueText (Attr.mk (ascii "event")
          (.group [Attr.mk (ascii "dataset") (.string (ascii "tests"))])).Value)) path) :=
  override_rule valueText 9
    [Attr.mk (ascii "event") (.group [Attr.mk (ascii "dataset") (.string (ascii "tests"))]),
     Attr.mk (ascii "event.action") (.string (ascii "test()"))]
    (ascii "event")
    (Attr.mk (ascii "event") (.group [Attr.mk (ascii "dataset") (.string (ascii "tests"))]))
    (by decide) (by decide)
    (by
      intro a ha f hf out
      simp only [List.mem_cons, List.mem_singleton, List.not_mem_nil, or_false] at ha
      rcases ha with rfl | rfl
      · exact appendJsonValue_group _ rfl (by decide) (by decide) f
          (by have : keyBound [Attr.mk (ascii "dataset") (.string (ascii "tests"))] = 8 := rfl
              omega) out
      · exact appendJsonValue_scalar (.string (ascii "test()")) rfl f out)
    (by
      intro a ha
      simp only [List.mem_cons, List.mem_singleton, List.not_mem_nil, or_false] at ha
      rcases ha with rfl | rfl
      · exact (valueText_group_decodable _ (by decide)).1
      · exact valueText_scalar_decodable _ rfl)
    rfl (by decide)
    (fun a ha => ne_append_sep_of_length _ _
      ((by decide : ∀ b ∈ [Attr.mk (ascii "event")
          (.group [Attr.mk (ascii "dataset") (.string (ascii "tests"))]),
        Attr.mk (ascii "event.action") (.string (ascii "test()"))],
        (ascii "event").length ≤ b.Key.length) a ha))

/-- C4 (counterexample): with attributes `a.b.c`, `a.b` and `a`, the name `a.b` has a
dotted attribute and a flat attribute, but the output is the single member
`"a":3` and the decoded output has no value at the dot path of `a.b`.  With
the keys `0xFF.x` and `0xFF`, which are not valid UTF-8, the member is read
with the name U+FFFD, and the decoded output has no value at the dot path of
`0xFF`. -/
theorem override_counterexample :
    (∀ f, resolveGroupContent (f + 1) [] false 0 (sortStableFunc isEarlierAttr
        [Attr.mk (ascii "a.b.c") (.int64 1), Attr.mk (ascii "a.b") (.int64 2),
         Attr.mk (ascii "a") (.int64 3)]) = .ok (ascii "\"a\":3")) ∧
    (∀ f, decodeValue (f + 2) ([123] ++ ascii "\"a\":3" ++ [125]) =
      some (.obj (.cons (ascii "a") (.leaf (ascii "3")) .nil), [])) ∧
    JTree.valuesAt (.obj (.cons (ascii "a") (.leaf (ascii "3")) .nil))
      (components (ascii "a.b")) = [] ∧
    (∀ f, resolveGroupContent (f + 1) [] false 0 (sortStableFunc isEarlierAttr
        [Attr.mk [255, 46, 120] (.int64 1), Attr.mk [255] (.int64 2)]) =
      .ok (ascii "\"\\ufffd\":2")) ∧
    (∀ f, decodeValue (f + 2) ([123] ++ ascii "\"\\ufffd\":2" ++ [125]) =
      some (.obj (.cons [239, 191, 189] (.leaf (ascii "2")) .nil), [])) ∧
    JTree.valuesAt (.obj (.cons [239, 191, 189] (.leaf (ascii "2")) .nil))
      (components [255]) = [] :=
  ⟨fun _ => rfl, fun _ => rfl, rfl, fun _ => rfl, fun _ => rfl, rfl⟩

/-- Two attributes with the empty key are both written when no group is open: the
empty key equals the empty `currentGroup`, so each of them takes the branch of
the override, which does not look at the next attribute; behind an open group
only the last one is written. -/
theorem resolveGroupContent_empty_key_twice :
    (∀ f, resolveGroupContent (f + 1) [] false 0 (sortStableFunc isEarlierAttr
        [Attr.mk [] (.int64 1), Attr.mk [] (.int64 2)]) = .ok (ascii "\"\":1,\"\":2")) ∧
    (∀ f, resolveGroupContent (f + 2) [] false 0 (sortStableFunc isEarlierAttr
        [Attr.mk [] (.int64 1), Attr.mk [] (.int64 2), Attr.mk (ascii "a.b") (.int64 3)]) =
      .ok (ascii "\"\":2,\"a\":\x7b\"b\":3\x7d")) :=
  ⟨fun _ => rfl, fun _ => rfl⟩

/-- The zero attribute inside the group `a` of a record is not dropped: `Handle` tests
the attributes of the record only, and the member `"":null` is written. -/
theorem handle_nested_zero_attr :
    Handler.Handle 3 []
        (NewHandler { hideTimestamp := true, addSource := false, levelF := fun _ _ => true })
        { time := { isZero := true, rfc3339Nano := [] }, message := [], level := 0,
          source := none,
          attrs := [Attr.mk (ascii "a") (.group [Attr.mk [] .zero])] } =
      .ok (ascii "\x7b\"a\":\x7b\"\":null\x7d,\"log\":\x7b\"level\":\"INFO\"\x7d\x7d\n") :=
  rfl

end Ecslog
